import Mathlib

/-!
# bst::impl::treap (src/src/bst.h): a shallow embedding

The C++ engine is a pointer graph: every `node` has `left`, `right` and `par`
pointers, and one `header` node, a member of the container, stands for `end()`
and caches the root (`header.par`), the minimum (`header.left`) and the maximum
(`header.right`).

Embedding.
* A pointer is an `Option Nat`: `none` is `nullptr`, `some a` is the address `a`.
* The memory is a map from addresses to nodes; an address without a live node
  reads as `none`.  The header lives at address `hdr = 0`.
* Every function that dereferences a pointer returns an `Option`; `none` means a
  null or dangling dereference, or that the loop budget (`fuel`) ran out.
* `Key` is `int` (here `Int`: keys are only compared), the mapped value is an
  `Int` (for `bst::set` it is never read), `Compare` is a parameter `cmp`.
* The priority drawn by `treap::generator()` is an argument of `insert`; it is
  stored as a `std::uint32_t`, i.e. modulo `2^32`.
* `std::allocator_traits::allocate` is modelled by a bump allocator (`brk`),
  `deallocate` removes the node from the memory.
* `assert` lines are not part of the embedded behaviour.
-/

namespace bst

/-- The constant `UINT32_MAX` of `<climits>`. -/
def UINT32_MAX : Nat := 4294967295

/-- The type `struct node` (bst.h 381-406): the record (key and mapped value), the three
links and the priority. -/
structure node where
  key : Int
  val : Int
  left : Option Nat
  right : Option Nat
  par : Option Nat
  pri : Nat
deriving DecidableEq

/-- The memory: the live node at each address. -/
abbrev Mem := Nat → Option node

/-- Address of the `header` member (`&header`), which is `end()`. -/
def hdr : Nat := 0

/-- The data members of `class treap` (bst.h 715-717): `size_`, the memory holding `header` and the
allocated nodes, and the allocator state. -/
structure treap where
  mem : Mem
  size_ : Nat
  brk : Nat

/-- The comparison `std::less<int>`, the default `Compare`. -/
def lt (a b : Int) : Bool := decide (a < b)

/-- Store a whole node at an address. -/
def Mem.set (m : Mem) (a : Nat) (n : node) : Mem := fun b => if b = a then some n else m b

/-- Remove the node at an address (`deallocate`). -/
def Mem.free (m : Mem) (a : Nat) : Mem := fun b => if b = a then none else m b

/-- The assignment `a->left = p`. -/
def setLeft (m : Mem) (a : Nat) (p : Option Nat) : Option Mem :=
  match m a with
  | none => none
  | some n => some (m.set a { n with left := p })

/-- The assignment `a->right = p`. -/
def setRight (m : Mem) (a : Nat) (p : Option Nat) : Option Mem :=
  match m a with
  | none => none
  | some n => some (m.set a { n with right := p })

/-- The assignment `a->par = p`. -/
def setPar (m : Mem) (a : Nat) (p : Option Nat) : Option Mem :=
  match m a with
  | none => none
  | some n => some (m.set a { n with par := p })

/-- The constructor `treap()` (bst.h 78-83): the header has a value-initialised
record, `pri = UINT32_MAX`, `left = right = &header` and a null `par`. -/
def treap.new : treap :=
  { mem := fun a => if a = hdr then some ⟨0, 0, some hdr, some hdr, none, UINT32_MAX⟩ else none
    size_ := 0
    brk := 1 }

/-- The accessor `root()` (bst.h 409-415): the pointer `header.par`. -/
def root (s : treap) : Option (Option Nat) :=
  match s.mem hdr with
  | none => none
  | some h => some h.par

/-- The iterator `begin()` (bst.h 197-199): `header.left`. -/
def begin_ (s : treap) : Option Nat :=
  match s.mem hdr with
  | none => none
  | some h => h.left

/-- The iterator `end()` (bst.h 205-207): `&header`. -/
def end_ : Nat := hdr

/-- The counter `size()` (bst.h 213-215). -/
def size (s : treap) : Nat := s.size_

/-- The test `empty()` (bst.h 218-220): `begin() == end()`. -/
def empty (s : treap) : Option Bool :=
  match s.mem hdr with
  | none => none
  | some h => some (decide (h.left = some hdr))

/-- The loop of `operator++` (bst.h 297-299):
`while (node->par->right == node) node = node->par;`. -/
def inc_up (m : Mem) : Nat → Nat → Option Nat
  | 0, _ => none
  | fuel + 1, n =>
    match m n with
    | none => none
    | some nd =>
      match nd.par with
      | none => none
      | some p =>
        match m p with
        | none => none
        | some pn => if pn.right = some n then inc_up m fuel p else some n

/-- The loop of `operator++` (bst.h 311-313):
`while (node->left != nullptr) node = node->left;`. -/
def inc_down (m : Mem) : Nat → Nat → Option Nat
  | 0, _ => none
  | fuel + 1, n =>
    match m n with
    | none => none
    | some nd =>
      match nd.left with
      | none => some n
      | some l => inc_down m fuel l

/-- Pre-increment `operator++` (bst.h 294-315) on the iterator at node `n`.  A
null result of `node = node->par` is reported as `none`. -/
def inc (m : Mem) (fuel : Nat) (n : Nat) : Option Nat :=
  match m n with
  | none => none
  | some nd =>
    match nd.right with
    | none =>
      match inc_up m fuel n with
      | none => none
      | some n1 =>
        match m n1 with
        | none => none
        | some n1d => if n1d.par = n1d.right then some n1 else n1d.par
    | some r => inc_down m fuel r

/-- The loop of `operator--` (bst.h 341-343):
`while (node->par->left == node) node = node->par;`. -/
def dec_up (m : Mem) : Nat → Nat → Option Nat
  | 0, _ => none
  | fuel + 1, n =>
    match m n with
    | none => none
    | some nd =>
      match nd.par with
      | none => none
      | some p =>
        match m p with
        | none => none
        | some pn => if pn.left = some n then dec_up m fuel p else some n

/-- The loop of `operator--` (bst.h 356-358):
`while (node->right != nullptr) node = node->right;`. -/
def dec_down (m : Mem) : Nat → Nat → Option Nat
  | 0, _ => none
  | fuel + 1, n =>
    match m n with
    | none => none
    | some nd =>
      match nd.right with
      | none => some n
      | some r => dec_down m fuel r

/-- Pre-decrement `operator--` (bst.h 338-360) on the iterator at node `n`.  A
null result is reported as `none`. -/
def dec (m : Mem) (fuel : Nat) (n : Nat) : Option Nat :=
  match m n with
  | none => none
  | some nd =>
    match nd.left with
    | none =>
      match dec_up m fuel n with
      | none => none
      | some n1 =>
        match m n1 with
        | none => none
        | some n1d => n1d.par
    | some l =>
      match m l with
      | none => none
      | some ld => if ld.par ≠ some n then nd.right else dec_down m fuel l

/-- The loop of `lower_bound` (bst.h 116-128); `rt` is `rt.node`, `res` the
recorded candidate. -/
def lower_bound_loop (cmp : Int → Int → Bool) (m : Mem) (key : Int) :
    Nat → Option Nat → Nat → Option Nat
  | 0, _, _ => none
  | _ + 1, none, res => some res
  | fuel + 1, some n, res =>
    match m n with
    | none => none
    | some nd =>
      if !cmp nd.key key then lower_bound_loop cmp m key fuel nd.left n
      else lower_bound_loop cmp m key fuel nd.right res

/-- The query `lower_bound(key)` (bst.h 110-130). -/
def lower_bound (cmp : Int → Int → Bool) (fuel : Nat) (s : treap) (key : Int) : Option Nat :=
  match root s with
  | none => none
  | some rt => lower_bound_loop cmp s.mem key fuel rt end_

/-- The loop of `upper_bound` (bst.h 136-145). -/
def upper_bound_loop (cmp : Int → Int → Bool) (m : Mem) (key : Int) :
    Nat → Option Nat → Nat → Option Nat
  | 0, _, _ => none
  | _ + 1, none, res => some res
  | fuel + 1, some n, res =>
    match m n with
    | none => none
    | some nd =>
      if cmp key nd.key then upper_bound_loop cmp m key fuel nd.left n
      else upper_bound_loop cmp m key fuel nd.right res

/-- The query `upper_bound(key)` (bst.h 133-147). -/
def upper_bound (cmp : Int → Int → Bool) (fuel : Nat) (s : treap) (key : Int) : Option Nat :=
  match root s with
  | none => none
  | some rt => upper_bound_loop cmp s.mem key fuel rt end_

/-- The query `find(key)` (bst.h 97-100):
`lb != end() && lb.node->key() == key ? lb : end()`. -/
def find (cmp : Int → Int → Bool) (fuel : Nat) (s : treap) (key : Int) : Option Nat :=
  match lower_bound cmp fuel s key with
  | none => none
  | some lb =>
    if lb ≠ end_ then
      match s.mem lb with
      | none => none
      | some n => if n.key = key then some lb else some end_
    else some end_

/-- The allocation `create_node(value, nullptr)` (bst.h 697-702) with the node
constructor (bst.h 384-389): a fresh address, the record, null links, the drawn
priority as a `uint32_t`, and `size_++`. -/
def create_node (s : treap) (key val : Int) (pri : Nat) : treap × Nat :=
  ({ mem := s.mem.set s.brk ⟨key, val, none, none, none, pri % 4294967296⟩
     size_ := s.size_ + 1
     brk := s.brk + 1 }, s.brk)

/-- The "special root handling" that opens both rotations (bst.h 485-492 and
510-517): the slot of `par->par` that holds `par` is made to hold `child`. -/
def rotate_relink (m : Mem) (par child : Nat) : Option Mem :=
  match m par with
  | none => none
  | some pn =>
    match pn.par with
    | none => none
    | some g =>
      match m g with
      | none => none
      | some gn =>
        if gn.par = some par then setPar m g (some child)
        else if gn.left = some par then setLeft m g (some child)
        else setRight m g (some child)

/-- The rotation `rotate_right(par, child)` (bst.h 479-502).  The right-hand sides of
the tuple assignment are read before any field is written. -/
def rotate_right (m : Mem) (par child : Nat) : Option Mem :=
  match rotate_relink m par child with
  | none => none
  | some m1 =>
    match m1 child, m1 par with
    | some cn, some pn =>
      match cn.right with
      | none =>
        (setPar m1 child pn.par).bind fun m2 =>
        (setRight m2 child (some par)).bind fun m3 =>
        (setPar m3 par (some child)).bind fun m4 =>
        setLeft m4 par cn.right
      | some cr =>
        (setPar m1 child pn.par).bind fun m2 =>
        (setRight m2 child (some par)).bind fun m3 =>
        (setPar m3 cr (some par)).bind fun m4 =>
        (setPar m4 par (some child)).bind fun m5 =>
        setLeft m5 par cn.right
    | _, _ => none

/-- The rotation `rotate_left(par, child)` (bst.h 504-526). -/
def rotate_left (m : Mem) (par child : Nat) : Option Mem :=
  match rotate_relink m par child with
  | none => none
  | some m1 =>
    match m1 child, m1 par with
    | some cn, some pn =>
      match cn.left with
      | none =>
        (setPar m1 par (some child)).bind fun m2 =>
        (setRight m2 par cn.left).bind fun m3 =>
        (setPar m3 child pn.par).bind fun m4 =>
        setLeft m4 child (some par)
      | some cl =>
        (setPar m1 par (some child)).bind fun m2 =>
        (setRight m2 par cn.left).bind fun m3 =>
        (setPar m3 child pn.par).bind fun m4 =>
        (setLeft m4 child (some par)).bind fun m5 =>
        setPar m5 cl (some par)
    | _, _ => none

/-- The rebalancing loop of `insert_` (bst.h 570-579):
`while (par.node->pri < it.node->pri) { rotate; par.node = it.node->par; }`. -/
def rotate_loop (m : Mem) : Nat → Nat → Nat → Option Mem
  | 0, _, _ => none
  | fuel + 1, par, it =>
    match m par, m it with
    | some pn, some itn =>
      if pn.pri < itn.pri then
        match (if pn.left = some it then rotate_right m par it else rotate_left m par it) with
        | none => none
        | some m1 =>
          match m1 it with
          | none => none
          | some itn1 =>
            match itn1.par with
            | none => none
            | some par1 => rotate_loop m1 fuel par1 it
      else some m
    | _, _ => none

/-- The graft of `insert_` (bst.h 549-566): the new node `it` becomes the left child
of `pos` when `pos` has no left child, otherwise the right child of `std::prev(pos)`;
the result is the memory and the chosen parent. -/
def graft (m : Mem) (fuel : Nat) (pos it : Nat) : Option (Mem × Nat) :=
  match m pos with
  | none => none
  | some pn =>
    match (match pn.left with
      | none => (setLeft m pos (some it)).map fun m1 => (m1, pos)
      | some _ =>
        match dec m fuel pos with
        | none => none
        | some par => (setRight m par (some it)).map fun m1 => (m1, par)) with
    | none => none
    | some (m1, par) => (setPar m1 it (some par)).map fun m2 => (m2, par)

/-- The update of `begin()` and `rightmost()` that closes `insert_` (bst.h 583-588). -/
def update_ends (cmp : Int → Int → Bool) (m : Mem) (it : Nat) : Option Mem :=
  match m hdr, m it with
  | some h, some itn =>
    match h.left with
    | none => none
    | some b =>
      match m b with
      | none => none
      | some bn =>
        match (if cmp itn.key bn.key then setLeft m hdr (some it) else some m) with
        | none => none
        | some m1 =>
          match m1 hdr, m1 it with
          | some h1, some itn1 =>
            match h1.right with
            | none => none
            | some r =>
              match m1 r with
              | none => none
              | some rn => if cmp rn.key itn1.key then setRight m1 hdr (some it) else some m1
          | _, _ => none
  | _, _ => none

/-- The worker `insert_(pos, value)` (bst.h 531-591). -/
def insert_ (cmp : Int → Int → Bool) (fuel : Nat) (s : treap) (pos : Nat) (key val : Int)
    (pri : Nat) : Option (treap × Nat) :=
  let s1 := (create_node s key val pri).1
  let it := (create_node s key val pri).2
  match empty s1 with
  | none => none
  | some true =>
    (setPar s1.mem it (some hdr)).bind fun m1 =>
    (setLeft m1 hdr (some it)).bind fun m2 =>
    (setRight m2 hdr (some it)).bind fun m3 =>
    (setPar m3 hdr (some it)).bind fun m4 =>
    some ({ s1 with mem := m4 }, it)
  | some false =>
    match graft s1.mem fuel pos it with
    | none => none
    | some (m2, par) =>
      match rotate_loop m2 fuel par it with
      | none => none
      | some m3 => (update_ends cmp m3 it).map fun m4 => ({ s1 with mem := m4 }, it)

/-- The operation `insert(value)` (bst.h 152-160): the iterator and the flag. -/
def insert (cmp : Int → Int → Bool) (fuel : Nat) (s : treap) (key val : Int) (pri : Nat) :
    Option (treap × Nat × Bool) :=
  match lower_bound cmp fuel s key with
  | none => none
  | some it =>
    match (if it ≠ end_ then (s.mem it).map fun n => decide (n.key = key) else some false) with
    | none => none
    | some true => some (s, it, false)
    | some false => (insert_ cmp fuel s it key val pri).map fun r => (r.1, r.2, true)

/-- What a `node *&dst` parameter refers to: a child field of a node, or the
caller's iterator variable `pos.node`. -/
inductive Ref where
  | leftOf (a : Nat)
  | rightOf (a : Nat)
  | loc
deriving DecidableEq

/-- Read through a `node *&`; `lv` is the value of the caller's variable. -/
def Ref.get (m : Mem) (lv : Option Nat) : Ref → Option (Option Nat)
  | .leftOf a => (m a).map fun n => n.left
  | .rightOf a => (m a).map fun n => n.right
  | .loc => some lv

/-- Write through a `node *&`. -/
def Ref.put (m : Mem) (lv : Option Nat) (v : Option Nat) : Ref → Option (Mem × Option Nat)
  | .leftOf a => (setLeft m a v).map fun m1 => (m1, lv)
  | .rightOf a => (setRight m a v).map fun m1 => (m1, lv)
  | .loc => some (m, v)

/-- The helper `assign_and_keep(dst, src, par)` (bst.h 614-665); the result is the
memory and the value of the caller's variable. -/
def assign_and_keep (m : Mem) (lv : Option Nat) (dst : Ref) (src : Option Nat) (par : Nat) :
    Option (Mem × Option Nat) :=
  match dst.get m lv with
  | none => none
  | some none =>
    match dst.put m lv src with
    | none => none
    | some (m1, lv1) =>
      match dst.get m1 lv1 with
      | none => none
      | some none => some (m1, lv1)
      | some (some d) => (setPar m1 d (some par)).map fun m2 => (m2, lv1)
  | some (some d0) =>
    if par = hdr then
      match dst.put m lv src with
      | none => none
      | some (m1, lv1) =>
        match dst.get m1 lv1 with
        | none => none
        | some d1 =>
          match (match d1 with
            | none => some m1
            | some d => setPar m1 d (some hdr)) with
          | none => none
          | some m2 =>
            match dst.get m2 lv1 with
            | none => none
            | some d2 => (setPar m2 hdr d2).map fun m3 => (m3, lv1)
    else
      match m par with
      | none => none
      | some pn =>
        let is_left_child := decide (pn.left = some d0)
        match dst.put m lv src with
        | none => none
        | some (m1, lv1) =>
          match dst.get m1 lv1 with
          | none => none
          | some d1 =>
            match (if is_left_child then setLeft m1 par d1 else setRight m1 par d1) with
            | none => none
            | some m2 =>
              match dst.get m2 lv1 with
              | none => none
              | some none => some (m2, lv1)
              | some (some d) => (setPar m2 d (some par)).map fun m3 => (m3, lv1)

/-- The recursion `merge(lhs, rhs)` (bst.h 445-466): the memory and the root of the
merged subtree. -/
def merge (m : Mem) : Nat → Option Nat → Option Nat → Option (Mem × Option Nat)
  | 0, _, _ => none
  | _ + 1, none, rhs => some (m, rhs)
  | _ + 1, some l, none => some (m, some l)
  | fuel + 1, some l, some r =>
    match m l, m r with
    | some ln, some rn =>
      if ln.pri < rn.pri then
        match merge m fuel (some l) rn.left with
        | none => none
        | some (m1, src) =>
          (assign_and_keep m1 none (.leftOf r) src r).map fun q => (q.1, some r)
      else
        match merge m fuel ln.right (some r) with
        | none => none
        | some (m1, src) =>
          (assign_and_keep m1 none (.rightOf l) src l).map fun q => (q.1, some l)
    | _, _ => none

/-- The recursion `destroy_node(node)` (bst.h 704-713): `size_--`, the two subtrees,
then `deallocate`. -/
def destroy_node (s : treap) : Nat → Nat → Option treap
  | 0, _ => none
  | fuel + 1, n =>
    let s1 : treap := { s with size_ := s.size_ - 1 }
    match s1.mem n with
    | none => none
    | some nd =>
      match (match nd.left with
        | none => some s1
        | some l => destroy_node s1 fuel l) with
      | none => none
      | some s2 =>
        match s2.mem n with
        | none => none
        | some nd2 =>
          match (match nd2.right with
            | none => some s2
            | some r => destroy_node s2 fuel r) with
          | none => none
          | some s3 => some { s3 with mem := s3.mem.free n }

/-- The helper `assign_and_destroy(dst, src, par)` (bst.h 670-690), called with
`dst` bound to the caller's `pos.node`. -/
def assign_and_destroy (fuel : Nat) (s : treap) (dst : Nat) (src : Option Nat) (par : Nat) :
    Option treap :=
  match assign_and_keep s.mem (some dst) .loc src par with
  | none => none
  | some (m1, _) =>
    match (setLeft m1 dst none).bind fun m2 => setRight m2 dst none with
    | none => none
    | some m3 =>
      match destroy_node { s with mem := m3 } fuel dst with
      | none => none
      | some s4 =>
        if size s4 = 0 then
          (setLeft s4.mem hdr (some hdr)).bind fun m5 =>
          (setRight m5 hdr (some hdr)).bind fun m6 =>
          (setPar m6 hdr none).map fun m7 => { s4 with mem := m7 }
        else some s4

/-- The update of `begin()` and `rightmost()` in `erase_` (bst.h 600-604); `b` is
`begin().node`. -/
def erase_ends (m : Mem) (fuel : Nat) (pos next_it b : Nat) : Option Mem :=
  if pos = b then setLeft m hdr (some next_it)
  else if next_it = end_ then
    match dec m fuel pos with
    | none => none
    | some p => setRight m hdr (some p)
  else some m

/-- The worker `erase_(pos)` (bst.h 594-609): the state and the iterator `next_it`.
The argument `pos.node->par` of `assign_and_destroy` is read after `merge` returns. -/
def erase_ (fuel : Nat) (s : treap) (pos : Nat) : Option (treap × Nat) :=
  match inc s.mem fuel pos, begin_ s with
  | some next_it, some b =>
    match erase_ends s.mem fuel pos next_it b with
    | none => none
    | some m1 =>
      match m1 pos with
      | none => none
      | some pn =>
        match merge m1 fuel pn.left pn.right with
        | none => none
        | some (m2, src) =>
          match m2 pos with
          | none => none
          | some pn2 =>
            match pn2.par with
            | none => none
            | some par =>
              (assign_and_destroy fuel { s with mem := m2 } pos src par).map fun s3 =>
                (s3, next_it)
  | _, _ => none

/-- The operation `erase(iterator pos)` (bst.h 182-184). -/
def erase_it (fuel : Nat) (s : treap) (pos : Nat) : Option (treap × Nat) :=
  erase_ fuel s pos

/-- The operation `erase(const Key &key)` (bst.h 188-195): the state and the count. -/
def erase (cmp : Int → Int → Bool) (fuel : Nat) (s : treap) (key : Int) : Option (treap × Nat) :=
  match find cmp fuel s key with
  | none => none
  | some it =>
    if it = end_ then some (s, 0)
    else (erase_ fuel s it).map fun r => (r.1, 1)

/-- Walk from the iterator `it` with `++` until `end()` (at most `n` positions), listing
for every position visited the node address, its key and its mapped value; this is
the loop `for (it = begin(); it != end(); ++it)` of the tests. -/
def walk (m : Mem) (fuel : Nat) : Nat → Nat → Option (List (Nat × Int × Int))
  | 0, _ => none
  | n + 1, it =>
    if it = end_ then some []
    else
      match m it, inc m fuel it with
      | some nd, some nx => (walk m fuel n nx).map fun rest => (it, nd.key, nd.val) :: rest
      | _, _ => none

/-- The positions met from `begin()` to `end()`. -/
def contents (fuel : Nat) (s : treap) : Option (List (Nat × Int × Int)) :=
  match begin_ s with
  | none => none
  | some b => walk s.mem fuel fuel b

/-- The keys met from `begin()` to `end()`. -/
def keys_in_order (fuel : Nat) (s : treap) : Option (List Int) :=
  (contents fuel s).map fun l => l.map fun r => r.2.1

/-- A sequence of `insert(value)` calls; every value comes with the priority that the
generator draws for its node. -/
def insert_all (fuel : Nat) : treap → List (Int × Int × Nat) → Option treap
  | s, [] => some s
  | s, (k, v, p) :: rest =>
    match insert lt fuel s k v p with
    | none => none
    | some r => insert_all fuel r.1 rest

/-- One public mutation: `insert(value)` with its drawn priority, or `erase(key)`. -/
inductive Op where
  | ins (key val : Int) (pri : Nat)
  | del (key : Int)

/-- Apply one mutation to the container. -/
def apply (fuel : Nat) (s : treap) : Op → Option treap
  | .ins k v p => (insert lt fuel s k v p).map fun r => r.1
  | .del k => (erase lt fuel s k).map fun r => r.1

/-- Apply a sequence of mutations. -/
def run (fuel : Nat) : treap → List Op → Option treap
  | s, [] => some s
  | s, op :: rest =>
    match apply fuel s op with
    | none => none
    | some s1 => run fuel s1 rest

/-- The reference set after one mutation: insert adds the key, erase removes it. -/
def refStep (S : Finset Int) : Op → Finset Int
  | .ins k _ _ => Insert.insert k S
  | .del k => S.erase k

/-- The reference set after a sequence of mutations. -/
def refRun : Finset Int → List Op → Finset Int
  | S, [] => S
  | S, op :: rest => refRun (refStep S op) rest

/-- The test that opens the hinted `insert` (bst.h 170): the hint `pos` is bad when
`!Compare()(key, key_of(*pos))` holds, or else when neither `pos == begin()` nor
`Compare()(key_of(*std::prev(pos)), key)` holds.  The record read through `*pos` is
the one of the node `pos` points at, the header's value-initialised record when `pos`
is `end()`; `std::prev(pos)` is a copy of `pos` moved by `--`. -/
def hint_bad (cmp : Int → Int → Bool) (fuel : Nat) (s : treap) (pos : Nat) (key : Int) :
    Option Bool :=
  match s.mem pos with
  | none => none
  | some pn =>
    if !cmp key pn.key then some true
    else
      match begin_ s with
      | none => none
      | some b =>
        if pos = b then some false
        else
          match dec s.mem fuel pos with
          | none => none
          | some pv => (s.mem pv).map fun pvn => !cmp pvn.key key

/-- The operation `insert(pos, value)` with a hint (bst.h 166-178): a bad hint is
replaced by `lower_bound(key)`; the result is the state and the returned iterator. -/
def insert_hint (cmp : Int → Int → Bool) (fuel : Nat) (s : treap) (pos : Nat) (key val : Int)
    (pri : Nat) : Option (treap × Nat) :=
  match hint_bad cmp fuel s pos key with
  | none => none
  | some bad =>
    match (if bad then lower_bound cmp fuel s key else some pos) with
    | none => none
    | some pos1 =>
      match (if pos1 ≠ end_ then (s.mem pos1).map fun n => decide (n.key = key)
        else some false) with
      | none => none
      | some true => some (s, pos1)
      | some false => insert_ cmp fuel s pos1 key val pri

/-- The operator `operator[](key)` of the map (bst.h 222-231): the state and the node
whose mapped value the returned reference `it->second` denotes.  On a miss the value
inserted pairs the key with a value-initialised mapped value (0 for `int`). -/
def subscript (cmp : Int → Int → Bool) (fuel : Nat) (s : treap) (key : Int) (pri : Nat) :
    Option (treap × Nat) :=
  match find cmp fuel s key with
  | none => none
  | some it =>
    if it ≠ end_ then some (s, it)
    else (insert cmp fuel s key 0 pri).map fun r => (r.1, r.2.1)

/-- The read `it->second` (bst.h 279-283 and 320-322): the mapped value of the record of
the node. -/
def get_second (s : treap) (it : Nat) : Option Int :=
  (s.mem it).map fun n => n.val

/-- The write `it->second = v` through an iterator or through the reference returned
by `operator[]`: only the mapped value of the record of that node is assigned. -/
def set_second (s : treap) (it : Nat) (v : Int) : Option treap :=
  match s.mem it with
  | none => none
  | some n => some { s with mem := s.mem.set it { n with val := v } }

/-- The statement `m[key] = v`. -/
def assign_subscript (cmp : Int → Int → Bool) (fuel : Nat) (s : treap) (key v : Int)
    (pri : Nat) : Option treap :=
  match subscript cmp fuel s key pri with
  | none => none
  | some r => set_second r.1 r.2 v

/-- The statements `it = find(key); it->second = v`. -/
def assign_find (cmp : Int → Int → Bool) (fuel : Nat) (s : treap) (key v : Int) :
    Option treap :=
  match find cmp fuel s key with
  | none => none
  | some it => set_second s it v

/-- The count `std::distance(first, last)`: the number of `++` steps from `first` to
`last` (at most `n`). -/
def distance (m : Mem) (fuel : Nat) : Nat → Nat → Nat → Option Nat
  | 0, _, _ => none
  | n + 1, first, last =>
    if first = last then some 0
    else
      match inc m fuel first with
      | none => none
      | some nx => (distance m fuel n nx last).map fun d => d + 1

/-- The number of nodes reachable from a pointer through `left` and `right` links. -/
def count_nodes (m : Mem) : Nat → Option Nat → Option Nat
  | 0, _ => none
  | _ + 1, none => some 0
  | fuel + 1, some a =>
    match m a with
    | none => none
    | some nd =>
      match count_nodes m fuel nd.left, count_nodes m fuel nd.right with
      | some x, some y => some (x + 1 + y)
      | _, _ => none

/-- Walk from the iterator `it` with `--` until `begin()` (at most `n` positions),
listing for every position reached the node address, its key and its mapped value; this
is the loop `for (it = end(); it != begin(); ) { --it; ... }`. -/
def walk_back (m : Mem) (fuel : Nat) (b : Nat) : Nat → Nat → Option (List (Nat × Int × Int))
  | 0, _ => none
  | n + 1, it =>
    if it = b then some []
    else
      match dec m fuel it with
      | none => none
      | some pv =>
        match m pv with
        | none => none
        | some nd => (walk_back m fuel b n pv).map fun rest => (pv, nd.key, nd.val) :: rest

/-- The positions met from `end()` back to `begin()`. -/
def contents_back (fuel : Nat) (s : treap) : Option (List (Nat × Int × Int)) :=
  match begin_ s with
  | none => none
  | some b => walk_back s.mem fuel b fuel end_

/-- A sequence of `erase(key)` calls. -/
def erase_all (fuel : Nat) : treap → List Int → Option treap
  | s, [] => some s
  | s, k :: rest =>
    match erase lt fuel s k with
    | none => none
    | some r => erase_all fuel r.1 rest

/-- The iterators of the container that denote an element: the positions met from
`begin()` before `end()`. -/
def is_element (fuel : Nat) (s : treap) (pos : Nat) : Bool :=
  match contents fuel s with
  | none => false
  | some l => decide (pos ∈ l.map fun r => r.1)

/-- The iterators of the container: the elements and `end()`. -/
def is_iterator (fuel : Nat) (s : treap) (pos : Nat) : Bool :=
  decide (pos = end_) || is_element fuel s pos

/-- Increment and decrement undo each other in the container: `prev(next(it)) == it`
for every element `it`, and `next(prev(it)) == it` for every iterator `it` other than
`begin()`. -/
def round_trip (fuel : Nat) (s : treap) : Prop :=
  (∀ x, is_element fuel s x = true →
    ∃ nx, inc s.mem fuel x = some nx ∧ dec s.mem fuel nx = some x) ∧
  (∀ x, is_iterator fuel s x = true → begin_ s ≠ some x →
    ∃ pv, dec s.mem fuel x = some pv ∧ inc s.mem fuel pv = some x)

/-- The states reachable from construction through the public operations: `insert`,
hinted `insert`, `erase` of an iterator, `erase` of a key, `operator[]`, and the write
of a mapped value through an iterator.  Iterator arguments are iterators of the
container (an element for `erase` and for a write), and every call is given a loop
budget that covers the container (`size() + 2`). -/
inductive Reachable : treap → Prop
  | new : Reachable treap.new
  | insert (s : treap) (key val : Int) (pri fuel : Nat) (r : treap × Nat × Bool) :
      Reachable s → size s + 2 ≤ fuel → insert lt fuel s key val pri = some r →
      Reachable r.1
  | insert_hint (s : treap) (pos : Nat) (key val : Int) (pri fuel : Nat) (r : treap × Nat) :
      Reachable s → size s + 2 ≤ fuel → is_iterator fuel s pos = true →
      insert_hint lt fuel s pos key val pri = some r → Reachable r.1
  | erase_it (s : treap) (pos fuel : Nat) (r : treap × Nat) :
      Reachable s → size s + 2 ≤ fuel → is_element fuel s pos = true →
      erase_it fuel s pos = some r → Reachable r.1
  | erase (s : treap) (key : Int) (fuel : Nat) (r : treap × Nat) :
      Reachable s → size s + 2 ≤ fuel → erase lt fuel s key = some r → Reachable r.1
  | subscript (s : treap) (key : Int) (pri fuel : Nat) (r : treap × Nat) :
      Reachable s → size s + 2 ≤ fuel → subscript lt fuel s key pri = some r →
      Reachable r.1
  | set_second (s : treap) (pos : Nat) (v : Int) (fuel : Nat) (s1 : treap) :
      Reachable s → size s + 2 ≤ fuel → is_element fuel s pos = true →
      set_second s pos v = some s1 → Reachable s1

/-- One call of a public mutating operation: `insert(value)` and the hinted
`insert(pos, value)` with the priority drawn for the new node, `erase(pos)`,
`erase(key)`, and `operator[](key)` with the priority drawn on a miss. -/
inductive Call where
  | insert (key val : Int) (pri : Nat)
  | insert_hint (pos : Nat) (key val : Int) (pri : Nat)
  | erase_it (pos : Nat)
  | erase (key : Int)
  | subscript (key : Int) (pri : Nat)

/-- The state that a call leaves. -/
def call (fuel : Nat) (s : treap) : Call → Option treap
  | .insert key val pri => (insert lt fuel s key val pri).map fun r => r.1
  | .insert_hint pos key val pri => (insert_hint lt fuel s pos key val pri).map fun r => r.1
  | .erase_it pos => (erase_it fuel s pos).map fun r => r.1
  | .erase key => (erase lt fuel s key).map fun r => r.1
  | .subscript key pri => (subscript lt fuel s key pri).map fun r => r.1

/-- The iterator argument of a call is an iterator of the container, and an element
when it is to be erased. -/
def call_ok (fuel : Nat) (s : treap) : Call → Bool
  | .insert_hint pos _ _ _ => is_iterator fuel s pos
  | .erase_it pos => is_element fuel s pos
  | _ => true

/-- An ordering rule coarser than equality of keys: integers are compared by their
halves, so that 2 and 3 are equivalent. It is a strict weak ordering. -/
def by_halves (a b : Int) : Bool := decide (a / 2 < b / 2)

/-! ## The debug build: the same operations with their `assert` lines

Every function below is the function of the same name without `_chk`, with the
assertions of the source evaluated where the source evaluates them; a failed assertion
is reported as `none`. -/

/-- The accessor `root()` with its assertion (bst.h 409-415):
`header.par == nullptr || header.par->par == &header`. -/
def root_chk (s : treap) : Option (Option Nat) :=
  match s.mem hdr with
  | none => none
  | some h =>
    match h.par with
    | none => some none
    | some r =>
      match s.mem r with
      | none => none
      | some rn => if rn.par = some hdr then some (some r) else none

/-- The test `empty()` with the assertion of `n_begin()` (bst.h 418, 423):
`header.left != nullptr`. -/
def empty_chk (s : treap) : Option Bool :=
  match s.mem hdr with
  | none => none
  | some h => if h.left = none then none else some (decide (h.left = some hdr))

/-- The loop of `lower_bound` with its assertions (bst.h 117-118):
`rt.node != rt.node->left` and `rt.node != rt.node->right`. -/
def lower_bound_loop_chk (cmp : Int → Int → Bool) (m : Mem) (key : Int) :
    Nat → Option Nat → Nat → Option Nat
  | 0, _, _ => none
  | _ + 1, none, res => some res
  | fuel + 1, some n, res =>
    match m n with
    | none => none
    | some nd =>
      if nd.left = some n ∨ nd.right = some n then none
      else if !cmp nd.key key then lower_bound_loop_chk cmp m key fuel nd.left n
      else lower_bound_loop_chk cmp m key fuel nd.right res

/-- The query `lower_bound(key)` of the debug build. -/
def lower_bound_chk (cmp : Int → Int → Bool) (fuel : Nat) (s : treap) (key : Int) :
    Option Nat :=
  match root_chk s with
  | none => none
  | some rt => lower_bound_loop_chk cmp s.mem key fuel rt end_

/-- The query `find(key)` of the debug build. -/
def find_chk (cmp : Int → Int → Bool) (fuel : Nat) (s : treap) (key : Int) : Option Nat :=
  match lower_bound_chk cmp fuel s key with
  | none => none
  | some lb =>
    if lb ≠ end_ then
      match s.mem lb with
      | none => none
      | some n => if n.key = key then some lb else some end_
    else some end_

/-- The rotation `rotate_right(par, child)` with its assertions (bst.h 480-483, 490, 497):
on entry `par != &header`, `child != &header`, `par->left == child` and
`child->par == par`; `par->par->right == par` when `par` is neither the root nor a left
child; and `par->par != nullptr` after the assignment of the case `child->right == nullptr`. -/
def rotate_right_chk (m : Mem) (par child : Nat) : Option Mem :=
  match m par, m child with
  | some pn, some cn =>
    if par ≠ hdr ∧ child ≠ hdr ∧ pn.left = some child ∧ cn.par = some par then
      match pn.par with
      | none => none
      | some g =>
        match m g with
        | none => none
        | some gn =>
          if gn.par = some par ∨ gn.left = some par ∨ gn.right = some par then
            match rotate_right m par child with
            | none => none
            | some m1 =>
              match cn.right with
              | some _ => some m1
              | none =>
                match m1 par with
                | none => none
                | some pn1 => if pn1.par ≠ none then some m1 else none
          else none
    else none
  | _, _ => none

/-- The rotation `rotate_left(par, child)` with its assertions (bst.h 505-508, 515). -/
def rotate_left_chk (m : Mem) (par child : Nat) : Option Mem :=
  match m par, m child with
  | some pn, some cn =>
    if par ≠ hdr ∧ child ≠ hdr ∧ pn.right = some child ∧ cn.par = some par then
      match pn.par with
      | none => none
      | some g =>
        match m g with
        | none => none
        | some gn =>
          if gn.par = some par ∨ gn.left = some par ∨ gn.right = some par then
            rotate_left m par child
          else none
    else none
  | _, _ => none

/-- The rebalancing loop of `insert_` with its assertions (bst.h 570-579):
`par.node != &header` before every rotation, and `par.node->right == it.node` when the
rotation is a left one. The second component lists the nodes that were `par` at a
rotation, first rotation first. -/
def rotate_loop_chk (m : Mem) : Nat → Nat → Nat → Option (Mem × List Nat)
  | 0, _, _ => none
  | fuel + 1, par, it =>
    match m par, m it with
    | some pn, some itn =>
      if pn.pri < itn.pri then
        if par = hdr then none
        else
          match (if pn.left = some it then rotate_right_chk m par it
            else if pn.right = some it then rotate_left_chk m par it else none) with
          | none => none
          | some m1 =>
            match m1 it with
            | none => none
            | some itn1 =>
              match itn1.par with
              | none => none
              | some par1 => (rotate_loop_chk m1 fuel par1 it).map fun r => (r.1, par :: r.2)
      else some (m, [])
    | _, _ => none

/-- The depth of a node: the number of its ancestors other than the header, counted by
following `par` up to the header. -/
def depth (m : Mem) : Nat → Nat → Option Nat
  | 0, _ => none
  | fuel + 1, n =>
    match m n with
    | none => none
    | some nd =>
      match nd.par with
      | none => none
      | some p => if p = hdr then some 0 else (depth m fuel p).map fun d => d + 1

/-- The graft of `insert_` with its assertions (bst.h 549-567). When `pos` has no left
child: `pos != end()` and `Compare()(key, key_of(*par))`. Otherwise: `pos != begin()`,
and for `par = std::prev(pos)`, `par.node->right == nullptr` and
`Compare()(key_of(*par), key)`. In both cases `par != end()`. -/
def graft_chk (cmp : Int → Int → Bool) (m : Mem) (fuel : Nat) (pos it : Nat) (key : Int) :
    Option (Mem × Nat) :=
  match m pos with
  | none => none
  | some pn =>
    match (match pn.left with
      | none =>
        if pos ≠ end_ ∧ cmp key pn.key = true then
          (setLeft m pos (some it)).map fun m1 => (m1, pos)
        else none
      | some _ =>
        match m hdr with
        | none => none
        | some h =>
          match h.left with
          | none => none
          | some b =>
            if pos = b then none
            else
              match dec m fuel pos with
              | none => none
              | some par =>
                match m par with
                | none => none
                | some parn =>
                  if parn.right = none ∧ cmp parn.key key = true then
                    (setRight m par (some it)).map fun m1 => (m1, par)
                  else none) with
    | none => none
    | some (m1, par) =>
      if par ≠ end_ then (setPar m1 it (some par)).map fun m2 => (m2, par) else none

/-- The worker `insert_(pos, value)` with its assertions (bst.h 531-591). -/
def insert__chk (cmp : Int → Int → Bool) (fuel : Nat) (s : treap) (pos : Nat) (key val : Int)
    (pri : Nat) : Option (treap × Nat) :=
  let s1 := (create_node s key val pri).1
  let it := (create_node s key val pri).2
  match empty_chk s1 with
  | none => none
  | some true =>
    (setPar s1.mem it (some hdr)).bind fun m1 =>
    (setLeft m1 hdr (some it)).bind fun m2 =>
    (setRight m2 hdr (some it)).bind fun m3 =>
    match root_chk { s1 with mem := m3 } with
    | none => none
    | some _ => (setPar m3 hdr (some it)).bind fun m4 => some ({ s1 with mem := m4 }, it)
  | some false =>
    match graft_chk cmp s1.mem fuel pos it key with
    | none => none
    | some (m2, par) =>
      match rotate_loop_chk m2 fuel par it with
      | none => none
      | some (m3, _) =>
        match empty_chk { s1 with mem := m3 } with
        | some false => (update_ends cmp m3 it).map fun m4 => ({ s1 with mem := m4 }, it)
        | _ => none

/-- The operation `insert(value)` of the debug build. -/
def insert_chk (cmp : Int → Int → Bool) (fuel : Nat) (s : treap) (key val : Int) (pri : Nat) :
    Option (treap × Nat × Bool) :=
  match lower_bound_chk cmp fuel s key with
  | none => none
  | some it =>
    match (if it ≠ end_ then (s.mem it).map fun n => decide (n.key = key) else some false) with
    | none => none
    | some true => some (s, it, false)
    | some false => (insert__chk cmp fuel s it key val pri).map fun r => (r.1, r.2, true)

/-- The operation `insert(pos, value)` of the debug build. -/
def insert_hint_chk (cmp : Int → Int → Bool) (fuel : Nat) (s : treap) (pos : Nat)
    (key val : Int) (pri : Nat) : Option (treap × Nat) :=
  match hint_bad cmp fuel s pos key with
  | none => none
  | some bad =>
    match (if bad then lower_bound_chk cmp fuel s key else some pos) with
    | none => none
    | some pos1 =>
      match (if pos1 ≠ end_ then (s.mem pos1).map fun n => decide (n.key = key)
        else some false) with
      | none => none
      | some true => some (s, pos1)
      | some false => insert__chk cmp fuel s pos1 key val pri

/-- The test `c == nullptr || c->par == a`, asserted at the end of `assign_and_keep`
(bst.h 663) and, for the children of `lhs` and `rhs`, on entry to `merge`
(bst.h 449-452). -/
def child_points_back (m : Mem) (a : Nat) (c : Option Nat) : Bool :=
  match c with
  | none => true
  | some c1 =>
    match m c1 with
    | none => false
    | some cn => decide (cn.par = some a)

/-- The helper `assign_and_keep(dst, src, par)` with its assertions (bst.h 615-626 and
663-664): on entry `dst != &header`, `dst != par`, `src != par`, and `header.par == dst`
when `par` is the header, `par->left == dst || par->right == dst` otherwise; at the end
of the general case `dst == nullptr || dst->par == par` and
`par->left == dst || par->right == dst`. -/
def assign_and_keep_chk (m : Mem) (lv : Option Nat) (dst : Ref) (src : Option Nat)
    (par : Nat) : Option (Mem × Option Nat) :=
  match dst.get m lv, m par with
  | some d0, some pn =>
    if d0 ≠ some hdr ∧ d0 ≠ some par ∧ src ≠ some par ∧
        (if par = hdr then pn.par = d0 else pn.left = d0 ∨ pn.right = d0) then
      match assign_and_keep m lv dst src par with
      | none => none
      | some r =>
        if d0 ≠ none ∧ par ≠ hdr then
          match dst.get r.1 r.2, r.1 par with
          | some d1, some pn1 =>
            if child_points_back r.1 par d1 = true ∧ (pn1.left = d1 ∨ pn1.right = d1) then some r
            else none
          | _, _ => none
        else some r
    else none
  | _, _ => none

/-- The recursion `merge(lhs, rhs)` with its assertions (bst.h 445-466). -/
def merge_chk (m : Mem) : Nat → Option Nat → Option Nat → Option (Mem × Option Nat)
  | 0, _, _ => none
  | _ + 1, none, rhs => some (m, rhs)
  | _ + 1, some l, none => some (m, some l)
  | fuel + 1, some l, some r =>
    match m l, m r with
    | some ln, some rn =>
      if child_points_back m l ln.left ∧ child_points_back m l ln.right ∧
          child_points_back m r rn.left ∧ child_points_back m r rn.right then
        if ln.pri < rn.pri then
          match merge_chk m fuel (some l) rn.left with
          | none => none
          | some (m1, src) =>
            (assign_and_keep_chk m1 none (.leftOf r) src r).map fun q => (q.1, some r)
        else
          match merge_chk m fuel ln.right (some r) with
          | none => none
          | some (m1, src) =>
            (assign_and_keep_chk m1 none (.rightOf l) src l).map fun q => (q.1, some l)
      else none
    | _, _ => none

/-- The helper `assign_and_destroy(dst, src, par)` with its assertions (bst.h 671-673):
`dst != &header`; `dst` and `par` are not null. -/
def assign_and_destroy_chk (fuel : Nat) (s : treap) (dst : Nat) (src : Option Nat)
    (par : Nat) : Option treap :=
  if dst = hdr then none
  else
    match assign_and_keep_chk s.mem (some dst) .loc src par with
    | none => none
    | some (m1, _) =>
      match (setLeft m1 dst none).bind fun m2 => setRight m2 dst none with
      | none => none
      | some m3 =>
        match destroy_node { s with mem := m3 } fuel dst with
        | none => none
        | some s4 =>
          if size s4 = 0 then
            (setLeft s4.mem hdr (some hdr)).bind fun m5 =>
            (setRight m5 hdr (some hdr)).bind fun m6 =>
            (setPar m6 hdr none).map fun m7 => { s4 with mem := m7 }
          else some s4

/-- The update of `begin()` and `rightmost()` in `erase_` with the assertions of
`n_begin()` and `n_rightmost()` (bst.h 418, 428). -/
def erase_ends_chk (m : Mem) (fuel : Nat) (pos next_it b : Nat) : Option Mem :=
  match m hdr with
  | none => none
  | some h =>
    if pos = b then (if h.left = none then none else setLeft m hdr (some next_it))
    else if next_it = end_ then
      match dec m fuel pos with
      | none => none
      | some p => if h.right = none then none else setRight m hdr (some p)
    else some m

/-- The worker `erase_(pos)` with its assertions (bst.h 594-609): `pos != end()`. -/
def erase__chk (fuel : Nat) (s : treap) (pos : Nat) : Option (treap × Nat) :=
  if pos = end_ then none
  else
    match inc s.mem fuel pos, begin_ s with
    | some next_it, some b =>
      match erase_ends_chk s.mem fuel pos next_it b with
      | none => none
      | some m1 =>
        match m1 pos with
        | none => none
        | some pn =>
          match merge_chk m1 fuel pn.left pn.right with
          | none => none
          | some (m2, src) =>
            match m2 pos with
            | none => none
            | some pn2 =>
              match pn2.par with
              | none => none
              | some par =>
                (assign_and_destroy_chk fuel { s with mem := m2 } pos src par).map fun s3 =>
                  (s3, next_it)
    | _, _ => none

/-- The operation `erase(iterator pos)` of the debug build. -/
def erase_it_chk (fuel : Nat) (s : treap) (pos : Nat) : Option (treap × Nat) :=
  erase__chk fuel s pos

/-- The operation `erase(const Key &key)` of the debug build. -/
def erase_chk (cmp : Int → Int → Bool) (fuel : Nat) (s : treap) (key : Int) :
    Option (treap × Nat) :=
  match find_chk cmp fuel s key with
  | none => none
  | some it =>
    if it = end_ then some (s, 0)
    else (erase__chk fuel s it).map fun r => (r.1, 1)

/-- The operator `operator[](key)` of the debug build, with its assertion (bst.h 229):
`ok`. -/
def subscript_chk (cmp : Int → Int → Bool) (fuel : Nat) (s : treap) (key : Int) (pri : Nat) :
    Option (treap × Nat) :=
  match find_chk cmp fuel s key with
  | none => none
  | some it =>
    if it ≠ end_ then some (s, it)
    else
      match insert_chk cmp fuel s key 0 pri with
      | none => none
      | some r => if r.2.2 then some (r.1, r.2.1) else none

/-- The state that a call leaves in the debug build. -/
def call_chk (fuel : Nat) (s : treap) : Call → Option treap
  | .insert key val pri => (insert_chk lt fuel s key val pri).map fun r => r.1
  | .insert_hint pos key val pri =>
    (insert_hint_chk lt fuel s pos key val pri).map fun r => r.1
  | .erase_it pos => (erase_it_chk fuel s pos).map fun r => r.1
  | .erase key => (erase_chk lt fuel s key).map fun r => r.1
  | .subscript key pri => (subscript_chk lt fuel s key pri).map fun r => r.1

/-- The container after `insert(2)` and `insert(3)` under the ordering rule `by_halves`,
the nodes drawing the priorities 20 and 10. -/
def halves_state : Option treap :=
  (insert by_halves 5 treap.new 2 0 20).bind fun r =>
    (insert by_halves 5 r.1 3 0 10).map fun q => q.1

/-- Check of parent consistency below a pointer: every node reached through `left` and
`right` links has its `par` field equal to the node whose slot holds it (`q` for the
first node), and no node is its own parent or its own child. -/
def par_ok (m : Mem) : Nat → Option Nat → Option Nat → Option Bool
  | 0, _, _ => none
  | _ + 1, none, _ => some true
  | fuel + 1, some a, q =>
    match m a with
    | none => none
    | some n =>
      match par_ok m fuel n.left (some a), par_ok m fuel n.right (some a) with
      | some bl, some br =>
        some (decide (n.par = q) && decide (n.par ≠ some a) && decide (n.left ≠ some a) &&
          decide (n.right ≠ some a) && bl && br)
      | _, _ => none

/-- Check of parent consistency of the container: the tree below the root slot
`header.par` is parent consistent and the `par` field of the root is the header. -/
def parent_consistent (fuel : Nat) (s : treap) : Option Bool :=
  match s.mem hdr with
  | none => none
  | some h => par_ok s.mem fuel h.par (some hdr)

/-! ## Instrumentation: visit counts, height and shape -/

/-- The loop of `lower_bound` compiled with `INSTRUMENT_DEPTH` (bst.h 116-128): the
result and the number of executions of `down++`, one for every node visited. -/
def lower_bound_loop_down (cmp : Int → Int → Bool) (m : Mem) (key : Int) :
    Nat → Option Nat → Nat → Option (Nat × Nat)
  | 0, _, _ => none
  | _ + 1, none, res => some (res, 0)
  | fuel + 1, some n, res =>
    match m n with
    | none => none
    | some nd =>
      (if !cmp nd.key key then lower_bound_loop_down cmp m key fuel nd.left n
        else lower_bound_loop_down cmp m key fuel nd.right res).map fun r => (r.1, r.2 + 1)

/-- The query `lower_bound(key)` compiled with `INSTRUMENT_DEPTH` (bst.h 110-130): the
result and the increase of the counter `down` in this call. -/
def lower_bound_down (cmp : Int → Int → Bool) (fuel : Nat) (s : treap) (key : Int) :
    Option (Nat × Nat) :=
  match root s with
  | none => none
  | some rt => lower_bound_loop_down cmp s.mem key fuel rt end_

/-- The loop of `upper_bound` (bst.h 135-145) with a count of its iterations, one for
every node visited; the source has no counter in this loop. -/
def upper_bound_loop_visits (cmp : Int → Int → Bool) (m : Mem) (key : Int) :
    Nat → Option Nat → Nat → Option (Nat × Nat)
  | 0, _, _ => none
  | _ + 1, none, res => some (res, 0)
  | fuel + 1, some n, res =>
    match m n with
    | none => none
    | some nd =>
      (if cmp key nd.key then upper_bound_loop_visits cmp m key fuel nd.left n
        else upper_bound_loop_visits cmp m key fuel nd.right res).map fun r => (r.1, r.2 + 1)

/-- The query `upper_bound(key)` (bst.h 132-147) with the number of nodes visited. -/
def upper_bound_visits (cmp : Int → Int → Bool) (fuel : Nat) (s : treap) (key : Int) :
    Option (Nat × Nat) :=
  match root s with
  | none => none
  | some rt => upper_bound_loop_visits cmp s.mem key fuel rt end_

/-- The height of the pointer graph below a pointer: 0 for null, otherwise one more than
the larger of the heights below `left` and `right`. -/
def height_below (m : Mem) : Nat → Option Nat → Option Nat
  | 0, _ => none
  | _ + 1, none => some 0
  | fuel + 1, some a =>
    match m a with
    | none => none
    | some n =>
      match height_below m fuel n.left, height_below m fuel n.right with
      | some hl, some hr => some (max hl hr + 1)
      | _, _ => none

/-- The height of the tree of the container, measured from the root `header.par`. -/
def tree_height (fuel : Nat) (s : treap) : Option Nat :=
  match s.mem hdr with
  | none => none
  | some h => height_below s.mem fuel h.par

/-- The shape of a tree with the key and the priority of every node. -/
inductive Shape where
  | leaf
  | node (l : Shape) (key : Int) (pri : Nat) (r : Shape)
deriving DecidableEq

/-- The pairs of key and priority of a shape, in order. -/
def Shape.in_order : Shape → List (Int × Nat)
  | .leaf => []
  | .node l k p r => l.in_order ++ (k, p) :: r.in_order

/-- The shape of the pointer graph below a pointer, read through `left` and `right`. -/
def shape_below (m : Mem) : Nat → Option Nat → Option Shape
  | 0, _ => none
  | _ + 1, none => some .leaf
  | fuel + 1, some a =>
    match m a with
    | none => none
    | some n =>
      match shape_below m fuel n.left, shape_below m fuel n.right with
      | some l, some r => some (.node l n.key n.pri r)
      | _, _ => none

/-- The shape of the tree of the container, read from the root `header.par`. -/
def shape (fuel : Nat) (s : treap) : Option Shape :=
  match s.mem hdr with
  | none => none
  | some h => shape_below s.mem fuel h.par

/-- A run that builds the container {1, 3, 5, 7, 9} by insertions in increasing order,
with the priorities 10, 30, 50, 40, 20. -/
def ex_run_a : List Op :=
  [.ins 1 0 10, .ins 3 0 30, .ins 5 0 50, .ins 7 0 40, .ins 9 0 20]

/-- Another run that leaves the same keys with the same priorities: the insertions come
in another order, and the key 4 is inserted with the priority 99 and erased again. -/
def ex_run_b : List Op :=
  [.ins 9 0 20, .ins 4 0 99, .ins 7 0 40, .ins 5 0 50, .del 4, .ins 3 0 30, .ins 1 0 10]

/-- The height of the tree after the insertions `vals` into the empty container, every
value coming with the priority drawn for its node (0 if a call does not return). -/
def height_after (fuel : Nat) (vals : List (Int × Int × Nat)) : Nat :=
  ((insert_all fuel treap.new vals).bind (tree_height fuel)).getD 0

/-- An order of insertion for the keys 1, 3, 5 that are given the priorities `q` in the
order of the keys: the largest key is inserted first. -/
def ex_order (q : List Nat) : List (Int × Int × Nat) :=
  ((([1, 3, 5] : List Int).zip q).map fun kp => (kp.1, 0, kp.2)).reverse

/-! ## The abstract view used in the proofs -/

/-- One stored element as the proofs see it: address, key, mapped value, priority. -/
structure Entry where
  a : Nat
  k : Int
  v : Int
  p : Nat
deriving DecidableEq

/-- The shape of the pointer graph below a child slot. -/
inductive Tree where
  | nil
  | node (l : Tree) (e : Entry) (r : Tree)
deriving DecidableEq

namespace Tree

/-- The pointer that denotes a subtree: null, or the address of its root. -/
def ptr : Tree → Option Nat
  | nil => none
  | node _ e _ => some e.a

/-- In-order sequence of the elements. -/
def toList : Tree → List Entry
  | nil => []
  | node l e r => l.toList ++ e :: r.toList

/-- Number of nodes. -/
def size : Tree → Nat
  | nil => 0
  | node l _ r => l.size + 1 + r.size

/-- Height (number of nodes on the longest downward path). -/
def height : Tree → Nat
  | nil => 0
  | node l _ r => max l.height r.height + 1

/-- Address of the leftmost node, `d` for the empty tree. -/
def minA : Tree → Nat → Nat
  | nil, d => d
  | node l e _, _ => l.minA e.a

/-- Address of the rightmost node, `d` for the empty tree. -/
def maxA : Tree → Nat → Nat
  | nil, d => d
  | node _ e r, _ => r.maxA e.a

/-- Result of the `lower_bound` descent on a tree, `res` being the candidate so far. -/
def lbT (key : Int) : Tree → Nat → Nat
  | nil, res => res
  | node l e r, res => if key ≤ e.k then lbT key l e.a else lbT key r res

/-- Result of the `upper_bound` descent on a tree, `res` being the candidate so far. -/
def ubT (key : Int) : Tree → Nat → Nat
  | nil, res => res
  | node l e r, res => if key < e.k then ubT key l e.a else ubT key r res

/-- Hang a new leaf `x` at the place of an ordinary binary-search-tree insertion. -/
def attach (x : Entry) : Tree → Tree
  | nil => node nil x nil
  | node l e r => if x.k < e.k then node (attach x l) e r else node l e (attach x r)

/-- The address of the node under which `attach` hangs the leaf (`pa` above the root). -/
def attachPar (x : Entry) : Tree → Nat → Nat
  | nil, pa => pa
  | node l e r, _ => if x.k < e.k then attachPar x l e.a else attachPar x r e.a

/-- Right rotation at the root: the left child becomes the root. -/
def rotR : Tree → Tree
  | node (node a x b) e c => node a x (node b e c)
  | t => t

/-- Left rotation at the root: the right child becomes the root. -/
def rotL : Tree → Tree
  | node a e (node b x c) => node (node a e b) x c
  | t => t

/-- Treap insertion: hang the leaf, then rotate it up while its priority is strictly
greater than its parent's. -/
def insT (x : Entry) : Tree → Tree
  | nil => node nil x nil
  | node l e r =>
    if x.k < e.k then
      if (insT x l).ptr = some x.a ∧ e.p < x.p then rotR (node (insT x l) e r)
      else node (insT x l) e r
    else
      if (insT x r).ptr = some x.a ∧ e.p < x.p then rotL (node l e (insT x r))
      else node l e (insT x r)

/-- Treap merge of two subtrees, all keys of the first below all keys of the second: the
root of strictly higher priority wins, the left operand wins a tie. -/
def mergeT : Tree → Tree → Tree
  | nil, r => r
  | node ll a lr, nil => node ll a lr
  | node ll a lr, node rl b rr =>
    if a.p < b.p then node (mergeT (node ll a lr) rl) b rr
    else node ll a (mergeT lr (node rl b rr))
termination_by l r => l.size + r.size
decreasing_by
  all_goals simp_wf
  all_goals simp only [size]
  all_goals omega

/-- Removal of the node at address `x`: its two subtrees are merged in its place. -/
def delT (x : Nat) : Tree → Tree
  | nil => nil
  | node l e r =>
    if e.a = x then mergeT l r
    else if x ∈ l.toList.map Entry.a then node (delT x l) e r
    else node l e (delT x r)

/-- The leftmost element. -/
def minE : Tree → Option Entry
  | nil => none
  | node l e _ => (minE l).or (some e)

/-- The rightmost element. -/
def maxE : Tree → Option Entry
  | nil => none
  | node _ e r => (maxE r).or (some e)

/-- The addresses in order. -/
def addrs (t : Tree) : List Nat := t.toList.map Entry.a

/-- The keys in order. -/
def keys (t : Tree) : List Int := t.toList.map Entry.k

end Tree

/-- The address that follows `x` in a list of addresses, `d` after the last one. -/
def succL : List Nat → Nat → Nat → Nat
  | [], _, d => d
  | a :: as, x, d => if a = x then as.head?.getD d else succL as x d

/-- The address that precedes `x` in a list of addresses, `d` before the first one. -/
def predL : List Nat → Nat → Nat → Nat
  | [], _, d => d
  | a :: as, x, d => if a = x then d else predL as x a

/-- The memory holds the tree `t` below a slot whose owner is `q`: every node of
`t` is live at its address with its record, its priority, child pointers that
denote its subtrees, and a parent pointer to the node above (`q` for the root). -/
def Rep (m : Mem) : Tree → Option Nat → Prop
  | .nil, _ => True
  | .node l e r, q =>
    m e.a = some ⟨e.k, e.v, l.ptr, r.ptr, q, e.p⟩ ∧ Rep m l (some e.a) ∧ Rep m r (some e.a)

/-- The header record of a container whose tree is `t`: a value-initialised record,
the cached minimum and maximum (the header itself when empty), the root, and the
priority `UINT32_MAX`. -/
def HdrOf (t : Tree) : node := ⟨0, 0, some (t.minA hdr), some (t.maxA hdr), t.ptr, UINT32_MAX⟩

/-- The three pointer slots through which a node can be owned: the header's root
slot (`header.par`), a `left` field or a `right` field. -/
inductive Slot where
  | root
  | left
  | right
deriving DecidableEq

/-- Store a pointer in a slot of a node record. -/
def Slot.put (sl : Slot) (n : node) (p : Option Nat) : node :=
  match sl with
  | .root => { n with par := p }
  | .left => { n with left := p }
  | .right => { n with right := p }

/-- The record `gn` at address `g` owns the node `a` through slot `sl`, in the way the
code recognises it (`par->par == &header`, `par->par->par == par`, `par->left == dst`). -/
def IsSlot (sl : Slot) (g : Nat) (gn : node) (a : Nat) : Prop :=
  match sl with
  | .root => g = hdr ∧ gn.par = some a
  | .left => g ≠ hdr ∧ gn.par ≠ some a ∧ gn.left = some a
  | .right => g ≠ hdr ∧ gn.par ≠ some a ∧ gn.left ≠ some a ∧ gn.right = some a

/-- Representation invariant of the container: the header caches root, minimum and
maximum of the tree `t` that the memory holds, addresses are distinct, allocated
and different from the header, the keys are strictly increasing in order, `size_`
counts the nodes, and priorities are 32-bit values. -/
structure Inv (s : treap) (t : Tree) : Prop where
  hd : s.mem hdr = some (HdrOf t)
  rep : Rep s.mem t (some hdr)
  nodup : t.addrs.Nodup
  fresh : ∀ a ∈ t.addrs, 0 < a ∧ a < s.brk
  brk_pos : 0 < s.brk
  sorted : t.keys.Pairwise (· < ·)
  sz : s.size_ = t.size
  pri : ∀ e ∈ t.toList, e.p < 4294967296

/-- A container state is well formed when it represents some tree. -/
def WF (s : treap) : Prop := ∃ t, Inv s t

/-- The memory of the container obtained by inserting 1, 3, 5, 7, 9 (mapped value 0)
with the priorities 10, 30, 50, 40, 20: the root holds 5, its left child 3 has the
left child 1, its right child 7 has the right child 9. -/
def ex_mem : Mem := fun a =>
  match a with
  | 0 => some ⟨0, 0, some 1, some 5, some 3, UINT32_MAX⟩
  | 1 => some ⟨1, 0, none, none, some 2, 10⟩
  | 2 => some ⟨3, 0, some 1, none, some 3, 30⟩
  | 3 => some ⟨5, 0, some 2, some 4, some 0, 50⟩
  | 4 => some ⟨7, 0, none, some 5, some 3, 40⟩
  | 5 => some ⟨9, 0, none, none, some 4, 20⟩
  | _ => none

/-- The container with the keys 1, 3, 5, 7, 9. -/
def ex_state : treap := ⟨ex_mem, 5, 6⟩

/-- The tree held by `ex_state`. -/
def ex_tree : Tree :=
  .node (.node (.node .nil ⟨1, 1, 0, 10⟩ .nil) ⟨2, 3, 0, 30⟩ .nil) ⟨3, 5, 0, 50⟩
    (.node .nil ⟨4, 7, 0, 40⟩ (.node .nil ⟨5, 9, 0, 20⟩ .nil))

namespace Tree

/-- The tree in which the element at address `x` carries the mapped value `v`. -/
def setV (x : Nat) (v : Int) : Tree → Tree
  | nil => nil
  | node l e r => node (setV x v l) (if e.a = x then { e with v := v } else e) (setV x v r)

end Tree

namespace Tree

/-- BST order: at every node, all keys of the left subtree are less than the key of the
node and all keys of the right subtree are greater. -/
def bst_order : Tree → Prop
  | nil => True
  | node l e r =>
    (∀ y ∈ l.toList, y.k < e.k) ∧ (∀ y ∈ r.toList, e.k < y.k) ∧ bst_order l ∧ bst_order r

/-- The priority at the root of a subtree, 0 for the empty subtree. -/
def rootP : Tree → Nat
  | nil => 0
  | node _ e _ => e.p

/-- Heap order: the priority of every node is greater than or equal to the priorities
of both its children. -/
def heap_order : Tree → Prop
  | nil => True
  | node l e r => l.rootP ≤ e.p ∧ r.rootP ≤ e.p ∧ heap_order l ∧ heap_order r

end Tree

/-- The left subtree of the root of `ex_tree`: the elements 1 and 3. -/
def ex_left : Tree := .node (.node .nil ⟨1, 1, 0, 10⟩ .nil) ⟨2, 3, 0, 30⟩ .nil

/-- The right subtree of the root of `ex_tree`: the elements 7 and 9. -/
def ex_right : Tree := .node .nil ⟨4, 7, 0, 40⟩ (.node .nil ⟨5, 9, 0, 20⟩ .nil)

/-- Every node of the first memory is live in the second with the same key, mapped value
and priority. -/
def same_records (m m' : Mem) : Prop :=
  ∀ y n, m y = some n →
    ∃ n', m' y = some n' ∧ n'.key = n.key ∧ n'.val = n.val ∧ n'.pri = n.pri

/-- The `par` fields of the two memories agree at every address outside the list. -/
def same_par_except (m m' : Mem) (xs : List (Option Nat)) : Prop :=
  ∀ y, some y ∉ xs → (m' y).map (fun n => n.par) = (m y).map (fun n => n.par)

namespace Tree

/-- The number of nodes on the path from the root to the place where `attach` hangs the
leaf `x`: the depth of the grafted leaf. -/
def depthOf (x : Entry) : Tree → Nat
  | nil => 0
  | node l e r => (if x.k < e.k then depthOf x l else depthOf x r) + 1

end Tree

namespace Tree

/-- The shape of a tree with the key and the priority of every node. -/
def shapeOf : Tree → Shape
  | nil => .leaf
  | node l e r => .node l.shapeOf e.k e.p r.shapeOf

/-- The pairs of key and priority of the elements, in order. -/
def kp (t : Tree) : List (Int × Nat) := t.toList.map fun e => (e.k, e.p)

end Tree

/-- A binary tree that keeps only the priority of every node. -/
inductive PTree where
  | leaf
  | node (l : PTree) (p : Nat) (r : PTree)
deriving DecidableEq

namespace PTree

/-- The priorities in order. -/
def in_order : PTree → List Nat
  | leaf => []
  | node l p r => l.in_order ++ p :: r.in_order

/-- Height (number of nodes on the longest downward path). -/
def height : PTree → Nat
  | leaf => 0
  | node l _ r => max l.height r.height + 1

/-- The sum of `2 ^ depth` over the null links of the tree, the tree hanging at depth `d`. -/
def weight : PTree → Nat → Nat
  | leaf, d => 2 ^ d
  | node l _ r, d => weight l (d + 1) + weight r (d + 1)

/-- Strict heap order: every priority below a node is less than the priority of the node. -/
def heap : PTree → Prop
  | leaf => True
  | node l p r => (∀ y ∈ l.in_order, y < p) ∧ (∀ y ∈ r.in_order, y < p) ∧ l.heap ∧ r.heap

/-- The trees obtained by hanging a new leaf of priority `a` at one null link, the null
links taken in order. -/
def hang (a : Nat) : PTree → List PTree
  | leaf => [node leaf a leaf]
  | node l p r =>
    (hang a l).map (fun l' => node l' p r) ++ (hang a r).map (fun r' => node l p r')

/-- The tree in heap order whose sequence in order is `p` followed by that of `t`. -/
def push (p : Nat) : PTree → PTree
  | leaf => node leaf p leaf
  | node l e r => if e < p then node leaf p (node l e r) else node (push p l) e r

/-- The tree in heap order with a given sequence of priorities in order. -/
def of_list : List Nat → PTree
  | [] => leaf
  | p :: q => push p (of_list q)

end PTree

/-- The priorities of a tree, in shape. -/
def Tree.pri_tree : Tree → PTree
  | .nil => .leaf
  | .node l e r => .node l.pri_tree e.p r.pri_tree

/-! ## Theorems -/

/-! ### Memory primitives -/

theorem Mem.set_same (m : Mem) (a : Nat) (n : node) : m.set a n a = some n := by
  simp [Mem.set]

theorem Mem.set_other (m : Mem) {a b : Nat} (n : node) (h : b ≠ a) : m.set a n b = m b := by
  simp [Mem.set, h]

theorem setLeft_some {m : Mem} {a : Nat} {n : node} (h : m a = some n) (p : Option Nat) :
    setLeft m a p = some (m.set a { n with left := p }) := by
  simp [setLeft, h]

theorem setRight_some {m : Mem} {a : Nat} {n : node} (h : m a = some n) (p : Option Nat) :
    setRight m a p = some (m.set a { n with right := p }) := by
  simp [setRight, h]

theorem setPar_some {m : Mem} {a : Nat} {n : node} (h : m a = some n) (p : Option Nat) :
    setPar m a p = some (m.set a { n with par := p }) := by
  simp [setPar, h]

theorem lt_iff (a b : Int) : lt a b = true ↔ a < b := by simp [lt]

/-! ### Trees -/

namespace Tree

theorem addrs_node (l : Tree) (e : Entry) (r : Tree) :
    (node l e r).addrs = l.addrs ++ e.a :: r.addrs := by
  simp [addrs, toList]

theorem keys_node (l : Tree) (e : Entry) (r : Tree) :
    (node l e r).keys = l.keys ++ e.k :: r.keys := by
  simp [keys, toList]

theorem length_toList (t : Tree) : t.toList.length = t.size := by
  induction t with
  | nil => rfl
  | node l e r ihl ihr => simp [toList, size, ihl, ihr]; omega

theorem height_le_size (t : Tree) : t.height ≤ t.size := by
  induction t with
  | nil => simp [height, size]
  | node l e r ihl ihr => simp only [height, size]; omega

theorem ptr_eq_none {t : Tree} : t.ptr = none ↔ t = nil := by
  cases t <;> simp [ptr]

theorem ptr_mem {t : Tree} {a : Nat} (h : t.ptr = some a) : a ∈ t.addrs := by
  cases t with
  | nil => simp [ptr] at h
  | node l e r => simp [ptr] at h; simp [addrs_node, h]

theorem minA_mem (t : Tree) (d : Nat) : t.minA d ∈ t.addrs ∨ (t = nil ∧ t.minA d = d) := by
  induction t generalizing d with
  | nil => right; simp [minA]
  | node l e r ihl _ =>
    left
    rcases ihl e.a with h | ⟨_, h⟩
    · simp [minA, addrs_node, h]
    · simp [minA, addrs_node, h]

theorem maxA_mem (t : Tree) (d : Nat) : t.maxA d ∈ t.addrs ∨ (t = nil ∧ t.maxA d = d) := by
  induction t generalizing d with
  | nil => right; simp [maxA]
  | node l e r _ ihr =>
    left
    rcases ihr e.a with h | ⟨_, h⟩
    · simp [maxA, addrs_node, h]
    · simp [maxA, addrs_node, h]

theorem minA_eq_head (t : Tree) (d : Nat) : t.minA d = (t.addrs.head?).getD d := by
  induction t generalizing d with
  | nil => simp [minA, addrs, toList]
  | node l e r ihl _ =>
    simp only [minA, addrs_node, ihl]
    cases h : l.addrs <;> simp

theorem maxA_eq_last (t : Tree) (d : Nat) : t.maxA d = (t.addrs.getLast?).getD d := by
  induction t generalizing d with
  | nil => simp [maxA, addrs, toList]
  | node l e r _ ihr =>
    simp only [maxA, addrs_node, ihr]
    cases h : r.addrs with
    | nil => simp
    | cons x xs =>
      have hy : (x :: xs).getLast? = some ((x :: xs).getLast (List.cons_ne_nil _ _)) :=
        List.getLast?_eq_getLast _ _
      simp [List.getLast?_append, hy]

end Tree

/-! ### The representation relation -/

theorem Rep.congr {m m' : Mem} {t : Tree} {q : Option Nat}
    (h : ∀ a ∈ t.addrs, m' a = m a) (hr : Rep m t q) : Rep m' t q := by
  induction t generalizing q with
  | nil => trivial
  | node l e r ihl ihr =>
    obtain ⟨h1, h2, h3⟩ := hr
    refine ⟨?_, ihl ?_ h2, ihr ?_ h3⟩
    · rw [h e.a (by simp [Tree.addrs_node]), h1]
    · intro a ha; exact h a (by simp [Tree.addrs_node, ha])
    · intro a ha; exact h a (by simp [Tree.addrs_node, ha])

/-- Every node of a represented tree is live. -/
theorem Rep.live {m : Mem} {t : Tree} {q : Option Nat} (hr : Rep m t q) {a : Nat}
    (ha : a ∈ t.addrs) : ∃ n, m a = some n := by
  induction t generalizing q with
  | nil => simp [Tree.addrs, Tree.toList] at ha
  | node l e r ihl ihr =>
    obtain ⟨h1, h2, h3⟩ := hr
    simp only [Tree.addrs_node, List.mem_append, List.mem_cons] at ha
    rcases ha with ha | ha | ha
    · exact ihl h2 ha
    · exact ⟨_, ha ▸ h1⟩
    · exact ihr h3 ha

/-- The root record of a represented non-empty tree. -/
theorem Rep.root {m : Mem} {l r : Tree} {e : Entry} {q : Option Nat} (hr : Rep m (.node l e r) q) :
    m e.a = some ⟨e.k, e.v, l.ptr, r.ptr, q, e.p⟩ := hr.1

/-- Changing the parent pointer of the root. -/
theorem Rep.reparent {m : Mem} {l r : Tree} {e : Entry} {q : Option Nat} (q' : Option Nat)
    (hr : Rep m (.node l e r) q) (hn : (Tree.node l e r).addrs.Nodup) :
    Rep (m.set e.a ⟨e.k, e.v, l.ptr, r.ptr, q', e.p⟩) (.node l e r) q' := by
  obtain ⟨_, h2, h3⟩ := hr
  rw [Tree.addrs_node] at hn
  have hd := List.nodup_append.1 hn
  have hel : e.a ∉ l.addrs := fun h => hd.2.2 h (List.mem_cons_self _ _) 
  have her : e.a ∉ r.addrs := (List.nodup_cons.1 hd.2.1).1
  refine ⟨Mem.set_same _ _ _, h2.congr ?_, h3.congr ?_⟩
  · intro a ha; exact Mem.set_other _ _ (fun h => hel (h ▸ ha))
  · intro a ha; exact Mem.set_other _ _ (fun h => her (h ▸ ha))

/-! ### lower_bound, upper_bound, find -/

theorem lower_bound_loop_eq {m : Mem} {t : Tree} {q : Option Nat} (hr : Rep m t q) (key : Int)
    (res fuel : Nat) (hf : t.height < fuel) :
    lower_bound_loop lt m key fuel t.ptr res = some (t.lbT key res) := by
  induction t generalizing q res fuel with
  | nil =>
    cases fuel with
    | zero => omega
    | succ f => simp [Tree.ptr, lower_bound_loop, Tree.lbT]
  | node l e r ihl ihr =>
    obtain ⟨h1, h2, h3⟩ := hr
    cases fuel with
    | zero => omega
    | succ f =>
      simp only [Tree.height] at hf
      simp only [Tree.ptr, lower_bound_loop, h1, Tree.lbT]
      by_cases hk : key ≤ e.k
      · have : lt e.k key = false := by simp [lt, hk]
        simp only [this, hk, if_true, Bool.not_false]
        exact ihl h2 _ _ (by omega)
      · have : lt e.k key = true := by simp [lt]; omega
        simp only [this, hk, if_false, Bool.not_true]
        exact ihr h3 _ _ (by omega)

theorem upper_bound_loop_eq {m : Mem} {t : Tree} {q : Option Nat} (hr : Rep m t q) (key : Int)
    (res fuel : Nat) (hf : t.height < fuel) :
    upper_bound_loop lt m key fuel t.ptr res = some (t.ubT key res) := by
  induction t generalizing q res fuel with
  | nil =>
    cases fuel with
    | zero => omega
    | succ f => simp [Tree.ptr, upper_bound_loop, Tree.ubT]
  | node l e r ihl ihr =>
    obtain ⟨h1, h2, h3⟩ := hr
    cases fuel with
    | zero => omega
    | succ f =>
      simp only [Tree.height] at hf
      simp only [Tree.ptr, upper_bound_loop, h1, Tree.ubT]
      by_cases hk : key < e.k
      · have : lt key e.k = true := by simp [lt, hk]
        simp only [this, hk, if_true]
        exact ihl h2 _ _ (by omega)
      · have : lt key e.k = false := by simp [lt]; omega
        simp only [this, hk, if_false]
        exact ihr h3 _ _ (by omega)

/-- Sortedness of a node: the keys on the left are smaller, those on the right larger. -/
theorem sorted_node {l r : Tree} {e : Entry} (h : (Tree.node l e r).keys.Pairwise (· < ·)) :
    l.keys.Pairwise (· < ·) ∧ r.keys.Pairwise (· < ·) ∧
      (∀ x ∈ l.toList, x.k < e.k) ∧ (∀ x ∈ r.toList, e.k < x.k) := by
  rw [Tree.keys_node, List.pairwise_append, List.pairwise_cons] at h
  refine ⟨h.1, h.2.1.2, ?_, ?_⟩
  · intro x hx
    exact h.2.2 x.k (List.mem_map_of_mem _ hx) e.k (List.mem_cons_self _ _)
  · intro x hx
    exact h.2.1.1 x.k (List.mem_map_of_mem _ hx)

theorem nodup_node {l r : Tree} {e : Entry} (h : (Tree.node l e r).addrs.Nodup) :
    l.addrs.Nodup ∧ r.addrs.Nodup ∧ e.a ∉ l.addrs ∧ e.a ∉ r.addrs ∧
      (∀ a ∈ l.addrs, a ∉ r.addrs) := by
  rw [Tree.addrs_node] at h
  have hd := List.nodup_append.1 h
  have hc := List.nodup_cons.1 hd.2.1
  refine ⟨hd.1, hc.2, fun h' => hd.2.2 h' (List.mem_cons_self _ _), hc.1, ?_⟩
  intro a ha har
  exact hd.2.2 ha (List.mem_cons_of_mem _ har)

/-- The descent of `lower_bound` finds the first element, in order, whose key is not
less than `key`. -/
theorem lbT_eq_find (key : Int) (t : Tree) (res : Nat) (hs : t.keys.Pairwise (· < ·)) :
    t.lbT key res = ((t.toList.find? fun e => decide (key ≤ e.k)).map Entry.a).getD res := by
  induction t generalizing res with
  | nil => simp [Tree.lbT, Tree.toList]
  | node l e r ihl ihr =>
    obtain ⟨hl, hr, hlt, hgt⟩ := sorted_node hs
    simp only [Tree.lbT, Tree.toList, List.find?_append, List.find?_cons]
    by_cases hk : key ≤ e.k
    · simp only [hk, if_true, decide_True, ihl _ hl]
      cases h : l.toList.find? fun e => decide (key ≤ e.k) <;> simp
    · have hnone : (l.toList.find? fun e => decide (key ≤ e.k)) = none := by
        rw [List.find?_eq_none]
        intro x hx
        have := hlt x hx
        simp; omega
      simp only [hk, if_false, decide_False, hnone, ihr _ hr, Option.none_or]

/-- The descent of `upper_bound` finds the first element, in order, whose key is
greater than `key`. -/
theorem ubT_eq_find (key : Int) (t : Tree) (res : Nat) (hs : t.keys.Pairwise (· < ·)) :
    t.ubT key res = ((t.toList.find? fun e => decide (key < e.k)).map Entry.a).getD res := by
  induction t generalizing res with
  | nil => simp [Tree.ubT, Tree.toList]
  | node l e r ihl ihr =>
    obtain ⟨hl, hr, hlt, hgt⟩ := sorted_node hs
    simp only [Tree.ubT, Tree.toList, List.find?_append, List.find?_cons]
    by_cases hk : key < e.k
    · simp only [hk, if_true, decide_True, ihl _ hl]
      cases h : l.toList.find? fun e => decide (key < e.k) <;> simp
    · have hnone : (l.toList.find? fun e => decide (key < e.k)) = none := by
        rw [List.find?_eq_none]
        intro x hx
        have := hlt x hx
        simp; omega
      simp only [hk, if_false, decide_False, hnone, ihr _ hr, Option.none_or]

theorem root_eq {s : treap} {t : Tree} (h : Inv s t) : root s = some t.ptr := by
  simp [root, h.hd, HdrOf]

theorem lower_bound_eq {s : treap} {t : Tree} (h : Inv s t) (key : Int) (fuel : Nat)
    (hf : t.height < fuel) : lower_bound lt fuel s key = some (t.lbT key hdr) := by
  simp only [lower_bound, root_eq h, end_]
  exact lower_bound_loop_eq h.rep key hdr fuel hf

theorem upper_bound_eq {s : treap} {t : Tree} (h : Inv s t) (key : Int) (fuel : Nat)
    (hf : t.height < fuel) : upper_bound lt fuel s key = some (t.ubT key hdr) := by
  simp only [upper_bound, root_eq h, end_]
  exact upper_bound_loop_eq h.rep key hdr fuel hf

/-- The record stored at the address of an element of a represented tree. -/
theorem Rep.get {m : Mem} {t : Tree} {q : Option Nat} (hr : Rep m t q) {e : Entry}
    (he : e ∈ t.toList) : ∃ n, m e.a = some n ∧ n.key = e.k ∧ n.val = e.v ∧ n.pri = e.p := by
  induction t generalizing q with
  | nil => simp [Tree.toList] at he
  | node l e' r ihl ihr =>
    obtain ⟨h1, h2, h3⟩ := hr
    simp only [Tree.toList, List.mem_append, List.mem_cons] at he
    rcases he with he | he | he
    · exact ihl h2 he
    · subst he; exact ⟨_, h1, rfl, rfl, rfl⟩
    · exact ihr h3 he

theorem hdr_not_mem {s : treap} {t : Tree} (h : Inv s t) : hdr ∉ t.addrs := by
  intro hm
  have := (h.fresh _ hm).1
  simp [hdr] at this

/-! ### Successor and predecessor in a list of addresses -/

theorem succL_append_left {l1 : List Nat} (l2 : List Nat) {x : Nat} (d : Nat) (h : x ∈ l1) :
    succL (l1 ++ l2) x d = succL l1 x (l2.head?.getD d) := by
  induction l1 with
  | nil => simp at h
  | cons a as ih =>
    simp only [List.cons_append, succL]
    by_cases hax : a = x
    · simp only [hax, if_true]
      cases as <;> simp
    · simp only [hax, if_false]
      exact ih (by simpa [Ne.symm hax] using h)

theorem succL_append_right {l1 : List Nat} (l2 : List Nat) {x : Nat} (d : Nat) (h : x ∉ l1) :
    succL (l1 ++ l2) x d = succL l2 x d := by
  induction l1 with
  | nil => simp
  | cons a as ih =>
    simp only [List.mem_cons, not_or] at h
    simp only [List.cons_append, succL, Ne.symm h.1, if_false]
    exact ih h.2

theorem succL_not_mem {l : List Nat} {x : Nat} (d : Nat) (h : x ∉ l) : succL l x d = d := by
  simpa [succL] using succL_append_right [] d h

theorem predL_append_left {l1 : List Nat} (l2 : List Nat) {x : Nat} (d : Nat) (h : x ∈ l1) :
    predL (l1 ++ l2) x d = predL l1 x d := by
  induction l1 generalizing d with
  | nil => simp at h
  | cons a as ih =>
    simp only [List.cons_append, predL]
    by_cases hax : a = x
    · simp [hax]
    · simp only [hax, if_false]
      exact ih _ (by simpa [Ne.symm hax] using h)

theorem predL_append_right {l1 : List Nat} (l2 : List Nat) {x : Nat} (d : Nat) (h : x ∉ l1) :
    predL (l1 ++ l2) x d = predL l2 x (l1.getLast?.getD d) := by
  induction l1 generalizing d with
  | nil => simp
  | cons a as ih =>
    simp only [List.mem_cons, not_or] at h
    simp only [List.cons_append, predL, Ne.symm h.1, if_false]
    refine (ih a h.2).trans ?_
    cases as with
    | nil => simp
    | cons b bs =>
      have hy : (b :: bs).getLast? = some ((b :: bs).getLast (List.cons_ne_nil _ _)) :=
        List.getLast?_eq_getLast _ _
      simp [List.getLast?_cons_cons, hy]

namespace Tree

theorem maxA_indep {t : Tree} (h : t ≠ nil) (d d' : Nat) : t.maxA d = t.maxA d' := by
  cases t with
  | nil => exact absurd rfl h
  | node l e r => rfl

theorem minA_indep {t : Tree} (h : t ≠ nil) (d d' : Nat) : t.minA d = t.minA d' := by
  cases t with
  | nil => exact absurd rfl h
  | node l e r => rfl

theorem ne_nil_of_mem {t : Tree} {a : Nat} (h : a ∈ t.addrs) : t ≠ nil := by
  rintro rfl
  simp [addrs, toList] at h

theorem maxA_mem_of_ne_nil {t : Tree} (h : t ≠ nil) (d : Nat) : t.maxA d ∈ t.addrs := by
  rcases maxA_mem t d with h1 | ⟨h1, _⟩
  · exact h1
  · exact absurd h1 h

theorem minA_mem_of_ne_nil {t : Tree} (h : t ≠ nil) (d : Nat) : t.minA d ∈ t.addrs := by
  rcases minA_mem t d with h1 | ⟨h1, _⟩
  · exact h1
  · exact absurd h1 h

/-- After the last address comes the default. -/
theorem succL_maxA {t : Tree} (hn : t.addrs.Nodup) (d d' : Nat) :
    succL t.addrs (t.maxA d') d = d := by
  induction t generalizing d d' with
  | nil => simp [addrs, toList, succL]
  | node l e r _ ihr =>
    obtain ⟨_, hrn, hel, her, hlr⟩ := nodup_node hn
    rw [addrs_node]
    simp only [maxA]
    by_cases hr : r = nil
    · subst hr
      have : succL (l.addrs ++ e.a :: nil.addrs) e.a d = succL (e.a :: nil.addrs) e.a d :=
        succL_append_right _ _ hel
      simp only [maxA, this]
      simp [addrs, toList, succL]
    · have hm := maxA_mem_of_ne_nil hr e.a
      have h1 : r.maxA e.a ∉ l.addrs := fun h => hlr _ h hm
      have h2 : e.a ≠ r.maxA e.a := fun h => her (h ▸ hm)
      rw [succL_append_right _ _ h1]
      simp only [succL, h2, if_false]
      exact ihr hrn _ _

/-- Before the first address comes the default. -/
theorem predL_minA {t : Tree} (d d' : Nat) :
    predL t.addrs (t.minA d') d = d := by
  induction t generalizing d d' with
  | nil => simp [addrs, toList, predL]
  | node l e r ihl _ =>
    rw [addrs_node]
    simp only [minA]
    by_cases hl : l = nil
    · subst hl
      simp [minA, addrs, toList, predL]
    · have hm := minA_mem_of_ne_nil hl e.a
      rw [predL_append_left _ _ hm]
      exact ihl _ _

end Tree

/-! ### operator++ -/

theorem inc_down_eq {m : Mem} {t : Tree} {q : Option Nat} (hr : Rep m t q) {a : Nat}
    (ha : t.ptr = some a) (fuel : Nat) (hf : t.height ≤ fuel) :
    inc_down m fuel a = some (t.minA a) := by
  induction t generalizing q a fuel with
  | nil => simp [Tree.ptr] at ha
  | node l e r ihl _ =>
    obtain ⟨h1, h2, _⟩ := hr
    simp only [Tree.ptr, Option.some.injEq] at ha
    subst ha
    simp only [Tree.height] at hf
    cases fuel with
    | zero => omega
    | succ f =>
      simp only [inc_down, h1, Tree.minA]
      cases hl : l with
      | nil => simp [Tree.ptr, Tree.minA]
      | node ll e' lr =>
        subst hl
        simp only [Tree.ptr]
        rw [ihl h2 rfl f (by omega)]
        rfl

theorem dec_down_eq {m : Mem} {t : Tree} {q : Option Nat} (hr : Rep m t q) {a : Nat}
    (ha : t.ptr = some a) (fuel : Nat) (hf : t.height ≤ fuel) :
    dec_down m fuel a = some (t.maxA a) := by
  induction t generalizing q a fuel with
  | nil => simp [Tree.ptr] at ha
  | node l e r _ ihr =>
    obtain ⟨h1, _, h3⟩ := hr
    simp only [Tree.ptr, Option.some.injEq] at ha
    subst ha
    simp only [Tree.height] at hf
    cases fuel with
    | zero => omega
    | succ f =>
      simp only [dec_down, h1, Tree.maxA]
      cases hl : r with
      | nil => simp [Tree.ptr, Tree.maxA]
      | node rl e' rr =>
        subst hl
        simp only [Tree.ptr]
        rw [ihr h3 rfl f (by omega)]
        rfl

/-- The rightmost node has no right child. -/
theorem Rep.max_right {m : Mem} {t : Tree} {q : Option Nat} (hr : Rep m t q) (hne : t ≠ .nil)
    (d : Nat) : ∃ n, m (t.maxA d) = some n ∧ n.right = none := by
  induction t generalizing q d with
  | nil => exact absurd rfl hne
  | node l e r _ ihr =>
    obtain ⟨h1, _, h3⟩ := hr
    by_cases hr' : r = .nil
    · subst hr'
      exact ⟨_, h1, rfl⟩
    · exact ihr h3 hr' _

/-- The leftmost node has no left child. -/
theorem Rep.min_left {m : Mem} {t : Tree} {q : Option Nat} (hr : Rep m t q) (hne : t ≠ .nil)
    (d : Nat) : ∃ n, m (t.minA d) = some n ∧ n.left = none := by
  induction t generalizing q d with
  | nil => exact absurd rfl hne
  | node l e r ihl _ =>
    obtain ⟨h1, h2, _⟩ := hr
    by_cases hl' : l = .nil
    · subst hl'
      exact ⟨_, h1, rfl⟩
    · exact ihl h2 hl' _

/-- From the rightmost node the ascent of `operator++` reaches the root of the subtree. -/
theorem inc_up_spine {m : Mem} {l r : Tree} {e : Entry} {q : Option Nat}
    (hr : Rep m (.node l e r) q) (x : Nat) :
    ∃ d, d ≤ r.height ∧ ∀ f, inc_up m (f + d) ((Tree.node l e r).maxA x) = inc_up m f e.a := by
  induction r generalizing l e q x with
  | nil => exact ⟨0, by simp, fun f => rfl⟩
  | node rl e' rr _ ihr =>
    obtain ⟨h1, _, h3⟩ := hr
    obtain ⟨d, hd, hd'⟩ := ihr h3 e.a
    refine ⟨d + 1, by simp only [Tree.height]; omega, fun f => ?_⟩
    have : (Tree.node l e (.node rl e' rr)).maxA x = (Tree.node rl e' rr).maxA e.a := rfl
    rw [this, ← Nat.add_assoc, Nat.add_right_comm, hd' (f + 1)]
    simp [inc_up, h3.1, h1, Tree.ptr]

/-- From the leftmost node the ascent of `operator--` reaches the root of the subtree. -/
theorem dec_up_spine {m : Mem} {l r : Tree} {e : Entry} {q : Option Nat}
    (hr : Rep m (.node l e r) q) (x : Nat) :
    ∃ d, d ≤ l.height ∧ ∀ f, dec_up m (f + d) ((Tree.node l e r).minA x) = dec_up m f e.a := by
  induction l generalizing r e q x with
  | nil => exact ⟨0, by simp, fun f => rfl⟩
  | node ll e' lr ihl _ =>
    obtain ⟨h1, h2, _⟩ := hr
    obtain ⟨d, hd, hd'⟩ := ihl h2 e.a
    refine ⟨d + 1, by simp only [Tree.height]; omega, fun f => ?_⟩
    have : (Tree.node (.node ll e' lr) e r).minA x = (Tree.node ll e' lr).minA e.a := rfl
    rw [this, ← Nat.add_assoc, Nat.add_right_comm, hd' (f + 1)]
    simp [dec_up, h2.1, h1, Tree.ptr]

/-- Inside a subtree, `operator++` on a node that is not the rightmost one yields the
next address in order. -/
theorem inc_inner {m : Mem} {t : Tree} {q : Option Nat} (hr : Rep m t q) (hn : t.addrs.Nodup)
    {x : Nat} (hx : x ∈ t.addrs) (hlast : x ≠ t.maxA x) (fuel : Nat) (hf : t.height < fuel)
    (d : Nat) : inc m fuel x = some (succL t.addrs x d) := by
  induction t generalizing q d with
  | nil => simp [Tree.addrs, Tree.toList] at hx
  | node l e r ihl ihr =>
    obtain ⟨h1, h2, h3⟩ := hr
    obtain ⟨hln, hrn, hel, her, hlr⟩ := nodup_node hn
    simp only [Tree.height] at hf
    rw [Tree.addrs_node] at hx ⊢
    simp only [List.mem_append, List.mem_cons] at hx
    rcases hx with hx | hx | hx
    · -- x in the left subtree
      rw [succL_append_left _ _ hx]
      simp only [List.head?_cons, Option.getD_some]
      by_cases hxl : x = l.maxA x
      · -- the rightmost node of the left subtree: climb to the root of that subtree
        have hlne := Tree.ne_nil_of_mem hx
        obtain ⟨n, hn1, hn2⟩ := h2.max_right hlne x
        rw [← hxl] at hn1
        have hs := Tree.succL_maxA hln e.a x
        rw [← hxl] at hs
        rw [hs]
        cases hl : l with
        | nil => exact absurd hl hlne
        | node ll e' lr =>
          subst hl
          obtain ⟨dd, hdd, hup⟩ := inc_up_spine h2 x
          rw [← hxl] at hup
          simp only [Tree.height] at hf hdd
          obtain ⟨f, rfl⟩ : ∃ f, fuel = f + 1 + dd := ⟨fuel - 1 - dd, by omega⟩
          have hroot := h2.1
          have hne1 : r.ptr ≠ some e'.a := by
            intro h
            exact hlr e'.a (by simp [Tree.addrs_node]) (Tree.ptr_mem h)
          have hne2 : (some e.a : Option Nat) ≠ lr.ptr := by
            intro h
            exact hel (by simp [Tree.addrs_node, Tree.ptr_mem h.symm])
          simp only [inc, hn1, hn2, hup (f + 1)]
          simp [inc_up, hroot, h1, hne1, hne2]
      · exact ihl h2 hln hx hxl (by omega) _
    · -- x is the root of this subtree
      subst hx
      have hrne : r ≠ .nil := by
        rintro rfl
        exact hlast rfl
      rw [succL_append_right _ _ hel]
      cases hr' : r with
      | nil => exact absurd hr' hrne
      | node rl e' rr =>
        subst hr'
        simp only [inc, h1, Tree.ptr]
        rw [inc_down_eq h3 rfl fuel (by omega)]
        simp only [succL, if_true, Tree.minA_eq_head]
        have : ∃ y ys, (Tree.node rl e' rr).addrs = y :: ys := by
          cases h : (Tree.node rl e' rr).addrs with
          | nil =>
            have := Tree.ptr_mem (t := Tree.node rl e' rr) rfl
            simp [h] at this
          | cons y ys => exact ⟨y, ys, rfl⟩
        obtain ⟨y, ys, hy⟩ := this
        simp [hy]
    · -- x in the right subtree
      have hxl : x ∉ l.addrs := fun h => hlr _ h hx
      have hxe : e.a ≠ x := fun h => her (h ▸ hx)
      rw [succL_append_right _ _ hxl]
      simp only [succL, hxe, if_false]
      have hrne := Tree.ne_nil_of_mem hx
      have : x ≠ r.maxA x := by
        intro h
        apply hlast
        simp only [Tree.maxA]
        rw [Tree.maxA_indep hrne e.a x]
        exact h
      exact ihr h3 hrn hx this (by omega) _

/-- Inside a subtree, `operator--` on a node that is not the leftmost one yields the
previous address in order. -/
theorem dec_inner {m : Mem} {t : Tree} {q : Option Nat} (hr : Rep m t q) (hn : t.addrs.Nodup)
    {x : Nat} (hx : x ∈ t.addrs) (hfirst : x ≠ t.minA x) (fuel : Nat) (hf : t.height < fuel)
    (d : Nat) : dec m fuel x = some (predL t.addrs x d) := by
  induction t generalizing q d with
  | nil => simp [Tree.addrs, Tree.toList] at hx
  | node l e r ihl ihr =>
    obtain ⟨h1, h2, h3⟩ := hr
    obtain ⟨hln, hrn, hel, her, hlr⟩ := nodup_node hn
    simp only [Tree.height] at hf
    rw [Tree.addrs_node] at hx ⊢
    simp only [List.mem_append, List.mem_cons] at hx
    rcases hx with hx | hx | hx
    · -- x in the left subtree
      rw [predL_append_left _ _ hx]
      have hlne := Tree.ne_nil_of_mem hx
      have : x ≠ l.minA x := by
        intro h
        apply hfirst
        simp only [Tree.minA]
        rw [Tree.minA_indep hlne e.a x]
        exact h
      exact ihl h2 hln hx this (by omega) _
    · -- x is the root of this subtree
      subst hx
      have hlne : l ≠ .nil := by
        rintro rfl
        exact hfirst rfl
      rw [predL_append_right _ _ hel]
      cases hl' : l with
      | nil => exact absurd hl' hlne
      | node ll e' lr =>
        subst hl'
        simp only [dec, h1, Tree.ptr, h2.1]
        simp only [ne_eq, not_true_eq_false, if_false]
        rw [dec_down_eq h2 rfl fuel (by omega)]
        simp only [predL, if_true]
        rw [← Tree.maxA_eq_last]
        rfl
    · -- x in the right subtree
      have hxl : x ∉ l.addrs := fun h => hlr _ h hx
      have hxe : e.a ≠ x := fun h => her (h ▸ hx)
      rw [predL_append_right _ _ hxl]
      simp only [predL, hxe, if_false]
      by_cases hxr : x = r.minA x
      · have hrne := Tree.ne_nil_of_mem hx
        obtain ⟨n, hn1, hn2⟩ := h3.min_left hrne x
        rw [← hxr] at hn1
        have hs := Tree.predL_minA (t := r) e.a x
        rw [← hxr] at hs
        rw [hs]
        cases hr' : r with
        | nil => exact absurd hr' hrne
        | node rl e' rr =>
          subst hr'
          obtain ⟨dd, hdd, hup⟩ := dec_up_spine h3 x
          rw [← hxr] at hup
          simp only [Tree.height] at hf hdd
          obtain ⟨f, rfl⟩ : ∃ f, fuel = f + 1 + dd := ⟨fuel - 1 - dd, by omega⟩
          have hroot := h3.1
          have hne1 : l.ptr ≠ some e'.a := by
            intro h
            exact hlr e'.a (Tree.ptr_mem h) (by simp [Tree.addrs_node])
          simp only [dec, hn1, hn2, hup (f + 1)]
          simp [dec_up, hroot, h1, hne1]
      · exact ihr h3 hrn hx hxr (by omega) _

/-- The parent pointer of a node of a represented tree: the owner of the slot for the
root, a node of the tree otherwise. -/
theorem Rep.par_cases {m : Mem} {t : Tree} {q : Option Nat} (hr : Rep m t q) {x : Nat}
    (hx : x ∈ t.addrs) :
    ∃ n, m x = some n ∧ ((t.ptr = some x ∧ n.par = q) ∨ ∃ p ∈ t.addrs, n.par = some p) := by
  induction t generalizing q with
  | nil => simp [Tree.addrs, Tree.toList] at hx
  | node l e r ihl ihr =>
    obtain ⟨h1, h2, h3⟩ := hr
    rw [Tree.addrs_node] at hx ⊢
    simp only [List.mem_append, List.mem_cons] at hx
    rcases hx with hx | hx | hx
    · obtain ⟨n, hn, hc⟩ := ihl h2 hx
      refine ⟨n, hn, Or.inr ?_⟩
      rcases hc with ⟨_, hc⟩ | ⟨p, hp, hc⟩
      · exact ⟨e.a, by simp, hc⟩
      · exact ⟨p, by simp [hp], hc⟩
    · subst hx
      exact ⟨_, h1, Or.inl ⟨rfl, rfl⟩⟩
    · obtain ⟨n, hn, hc⟩ := ihr h3 hx
      refine ⟨n, hn, Or.inr ?_⟩
      rcases hc with ⟨_, hc⟩ | ⟨p, hp, hc⟩
      · exact ⟨e.a, by simp, hc⟩
      · exact ⟨p, by simp [hp], hc⟩

/-- On the whole container `operator++` yields the next address in order, and `end()`
after the last one. -/
theorem inc_eq {m : Mem} {t : Tree} (hd : m hdr = some (HdrOf t)) (hr : Rep m t (some hdr))
    (hn : t.addrs.Nodup) (hh : hdr ∉ t.addrs) {x : Nat} (hx : x ∈ t.addrs) (fuel : Nat)
    (hf : t.height + 2 ≤ fuel) : inc m fuel x = some (succL t.addrs x hdr) := by
  by_cases hlast : x = t.maxA x
  · have hne := Tree.ne_nil_of_mem hx
    obtain ⟨n, hn1, hn2⟩ := hr.max_right hne x
    rw [← hlast] at hn1
    have hs := Tree.succL_maxA hn hdr x
    rw [← hlast] at hs
    rw [hs]
    cases ht : t with
    | nil => exact absurd ht hne
    | node l e r =>
      subst ht
      obtain ⟨dd, hdd, hup⟩ := inc_up_spine hr x
      rw [← hlast] at hup
      simp only [Tree.height] at hf hdd
      obtain ⟨f, rfl⟩ : ∃ f, fuel = f + 2 + dd := ⟨fuel - 2 - dd, by omega⟩
      have hroot := hr.1
      obtain ⟨_, _, hel, her, _⟩ := nodup_node hn
      have hmax : (Tree.node l e r).maxA hdr = x := by
        rw [hlast]; rfl
      simp only [inc, hn1, hn2, hup (f + 2)]
      by_cases hrn : r = .nil
      · subst hrn
        have hxe : x = e.a := by rw [hlast]; rfl
        subst hxe
        simp [inc_up, hroot, hd, HdrOf, Tree.ptr, Tree.maxA]
      · have hxe : x ≠ e.a := by
          intro h
          apply her
          rw [← h, hlast]
          simp only [Tree.maxA]
          exact Tree.maxA_mem_of_ne_nil hrn _
        have hne2 : (some hdr : Option Nat) ≠ r.ptr := by
          intro h
          exact hh (by simp [Tree.addrs_node, Tree.ptr_mem h.symm])
        simp [inc_up, hroot, hd, HdrOf, hmax, hxe, hne2]
  · exact inc_inner hr hn hx hlast fuel (by omega) hdr

/-- On the whole container `operator--` yields the previous address in order, for
every node but the first. -/
theorem dec_eq {m : Mem} {t : Tree} (hr : Rep m t (some hdr))
    (hn : t.addrs.Nodup) {x : Nat} (hx : x ∈ t.addrs) (hfirst : x ≠ t.minA hdr) (fuel : Nat)
    (hf : t.height < fuel) : dec m fuel x = some (predL t.addrs x hdr) := by
  have hne := Tree.ne_nil_of_mem hx
  rw [Tree.minA_indep hne hdr x] at hfirst
  exact dec_inner hr hn hx hfirst fuel hf hdr

/-- Decrementing `end()` yields the rightmost node (and `end()` on the empty container). -/
theorem dec_hdr {m : Mem} {t : Tree} (hd : m hdr = some (HdrOf t)) (hr : Rep m t (some hdr))
    (hh : hdr ∉ t.addrs) (fuel : Nat) (hf : t.height ≤ fuel) :
    dec m fuel hdr = some (t.maxA hdr) := by
  cases t with
  | nil => simp [dec, hd, HdrOf, Tree.minA, Tree.maxA, Tree.ptr]
  | node l e r =>
    by_cases hl : l = .nil
    · subst hl
      have hroot := hr.1
      simp only [dec, hd, HdrOf, Tree.minA, hroot]
      simp only [ne_eq, not_true_eq_false, if_false]
      exact dec_down_eq hr rfl fuel hf
    · have hm := Tree.minA_mem_of_ne_nil hl e.a
      obtain ⟨n, hn1, hc⟩ := hr.2.1.par_cases hm
      have hpar : n.par ≠ some hdr := by
        rcases hc with ⟨_, hc⟩ | ⟨p, hp, hc⟩
        · rw [hc]
          intro h
          simp only [Option.some.injEq] at h
          exact hh (by simp [Tree.addrs_node, h])
        · rw [hc]
          intro h
          simp only [Option.some.injEq] at h
          exact hh (by simp [Tree.addrs_node, ← h, hp])
      simp [dec, hd, HdrOf, Tree.minA, hn1, hpar]

/-! ### The graft of `insert_` -/

namespace Tree

theorem attach_ptr (x : Entry) {t : Tree} (h : t ≠ nil) : (t.attach x).ptr = t.ptr := by
  cases t with
  | nil => exact absurd rfl h
  | node l e r =>
    simp only [attach]
    split <;> rfl

theorem lbT_mem (key : Int) (t : Tree) (res : Nat) :
    t.lbT key res ∈ t.addrs ∨ t.lbT key res = res := by
  induction t generalizing res with
  | nil => right; rfl
  | node l e r ihl ihr =>
    simp only [lbT, addrs_node]
    split
    · left
      rcases ihl e.a with h | h
      · simp [h]
      · simp [h]
    · rcases ihr res with h | h
      · left; simp [h]
      · right; exact h

theorem ubT_mem (key : Int) (t : Tree) (res : Nat) :
    t.ubT key res ∈ t.addrs ∨ t.ubT key res = res := by
  induction t generalizing res with
  | nil => right; rfl
  | node l e r ihl ihr =>
    simp only [ubT, addrs_node]
    split
    · left
      rcases ihl e.a with h | h
      · simp [h]
      · simp [h]
    · rcases ihr res with h | h
      · left; simp [h]
      · right; exact h

theorem toList_attach_perm (x : Entry) (t : Tree) : (t.attach x).toList.Perm (x :: t.toList) := by
  induction t with
  | nil => simp [attach, toList]
  | node l e r ihl ihr =>
    simp only [attach]
    split
    · simp only [toList]
      exact (List.Perm.append_right _ ihl)
    · simp only [toList]
      refine (List.Perm.append_left _ (List.Perm.cons _ ihr)).trans ?_
      refine (List.Perm.append_left _ (List.Perm.swap _ _ _)).trans ?_
      exact List.perm_middle

theorem mem_attach {x y : Entry} {t : Tree} : y ∈ (t.attach x).toList ↔ y = x ∨ y ∈ t.toList := by
  rw [(toList_attach_perm x t).mem_iff]; simp

theorem addrs_attach_perm (x : Entry) (t : Tree) : (t.attach x).addrs.Perm (x.a :: t.addrs) := by
  simpa [addrs] using (toList_attach_perm x t).map Entry.a

end Tree

theorem graft_left {m : Mem} {pos : Nat} {pn : node} (hp : m pos = some pn)
    (hl : pn.left = none) (fuel it : Nat) :
    graft m fuel pos it =
      (setLeft m pos (some it)).bind fun m1 =>
        (setPar m1 it (some pos)).map fun m2 => (m2, pos) := by
  simp only [graft, hp, hl]
  cases setLeft m pos (some it) <;> simp

theorem graft_dec {m : Mem} {pos c par : Nat} {pn : node} (hp : m pos = some pn)
    (hl : pn.left = some c) (fuel it : Nat) (hd : dec m fuel pos = some par) :
    graft m fuel pos it =
      (setRight m par (some it)).bind fun m1 =>
        (setPar m1 it (some par)).map fun m2 => (m2, par) := by
  simp only [graft, hp, hl, hd]
  cases setRight m par (some it) <;> simp

/-- Hanging the new leaf as the right child of the rightmost node of a subtree all of
whose keys are smaller. -/
theorem graft_right {m : Mem} {t : Tree} {q : Option Nat} (hr : Rep m t q) (hne : t ≠ .nil)
    (hn : t.addrs.Nodup) (x : Entry) (hx : x.a ∉ t.addrs) (res : Nat) (hres : res ∉ t.addrs)
    (hlb : t.lbT x.k res = res) (hm : m x.a = some ⟨x.k, x.v, none, none, none, x.p⟩)
    (d pa : Nat) :
    ∃ m1 m', setRight m (t.maxA d) (some x.a) = some m1 ∧
      setPar m1 x.a (some (t.maxA d)) = some m' ∧ Rep m' (t.attach x) q ∧
      (∀ a, a ∉ t.addrs → a ≠ x.a → m' a = m a) ∧ t.attachPar x pa = t.maxA d := by
  induction t generalizing q d pa with
  | nil => exact absurd rfl hne
  | node l e r _ ihr =>
    obtain ⟨h1, h2, h3⟩ := hr
    obtain ⟨hln, hrn, hel, her, hlr⟩ := nodup_node hn
    have hxe : x.a ≠ e.a := fun h => hx (by simp [Tree.addrs_node, h])
    have hxl : x.a ∉ l.addrs := fun h => hx (by simp [Tree.addrs_node, h])
    have hxr : x.a ∉ r.addrs := fun h => hx (by simp [Tree.addrs_node, h])
    have hk : ¬ x.k ≤ e.k := by
      intro hk
      simp only [Tree.lbT, hk, if_true] at hlb
      rcases Tree.lbT_mem x.k l e.a with h | h
      · exact hres (by rw [← hlb]; simp [Tree.addrs_node, h])
      · exact hres (by rw [← hlb, h]; simp [Tree.addrs_node])
    have hk' : ¬ x.k < e.k := fun h => hk (le_of_lt h)
    simp only [Tree.lbT, hk, if_false] at hlb
    simp only [Tree.attach, Tree.attachPar, hk', if_false, Tree.maxA]
    by_cases hrne : r = .nil
    · subst hrne
      simp only [Tree.maxA, Tree.attach, Tree.attachPar]
      refine ⟨_, (m.set e.a ⟨e.k, e.v, l.ptr, some x.a, q, e.p⟩).set x.a
        ⟨x.k, x.v, none, none, some e.a, x.p⟩, setRight_some h1 _, ?_, ?_, ?_, trivial⟩
      · rw [setPar_some (n := ⟨x.k, x.v, none, none, none, x.p⟩)]
        rw [Mem.set_other _ _ hxe]; exact hm
      · refine ⟨?_, ?_, ?_, trivial, trivial⟩
        · rw [Mem.set_other _ _ hxe.symm, Mem.set_same]; rfl
        · refine h2.congr fun a ha => ?_
          have ha1 : a ≠ x.a := fun h => hxl (h ▸ ha)
          have ha2 : a ≠ e.a := fun h => hel (h ▸ ha)
          rw [Mem.set_other _ _ ha1, Mem.set_other _ _ ha2]
        · rw [Mem.set_same]; rfl
      · intro a ha hax
        rw [Mem.set_other _ _ hax, Mem.set_other _ _ (fun h => ha (by simp [Tree.addrs_node, h]))]
    · obtain ⟨m1, m', hs1, hs2, hrep, hfr, hap⟩ :=
        ihr h3 hrne hrn hxr (fun h => hres (by simp [Tree.addrs_node, h])) hlb e.a e.a
      refine ⟨m1, m', hs1, hs2, ?_, ?_, hap⟩
      · refine ⟨?_, ?_, hrep⟩
        · rw [hfr e.a her hxe.symm, h1, Tree.attach_ptr x hrne]
        · refine h2.congr fun a ha => ?_
          exact hfr a (hlr a ha) (fun h => hxl (h ▸ ha))
      · intro a ha hax
        exact hfr a (fun h => ha (by simp [Tree.addrs_node, h])) hax

/-- The graft at the position found by `lower_bound`, when that position is a node of
the subtree. -/
theorem graft_inner {m : Mem} {t : Tree} {q : Option Nat} (hr : Rep m t q)
    (hn : t.addrs.Nodup) (x : Entry) (hx : x.a ∉ t.addrs) (hk : x.k ∉ t.keys) (res : Nat)
    (hres : res ∉ t.addrs) (hlb : t.lbT x.k res ∈ t.addrs)
    (hm : m x.a = some ⟨x.k, x.v, none, none, none, x.p⟩) (fuel : Nat) (hf : t.height ≤ fuel)
    (pa : Nat) :
    ∃ m', graft m fuel (t.lbT x.k res) x.a = some (m', t.attachPar x pa) ∧
      Rep m' (t.attach x) q ∧ (∀ a, a ∉ t.addrs → a ≠ x.a → m' a = m a) := by
  induction t generalizing q res pa with
  | nil => simp [Tree.addrs, Tree.toList] at hlb
  | node l e r ihl ihr =>
    obtain ⟨h1, h2, h3⟩ := hr
    obtain ⟨hln, hrn, hel, her, hlr⟩ := nodup_node hn
    have hxe : x.a ≠ e.a := fun h => hx (by simp [Tree.addrs_node, h])
    have hxl : x.a ∉ l.addrs := fun h => hx (by simp [Tree.addrs_node, h])
    have hxr : x.a ∉ r.addrs := fun h => hx (by simp [Tree.addrs_node, h])
    have hke : x.k ≠ e.k := fun h => hk (by simp [Tree.keys_node, h])
    have hkl : x.k ∉ l.keys := fun h => hk (by simp [Tree.keys_node, h])
    have hkr : x.k ∉ r.keys := fun h => hk (by simp [Tree.keys_node, h])
    simp only [Tree.height] at hf
    by_cases hlt : x.k < e.k
    · have hle : x.k ≤ e.k := le_of_lt hlt
      simp only [Tree.lbT, hle, if_true, Tree.attach, Tree.attachPar, hlt] at hlb ⊢
      rcases Tree.lbT_mem x.k l e.a with hin | heq
      · -- the position is inside the left subtree
        have hlne := Tree.ne_nil_of_mem hin
        obtain ⟨m', hg, hrep, hfr⟩ := ihl h2 hln hxl hkl e.a hel hin (by omega) e.a
        refine ⟨m', hg, ⟨?_, hrep, ?_⟩, ?_⟩
        · rw [hfr e.a hel hxe.symm, h1, Tree.attach_ptr x hlne]
        · refine h3.congr fun a ha => ?_
          exact hfr a (fun h => hlr a h ha) (fun h => hxr (h ▸ ha))
        · intro a ha hax
          exact hfr a (fun h => ha (by simp [Tree.addrs_node, h])) hax
      · -- the position is this node
        rw [heq]
        by_cases hlne : l = .nil
        · subst hlne
          rw [graft_left h1 rfl, setLeft_some h1]
          simp only [Option.some_bind, Tree.attach, Tree.attachPar]
          rw [setPar_some (n := ⟨x.k, x.v, none, none, none, x.p⟩)]
          · refine ⟨_, rfl, ⟨?_, ⟨?_, trivial, trivial⟩, ?_⟩, ?_⟩
            · rw [Mem.set_other _ _ hxe.symm, Mem.set_same]; rfl
            · rw [Mem.set_same]; rfl
            · refine h3.congr fun a ha => ?_
              have ha1 : a ≠ x.a := fun h => hxr (h ▸ ha)
              have ha2 : a ≠ e.a := fun h => her (h ▸ ha)
              rw [Mem.set_other _ _ ha1, Mem.set_other _ _ ha2]
            · intro a ha hax
              rw [Mem.set_other _ _ hax,
                Mem.set_other _ _ (fun h => ha (by simp [Tree.addrs_node, h]))]
          · rw [Mem.set_other _ _ hxe]; exact hm
        · obtain ⟨m1, m', hs1, hs2, hrep, hfr, hap⟩ :=
            graft_right h2 hlne hln x hxl e.a hel heq hm e.a e.a
          have hdec : dec m fuel e.a = some (l.maxA e.a) := by
            cases hl' : l with
            | nil => exact absurd hl' hlne
            | node ll e' lr =>
              subst hl'
              simp only [dec, h1, Tree.ptr, h2.1]
              simp only [ne_eq, not_true_eq_false, if_false]
              exact dec_down_eq h2 rfl fuel (by omega)
          have hlp : ∃ c, l.ptr = some c := by
            cases l with
            | nil => exact absurd rfl hlne
            | node ll e' lr => exact ⟨_, rfl⟩
          obtain ⟨c, hc⟩ := hlp
          rw [graft_dec h1 hc fuel x.a hdec, hs1]
          simp only [Option.some_bind, hs2, Option.map_some', hap]
          refine ⟨m', rfl, ⟨?_, hrep, ?_⟩, ?_⟩
          · rw [hfr e.a hel hxe.symm, h1, Tree.attach_ptr x hlne]
          · refine h3.congr fun a ha => ?_
            exact hfr a (fun h => hlr a h ha) (fun h => hxr (h ▸ ha))
          · intro a ha hax
            exact hfr a (fun h => ha (by simp [Tree.addrs_node, h])) hax
    · have hle : ¬ x.k ≤ e.k := fun h => hlt (lt_of_le_of_ne h hke)
      simp only [Tree.lbT, hle, if_false, Tree.attach, Tree.attachPar, hlt] at hlb ⊢
      have hin : r.lbT x.k res ∈ r.addrs := by
        rcases Tree.lbT_mem x.k r res with h | h
        · exact h
        · rw [h] at hlb; exact absurd hlb hres
      have hrne := Tree.ne_nil_of_mem hin
      obtain ⟨m', hg, hrep, hfr⟩ :=
        ihr h3 hrn hxr hkr res (fun h => hres (by simp [Tree.addrs_node, h])) hin (by omega) e.a
      refine ⟨m', hg, ⟨?_, ?_, hrep⟩, ?_⟩
      · rw [hfr e.a her hxe.symm, h1, Tree.attach_ptr x hrne]
      · refine h2.congr fun a ha => ?_
        exact hfr a (hlr a ha) (fun h => hxl (h ▸ ha))
      · intro a ha hax
        exact hfr a (fun h => ha (by simp [Tree.addrs_node, h])) hax

/-! ### Rotations -/

theorem Mem.set_apply (m : Mem) (a b : Nat) (n : node) :
    m.set a n b = if b = a then some n else m b := rfl

theorem IsSlot.put_self {sl : Slot} {g : Nat} {gn : node} {a : Nat} (h : IsSlot sl g gn a) :
    sl.put gn (some a) = gn := by
  cases sl
  · obtain ⟨_, h⟩ := h; simp [Slot.put, ← h]
  · obtain ⟨_, _, h⟩ := h; simp [Slot.put, ← h]
  · obtain ⟨_, _, _, h⟩ := h; simp [Slot.put, ← h]

theorem rotate_relink_eq {m : Mem} {par child g : Nat} {pn gn : node} {sl : Slot}
    (hp : m par = some pn) (hpp : pn.par = some g) (hg : m g = some gn)
    (hs : IsSlot sl g gn par) :
    rotate_relink m par child = some (m.set g (sl.put gn (some child))) := by
  simp only [rotate_relink, hp, hpp, hg]
  cases sl
  · obtain ⟨_, h⟩ := hs
    simp [h, setPar, hg, Slot.put]
  · obtain ⟨_, h1, h2⟩ := hs
    simp [h1, h2, setLeft, hg, Slot.put]
  · obtain ⟨_, h1, h2, h3⟩ := hs
    simp [h1, h2, setRight, hg, Slot.put]

/-- Memory-level effect of `rotate_right(par, child)`. -/
theorem rotate_right_mem {m : Mem} {p c g : Nat} {gn : node} {sl : Slot}
    {pk pv ck cv : Int} {pp cp : Nat} {pr cl cr : Option Nat}
    (hp : m p = some ⟨pk, pv, some c, pr, some g, pp⟩)
    (hc : m c = some ⟨ck, cv, cl, cr, some p, cp⟩)
    (hg : m g = some gn) (hs : IsSlot sl g gn p)
    (hgp : g ≠ p) (hgc : g ≠ c) (hpc : p ≠ c)
    (hcr : ∀ y, cr = some y → y ≠ g ∧ y ≠ p ∧ y ≠ c ∧ ∃ yn, m y = some yn) :
    ∃ m', rotate_right m p c = some m' ∧
      m' g = some (sl.put gn (some c)) ∧
      m' c = some ⟨ck, cv, cl, some p, some g, cp⟩ ∧
      m' p = some ⟨pk, pv, cr, pr, some c, pp⟩ ∧
      (∀ y, cr = some y → m' y = (m y).map fun n => { n with par := some p }) ∧
      (∀ y, y ≠ g → y ≠ p → y ≠ c → cr ≠ some y → m' y = m y) := by
  have hm1c : (m.set g (sl.put gn (some c))) c = some ⟨ck, cv, cl, cr, some p, cp⟩ := by
    rw [Mem.set_other _ _ hgc.symm, hc]
  have hm1p : (m.set g (sl.put gn (some c))) p = some ⟨pk, pv, some c, pr, some g, pp⟩ := by
    rw [Mem.set_other _ _ hgp.symm, hp]
  simp only [rotate_right, rotate_relink_eq hp rfl hg hs, hm1c, hm1p]
  cases cr with
  | none =>
    simp only [setPar, setRight, setLeft, hm1c, hm1p, Option.some_bind, Mem.set_apply, hpc,
      hpc.symm, if_true, if_false]
    refine ⟨_, rfl, ?_, ?_, ?_, ?_, ?_⟩
    · simp [Mem.set, hgp, hgc]
    · simp [Mem.set, hpc.symm]
    · simp [Mem.set]
    · intro y hy; simp at hy
    · intro y h1 h2 h3 _
      simp [Mem.set, h1, h2, h3]
  | some y =>
    obtain ⟨hyg, hyp, hyc, yn, hy⟩ := hcr y rfl
    simp only [setPar, setRight, setLeft, hm1c, hm1p, Option.some_bind, Mem.set_apply, hpc,
      hpc.symm, hyg, hyp, hyc, hyp.symm, hy, if_true, if_false]
    refine ⟨_, rfl, ?_, ?_, ?_, ?_, ?_⟩
    · simp [Mem.set, hgp, hgc, hyg.symm]
    · simp [Mem.set, hpc.symm, hyc.symm]
    · simp [Mem.set]
    · intro y' hy'
      simp only [Option.some.injEq] at hy'
      subst hy'
      simp [Mem.set, hyp, hy]
    · intro y' h1 h2 h3 h4
      have : y' ≠ y := fun h => h4 (by rw [h])
      simp [Mem.set, h1, h2, h3, this]

/-- Memory-level effect of `rotate_left(par, child)`. -/
theorem rotate_left_mem {m : Mem} {p c g : Nat} {gn : node} {sl : Slot}
    {pk pv ck cv : Int} {pp cp : Nat} {pl cl cr : Option Nat}
    (hp : m p = some ⟨pk, pv, pl, some c, some g, pp⟩)
    (hc : m c = some ⟨ck, cv, cl, cr, some p, cp⟩)
    (hg : m g = some gn) (hs : IsSlot sl g gn p)
    (hgp : g ≠ p) (hgc : g ≠ c) (hpc : p ≠ c)
    (hcl : ∀ y, cl = some y → y ≠ g ∧ y ≠ p ∧ y ≠ c ∧ ∃ yn, m y = some yn) :
    ∃ m', rotate_left m p c = some m' ∧
      m' g = some (sl.put gn (some c)) ∧
      m' c = some ⟨ck, cv, some p, cr, some g, cp⟩ ∧
      m' p = some ⟨pk, pv, pl, cl, some c, pp⟩ ∧
      (∀ y, cl = some y → m' y = (m y).map fun n => { n with par := some p }) ∧
      (∀ y, y ≠ g → y ≠ p → y ≠ c → cl ≠ some y → m' y = m y) := by
  have hm1c : (m.set g (sl.put gn (some c))) c = some ⟨ck, cv, cl, cr, some p, cp⟩ := by
    rw [Mem.set_other _ _ hgc.symm, hc]
  have hm1p : (m.set g (sl.put gn (some c))) p = some ⟨pk, pv, pl, some c, some g, pp⟩ := by
    rw [Mem.set_other _ _ hgp.symm, hp]
  simp only [rotate_left, rotate_relink_eq hp rfl hg hs, hm1c, hm1p]
  cases cl with
  | none =>
    simp only [setPar, setRight, setLeft, hm1c, hm1p, Option.some_bind, Mem.set_apply, hpc,
      hpc.symm, if_true, if_false]
    refine ⟨_, rfl, ?_, ?_, ?_, ?_, ?_⟩
    · simp [Mem.set, hgp, hgc]
    · simp [Mem.set]
    · simp [Mem.set, hpc]
    · intro y hy; simp at hy
    · intro y h1 h2 h3 _
      simp [Mem.set, h1, h2, h3]
  | some y =>
    obtain ⟨hyg, hyp, hyc, yn, hy⟩ := hcl y rfl
    simp only [setPar, setRight, setLeft, hm1c, hm1p, Option.some_bind, Mem.set_apply, hpc,
      hpc.symm, hyg, hyp, hyc, hyp.symm, hy, if_true, if_false]
    refine ⟨_, rfl, ?_, ?_, ?_, ?_, ?_⟩
    · simp [Mem.set, hgp, hgc, hyg.symm]
    · simp [Mem.set, hyc.symm]
    · simp [Mem.set, hpc, hyp.symm]
    · intro y' hy'
      simp only [Option.some.injEq] at hy'
      subst hy'
      simp [Mem.set, hy]
    · intro y' h1 h2 h3 h4
      have : y' ≠ y := fun h => h4 (by rw [h])
      simp [Mem.set, h1, h2, h3, this]

namespace Tree

theorem toList_rotR (t : Tree) : t.rotR.toList = t.toList := by
  cases t with
  | nil => rfl
  | node l e r =>
    cases l with
    | nil => rfl
    | node a x b => simp [rotR, toList, List.append_assoc]

theorem toList_rotL (t : Tree) : t.rotL.toList = t.toList := by
  cases t with
  | nil => rfl
  | node l e r =>
    cases r with
    | nil => rfl
    | node b x c => simp [rotL, toList, List.append_assoc]

theorem toList_insT (x : Entry) (t : Tree) : (t.insT x).toList = (t.attach x).toList := by
  induction t with
  | nil => rfl
  | node l e r ihl ihr =>
    simp only [insT, attach]
    split
    · split
      · rw [toList_rotR]; simp [toList, ihl]
      · simp [toList, ihl]
    · split
      · rw [toList_rotL]; simp [toList, ihr]
      · simp [toList, ihr]

theorem addrs_insT (x : Entry) (t : Tree) : (t.insT x).addrs = (t.attach x).addrs := by
  simp [addrs, toList_insT]

/-- When the new node ends at the root of the result, the root is the new element. -/
theorem insT_root {x : Entry} {t : Tree} (hx : x.a ∉ t.addrs) (h : (t.insT x).ptr = some x.a) :
    ∃ a b, t.insT x = node a x b := by
  induction t with
  | nil => exact ⟨nil, nil, rfl⟩
  | node l e r ihl ihr =>
    have hxe : e.a ≠ x.a := fun h => hx (by simp [addrs_node, h])
    have hxl : x.a ∉ l.addrs := fun h => hx (by simp [addrs_node, h])
    have hxr : x.a ∉ r.addrs := fun h => hx (by simp [addrs_node, h])
    simp only [insT] at h ⊢
    split
    · split
      · rename_i hc
        obtain ⟨a, b, hab⟩ := ihl hxl hc.1
        rw [hab]
        exact ⟨_, _, rfl⟩
      · rename_i hlt hc
        rw [if_pos hlt, if_neg hc] at h
        simp only [ptr, Option.some.injEq] at h
        exact absurd h hxe
    · split
      · rename_i hc
        obtain ⟨a, b, hab⟩ := ihr hxr hc.1
        rw [hab]
        exact ⟨_, _, rfl⟩
      · rename_i hlt hc
        rw [if_neg hlt, if_neg hc] at h
        simp only [ptr, Option.some.injEq] at h
        exact absurd h hxe

theorem attach_ne_nil (x : Entry) (t : Tree) : t.attach x ≠ nil := by
  cases t with
  | nil => simp [attach]
  | node l e r => simp only [attach]; split <;> simp

end Tree

/-- Tree-level effect of `rotate_right` at a node `e` whose left child is `x`. -/
theorem rotate_right_rep {m : Mem} {a b c : Tree} {x e : Entry} {g : Nat} {gn : node}
    {sl : Slot} (hr : Rep m (.node (.node a x b) e c) (some g))
    (hn : (Tree.node (.node a x b) e c).addrs.Nodup)
    (hgn : g ∉ (Tree.node (.node a x b) e c).addrs)
    (hg : m g = some gn) (hs : IsSlot sl g gn e.a) :
    ∃ m', rotate_right m e.a x.a = some m' ∧ Rep m' (.node a x (.node b e c)) (some g) ∧
      m' g = some (sl.put gn (some x.a)) ∧
      (∀ y, y ∉ (Tree.node (.node a x b) e c).addrs → y ≠ g → m' y = m y) := by
  obtain ⟨h1, h2, h3⟩ := hr
  obtain ⟨h21, h22, h23⟩ := h2
  obtain ⟨hln, hcn, hel, hec, hlc⟩ := nodup_node hn
  obtain ⟨han, hbn, hxa, hxb, hab⟩ := nodup_node hln
  simp only [Tree.addrs_node, List.mem_append, List.mem_cons, not_or] at hgn hel hlc
  have hgp : g ≠ e.a := fun h => hgn.2.1 h
  have hgc : g ≠ x.a := fun h => hgn.1.2.1 h
  have hpc : e.a ≠ x.a := fun h => hel.2.1 h
  have hcr : ∀ y, b.ptr = some y → y ≠ g ∧ y ≠ e.a ∧ y ≠ x.a ∧ ∃ yn, m y = some yn := by
    intro y hy
    have hyb := Tree.ptr_mem hy
    exact ⟨fun h => hgn.1.2.2 (h ▸ hyb), fun h => hel.2.2 (h ▸ hyb), fun h => hxb (h ▸ hyb),
      h23.live hyb⟩
  obtain ⟨m', hrot, hmg, hmc, hmp, hmy, hfr⟩ :=
    rotate_right_mem h1 h21 hg hs hgp hgc hpc hcr
  refine ⟨m', hrot, ⟨hmc, ?_, hmp, ?_, ?_⟩, hmg, ?_⟩
  · refine h22.congr fun y hy => ?_
    refine hfr y (fun h => hgn.1.1 (h ▸ hy)) (fun h => hel.1 (h ▸ hy)) (fun h => hxa (h ▸ hy)) ?_
    intro h
    exact hab y hy (Tree.ptr_mem h)
  · cases b with
    | nil => trivial
    | node bl be br =>
      obtain ⟨hb1, hb2, hb3⟩ := h23
      obtain ⟨_, _, hbel, hber, _⟩ := nodup_node hbn
      have hsub : ∀ y, y ∈ bl.addrs ∨ y ∈ br.addrs → m' y = m y := by
        intro y hy
        have hyb : y ∈ (Tree.node bl be br).addrs := by
          rcases hy with hy | hy <;> simp [Tree.addrs_node, hy]
        refine hfr y (fun h => hgn.1.2.2 (h ▸ hyb)) (fun h => hel.2.2 (h ▸ hyb))
          (fun h => hxb (h ▸ hyb)) ?_
        simp only [Tree.ptr, ne_eq, Option.some.injEq]
        intro h
        rcases hy with hy | hy
        · exact hbel (h ▸ hy)
        · exact hber (h ▸ hy)
      refine ⟨?_, hb2.congr fun y hy => hsub y (Or.inl hy), hb3.congr fun y hy => hsub y (Or.inr hy)⟩
      rw [hmy be.a rfl, hb1]
      rfl
  · refine h3.congr fun y hy => ?_
    refine hfr y (fun h => hgn.2.2 (h ▸ hy)) (fun h => hec (h ▸ hy)) ?_ ?_
    · intro h
      exact hlc x.a (Or.inr (Or.inl rfl)) (h ▸ hy)
    · intro h
      exact hlc y (Or.inr (Or.inr (Tree.ptr_mem h))) hy
  · intro y hy hyg
    simp only [Tree.addrs_node, List.mem_append, List.mem_cons, not_or] at hy
    refine hfr y hyg hy.2.1 hy.1.2.1 ?_
    intro h
    exact hy.1.2.2 (Tree.ptr_mem h)

/-- Tree-level effect of `rotate_left` at a node `e` whose right child is `x`. -/
theorem rotate_left_rep {m : Mem} {a b c : Tree} {x e : Entry} {g : Nat} {gn : node}
    {sl : Slot} (hr : Rep m (.node a e (.node b x c)) (some g))
    (hn : (Tree.node a e (.node b x c)).addrs.Nodup)
    (hgn : g ∉ (Tree.node a e (.node b x c)).addrs)
    (hg : m g = some gn) (hs : IsSlot sl g gn e.a) :
    ∃ m', rotate_left m e.a x.a = some m' ∧ Rep m' (.node (.node a e b) x c) (some g) ∧
      m' g = some (sl.put gn (some x.a)) ∧
      (∀ y, y ∉ (Tree.node a e (.node b x c)).addrs → y ≠ g → m' y = m y) := by
  obtain ⟨h1, h2, h3⟩ := hr
  obtain ⟨h31, h32, h33⟩ := h3
  obtain ⟨han, hrn, hea, her, har⟩ := nodup_node hn
  obtain ⟨hbn, hcn, hxb, hxc, hbc⟩ := nodup_node hrn
  simp only [Tree.addrs_node, List.mem_append, List.mem_cons, not_or] at hgn her har
  have hgp : g ≠ e.a := fun h => hgn.2.1 h
  have hgc : g ≠ x.a := fun h => hgn.2.2.2.1 h
  have hpc : e.a ≠ x.a := fun h => her.2.1 h
  have hcl : ∀ y, b.ptr = some y → y ≠ g ∧ y ≠ e.a ∧ y ≠ x.a ∧ ∃ yn, m y = some yn := by
    intro y hy
    have hyb := Tree.ptr_mem hy
    exact ⟨fun h => hgn.2.2.1 (h ▸ hyb), fun h => her.1 (h ▸ hyb), fun h => hxb (h ▸ hyb),
      h32.live hyb⟩
  obtain ⟨m', hrot, hmg, hmc, hmp, hmy, hfr⟩ :=
    rotate_left_mem h1 h31 hg hs hgp hgc hpc hcl
  refine ⟨m', hrot, ⟨hmc, ⟨hmp, ?_, ?_⟩, ?_⟩, hmg, ?_⟩
  · refine h2.congr fun y hy => ?_
    refine hfr y (fun h => hgn.1 (h ▸ hy)) (fun h => hea (h ▸ hy)) ?_ ?_
    · intro h
      exact (har y hy).2.1 h
    · intro h
      exact (har y hy).1 (Tree.ptr_mem h)
  · cases b with
    | nil => trivial
    | node bl be br =>
      obtain ⟨hb1, hb2, hb3⟩ := h32
      obtain ⟨_, _, hbel, hber, _⟩ := nodup_node hbn
      have hsub : ∀ y, y ∈ bl.addrs ∨ y ∈ br.addrs → m' y = m y := by
        intro y hy
        have hyb : y ∈ (Tree.node bl be br).addrs := by
          rcases hy with hy | hy <;> simp [Tree.addrs_node, hy]
        refine hfr y (fun h => hgn.2.2.1 (h ▸ hyb)) (fun h => her.1 (h ▸ hyb))
          (fun h => hxb (h ▸ hyb)) ?_
        simp only [Tree.ptr, ne_eq, Option.some.injEq]
        intro h
        rcases hy with hy | hy
        · exact hbel (h ▸ hy)
        · exact hber (h ▸ hy)
      refine ⟨?_, hb2.congr fun y hy => hsub y (Or.inl hy), hb3.congr fun y hy => hsub y (Or.inr hy)⟩
      rw [hmy be.a rfl, hb1]
      rfl
  · refine h33.congr fun y hy => ?_
    refine hfr y (fun h => hgn.2.2.2.2 (h ▸ hy)) (fun h => her.2.2 (h ▸ hy))
      (fun h => hxc (h ▸ hy)) ?_
    intro h
    exact hbc y (Tree.ptr_mem h) hy
  · intro y hy hyg
    simp only [Tree.addrs_node, List.mem_append, List.mem_cons, not_or] at hy
    refine hfr y hyg hy.2.1 hy.2.2.2.1 ?_
    intro h
    exact hy.2.2.1 (Tree.ptr_mem h)

theorem not_mem_of_attach_nodup {x : Entry} {t : Tree} (hn : (t.attach x).addrs.Nodup) :
    x.a ∉ t.addrs := by
  have := (Tree.addrs_attach_perm x t).nodup_iff.1 hn
  exact (List.nodup_cons.1 this).1

theorem mem_attach_addrs {x : Entry} {t : Tree} {y : Nat} :
    y ∈ (t.attach x).addrs ↔ y = x.a ∨ y ∈ t.addrs := by
  rw [(Tree.addrs_attach_perm x t).mem_iff]; simp

/-- The rebalancing loop of `insert_`, on the subtree in which the leaf was hung: it
produces the memory of `insT`, and either stops inside the subtree or goes on above
it with the new node at the root of the subtree. -/
theorem rotate_loop_spec {t : Tree} (x : Entry) {m : Mem} {g : Nat} {gn : node} {sl : Slot}
    (hr : Rep m (t.attach x) (some g)) (hn : (t.attach x).addrs.Nodup)
    (hgn : g ∉ (t.attach x).addrs) (hh : hdr ∉ (t.attach x).addrs)
    (hg : m g = some gn) (hs : ∀ a, (t.attach x).ptr = some a → IsSlot sl g gn a) :
    ∃ m' d, d ≤ t.height ∧ Rep m' (t.insT x) (some g) ∧
      m' g = some (sl.put gn (t.insT x).ptr) ∧
      (∀ y, y ∉ (t.attach x).addrs → y ≠ g → m' y = m y) ∧
      (((t.insT x).ptr = some x.a ∧
          ∀ f, rotate_loop m (f + d) (t.attachPar x g) x.a = rotate_loop m' f g x.a) ∨
        ((t.insT x).ptr ≠ some x.a ∧
          ∀ f, rotate_loop m (f + d + 1) (t.attachPar x g) x.a = some m')) := by
  induction t generalizing m g gn sl with
  | nil =>
    refine ⟨m, 0, le_refl _, hr, ?_, fun _ _ _ => rfl, Or.inl ⟨rfl, fun f => rfl⟩⟩
    rw [hg]
    exact congrArg some (hs x.a rfl).put_self.symm
  | node l e r ihl ihr =>
    have hxt := not_mem_of_attach_nodup hn
    have hxe : x.a ≠ e.a := fun h => hxt (by simp [Tree.addrs_node, h])
    have hxl : x.a ∉ l.addrs := fun h => hxt (by simp [Tree.addrs_node, h])
    have hxr : x.a ∉ r.addrs := fun h => hxt (by simp [Tree.addrs_node, h])
    by_cases hlt : x.k < e.k
    · -- the leaf was hung in the left subtree
      simp only [Tree.attach, hlt, if_true] at hr hn hgn hh hs
      simp only [Tree.attach, Tree.attachPar, Tree.insT, hlt, if_true]
      obtain ⟨h1, h2, h3⟩ := hr
      obtain ⟨hln, hrn, hel, her, hlr⟩ := nodup_node hn
      have hge : g ≠ e.a := fun h => hgn (by simp [Tree.addrs_node, h])
      have hgl : g ∉ (l.attach x).addrs := fun h => hgn (by simp [Tree.addrs_node, h])
      have hhe : e.a ≠ hdr := fun h => hh (by simp [Tree.addrs_node, h])
      have hhl : hdr ∉ (l.attach x).addrs := fun h => hh (by simp [Tree.addrs_node, h])
      have hsl : ∀ a, (l.attach x).ptr = some a →
          IsSlot .left e.a ⟨e.k, e.v, (l.attach x).ptr, r.ptr, some g, e.p⟩ a := by
        intro a ha
        refine ⟨hhe, ?_, ha⟩
        simp only [ne_eq, Option.some.injEq]
        intro h
        exact hgl (h ▸ Tree.ptr_mem ha)
      obtain ⟨m1, d1, hd1, hrep1, hm1e, hfr1, hloop⟩ := ihl h2 hln hel hhl h1 hsl
      have hm1e' : m1 e.a = some ⟨e.k, e.v, (l.insT x).ptr, r.ptr, some g, e.p⟩ := hm1e
      have hm1g : m1 g = some gn := by rw [hfr1 g hgl hge, hg]
      have hrep1r : Rep m1 r (some e.a) := by
        refine h3.congr fun y hy => ?_
        exact hfr1 y (fun h => hlr y h hy) (fun h => her (h ▸ hy))
      have hfr1' : ∀ y, y ∉ ((l.attach x).node e r).addrs → y ≠ g → m1 y = m y := by
        intro y hy _
        exact hfr1 y (fun h => hy (by simp [Tree.addrs_node, h]))
          (fun h => hy (by simp [Tree.addrs_node, h]))
      have hsame : ((l.insT x).node e r).addrs = ((l.attach x).node e r).addrs := by
        simp [Tree.addrs_node, Tree.addrs_insT]
      rcases hloop with ⟨hp, hloop⟩ | ⟨hp, hloop⟩
      · obtain ⟨a, b, hab⟩ := Tree.insT_root hxl hp
        by_cases hpri : e.p < x.p
        · -- one more rotation
          have hcond : (l.insT x).ptr = some x.a ∧ e.p < x.p := ⟨hp, hpri⟩
          rw [if_pos hcond]
          rw [hab] at hrep1 hm1e' hsame ⊢
          have hrepn : Rep m1 (.node (.node a x b) e r) (some g) := ⟨hm1e', hrep1, hrep1r⟩
          obtain ⟨m2, hrot, hrep2, hm2g, hfr2⟩ :=
            rotate_right_rep hrepn (hsame ▸ hn) (hsame ▸ hgn) hm1g (hs e.a rfl)
          refine ⟨m2, d1 + 1, by simp only [Tree.height]; omega, hrep2, hm2g, ?_,
            Or.inl ⟨rfl, fun f => ?_⟩⟩
          · intro y hy hyg
            rw [hfr2 y (hsame ▸ hy) hyg]
            exact hfr1' y hy hyg
          · rw [← Nat.add_assoc, Nat.add_right_comm, hloop (f + 1)]
            simp only [rotate_loop, hm1e', hrep1.1, hpri, if_true, Tree.ptr, hrot, hrep2.1]
        · have hcond : ¬ ((l.insT x).ptr = some x.a ∧ e.p < x.p) := fun h => hpri h.2
          rw [if_neg hcond]
          refine ⟨m1, d1, by simp only [Tree.height]; omega, ⟨hm1e', hrep1, hrep1r⟩, ?_, hfr1',
            Or.inr ⟨?_, fun f => ?_⟩⟩
          · rw [hm1g]
            exact congrArg some (hs e.a rfl).put_self.symm
          · simp only [Tree.ptr, ne_eq, Option.some.injEq]
            exact fun h => hxe h.symm
          · rw [Nat.add_right_comm, hloop (f + 1)]
            rw [hab] at hrep1
            simp only [rotate_loop, hm1e', hrep1.1, hpri, if_false]
      · have hcond : ¬ ((l.insT x).ptr = some x.a ∧ e.p < x.p) := fun h => hp h.1
        rw [if_neg hcond]
        refine ⟨m1, d1, by simp only [Tree.height]; omega, ⟨hm1e', hrep1, hrep1r⟩, ?_, hfr1',
          Or.inr ⟨?_, hloop⟩⟩
        · rw [hm1g]
          exact congrArg some (hs e.a rfl).put_self.symm
        · simp only [Tree.ptr, ne_eq, Option.some.injEq]
          exact fun h => hxe h.symm
    · -- the leaf was hung in the right subtree
      simp only [Tree.attach, hlt, if_false] at hr hn hgn hh hs
      simp only [Tree.attach, Tree.attachPar, Tree.insT, hlt, if_false]
      obtain ⟨h1, h2, h3⟩ := hr
      obtain ⟨hln, hrn, hel, her, hlr⟩ := nodup_node hn
      have hge : g ≠ e.a := fun h => hgn (by simp [Tree.addrs_node, h])
      have hgr : g ∉ (r.attach x).addrs := fun h => hgn (by simp [Tree.addrs_node, h])
      have hhe : e.a ≠ hdr := fun h => hh (by simp [Tree.addrs_node, h])
      have hhr : hdr ∉ (r.attach x).addrs := fun h => hh (by simp [Tree.addrs_node, h])
      have hsr : ∀ a, (r.attach x).ptr = some a →
          IsSlot .right e.a ⟨e.k, e.v, l.ptr, (r.attach x).ptr, some g, e.p⟩ a := by
        intro a ha
        refine ⟨hhe, ?_, ?_, ha⟩
        · simp only [ne_eq, Option.some.injEq]
          intro h
          exact hgr (h ▸ Tree.ptr_mem ha)
        · intro h
          exact hlr a (Tree.ptr_mem h) (Tree.ptr_mem ha)
      obtain ⟨m1, d1, hd1, hrep1, hm1e, hfr1, hloop⟩ := ihr h3 hrn her hhr h1 hsr
      have hm1e' : m1 e.a = some ⟨e.k, e.v, l.ptr, (r.insT x).ptr, some g, e.p⟩ := hm1e
      have hm1g : m1 g = some gn := by rw [hfr1 g hgr hge, hg]
      have hrep1l : Rep m1 l (some e.a) := by
        refine h2.congr fun y hy => ?_
        exact hfr1 y (fun h => hlr y hy h) (fun h => hel (h ▸ hy))
      have hfr1' : ∀ y, y ∉ (l.node e (r.attach x)).addrs → y ≠ g → m1 y = m y := by
        intro y hy _
        exact hfr1 y (fun h => hy (by simp [Tree.addrs_node, h]))
          (fun h => hy (by simp [Tree.addrs_node, h]))
      have hsame : (l.node e (r.insT x)).addrs = (l.node e (r.attach x)).addrs := by
        simp [Tree.addrs_node, Tree.addrs_insT]
      have hnl : l.ptr ≠ some x.a := fun h => hxl (Tree.ptr_mem h)
      rcases hloop with ⟨hp, hloop⟩ | ⟨hp, hloop⟩
      · obtain ⟨a, b, hab⟩ := Tree.insT_root hxr hp
        by_cases hpri : e.p < x.p
        · have hcond : (r.insT x).ptr = some x.a ∧ e.p < x.p := ⟨hp, hpri⟩
          rw [if_pos hcond]
          rw [hab] at hrep1 hm1e' hsame ⊢
          have hrepn : Rep m1 (.node l e (.node a x b)) (some g) := ⟨hm1e', hrep1l, hrep1⟩
          obtain ⟨m2, hrot, hrep2, hm2g, hfr2⟩ :=
            rotate_left_rep hrepn (hsame ▸ hn) (hsame ▸ hgn) hm1g (hs e.a rfl)
          refine ⟨m2, d1 + 1, by simp only [Tree.height]; omega, hrep2, hm2g, ?_,
            Or.inl ⟨rfl, fun f => ?_⟩⟩
          · intro y hy hyg
            rw [hfr2 y (hsame ▸ hy) hyg]
            exact hfr1' y hy hyg
          · rw [← Nat.add_assoc, Nat.add_right_comm, hloop (f + 1)]
            simp only [rotate_loop, hm1e', hrep1.1, hpri, if_true, hnl, if_false, hrot, hrep2.1]
        · have hcond : ¬ ((r.insT x).ptr = some x.a ∧ e.p < x.p) := fun h => hpri h.2
          rw [if_neg hcond]
          refine ⟨m1, d1, by simp only [Tree.height]; omega, ⟨hm1e', hrep1l, hrep1⟩, ?_, hfr1',
            Or.inr ⟨?_, fun f => ?_⟩⟩
          · rw [hm1g]
            exact congrArg some (hs e.a rfl).put_self.symm
          · simp only [Tree.ptr, ne_eq, Option.some.injEq]
            exact fun h => hxe h.symm
          · rw [Nat.add_right_comm, hloop (f + 1)]
            rw [hab] at hrep1
            simp only [rotate_loop, hm1e', hrep1.1, hpri, if_false]
      · have hcond : ¬ ((r.insT x).ptr = some x.a ∧ e.p < x.p) := fun h => hp h.1
        rw [if_neg hcond]
        refine ⟨m1, d1, by simp only [Tree.height]; omega, ⟨hm1e', hrep1l, hrep1⟩, ?_, hfr1',
          Or.inr ⟨?_, hloop⟩⟩
        · rw [hm1g]
          exact congrArg some (hs e.a rfl).put_self.symm
        · simp only [Tree.ptr, ne_eq, Option.some.injEq]
          exact fun h => hxe h.symm

namespace Tree

theorem minE_eq_none {t : Tree} : t.minE = none ↔ t = nil := by
  cases t with
  | nil => simp [minE]
  | node l e r => cases h : l.minE <;> simp [minE, h]

theorem maxE_eq_none {t : Tree} : t.maxE = none ↔ t = nil := by
  cases t with
  | nil => simp [maxE]
  | node l e r => cases h : r.maxE <;> simp [maxE, h]

theorem minE_mem {t : Tree} {e : Entry} (h : t.minE = some e) : e ∈ t.toList := by
  induction t with
  | nil => simp [minE] at h
  | node l e' r ihl _ =>
    simp only [minE] at h
    cases hl : l.minE with
    | none => simp [hl] at h; simp [toList, h]
    | some e0 => simp [hl] at h; subst h; simp [toList, ihl hl]

theorem maxE_mem {t : Tree} {e : Entry} (h : t.maxE = some e) : e ∈ t.toList := by
  induction t with
  | nil => simp [maxE] at h
  | node l e' r _ ihr =>
    simp only [maxE] at h
    cases hr : r.maxE with
    | none => simp [hr] at h; simp [toList, h]
    | some e0 => simp [hr] at h; subst h; simp [toList, ihr hr]

theorem minA_eq_minE (t : Tree) (d : Nat) : t.minA d = (t.minE.map Entry.a).getD d := by
  induction t generalizing d with
  | nil => rfl
  | node l e r ihl _ =>
    simp only [minA, minE, ihl]
    cases l.minE <;> simp

theorem maxA_eq_maxE (t : Tree) (d : Nat) : t.maxA d = (t.maxE.map Entry.a).getD d := by
  induction t generalizing d with
  | nil => rfl
  | node l e r _ ihr =>
    simp only [maxA, maxE, ihr]
    cases r.maxE <;> simp

/-- The leftmost element has the smallest key. -/
theorem minE_le {t : Tree} (hs : t.keys.Pairwise (· < ·)) {e0 : Entry} (h : t.minE = some e0)
    {y : Entry} (hy : y ∈ t.toList) : e0.k ≤ y.k := by
  induction t with
  | nil => simp [toList] at hy
  | node l e r ihl _ =>
    obtain ⟨hl, hr, hlt, hgt⟩ := sorted_node hs
    simp only [minE] at h
    simp only [toList, List.mem_append, List.mem_cons] at hy
    cases hl' : l.minE with
    | none =>
      simp [hl'] at h
      subst h
      have : l = nil := minE_eq_none.1 hl'
      subst this
      rcases hy with hy | hy | hy
      · simp [toList] at hy
      · rw [hy]
      · exact le_of_lt (hgt y hy)
    | some e1 =>
      simp [hl'] at h
      subst h
      have h1 : e1.k < e.k := hlt e1 (minE_mem hl')
      rcases hy with hy | hy | hy
      · exact ihl hl hl' hy
      · rw [hy]; exact le_of_lt h1
      · exact le_of_lt (lt_trans h1 (hgt y hy))

/-- The rightmost element has the largest key. -/
theorem le_maxE {t : Tree} (hs : t.keys.Pairwise (· < ·)) {e0 : Entry} (h : t.maxE = some e0)
    {y : Entry} (hy : y ∈ t.toList) : y.k ≤ e0.k := by
  induction t with
  | nil => simp [toList] at hy
  | node l e r _ ihr =>
    obtain ⟨hl, hr, hlt, hgt⟩ := sorted_node hs
    simp only [maxE] at h
    simp only [toList, List.mem_append, List.mem_cons] at hy
    cases hr' : r.maxE with
    | none =>
      simp [hr'] at h
      subst h
      have : r = nil := maxE_eq_none.1 hr'
      subst this
      rcases hy with hy | hy | hy
      · exact le_of_lt (hlt y hy)
      · rw [hy]
      · simp [toList] at hy
    | some e1 =>
      simp [hr'] at h
      subst h
      have h1 : e.k < e1.k := hgt e1 (maxE_mem hr')
      rcases hy with hy | hy | hy
      · exact le_of_lt (lt_trans (hlt y hy) h1)
      · rw [hy]; exact le_of_lt h1
      · exact ihr hr hr' hy

theorem keys_attach {x : Entry} {t : Tree} {k : Int} :
    k ∈ (t.attach x).keys ↔ k = x.k ∨ k ∈ t.keys := by
  have := ((toList_attach_perm x t).map Entry.k).mem_iff (a := k)
  simpa [keys] using this

/-- Hanging a leaf with an absent key keeps the keys strictly increasing. -/
theorem attach_sorted {x : Entry} {t : Tree} (hs : t.keys.Pairwise (· < ·)) (hk : x.k ∉ t.keys) :
    (t.attach x).keys.Pairwise (· < ·) := by
  induction t with
  | nil => simp [attach, keys, toList]
  | node l e r ihl ihr =>
    obtain ⟨hl, hr, hlt, hgt⟩ := sorted_node hs
    have hke : x.k ≠ e.k := fun h => hk (by simp [keys_node, h])
    have hkl : x.k ∉ l.keys := fun h => hk (by simp [keys_node, h])
    have hkr : x.k ∉ r.keys := fun h => hk (by simp [keys_node, h])
    have hs' := hs
    rw [keys_node, List.pairwise_append, List.pairwise_cons] at hs'
    simp only [attach]
    split
    · rename_i hlt'
      rw [keys_node, List.pairwise_append, List.pairwise_cons]
      refine ⟨ihl hl hkl, hs'.2.1, ?_⟩
      intro a ha b hb
      rcases keys_attach.1 ha with rfl | ha
      · rcases List.mem_cons.1 hb with hb | hb
        · rw [hb]; exact hlt'
        · exact lt_trans hlt' (hs'.2.1.1 b hb)
      · exact hs'.2.2 a ha b hb
    · rename_i hlt'
      have hlt'' : e.k < x.k := lt_of_le_of_ne (not_lt.1 hlt') (Ne.symm hke)
      rw [keys_node, List.pairwise_append, List.pairwise_cons]
      refine ⟨hl, ⟨?_, ihr hr hkr⟩, ?_⟩
      · intro b hb
        rcases keys_attach.1 hb with rfl | hb
        · exact hlt''
        · exact hs'.2.1.1 b hb
      · intro a ha b hb
        rcases List.mem_cons.1 hb with hb | hb
        · rw [hb]; exact hs'.2.2 a ha e.k (List.mem_cons_self _ _)
        · rcases keys_attach.1 hb with rfl | hb
          · exact lt_trans (hs'.2.2 a ha e.k (List.mem_cons_self _ _)) hlt''
          · exact hs'.2.2 a ha b (List.mem_cons_of_mem _ hb)

/-- The leftmost element after hanging a leaf. -/
theorem minE_attach {x : Entry} {t : Tree} (hs : t.keys.Pairwise (· < ·)) :
    (t.attach x).minE =
      match t.minE with
      | none => some x
      | some e0 => if x.k < e0.k then some x else some e0 := by
  induction t with
  | nil => rfl
  | node l e r ihl _ =>
    obtain ⟨hl, hr, hlt, hgt⟩ := sorted_node hs
    simp only [attach]
    split
    · rename_i hlt'
      simp only [minE, ihl hl]
      cases hl' : l.minE with
      | none => simp [hlt']
      | some e1 => by_cases hc : x.k < e1.k <;> simp [hc]
    · rename_i hlt'
      simp only [minE]
      cases hl' : l.minE with
      | none => simp [hlt']
      | some e1 =>
        have h1 : e1.k < e.k := hlt e1 (minE_mem hl')
        have : ¬ x.k < e1.k := by omega
        simp [this]

/-- The rightmost element after hanging a leaf with an absent key. -/
theorem maxE_attach {x : Entry} {t : Tree} (hs : t.keys.Pairwise (· < ·)) (hk : x.k ∉ t.keys) :
    (t.attach x).maxE =
      match t.maxE with
      | none => some x
      | some e0 => if e0.k < x.k then some x else some e0 := by
  induction t with
  | nil => rfl
  | node l e r _ ihr =>
    obtain ⟨hl, hr, hlt, hgt⟩ := sorted_node hs
    have hke : x.k ≠ e.k := fun h => hk (by simp [keys_node, h])
    have hkr : x.k ∉ r.keys := fun h => hk (by simp [keys_node, h])
    simp only [attach]
    split
    · rename_i hlt'
      simp only [maxE]
      cases hr' : r.maxE with
      | none =>
        have : ¬ e.k < x.k := by omega
        simp [this]
      | some e1 =>
        have h1 : e.k < e1.k := hgt e1 (maxE_mem hr')
        have : ¬ e1.k < x.k := by omega
        simp [this]
    · rename_i hlt'
      have hlt'' : e.k < x.k := lt_of_le_of_ne (not_lt.1 hlt') (Ne.symm hke)
      simp only [maxE, ihr hr hkr]
      cases hr' : r.maxE with
      | none => simp [hlt'']
      | some e1 => by_cases hc : e1.k < x.k <;> simp [hc]

theorem minE_eq_head (t : Tree) : t.minE = t.toList.head? := by
  induction t with
  | nil => rfl
  | node l e r ihl _ =>
    simp only [minE, toList, ihl]
    cases l.toList <;> simp

theorem maxE_eq_last (t : Tree) : t.maxE = t.toList.getLast? := by
  induction t with
  | nil => rfl
  | node l e r _ ihr =>
    simp only [maxE, toList, ihr]
    cases h : r.toList with
    | nil => simp
    | cons y ys =>
      have hy : (y :: ys).getLast? = some ((y :: ys).getLast (List.cons_ne_nil _ _)) :=
        List.getLast?_eq_getLast _ _
      simp [List.getLast?_append, hy]

theorem minE_insT (x : Entry) (t : Tree) : (t.insT x).minE = (t.attach x).minE := by
  rw [minE_eq_head, minE_eq_head, toList_insT]

theorem maxE_insT (x : Entry) (t : Tree) : (t.insT x).maxE = (t.attach x).maxE := by
  rw [maxE_eq_last, maxE_eq_last, toList_insT]

theorem size_attach (x : Entry) (t : Tree) : (t.attach x).size = t.size + 1 := by
  rw [← length_toList, ← length_toList, (toList_attach_perm x t).length_eq]
  simp

theorem size_insT (x : Entry) (t : Tree) : (t.insT x).size = t.size + 1 := by
  rw [← length_toList, toList_insT, length_toList, size_attach]

end Tree

/-- The closing update of `insert_` makes the header cache the new minimum and maximum. -/
theorem update_ends_spec {m : Mem} {t : Tree} (x : Entry) (hne : t ≠ .nil)
    (hd : m hdr = some ⟨0, 0, some (t.minA hdr), some (t.maxA hdr), (t.insT x).ptr, UINT32_MAX⟩)
    (hr : Rep m (t.insT x) (some hdr)) (hs : t.keys.Pairwise (· < ·)) (hk : x.k ∉ t.keys)
    (hh : hdr ∉ (t.insT x).addrs) :
    ∃ m', update_ends lt m x.a = some m' ∧ m' hdr = some (HdrOf (t.insT x)) ∧
      ∀ y, y ≠ hdr → m' y = m y := by
  have hmem : ∀ y : Entry, y ∈ t.toList → y ∈ (t.insT x).toList := by
    intro y hy
    rw [Tree.toList_insT, Tree.mem_attach]
    exact Or.inr hy
  have hxmem : x ∈ (t.insT x).toList := by
    rw [Tree.toList_insT, Tree.mem_attach]
    exact Or.inl rfl
  have hxh : x.a ≠ hdr := fun h => hh (h ▸ List.mem_map_of_mem Entry.a hxmem)
  obtain ⟨e0, he0⟩ : ∃ e0, t.minE = some e0 := by
    cases h : t.minE with
    | none => exact absurd (Tree.minE_eq_none.1 h) hne
    | some e0 => exact ⟨e0, rfl⟩
  obtain ⟨e1, he1⟩ : ∃ e1, t.maxE = some e1 := by
    cases h : t.maxE with
    | none => exact absurd (Tree.maxE_eq_none.1 h) hne
    | some e1 => exact ⟨e1, rfl⟩
  have hmin : t.minA hdr = e0.a := by rw [Tree.minA_eq_minE, he0]; rfl
  have hmax : t.maxA hdr = e1.a := by rw [Tree.maxA_eq_maxE, he1]; rfl
  have he0h : e0.a ≠ hdr :=
    fun h => hh (h ▸ List.mem_map_of_mem Entry.a (hmem e0 (Tree.minE_mem he0)))
  have he1h : e1.a ≠ hdr :=
    fun h => hh (h ▸ List.mem_map_of_mem Entry.a (hmem e1 (Tree.maxE_mem he1)))
  obtain ⟨xn, hxn, hxk, _, _⟩ := hr.get hxmem
  obtain ⟨bn, hbn, hbk, _, _⟩ := hr.get (hmem e0 (Tree.minE_mem he0))
  obtain ⟨rn, hrn, hrk, _, _⟩ := hr.get (hmem e1 (Tree.maxE_mem he1))
  have hmin' : (t.insT x).minA hdr = if x.k < e0.k then x.a else e0.a := by
    rw [Tree.minA_eq_minE, Tree.minE_insT, Tree.minE_attach hs, he0]
    by_cases hc : x.k < e0.k <;> simp [hc]
  have hmax' : (t.insT x).maxA hdr = if e1.k < x.k then x.a else e1.a := by
    rw [Tree.maxA_eq_maxE, Tree.maxE_insT, Tree.maxE_attach hs hk, he1]
    by_cases hc : e1.k < x.k <;> simp [hc]
  rw [hmin, hmax] at hd
  obtain ⟨m1, hm1, hm1h, hm1f⟩ : ∃ m1,
      (if lt xn.key bn.key then setLeft m hdr (some x.a) else some m) = some m1 ∧
      m1 hdr = some ⟨0, 0, some ((t.insT x).minA hdr), some e1.a, (t.insT x).ptr, UINT32_MAX⟩ ∧
      ∀ y, y ≠ hdr → m1 y = m y := by
    rw [hxk, hbk, hmin']
    by_cases h1 : x.k < e0.k
    · simp only [lt, h1, decide_True, if_true, setLeft, hd]
      exact ⟨_, rfl, by simp [Mem.set], fun y hy => by simp [Mem.set, hy]⟩
    · simp only [lt, h1, decide_False, if_false]
      exact ⟨_, rfl, hd, fun y _ => rfl⟩
  obtain ⟨m2, hm2, hm2h, hm2f⟩ : ∃ m2,
      (if lt rn.key xn.key then setRight m1 hdr (some x.a) else some m1) = some m2 ∧
      m2 hdr = some (HdrOf (t.insT x)) ∧ ∀ y, y ≠ hdr → m2 y = m1 y := by
    rw [hxk, hrk]
    simp only [HdrOf, hmax']
    by_cases h2 : e1.k < x.k
    · simp only [lt, h2, decide_True, if_true, setRight, hm1h]
      exact ⟨_, rfl, by simp [Mem.set], fun y hy => by simp [Mem.set, hy]⟩
    · simp only [lt, h2, decide_False, if_false]
      exact ⟨_, rfl, hm1h, fun y _ => rfl⟩
  refine ⟨m2, ?_, hm2h, fun y hy => (hm2f y hy).trans (hm1f y hy)⟩
  simp only [update_ends, hd, hxn, hbn, hm1, hm1h, hm1f x.a hxh, hm1f e1.a he1h, hrn, hm2]

/-- The invariant after an insertion, from the facts about the final memory. -/
theorem Inv.of_insT {s : treap} {t : Tree} (h : Inv s t) {x : Entry} (hxa : x.a = s.brk)
    (hk : x.k ∉ t.keys) (hp : x.p < 4294967296) {m' : Mem}
    (hd : m' hdr = some (HdrOf (t.insT x))) (hr : Rep m' (t.insT x) (some hdr)) :
    Inv { mem := m', size_ := s.size_ + 1, brk := s.brk + 1 } (t.insT x) := by
  have hxt : x.a ∉ t.addrs := fun hm => absurd (h.fresh _ hm).2 (by rw [hxa]; exact lt_irrefl _)
  refine ⟨hd, hr, ?_, ?_, Nat.succ_pos _, ?_, ?_, ?_⟩
  · rw [Tree.addrs_insT, (Tree.addrs_attach_perm x t).nodup_iff]
    exact List.nodup_cons.2 ⟨hxt, h.nodup⟩
  · intro a ha
    rw [Tree.addrs_insT, mem_attach_addrs] at ha
    rcases ha with rfl | ha
    · rw [hxa]; exact ⟨h.brk_pos, Nat.lt_succ_self _⟩
    · exact ⟨(h.fresh a ha).1, Nat.lt_succ_of_lt (h.fresh a ha).2⟩
  · have : (t.insT x).keys = (t.attach x).keys := by simp [Tree.keys, Tree.toList_insT]
    rw [this]
    exact Tree.attach_sorted h.sorted hk
  · show s.size_ + 1 = _
    rw [Tree.size_insT, h.sz]
  · intro e he
    rw [Tree.toList_insT, Tree.mem_attach] at he
    rcases he with rfl | he
    · exact hp
    · exact h.pri e he

theorem minA_ne_hdr {t : Tree} (hh : hdr ∉ t.addrs) (hne : t ≠ .nil) : t.minA hdr ≠ hdr :=
  fun h => hh (h ▸ Tree.minA_mem_of_ne_nil hne hdr)

/-- The worker `insert_` at the position found by `lower_bound`, for an absent key: it
returns the new node, and the container then holds `insT`. -/
theorem insert__spec {s : treap} {t : Tree} (h : Inv s t) (key val : Int) (pri : Nat)
    (hk : key ∉ t.keys) (fuel : Nat) (hf : t.height + 2 ≤ fuel) :
    ∃ s', insert_ lt fuel s (t.lbT key hdr) key val pri = some (s', s.brk) ∧
      Inv s' (t.insT ⟨s.brk, key, val, pri % 4294967296⟩) ∧ s'.size_ = s.size_ + 1 := by
  obtain ⟨x, hx⟩ : ∃ x : Entry, x = ⟨s.brk, key, val, pri % 4294967296⟩ := ⟨_, rfl⟩
  have hxa : x.a = s.brk := by rw [hx]
  have hxk : x.k = key := by rw [hx]
  have hxp : x.p < 4294967296 := by rw [hx]; exact Nat.mod_lt _ (by decide)
  have hbrk : s.brk ≠ hdr := fun e => absurd h.brk_pos (by rw [e]; decide)
  have hxt : s.brk ∉ t.addrs := fun hm => absurd (h.fresh _ hm).2 (lt_irrefl _)
  have hhd := hdr_not_mem h
  obtain ⟨m1, hm1⟩ : ∃ m1 : Mem, m1 = s.mem.set s.brk ⟨key, val, none, none, none,
    pri % 4294967296⟩ := ⟨_, rfl⟩
  have hd1 : m1 hdr = some (HdrOf t) := by
    rw [hm1, Mem.set_other _ _ hbrk.symm]; exact h.hd
  have rep1 : Rep m1 t (some hdr) := by
    refine h.rep.congr fun a ha => ?_
    rw [hm1]
    exact Mem.set_other _ _ (fun e => hxt (e ▸ ha))
  have hm1x : m1 s.brk = some ⟨x.k, x.v, none, none, none, x.p⟩ := by
    rw [hm1, hx]; exact Mem.set_same _ _ _
  rw [← hx]
  simp only [insert_, create_node, ← hm1, empty, hd1]
  by_cases hne : t = .nil
  · subst hne
    have h1 : (HdrOf Tree.nil).left = some hdr := rfl
    simp only [h1, decide_True, setPar, setLeft, setRight, hm1x, Option.some_bind,
      Mem.set_apply, hbrk.symm, if_false, hd1, if_true]
    refine ⟨_, rfl, ?_, rfl⟩
    refine Inv.of_insT h hxa (by simp [Tree.keys, Tree.toList]) hxp ?_ ?_
    · simp [Mem.set, HdrOf, Tree.insT, Tree.minA, Tree.maxA, Tree.ptr, hxa]
    · refine ⟨?_, trivial, trivial⟩
      simp [Mem.set, hxa, hbrk, Tree.ptr]
  · have h1 : (HdrOf t).left ≠ some hdr := by
      simp only [HdrOf, ne_eq, Option.some.injEq]
      exact minA_ne_hdr hhd hne
    simp only [h1, decide_False]
    -- the graft
    have hgraft : ∃ m2, graft m1 fuel (t.lbT key hdr) s.brk = some (m2, t.attachPar x hdr) ∧
        Rep m2 (t.attach x) (some hdr) ∧ (∀ a, a ∉ t.addrs → a ≠ x.a → m2 a = m1 a) := by
      rw [← hxk, ← hxa]
      rw [← hxa] at hm1x hxt
      rw [← hxk] at hk
      rcases Tree.lbT_mem x.k t hdr with hin | heq
      · exact graft_inner rep1 h.nodup x hxt hk hdr hhd hin hm1x fuel (by omega) hdr
      · obtain ⟨m1', m2, hs1, hs2, hrep, hfr, hap⟩ :=
          graft_right rep1 hne h.nodup x hxt hdr hhd heq hm1x hdr hdr
        have hdec := dec_hdr hd1 rep1 hhd fuel (by omega)
        have hl : (HdrOf t).left = some (t.minA hdr) := rfl
        rw [heq, graft_dec hd1 hl fuel x.a hdec, hs1]
        simp only [Option.some_bind, hs2, Option.map_some', hap]
        exact ⟨m2, rfl, hrep, hfr⟩
    obtain ⟨m2, hg, hrep2, hfr2⟩ := hgraft
    simp only [hg]
    -- the rebalancing loop
    have hn2 : (t.attach x).addrs.Nodup := by
      rw [(Tree.addrs_attach_perm x t).nodup_iff]
      exact List.nodup_cons.2 ⟨hxa ▸ hxt, h.nodup⟩
    have hh2 : hdr ∉ (t.attach x).addrs := by
      rw [mem_attach_addrs]
      rintro (h' | h')
      · exact hbrk (by rw [← hxa, ← h'])
      · exact hhd h'
    have hm2h : m2 hdr = some (HdrOf t) := by
      rw [hfr2 hdr hhd (fun e => hbrk (by rw [← hxa, ← e])), hd1]
    have hsl : ∀ a, (t.attach x).ptr = some a → IsSlot .root hdr (HdrOf t) a := by
      intro a ha
      rw [Tree.attach_ptr x hne] at ha
      exact ⟨rfl, ha⟩
    obtain ⟨m3, d, hd, hrep3, hm3h, hfr3, hloop⟩ :=
      rotate_loop_spec x hrep2 hn2 hh2 hh2 hm2h hsl
    have hxmem : x ∈ (t.insT x).toList := by
      rw [Tree.toList_insT, Tree.mem_attach]; exact Or.inl rfl
    obtain ⟨xn, hxn, _, _, hxnp⟩ := hrep3.get hxmem
    have hstop : ∀ f, rotate_loop m3 (f + 1) hdr x.a = some m3 := by
      intro f
      have : ¬ UINT32_MAX < x.p := by
        simp only [UINT32_MAX]; omega
      simp [rotate_loop, hm3h, hxn, hxnp, Slot.put, HdrOf, this]
    have hloop' : rotate_loop m2 fuel (t.attachPar x hdr) x.a = some m3 := by
      obtain ⟨f, rfl⟩ : ∃ f, fuel = f + 1 + d := ⟨fuel - 1 - d, by omega⟩
      rcases hloop with ⟨_, hl⟩ | ⟨_, hl⟩
      · rw [hl, hstop]
      · rw [Nat.add_right_comm, hl]
    rw [← hxa, hloop']
    -- the cached ends
    have hm3h' : m3 hdr = some ⟨0, 0, some (t.minA hdr), some (t.maxA hdr), (t.insT x).ptr,
        UINT32_MAX⟩ := hm3h
    have hh3 : hdr ∉ (t.insT x).addrs := by rw [Tree.addrs_insT]; exact hh2
    obtain ⟨m4, hu, hm4h, hfr4⟩ :=
      update_ends_spec x hne hm3h' hrep3 h.sorted (hxk ▸ hk) hh3
    simp only [hu, Option.map_some']
    rw [hxa]
    refine ⟨_, rfl, ?_, rfl⟩
    refine Inv.of_insT h hxa (hxk ▸ hk) hxp hm4h ?_
    refine hrep3.congr fun a ha => hfr4 a (fun e => hh3 (e ▸ ha))

/-! ### assign_and_keep -/

/-- The call `assign_and_keep(par->left, src, par)` with a non-null `src`. -/
theorem assign_and_keep_left {m : Mem} {par d : Nat} {pn dn : node} (lv : Option Nat)
    (hp : m par = some pn) (hd : m d = some dn) (hdp : d ≠ par) (hph : par ≠ hdr) :
    ∃ m', assign_and_keep m lv (.leftOf par) (some d) par = some (m', lv) ∧
      m' par = some { pn with left := some d } ∧ m' d = some { dn with par := some par } ∧
      ∀ y, y ≠ par → y ≠ d → m' y = m y := by
  cases hl : pn.left with
  | none =>
    simp only [assign_and_keep, Ref.get, Ref.put, hp, hl, Option.map_some', setLeft, setPar,
      Mem.set_apply, if_true, hdp, if_false, hd]
    refine ⟨_, rfl, ?_, ?_, ?_⟩
    · simp [Mem.set, hdp.symm]
    · simp [Mem.set]
    · intro y h1 h2; simp [Mem.set, h1, h2]
  | some d0 =>
    simp only [assign_and_keep, Ref.get, Ref.put, hp, hl, Option.map_some', hph, if_false,
      setLeft, setPar, Mem.set_apply, if_true, hdp, hd, decide_True]
    refine ⟨_, rfl, ?_, ?_, ?_⟩
    · simp [Mem.set, hdp.symm]
    · simp [Mem.set]
    · intro y h1 h2; simp [Mem.set, h1, h2]

/-- The call `assign_and_keep(par->right, src, par)` with a non-null `src`. -/
theorem assign_and_keep_right {m : Mem} {par d : Nat} {pn dn : node} (lv : Option Nat)
    (hp : m par = some pn) (hd : m d = some dn) (hdp : d ≠ par) (hph : par ≠ hdr)
    (hlr : ∀ y, pn.right = some y → pn.left ≠ some y) :
    ∃ m', assign_and_keep m lv (.rightOf par) (some d) par = some (m', lv) ∧
      m' par = some { pn with right := some d } ∧ m' d = some { dn with par := some par } ∧
      ∀ y, y ≠ par → y ≠ d → m' y = m y := by
  cases hl : pn.right with
  | none =>
    simp only [assign_and_keep, Ref.get, Ref.put, hp, hl, Option.map_some', setRight, setPar,
      Mem.set_apply, if_true, hdp, if_false, hd]
    refine ⟨_, rfl, ?_, ?_, ?_⟩
    · simp [Mem.set, hdp.symm]
    · simp [Mem.set]
    · intro y h1 h2; simp [Mem.set, h1, h2]
  | some d0 =>
    have hne := hlr d0 hl
    simp only [assign_and_keep, Ref.get, Ref.put, hp, hl, Option.map_some', hph, if_false,
      setRight, setPar, Mem.set_apply, if_true, hdp, hd, hne, decide_False, Bool.false_eq_true, if_false]
    refine ⟨_, rfl, ?_, ?_, ?_⟩
    · simp [Mem.set, hdp.symm]
    · simp [Mem.set]
    · intro y h1 h2; simp [Mem.set, h1, h2]

/-- The call `assign_and_keep(pos.node, src, par)`: the slot of `par` that held `x` receives `src`. -/
theorem assign_and_keep_loc {m : Mem} {par x : Nat} {pn : node} {sl : Slot}
    (hp : m par = some pn) (hs : IsSlot sl par pn x) (src : Option Nat)
    (hsrc : ∀ d, src = some d → d ≠ par ∧ ∃ dn, m d = some dn) :
    ∃ m', assign_and_keep m (some x) .loc src par = some (m', src) ∧
      m' par = some (sl.put pn src) ∧
      (∀ d, src = some d → m' d = (m d).map fun n => { n with par := some par }) ∧
      ∀ y, y ≠ par → src ≠ some y → m' y = m y := by
  cases src with
  | none =>
    cases sl with
    | root =>
      obtain ⟨h1, _⟩ := hs
      subst h1
      simp only [assign_and_keep, Ref.get, Ref.put, if_true, setPar, hp]
      refine ⟨_, rfl, ?_, ?_, ?_⟩
      · simp [Mem.set, Slot.put]
      · intro d hd; simp at hd
      · intro y h1 _; simp [Mem.set, h1]
    | left =>
      obtain ⟨h1, _, h3⟩ := hs
      simp only [assign_and_keep, Ref.get, Ref.put, h1, if_false, hp, h3, decide_True, if_true,
        setLeft]
      refine ⟨_, rfl, ?_, ?_, ?_⟩
      · simp [Mem.set, Slot.put]
      · intro d hd; simp at hd
      · intro y h1 _; simp [Mem.set, h1]
    | right =>
      obtain ⟨h1, _, h3, _⟩ := hs
      simp only [assign_and_keep, Ref.get, Ref.put, h1, if_false, hp, h3, decide_False, Bool.false_eq_true,
        setRight]
      refine ⟨_, rfl, ?_, ?_, ?_⟩
      · simp [Mem.set, Slot.put]
      · intro d hd; simp at hd
      · intro y h1 _; simp [Mem.set, h1]
  | some d =>
    obtain ⟨hdp, dn, hd⟩ := hsrc d rfl
    cases sl with
    | root =>
      obtain ⟨h1, _⟩ := hs
      subst h1
      simp only [assign_and_keep, Ref.get, Ref.put, if_true, setPar, hp, hd, Mem.set_apply,
        hdp.symm, if_false]
      refine ⟨_, rfl, ?_, ?_, ?_⟩
      · simp [Mem.set, Slot.put]
      · intro d' hd'
        simp only [Option.some.injEq] at hd'
        subst hd'
        simp [Mem.set, hdp, hd]
      · intro y h1 h2
        have : y ≠ d := fun h => h2 (by rw [h])
        simp [Mem.set, h1, this]
    | left =>
      obtain ⟨h1, _, h3⟩ := hs
      simp only [assign_and_keep, Ref.get, Ref.put, h1, if_false, hp, h3, decide_True, if_true,
        setLeft, setPar, Mem.set_apply, hdp, hd]
      refine ⟨_, rfl, ?_, ?_, ?_⟩
      · simp [Mem.set, Slot.put, hdp.symm]
      · intro d' hd'
        simp only [Option.some.injEq] at hd'
        subst hd'
        simp [Mem.set, hd]
      · intro y h1 h2
        have : y ≠ d := fun h => h2 (by rw [h])
        simp [Mem.set, h1, this]
    | right =>
      obtain ⟨h1, _, h3, _⟩ := hs
      simp only [assign_and_keep, Ref.get, Ref.put, h1, if_false, hp, h3, decide_False, Bool.false_eq_true,
        setRight, setPar, Mem.set_apply, hdp, hd]
      refine ⟨_, rfl, ?_, ?_, ?_⟩
      · simp [Mem.set, Slot.put, hdp.symm]
      · intro d' hd'
        simp only [Option.some.injEq] at hd'
        subst hd'
        simp [Mem.set, hd]
      · intro y h1 h2
        have : y ≠ d := fun h => h2 (by rw [h])
        simp [Mem.set, h1, this]

namespace Tree

theorem mergeT_nil_left (r : Tree) : mergeT nil r = r := by
  rw [mergeT]

theorem mergeT_nil_right (l : Tree) : mergeT l nil = l := by
  cases l with
  | nil => rw [mergeT]
  | node ll a lr => rw [mergeT]

theorem mergeT_node (ll : Tree) (a : Entry) (lr rl : Tree) (b : Entry) (rr : Tree) :
    mergeT (node ll a lr) (node rl b rr) =
      if a.p < b.p then node (mergeT (node ll a lr) rl) b rr
      else node ll a (mergeT lr (node rl b rr)) := by
  rw [mergeT]

theorem toList_mergeT_aux (n : Nat) :
    ∀ l r : Tree, l.size + r.size ≤ n → (mergeT l r).toList = l.toList ++ r.toList := by
  induction n with
  | zero =>
    intro l r h
    cases l with
    | nil => simp [mergeT_nil_left, toList]
    | node ll a lr => simp [size] at h
  | succ n ih =>
    intro l r h
    cases l with
    | nil => simp [mergeT_nil_left, toList]
    | node ll a lr =>
      cases r with
      | nil => simp [mergeT_nil_right, toList]
      | node rl b rr =>
        rw [mergeT_node]
        simp only [size] at h
        split
        · simp only [toList]
          rw [ih _ _ (by simp only [size]; omega)]
          simp [toList, List.append_assoc]
        · simp only [toList]
          rw [ih _ _ (by simp only [size]; omega)]
          simp [toList, List.append_assoc]

theorem toList_mergeT (l r : Tree) : (mergeT l r).toList = l.toList ++ r.toList :=
  toList_mergeT_aux _ l r (le_refl _)

theorem addrs_mergeT (l r : Tree) : (mergeT l r).addrs = l.addrs ++ r.addrs := by
  simp [addrs, toList_mergeT]

theorem ptr_some_of_ne_nil {t : Tree} (h : t ≠ nil) : ∃ l e r, t = node l e r := by
  cases t with
  | nil => exact absurd rfl h
  | node l e r => exact ⟨l, e, r, rfl⟩

end Tree

/-- The recursion `merge` on two represented subtrees with disjoint addresses: the
memory then holds `mergeT`, up to the parent pointer of its root. -/
theorem merge_spec (fuel : Nat) :
    ∀ (l r : Tree) (m : Mem) (ql qr : Option Nat), l.size + r.size < fuel →
      Rep m l ql → Rep m r qr → (l.addrs ++ r.addrs).Nodup → hdr ∉ l.addrs ++ r.addrs →
      ∃ m' q, merge m fuel l.ptr r.ptr = some (m', (Tree.mergeT l r).ptr) ∧
        Rep m' (Tree.mergeT l r) q ∧ (∀ y, y ∉ l.addrs → y ∉ r.addrs → m' y = m y) := by
  induction fuel with
  | zero => intro l r m ql qr h; omega
  | succ f ih =>
    intro l r m ql qr hsz hl hr hn hh
    cases l with
    | nil =>
      refine ⟨m, qr, ?_, ?_, fun _ _ _ => rfl⟩
      · simp [merge, Tree.ptr, Tree.mergeT_nil_left]
      · rw [Tree.mergeT_nil_left]; exact hr
    | node ll a lr =>
      cases r with
      | nil =>
        refine ⟨m, ql, ?_, ?_, fun _ _ _ => rfl⟩
        · simp [merge, Tree.ptr, Tree.mergeT_nil_right]
        · rw [Tree.mergeT_nil_right]; exact hl
      | node rl b rr =>
        have hl1 := hl.1
        have hr1 := hr.1
        have hnd := List.nodup_append.1 hn
        obtain ⟨hlln, hlrn, hal, har, hllr⟩ := nodup_node hnd.1
        obtain ⟨hrln, hrrn, hbl, hbr, hrlr⟩ := nodup_node hnd.2.1
        have hdis : ∀ y, y ∈ (Tree.node ll a lr).addrs → y ∉ (Tree.node rl b rr).addrs :=
          fun y h1 h2 => hnd.2.2 h1 h2
        simp only [List.mem_append, not_or] at hh
        simp only [Tree.size] at hsz
        rw [Tree.mergeT_node]
        simp only [Tree.ptr, merge, hl1, hr1]
        by_cases hp : a.p < b.p
        · simp only [hp, if_true]
          -- merge lhs into rhs->left
          have hn1 : ((Tree.node ll a lr).addrs ++ rl.addrs).Nodup := by
            refine List.nodup_append.2 ⟨hnd.1, hrln, fun y h1 h2 => ?_⟩
            exact hdis y h1 (by simp [Tree.addrs_node, h2])
          have hh1 : hdr ∉ (Tree.node ll a lr).addrs ++ rl.addrs := by
            simp only [List.mem_append, not_or]
            exact ⟨hh.1, fun h => hh.2 (by simp [Tree.addrs_node, h])⟩
          obtain ⟨m1, q1, hm, hrep1, hfr1⟩ :=
            ih (Tree.node ll a lr) rl m ql (some b.a) (by simp only [Tree.size]; omega) hl hr.2.1
              hn1 hh1
          have hne : Tree.mergeT (Tree.node ll a lr) rl ≠ .nil := by
            intro h
            have := Tree.addrs_mergeT (Tree.node ll a lr) rl
            rw [h] at this
            simp [Tree.addrs, Tree.toList] at this
          obtain ⟨sl, se, sr, hs⟩ := Tree.ptr_some_of_ne_nil hne
          have hsa : (Tree.node sl se sr).addrs = (Tree.node ll a lr).addrs ++ rl.addrs := by
            rw [← hs, Tree.addrs_mergeT]
          have hbnot : b.a ∉ (Tree.node sl se sr).addrs := by
            rw [hsa]
            simp only [List.mem_append, not_or]
            exact ⟨fun h => hdis _ h (by simp [Tree.addrs_node]), hbl⟩
          have hm1b : m1 b.a = some ⟨b.k, b.v, rl.ptr, rr.ptr, qr, b.p⟩ := by
            rw [hfr1 b.a (fun h => hdis _ h (by simp [Tree.addrs_node])) hbl, hr1]
          simp only [Tree.ptr] at hm
          rw [hm, hs]
          rw [hs] at hrep1
          have hseb : se.a ≠ b.a := fun h => hbnot (by simp [Tree.addrs_node, ← h])
          have hbh : b.a ≠ hdr := fun h => hh.2 (by simp [Tree.addrs_node, ← h])
          obtain ⟨m2, hak, hm2b, hm2s, hfr2⟩ :=
            assign_and_keep_left none hm1b hrep1.1 hseb hbh
          simp only [Tree.ptr, hak, Option.map_some']
          obtain ⟨_, _, hsel, hser, _⟩ := nodup_node (hsa ▸ hn1)
          refine ⟨m2, qr, rfl, ⟨hm2b, ⟨hm2s, ?_, ?_⟩, ?_⟩, ?_⟩
          · refine hrep1.2.1.congr fun y hy => ?_
            exact hfr2 y (fun h => hbnot (by simp [Tree.addrs_node, ← h, hy]))
              (fun h => hsel (h ▸ hy))
          · refine hrep1.2.2.congr fun y hy => ?_
            exact hfr2 y (fun h => hbnot (by simp [Tree.addrs_node, ← h, hy]))
              (fun h => hser (h ▸ hy))
          · refine hr.2.2.congr fun y hy => ?_
            have hy1 : y ∉ (Tree.node ll a lr).addrs :=
              fun h => hdis y h (by simp [Tree.addrs_node, hy])
            have hy2 : y ∉ rl.addrs := fun h => hrlr y h hy
            rw [hfr2 y (fun h => hbr (h ▸ hy)) ?_, hfr1 y hy1 hy2]
            intro h
            have : se.a ∈ (Tree.node sl se sr).addrs := by simp [Tree.addrs_node]
            rw [hsa, List.mem_append] at this
            rcases this with h' | h'
            · exact hy1 (h ▸ h')
            · exact hy2 (h ▸ h')
          · intro y hy1 hy2
            simp only [Tree.addrs_node, List.mem_append, List.mem_cons, not_or] at hy2
            rw [hfr2 y hy2.2.1 ?_, hfr1 y hy1 hy2.1]
            intro h
            have : se.a ∈ (Tree.node sl se sr).addrs := by simp [Tree.addrs_node]
            rw [hsa, List.mem_append] at this
            rcases this with h' | h'
            · exact hy1 (h ▸ h')
            · exact hy2.1 (h ▸ h')
        · simp only [hp, if_false]
          -- merge rhs into lhs->right
          have hn1 : (lr.addrs ++ (Tree.node rl b rr).addrs).Nodup := by
            refine List.nodup_append.2 ⟨hlrn, hnd.2.1, fun y h1 h2 => ?_⟩
            exact hdis y (by simp [Tree.addrs_node, h1]) h2
          have hh1 : hdr ∉ lr.addrs ++ (Tree.node rl b rr).addrs := by
            simp only [List.mem_append, not_or]
            exact ⟨fun h => hh.1 (by simp [Tree.addrs_node, h]), hh.2⟩
          obtain ⟨m1, q1, hm, hrep1, hfr1⟩ :=
            ih lr (Tree.node rl b rr) m (some a.a) qr (by simp only [Tree.size]; omega) hl.2.2 hr
              hn1 hh1
          have hne : Tree.mergeT lr (Tree.node rl b rr) ≠ .nil := by
            intro h
            have := Tree.addrs_mergeT lr (Tree.node rl b rr)
            rw [h] at this
            simp [Tree.addrs, Tree.toList] at this
          obtain ⟨sl, se, sr, hs⟩ := Tree.ptr_some_of_ne_nil hne
          have hsa : (Tree.node sl se sr).addrs = lr.addrs ++ (Tree.node rl b rr).addrs := by
            rw [← hs, Tree.addrs_mergeT]
          have hanot : a.a ∉ (Tree.node sl se sr).addrs := by
            rw [hsa]
            simp only [List.mem_append, not_or]
            exact ⟨har, hdis _ (by simp [Tree.addrs_node])⟩
          have hm1a : m1 a.a = some ⟨a.k, a.v, ll.ptr, lr.ptr, ql, a.p⟩ := by
            rw [hfr1 a.a har (hdis _ (by simp [Tree.addrs_node])), hl1]
          simp only [Tree.ptr] at hm
          rw [hm, hs]
          rw [hs] at hrep1
          have hsea : se.a ≠ a.a := fun h => hanot (by simp [Tree.addrs_node, ← h])
          have hah : a.a ≠ hdr := fun h => hh.1 (by simp [Tree.addrs_node, ← h])
          have hlrne : ∀ y, lr.ptr = some y → ll.ptr ≠ some y := by
            intro y h1 h2
            exact hllr y (Tree.ptr_mem h2) (Tree.ptr_mem h1)
          obtain ⟨m2, hak, hm2a, hm2s, hfr2⟩ :=
            assign_and_keep_right none hm1a hrep1.1 hsea hah hlrne
          simp only [Tree.ptr, hak, Option.map_some']
          obtain ⟨_, _, hsel, hser, _⟩ := nodup_node (hsa ▸ hn1)
          refine ⟨m2, ql, rfl, ⟨hm2a, ?_, ⟨hm2s, ?_, ?_⟩⟩, ?_⟩
          · refine hl.2.1.congr fun y hy => ?_
            have hy1 : y ∉ lr.addrs := fun h => hllr y hy h
            have hy2 : y ∉ (Tree.node rl b rr).addrs :=
              hdis y (by simp [Tree.addrs_node, hy])
            rw [hfr2 y (fun h => hal (h ▸ hy)) ?_, hfr1 y hy1 hy2]
            intro h
            have : se.a ∈ (Tree.node sl se sr).addrs := by simp [Tree.addrs_node]
            rw [hsa, List.mem_append] at this
            rcases this with h' | h'
            · exact hy1 (h ▸ h')
            · exact hy2 (h ▸ h')
          · refine hrep1.2.1.congr fun y hy => ?_
            exact hfr2 y (fun h => hanot (by simp [Tree.addrs_node, ← h, hy]))
              (fun h => hsel (h ▸ hy))
          · refine hrep1.2.2.congr fun y hy => ?_
            exact hfr2 y (fun h => hanot (by simp [Tree.addrs_node, ← h, hy]))
              (fun h => hser (h ▸ hy))
          · intro y hy1 hy2
            simp only [Tree.addrs_node, List.mem_append, List.mem_cons, not_or] at hy1
            rw [hfr2 y hy1.2.1 ?_, hfr1 y hy1.2.2 hy2]
            intro h
            have : se.a ∈ (Tree.node sl se sr).addrs := by simp [Tree.addrs_node]
            rw [hsa, List.mem_append] at this
            rcases this with h' | h'
            · exact hy1.2.2 (h ▸ h')
            · exact hy2 (h ▸ h')

namespace Tree

theorem filter_eq_self_of_not_mem {t : Tree} {x : Nat} (h : x ∉ t.addrs) :
    t.toList.filter (fun e => decide (e.a ≠ x)) = t.toList := by
  rw [List.filter_eq_self]
  intro e he
  simp only [ne_eq, decide_not, Bool.not_eq_true', decide_eq_false_iff_not]
  intro hx
  exact h (hx ▸ List.mem_map_of_mem Entry.a he)

/-- Removing a node removes exactly its element from the in-order sequence. -/
theorem toList_delT {t : Tree} (x : Nat) (hn : t.addrs.Nodup) :
    (t.delT x).toList = t.toList.filter (fun e => decide (e.a ≠ x)) := by
  induction t with
  | nil => rfl
  | node l e r ihl ihr =>
    obtain ⟨hln, hrn, hel, her, hlr⟩ := nodup_node hn
    simp only [delT, toList, List.filter_append, List.filter_cons]
    by_cases hex : e.a = x
    · subst hex
      simp only [if_true, toList_mergeT, ne_eq, not_true_eq_false, decide_False,
        Bool.false_eq_true, if_false]
      rw [filter_eq_self_of_not_mem hel, filter_eq_self_of_not_mem her]
    · simp only [hex, if_false, ne_eq, not_false_eq_true, decide_True, if_true]
      by_cases hxl : x ∈ l.toList.map Entry.a
      · have hxr : x ∉ r.addrs := hlr x hxl
        simp only [hxl, if_true, toList, ihl hln]
        rw [filter_eq_self_of_not_mem hxr]
      · simp only [hxl, if_false, toList, ihr hrn]
        rw [filter_eq_self_of_not_mem (t := l) hxl]

theorem addrs_delT {t : Tree} (x : Nat) (hn : t.addrs.Nodup) :
    (t.delT x).addrs = t.addrs.filter (fun a => decide (a ≠ x)) := by
  simp only [addrs, toList_delT x hn, List.filter_map]
  rfl

theorem mem_addrs_delT {t : Tree} {x y : Nat} (hn : t.addrs.Nodup) :
    y ∈ (t.delT x).addrs ↔ y ∈ t.addrs ∧ y ≠ x := by
  rw [addrs_delT x hn]; simp

theorem size_delT {t : Tree} {x : Nat} (hn : t.addrs.Nodup) (hx : x ∈ t.addrs) :
    (t.delT x).size + 1 = t.size := by
  rw [← length_toList, ← length_toList]
  have h1 : (t.delT x).toList.length = (t.delT x).addrs.length := by simp [addrs]
  have h2 : t.toList.length = t.addrs.length := by simp [addrs]
  rw [h1, h2, addrs_delT x hn]
  have : t.addrs.filter (fun a => decide (a ≠ x)) = t.addrs.erase x := by
    rw [hn.erase_eq_filter]
    congr 1
    funext a
    by_cases h : a = x <;> simp [h]
  rw [this, List.length_erase_of_mem hx]
  have : 0 < t.addrs.length := List.length_pos_of_mem hx
  omega

end Tree

theorem getLast?_cons_getD (a : Nat) (F : List Nat) (d0 : Nat) :
    ((a :: F).getLast?).getD d0 = F.getLast?.getD a := by
  cases F with
  | nil => rfl
  | cons b bs =>
    have hy : (b :: bs).getLast? = some ((b :: bs).getLast (List.cons_ne_nil _ _)) :=
      List.getLast?_eq_getLast _ _
    rw [List.getLast?_cons_cons, hy]
    rfl

theorem filter_ne_of_not_mem {as : List Nat} {x : Nat} (h : x ∉ as) :
    as.filter (fun b => decide (b ≠ x)) = as := by
  rw [List.filter_eq_self]
  intro b hb
  simp only [ne_eq, decide_not, Bool.not_eq_true', decide_eq_false_iff_not]
  intro h'
  exact h (h' ▸ hb)

/-- The head of a duplicate-free list without `x`. -/
theorem head_filter_ne {L : List Nat} (x d : Nat) (hn : L.Nodup) :
    ((L.filter fun a => decide (a ≠ x)).head?).getD d =
      if L.head? = some x then succL L x d else L.head?.getD d := by
  cases L with
  | nil => rfl
  | cons a as =>
    have hc := List.nodup_cons.1 hn
    by_cases hax : a = x
    · subst hax
      rw [List.filter_cons_of_neg (by simp), filter_ne_of_not_mem hc.1]
      simp [succL]
    · rw [List.filter_cons_of_pos (by simp [hax])]
      simp [hax]

/-- The last element of a duplicate-free list without `x`. -/
theorem last_filter_ne {L : List Nat} (x d : Nat) (hn : L.Nodup) (hx : x ∈ L) (hd : d ∉ L)
    (d0 : Nat) :
    ((L.filter fun a => decide (a ≠ x)).getLast?).getD d0 =
      if succL L x d = d then predL L x d0 else L.getLast?.getD d0 := by
  induction L generalizing d0 with
  | nil => simp at hx
  | cons a as ih =>
    have hc := List.nodup_cons.1 hn
    simp only [List.mem_cons, not_or] at hd
    by_cases hax : a = x
    · subst hax
      rw [List.filter_cons_of_neg (by simp), filter_ne_of_not_mem hc.1]
      simp only [succL, predL, if_true]
      cases as with
      | nil => simp
      | cons b bs =>
        have hbd : b ≠ d := fun h => hd.2 (by simp [h])
        simp [hbd, getLast?_cons_getD]
    · have hxas : x ∈ as := by
        rcases List.mem_cons.1 hx with h | h
        · exact absurd h.symm hax
        · exact h
      rw [List.filter_cons_of_pos (by simp [hax]), getLast?_cons_getD, getLast?_cons_getD]
      simp only [succL, predL, hax, if_false]
      exact ih hc.2 hxas hd.2 a

/-- Re-owning a represented tree: only the parent pointer of its root changes. -/
theorem Rep.reroot {m m' : Mem} {t : Tree} {q : Option Nat} (q' : Option Nat) (hr : Rep m t q)
    (hn : t.addrs.Nodup)
    (hroot : ∀ d, t.ptr = some d → m' d = (m d).map fun n => { n with par := q' })
    (hfr : ∀ y, y ∈ t.addrs → t.ptr ≠ some y → m' y = m y) : Rep m' t q' := by
  cases t with
  | nil => trivial
  | node l e r =>
    obtain ⟨h1, h2, h3⟩ := hr
    obtain ⟨_, _, hel, her, _⟩ := nodup_node hn
    refine ⟨?_, h2.congr fun y hy => ?_, h3.congr fun y hy => ?_⟩
    · rw [hroot e.a rfl, h1]; rfl
    · refine hfr y (by simp [Tree.addrs_node, hy]) ?_
      simp only [Tree.ptr, ne_eq, Option.some.injEq]
      exact fun h => hel (h ▸ hy)
    · refine hfr y (by simp [Tree.addrs_node, hy]) ?_
      simp only [Tree.ptr, ne_eq, Option.some.injEq]
      exact fun h => her (h ▸ hy)

/-- The core of `erase_` on the subtree that contains the erased node `x`: merging the
children of `x` and storing the result in the slot that held `x` leaves the memory
holding `delT`. -/
theorem unlink_spec {t : Tree} {m : Mem} {g : Nat} {gn : node} {sl : Slot} {x : Nat}
    (hr : Rep m t (some g)) (hn : t.addrs.Nodup) (hgn : g ∉ t.addrs) (hh : hdr ∉ t.addrs)
    (hg : m g = some gn) (hs : ∀ a, t.ptr = some a → IsSlot sl g gn a) (hx : x ∈ t.addrs)
    (fuel : Nat) (hf : t.size < fuel) :
    ∃ xn m2 src par m3, m x = some xn ∧ merge m fuel xn.left xn.right = some (m2, src) ∧
      (∃ xn2, m2 x = some xn2 ∧ xn2.par = some par) ∧
      assign_and_keep m2 (some x) .loc src par = some (m3, src) ∧
      Rep m3 (t.delT x) (some g) ∧ m3 g = some (sl.put gn (t.delT x).ptr) ∧ m3 x = m x ∧
      (∀ y, y ∉ t.addrs → y ≠ g → m3 y = m y) := by
  induction t generalizing m g gn sl with
  | nil => simp [Tree.addrs, Tree.toList] at hx
  | node l e r ihl ihr =>
    obtain ⟨h1, h2, h3⟩ := hr
    obtain ⟨hln, hrn, hel, her, hlr⟩ := nodup_node hn
    have hge : g ≠ e.a := fun h => hgn (by simp [Tree.addrs_node, h])
    have hgl : g ∉ l.addrs := fun h => hgn (by simp [Tree.addrs_node, h])
    have hgr : g ∉ r.addrs := fun h => hgn (by simp [Tree.addrs_node, h])
    have hhe : e.a ≠ hdr := fun h => hh (by simp [Tree.addrs_node, h])
    have hhl : hdr ∉ l.addrs := fun h => hh (by simp [Tree.addrs_node, h])
    have hhr : hdr ∉ r.addrs := fun h => hh (by simp [Tree.addrs_node, h])
    simp only [Tree.size] at hf
    by_cases hex : e.a = x
    · -- the erased node is the root of this subtree
      subst hex
      simp only [Tree.delT, if_true]
      have hnlr : (l.addrs ++ r.addrs).Nodup :=
        List.nodup_append.2 ⟨hln, hrn, fun y h1 h2 => hlr y h1 h2⟩
      have hhlr : hdr ∉ l.addrs ++ r.addrs := by
        simp only [List.mem_append, not_or]; exact ⟨hhl, hhr⟩
      obtain ⟨m2, q, hm, hrep2, hfr2⟩ :=
        merge_spec fuel l r m (some e.a) (some e.a) (by omega) h2 h3 hnlr hhlr
      have hm2x : m2 e.a = m e.a := hfr2 e.a hel her
      have hm2g : m2 g = some gn := by rw [hfr2 g hgl hgr, hg]
      have haddr := Tree.addrs_mergeT l r
      have hsrc : ∀ d, (Tree.mergeT l r).ptr = some d → d ≠ g ∧ ∃ dn, m2 d = some dn := by
        intro d hd
        have hdm := Tree.ptr_mem hd
        refine ⟨fun h => ?_, hrep2.live hdm⟩
        rw [haddr, List.mem_append] at hdm
        rcases hdm with h' | h'
        · exact hgl (h ▸ h')
        · exact hgr (h ▸ h')
      obtain ⟨m3, hak, hm3g, hm3d, hfr3⟩ :=
        assign_and_keep_loc hm2g (hs e.a rfl) (Tree.mergeT l r).ptr hsrc
      have hxsrc : (Tree.mergeT l r).ptr ≠ some e.a := by
        intro h
        have hdm := Tree.ptr_mem h
        rw [haddr, List.mem_append] at hdm
        rcases hdm with h' | h'
        · exact hel h'
        · exact her h'
      refine ⟨_, m2, _, g, m3, h1, hm, ⟨_, hm2x.trans h1, rfl⟩, hak, ?_, hm3g, ?_, ?_⟩
      · refine hrep2.reroot (some g) (haddr ▸ hnlr) hm3d fun y hy hne => ?_
        refine hfr3 y (fun h => ?_) hne
        rw [haddr, List.mem_append] at hy
        rcases hy with h' | h'
        · exact hgl (h ▸ h')
        · exact hgr (h ▸ h')
      · rw [hfr3 e.a hge.symm hxsrc, hm2x]
      · intro y hy hyg
        simp only [Tree.addrs_node, List.mem_append, List.mem_cons, not_or] at hy
        rw [hfr3 y hyg ?_, hfr2 y hy.1 hy.2.2]
        intro h
        have hdm := Tree.ptr_mem h
        rw [haddr, List.mem_append] at hdm
        rcases hdm with h' | h'
        · exact hy.1 h'
        · exact hy.2.2 h'
    · have hxe : x ≠ e.a := fun h => hex h.symm
      by_cases hxl : x ∈ l.addrs
      · -- the erased node is in the left subtree
        have hxl' : x ∈ l.toList.map Entry.a := hxl
        simp only [Tree.delT, hex, if_false, hxl', if_true]
        have hsl : ∀ a, l.ptr = some a →
            IsSlot .left e.a ⟨e.k, e.v, l.ptr, r.ptr, some g, e.p⟩ a := by
          intro a ha
          refine ⟨hhe, ?_, ha⟩
          simp only [ne_eq, Option.some.injEq]
          intro h
          exact hgl (h ▸ Tree.ptr_mem ha)
        obtain ⟨xn, m2, src, par, m3, hxn, hm, hpar, hak, hrep3, hm3e, hm3x, hfr3⟩ :=
          ihl h2 hln hel hhl h1 hsl hxl (by omega)
        refine ⟨xn, m2, src, par, m3, hxn, hm, hpar, hak, ⟨hm3e, hrep3, ?_⟩, ?_, hm3x, ?_⟩
        · refine h3.congr fun y hy => ?_
          exact hfr3 y (fun h => hlr y h hy) (fun h => her (h ▸ hy))
        · rw [hfr3 g hgl hge, hg]
          exact congrArg some (hs e.a rfl).put_self.symm
        · intro y hy _
          exact hfr3 y (fun h => hy (by simp [Tree.addrs_node, h]))
            (fun h => hy (by simp [Tree.addrs_node, h]))
      · -- the erased node is in the right subtree
        have hxl' : ¬ x ∈ l.toList.map Entry.a := hxl
        have hxr : x ∈ r.addrs := by
          simp only [Tree.addrs_node, List.mem_append, List.mem_cons] at hx
          rcases hx with h | h | h
          · exact absurd h hxl
          · exact absurd h hxe
          · exact h
        simp only [Tree.delT, hex, if_false, hxl']
        have hsr : ∀ a, r.ptr = some a →
            IsSlot .right e.a ⟨e.k, e.v, l.ptr, r.ptr, some g, e.p⟩ a := by
          intro a ha
          refine ⟨hhe, ?_, ?_, ha⟩
          · simp only [ne_eq, Option.some.injEq]
            intro h
            exact hgr (h ▸ Tree.ptr_mem ha)
          · intro h
            exact hlr a (Tree.ptr_mem h) (Tree.ptr_mem ha)
        obtain ⟨xn, m2, src, par, m3, hxn, hm, hpar, hak, hrep3, hm3e, hm3x, hfr3⟩ :=
          ihr h3 hrn her hhr h1 hsr hxr (by omega)
        refine ⟨xn, m2, src, par, m3, hxn, hm, hpar, hak, ⟨hm3e, ?_, hrep3⟩, ?_, hm3x, ?_⟩
        · refine h2.congr fun y hy => ?_
          exact hfr3 y (fun h => hlr y hy h) (fun h => hel (h ▸ hy))
        · rw [hfr3 g hgr hge, hg]
          exact congrArg some (hs e.a rfl).put_self.symm
        · intro y hy _
          exact hfr3 y (fun h => hy (by simp [Tree.addrs_node, h]))
            (fun h => hy (by simp [Tree.addrs_node, h]))

namespace Tree

theorem eq_nil_of_size_eq_zero {t : Tree} (h : t.size = 0) : t = nil := by
  cases t with
  | nil => rfl
  | node l e r => simp [size] at h

end Tree

/-- In a duplicate-free list, an element that is both first and last is the only one. -/
theorem length_eq_one_of_head_last {L : List Nat} {x d : Nat} (hd : d ∉ L)
    (hhead : L.head? = some x) (hlast : succL L x d = d) : L.length = 1 := by
  cases L with
  | nil => simp at hhead
  | cons a as =>
    simp only [List.head?_cons, Option.some.injEq] at hhead
    subst hhead
    simp only [succL, if_true] at hlast
    cases as with
    | nil => rfl
    | cons b bs =>
      simp only [List.head?_cons, Option.getD_some] at hlast
      exact absurd (by simp [hlast]) hd

/-- The call `destroy_node` on a node whose child links were cleared frees that node only. -/
theorem destroy_node_leaf {s : treap} {x : Nat} {n : node} (hx : s.mem x = some n)
    (hl : n.left = none) (hr : n.right = none) (fuel : Nat) :
    destroy_node s (fuel + 1) x =
      some { mem := s.mem.free x, size_ := s.size_ - 1, brk := s.brk } := by
  simp [destroy_node, hx, hl, hr]

/-- The invariant after an erasure, from the facts about the final memory. -/
theorem Inv.of_delT {s : treap} {t : Tree} (h : Inv s t) {x : Nat} (hx : x ∈ t.addrs) {m' : Mem}
    (hd : m' hdr = some (HdrOf (t.delT x))) (hr : Rep m' (t.delT x) (some hdr)) :
    Inv { mem := m', size_ := s.size_ - 1, brk := s.brk } (t.delT x) := by
  have hsub : ∀ a, a ∈ (t.delT x).addrs → a ∈ t.addrs :=
    fun a ha => ((Tree.mem_addrs_delT h.nodup).1 ha).1
  refine ⟨hd, hr, ?_, fun a ha => h.fresh a (hsub a ha), h.brk_pos, ?_, ?_, ?_⟩
  · rw [Tree.addrs_delT x h.nodup]
    exact h.nodup.filter _
  · have : (t.delT x).keys.Sublist t.keys := by
      simp only [Tree.keys, Tree.toList_delT x h.nodup]
      exact (List.filter_sublist _).map _
    exact h.sorted.sublist this
  · show s.size_ - 1 = _
    have := Tree.size_delT h.nodup hx
    rw [h.sz]; omega
  · intro e he
    rw [Tree.toList_delT x h.nodup] at he
    exact h.pri e (List.mem_filter.1 he).1

/-- The worker `erase_` on a node of the container: it returns the in-order successor
(or `end()`), and the container then holds `delT`. -/
theorem erase__spec {s : treap} {t : Tree} (h : Inv s t) {x : Nat} (hx : x ∈ t.addrs)
    (fuel : Nat) (hf : t.size + 2 ≤ fuel) :
    ∃ s', erase_ fuel s x = some (s', succL t.addrs x hdr) ∧ Inv s' (t.delT x) ∧
      s'.size_ + 1 = s.size_ ∧ s'.brk = s.brk := by
  have hhd := hdr_not_mem h
  have hxh : x ≠ hdr := fun e => hhd (e ▸ hx)
  have hne := Tree.ne_nil_of_mem hx
  have hht := Tree.height_le_size t
  have hinc := inc_eq h.hd h.rep h.nodup hhd hx fuel (by omega)
  have hbeg : begin_ s = some (t.minA hdr) := by simp [begin_, h.hd, HdrOf]
  -- the header after the update of the cached ends
  obtain ⟨m1, hm1, hm1h, hm1f⟩ : ∃ m1,
      erase_ends s.mem fuel x (succL t.addrs x hdr) (t.minA hdr) = some m1 ∧
      m1 hdr = some ⟨0, 0,
        some (if x = t.minA hdr then succL t.addrs x hdr else t.minA hdr),
        some (if x = t.minA hdr then t.maxA hdr
          else if succL t.addrs x hdr = hdr then predL t.addrs x hdr else t.maxA hdr),
        t.ptr, UINT32_MAX⟩ ∧
      ∀ y, y ≠ hdr → m1 y = s.mem y := by
    unfold erase_ends
    by_cases h1 : x = t.minA hdr
    · simp only [if_pos h1, setLeft, h.hd]
      exact ⟨_, rfl, by simp [Mem.set, HdrOf], fun y hy => by simp [Mem.set, hy]⟩
    · simp only [if_neg h1, end_]
      by_cases h2 : succL t.addrs x hdr = hdr
      · have hdec := dec_eq h.rep h.nodup hx h1 fuel (by omega)
        simp only [if_pos h2, hdec, setRight, h.hd]
        exact ⟨_, rfl, by simp [Mem.set, HdrOf], fun y hy => by simp [Mem.set, hy]⟩
      · simp only [if_neg h2]
        exact ⟨_, rfl, h.hd, fun y _ => rfl⟩
  have hrep1 : Rep m1 t (some hdr) :=
    h.rep.congr fun a ha => hm1f a (fun e => hhd (e ▸ ha))
  have hsl : ∀ a, t.ptr = some a → IsSlot .root hdr
      ⟨0, 0, some (if x = t.minA hdr then succL t.addrs x hdr else t.minA hdr),
        some (if x = t.minA hdr then t.maxA hdr
          else if succL t.addrs x hdr = hdr then predL t.addrs x hdr else t.maxA hdr),
        t.ptr, UINT32_MAX⟩ a := fun a ha => ⟨rfl, ha⟩
  obtain ⟨xn, m2, src, par, m3, hxn, hm, ⟨xn2, hxn2, hpar⟩, hak, hrep3, hm3h, hm3x, hfr3⟩ :=
    unlink_spec hrep1 h.nodup hhd hhd hm1h hsl hx fuel (by omega)
  obtain ⟨f, rfl⟩ : ∃ f, fuel = f + 1 := ⟨fuel - 1, by omega⟩
  -- clearing the child links and destroying the node
  have hm3x' : m3 x = some xn := hm3x.trans hxn
  obtain ⟨m5, hm5⟩ : ∃ m5 : Mem, m5 = (m3.set x { xn with left := none }).set x
      { xn with left := none, right := none } := ⟨_, rfl⟩
  have hm5x : m5 x = some { xn with left := none, right := none } := by
    rw [hm5]; exact Mem.set_same _ _ _
  have hdestroy : destroy_node ⟨m5, s.size_, s.brk⟩ (f + 1) x =
      some ⟨m5.free x, s.size_ - 1, s.brk⟩ :=
    destroy_node_leaf hm5x rfl rfl f
  simp only [erase_, hinc, hbeg, hm1, hxn, hm, hxn2, hpar, assign_and_destroy, hak, setLeft,
    hm3x', Option.some_bind, setRight, Mem.set_same, ← hm5, hdestroy, size]
  have hsz : s.size_ = t.size := h.sz
  have hsd := Tree.size_delT h.nodup hx
  have hfinal : ∀ y, y ∈ (t.delT x).addrs → m5.free x y = m3 y := by
    intro y hy
    have hyx : y ≠ x := ((Tree.mem_addrs_delT h.nodup).1 hy).2
    simp [hm5, Mem.free, Mem.set, hyx]
  have hhd' : hdr ∉ (t.delT x).addrs := fun e => hhd ((Tree.mem_addrs_delT h.nodup).1 e).1
  have hfh : m5.free x hdr = m3 hdr := by
    simp [hm5, Mem.free, Mem.set, hxh.symm]
  by_cases hz : s.size_ - 1 = 0
  · -- the container becomes empty
    have hnil : t.delT x = .nil := Tree.eq_nil_of_size_eq_zero (by omega)
    simp only [hz, if_true, setLeft, setRight, setPar, hfh, hm3h, Option.some_bind,
      Mem.set_same, Option.map_some']
    refine ⟨_, rfl, ?_, by show 0 + 1 = s.size_; omega, rfl⟩
    have := Inv.of_delT h hx
      (show ((m5.free x).set hdr (HdrOf (t.delT x))) hdr = some (HdrOf (t.delT x)) from
        Mem.set_same _ _ _) (by rw [hnil]; trivial)
    rw [hz] at this
    convert this using 2
    funext y
    by_cases hy : y = hdr
    · subst hy; simp [Mem.set, hnil, HdrOf, Slot.put, Tree.minA, Tree.maxA, Tree.ptr]
    · simp [Mem.set, hy]
  · simp only [hz, if_false, Option.map_some']
    refine ⟨_, rfl, ?_, by show s.size_ - 1 + 1 = s.size_; omega, rfl⟩
    refine Inv.of_delT h hx ?_ (hrep3.congr hfinal)
    rw [hfh, hm3h]
    have hmin : (t.delT x).minA hdr =
        if x = t.minA hdr then succL t.addrs x hdr else t.minA hdr := by
      rw [Tree.minA_eq_head, Tree.addrs_delT x h.nodup, head_filter_ne x hdr h.nodup,
        Tree.minA_eq_head]
      have : (t.addrs.head? = some x) ↔ x = t.addrs.head?.getD hdr := by
        cases hL : t.addrs with
        | nil => rw [hL] at hx; simp at hx
        | cons a as => simp [eq_comm]
      simp only [this]
    have hmax : (t.delT x).maxA hdr =
        if x = t.minA hdr then t.maxA hdr
        else if succL t.addrs x hdr = hdr then predL t.addrs x hdr else t.maxA hdr := by
      rw [Tree.maxA_eq_last, Tree.addrs_delT x h.nodup,
        last_filter_ne x hdr h.nodup hx hhd hdr, ← Tree.maxA_eq_last]
      by_cases h1 : x = t.minA hdr
      · rw [if_pos h1]
        by_cases h2 : succL t.addrs x hdr = hdr
        · exfalso
          have hhead : t.addrs.head? = some x := by
            rw [Tree.minA_eq_head] at h1
            cases hL : t.addrs with
            | nil => rw [hL] at hx; simp at hx
            | cons a as => rw [hL] at h1; simp at h1; simp [h1]
          have := length_eq_one_of_head_last hhd hhead h2
          have hlen : t.addrs.length = t.size := by
            rw [← Tree.length_toList]; simp [Tree.addrs]
          omega
        · rw [if_neg h2]
      · rw [if_neg h1]
    simp only [Slot.put, HdrOf, hmin, hmax]

/-- The freshly constructed container represents the empty tree. -/
theorem inv_new : Inv treap.new .nil := by
  refine ⟨rfl, trivial, List.nodup_nil, ?_, by decide, List.Pairwise.nil, rfl, ?_⟩
  · intro a ha; simp [Tree.addrs, Tree.toList] at ha
  · intro e he; simp [Tree.toList] at he

/-- The first element of a key-sorted list that satisfies a test on keys is the one
with the least such key. -/
theorem find_first_char (p : Int → Bool) (L : List Entry) (hs : (L.map Entry.k).Pairwise (· < ·)) :
    (L.find? (fun e => p e.k) = none ∧ ∀ e ∈ L, p e.k = false) ∨
      ∃ e, L.find? (fun e => p e.k) = some e ∧ e ∈ L ∧ p e.k = true ∧
        ∀ e' ∈ L, p e'.k = true → e.k ≤ e'.k := by
  induction L with
  | nil => left; simp
  | cons y ys ih =>
    simp only [List.map_cons, List.pairwise_cons] at hs
    by_cases hy : p y.k = true
    · right
      refine ⟨y, by simp [List.find?_cons, hy], List.mem_cons_self _ _, hy, ?_⟩
      intro e' he' _
      rcases List.mem_cons.1 he' with h | h
      · rw [h]
      · exact le_of_lt (hs.1 e'.k (List.mem_map_of_mem _ h))
    · have hy' : p y.k = false := by simpa using hy
      rcases ih hs.2 with ⟨h1, h2⟩ | ⟨e, h1, h2, h3, h4⟩
      · left
        refine ⟨by simp [List.find?_cons, hy', h1], ?_⟩
        intro e he
        rcases List.mem_cons.1 he with h | h
        · rw [h]; exact hy'
        · exact h2 e h
      · right
        refine ⟨e, by simp [List.find?_cons, hy', h1], List.mem_cons_of_mem _ h2, h3, ?_⟩
        intro e' he' hpe'
        rcases List.mem_cons.1 he' with h | h
        · rw [h, hy'] at hpe'; exact absurd hpe' (by simp)
        · exact h4 e' h hpe'

/-- What the descent of `lower_bound` returns on a key-sorted tree. -/
theorem lbT_char (key : Int) (t : Tree) (res : Nat) (hs : t.keys.Pairwise (· < ·)) :
    (t.lbT key res = res ∧ ∀ e ∈ t.toList, e.k < key) ∨
      ∃ e ∈ t.toList, t.lbT key res = e.a ∧ key ≤ e.k ∧
        ∀ e' ∈ t.toList, key ≤ e'.k → e.k ≤ e'.k := by
  rw [lbT_eq_find key t res hs]
  rcases find_first_char (fun k => decide (key ≤ k)) t.toList hs with ⟨h1, h2⟩ | ⟨e, h1, h2, h3, h4⟩
  · left
    refine ⟨by simp [h1], fun e he => ?_⟩
    have := h2 e he
    simp at this; exact this
  · right
    refine ⟨e, h2, by simp [h1], by simpa using h3, fun e' he' hk => ?_⟩
    exact h4 e' he' (by simpa using hk)

/-- What the descent of `upper_bound` returns on a key-sorted tree. -/
theorem ubT_char (key : Int) (t : Tree) (res : Nat) (hs : t.keys.Pairwise (· < ·)) :
    (t.ubT key res = res ∧ ∀ e ∈ t.toList, e.k ≤ key) ∨
      ∃ e ∈ t.toList, t.ubT key res = e.a ∧ key < e.k ∧
        ∀ e' ∈ t.toList, key < e'.k → e.k ≤ e'.k := by
  rw [ubT_eq_find key t res hs]
  rcases find_first_char (fun k => decide (key < k)) t.toList hs with ⟨h1, h2⟩ | ⟨e, h1, h2, h3, h4⟩
  · left
    refine ⟨by simp [h1], fun e he => ?_⟩
    have := h2 e he
    simp at this; exact this
  · right
    refine ⟨e, h2, by simp [h1], by simpa using h3, fun e' he' hk => ?_⟩
    exact h4 e' he' (by simpa using hk)

theorem eq_of_key_eq_list {L : List Entry} (hs : (L.map Entry.k).Pairwise (· < ·))
    {e e' : Entry} (he : e ∈ L) (he' : e' ∈ L) (hk : e.k = e'.k) : e = e' := by
  induction L with
  | nil => simp at he
  | cons y ys ih =>
    simp only [List.map_cons, List.pairwise_cons] at hs
    rcases List.mem_cons.1 he with h | h <;> rcases List.mem_cons.1 he' with h' | h'
    · rw [h, h']
    · have := hs.1 e'.k (List.mem_map_of_mem _ h')
      rw [← hk, h] at this
      exact absurd this (lt_irrefl _)
    · have := hs.1 e.k (List.mem_map_of_mem _ h)
      rw [hk, h'] at this
      exact absurd this (lt_irrefl _)
    · exact ih hs.2 h h'

/-- In a key-sorted tree an element is determined by its key. -/
theorem eq_of_key_eq {t : Tree} (hs : t.keys.Pairwise (· < ·)) {e e' : Entry}
    (he : e ∈ t.toList) (he' : e' ∈ t.toList) (hk : e.k = e'.k) : e = e' :=
  eq_of_key_eq_list hs he he' hk

/-- The `lower_bound` of a stored key is the node that holds it. -/
theorem lbT_of_mem {t : Tree} (hs : t.keys.Pairwise (· < ·)) {e : Entry} (he : e ∈ t.toList)
    (res : Nat) : t.lbT e.k res = e.a := by
  rcases lbT_char e.k t res hs with ⟨_, h2⟩ | ⟨e', he', h1, h2, h3⟩
  · exact absurd (h2 e he) (lt_irrefl _)
  · have : e'.k = e.k := le_antisymm (h3 e he (le_refl _)) h2
    rw [h1, eq_of_key_eq hs he' he this]

theorem mem_keys {t : Tree} {k : Int} : k ∈ t.keys ↔ ∃ e ∈ t.toList, e.k = k := by
  simp [Tree.keys]

theorem mem_addrs {t : Tree} {a : Nat} : a ∈ t.addrs ↔ ∃ e ∈ t.toList, e.a = a := by
  simp [Tree.addrs]

/-- The query `find` of a stored key returns the node that holds it. -/
theorem find_of_mem {s : treap} {t : Tree} (h : Inv s t) {e : Entry} (he : e ∈ t.toList)
    (fuel : Nat) (hf : t.height < fuel) : find lt fuel s e.k = some e.a := by
  have hh : e.a ≠ hdr := fun h' => hdr_not_mem h (h' ▸ List.mem_map_of_mem Entry.a he)
  obtain ⟨n, hn, hk, _, _⟩ := h.rep.get he
  simp [find, lower_bound_eq h e.k fuel hf, lbT_of_mem h.sorted he, end_, hh, hn, hk]

/-- The query `find` of an absent key returns `end()`. -/
theorem find_of_not_mem {s : treap} {t : Tree} (h : Inv s t) {key : Int} (hk : key ∉ t.keys)
    (fuel : Nat) (hf : t.height < fuel) : find lt fuel s key = some end_ := by
  simp only [find, lower_bound_eq h key fuel hf]
  rcases lbT_char key t hdr h.sorted with ⟨h1, _⟩ | ⟨e, he, h1, h2, _⟩
  · simp [h1, end_]
  · have hh : e.a ≠ hdr := fun h' => hdr_not_mem h (h' ▸ List.mem_map_of_mem Entry.a he)
    obtain ⟨n, hn, hnk, _, _⟩ := h.rep.get he
    have hne : e.k ≠ key := fun h' => hk (mem_keys.2 ⟨e, he, h'⟩)
    simp [h1, end_, hh, hn, hnk, hne]

/-- The operation `insert` of a stored key returns the node that holds it and `false`, and leaves the
state as it is. -/
theorem insert_of_mem {s : treap} {t : Tree} (h : Inv s t) {e : Entry} (he : e ∈ t.toList)
    (val : Int) (pri fuel : Nat) (hf : t.height < fuel) :
    insert lt fuel s e.k val pri = some (s, e.a, false) := by
  have hh : e.a ≠ hdr := fun h' => hdr_not_mem h (h' ▸ List.mem_map_of_mem Entry.a he)
  obtain ⟨n, hn, hk, _, _⟩ := h.rep.get he
  simp [insert, lower_bound_eq h e.k fuel hf, lbT_of_mem h.sorted he, end_, hh, hn, hk]

/-- The operation `insert` of an absent key creates the node at the next address and returns it with
`true`; the container then holds `insT`. -/
theorem insert_of_not_mem {s : treap} {t : Tree} (h : Inv s t) (key val : Int) (pri : Nat)
    (hk : key ∉ t.keys) (fuel : Nat) (hf : t.height + 2 ≤ fuel) :
    ∃ s', insert lt fuel s key val pri = some (s', s.brk, true) ∧
      Inv s' (t.insT ⟨s.brk, key, val, pri % 4294967296⟩) ∧ s'.size_ = s.size_ + 1 := by
  obtain ⟨s', hs', hinv, hsz⟩ := insert__spec h key val pri hk fuel hf
  refine ⟨s', ?_, hinv, hsz⟩
  simp only [insert, lower_bound_eq h key fuel (by omega)]
  rcases lbT_char key t hdr h.sorted with ⟨h1, _⟩ | ⟨e, he, h1, h2, _⟩
  · rw [h1] at hs' ⊢
    simp [end_, hs']
  · have hh : e.a ≠ hdr := fun h' => hdr_not_mem h (h' ▸ List.mem_map_of_mem Entry.a he)
    obtain ⟨n, hn, hnk, _, _⟩ := h.rep.get he
    have hne : e.k ≠ key := fun h' => hk (mem_keys.2 ⟨e, he, h'⟩)
    rw [h1] at hs' ⊢
    simp [end_, hh, hn, hnk, hne, hs']

/-- The operation `erase(key)` of a stored key removes the node that holds it and returns 1. -/
theorem erase_of_mem {s : treap} {t : Tree} (h : Inv s t) {e : Entry} (he : e ∈ t.toList)
    (fuel : Nat) (hf : t.size + 2 ≤ fuel) :
    ∃ s', erase lt fuel s e.k = some (s', 1) ∧ Inv s' (t.delT e.a) ∧
      s'.size_ + 1 = s.size_ ∧ s'.brk = s.brk := by
  have hht := Tree.height_le_size t
  have hea : e.a ∈ t.addrs := List.mem_map_of_mem Entry.a he
  have hh : e.a ≠ hdr := fun h' => hdr_not_mem h (h' ▸ hea)
  obtain ⟨s', hs', hinv, hsz, hbrk⟩ := erase__spec h hea fuel hf
  refine ⟨s', ?_, hinv, hsz, hbrk⟩
  simp [erase, find_of_mem h he fuel (by omega), end_, hh, hs']

/-- The operation `erase(key)` of an absent key returns 0 and leaves the state as it is. -/
theorem erase_of_not_mem {s : treap} {t : Tree} (h : Inv s t) {key : Int} (hk : key ∉ t.keys)
    (fuel : Nat) (hf : t.height < fuel) : erase lt fuel s key = some (s, 0) := by
  simp [erase, find_of_not_mem h hk fuel hf]

/-! ### Iteration from `begin()` to `end()` -/

theorem succL_mid {pre rest : List Entry} {e : Entry}
    (hn : ((pre ++ e :: rest).map Entry.a).Nodup) (d : Nat) :
    succL ((pre ++ e :: rest).map Entry.a) e.a d = ((rest.head?).map Entry.a).getD d := by
  rw [List.map_append, List.map_cons] at hn ⊢
  have hnot : e.a ∉ pre.map Entry.a := by
    intro h
    exact (List.nodup_append.1 hn).2.2 h (List.mem_cons_self _ _)
  rw [succL_append_right _ _ hnot]
  simp only [succL, if_true]
  cases rest <;> simp

theorem predL_mid {pre rest : List Entry} {e : Entry}
    (hn : ((pre ++ e :: rest).map Entry.a).Nodup) (d : Nat) :
    predL ((pre ++ e :: rest).map Entry.a) e.a d = ((pre.getLast?).map Entry.a).getD d := by
  rw [List.map_append, List.map_cons] at hn ⊢
  have hnot : e.a ∉ pre.map Entry.a := by
    intro h
    exact (List.nodup_append.1 hn).2.2 h (List.mem_cons_self _ _)
  rw [predL_append_right _ _ hnot]
  simp only [predL, if_true]
  rw [List.getLast?_map]

/-- Walking with `++` from an element visits the rest of the in-order sequence. -/
theorem walk_eq {m : Mem} {t : Tree} (hd : m hdr = some (HdrOf t)) (hr : Rep m t (some hdr))
    (hn : t.addrs.Nodup) (hh : hdr ∉ t.addrs) (fuel : Nat) (hf : t.height + 2 ≤ fuel) :
    ∀ (rest pre : List Entry), t.toList = pre ++ rest → ∀ n, rest.length < n →
      walk m fuel n (((rest.head?).map Entry.a).getD hdr) =
        some (rest.map fun e => (e.a, e.k, e.v)) := by
  intro rest
  induction rest with
  | nil =>
    intro pre _ n hlen
    cases n with
    | zero => simp at hlen
    | succ n => simp [walk, end_]
  | cons e rest ih =>
    intro pre hpre n hlen
    cases n with
    | zero => simp at hlen
    | succ n =>
      have he : e ∈ t.toList := by rw [hpre]; simp
      have hea : e.a ∈ t.addrs := List.mem_map_of_mem Entry.a he
      have heh : e.a ≠ hdr := fun h => hh (h ▸ hea)
      obtain ⟨nd, hnd, hk, hv, _⟩ := hr.get he
      have hinc := inc_eq hd hr hn hh hea fuel hf
      have hn' : ((pre ++ e :: rest).map Entry.a).Nodup := by
        rw [← hpre]; exact hn
      have hs : succL t.addrs e.a hdr = ((rest.head?).map Entry.a).getD hdr := by
        have := succL_mid hn' hdr
        rw [← hpre] at this
        exact this
      rw [hs] at hinc
      have hstep := ih (pre ++ [e]) (by rw [hpre]; simp) n (by simpa using hlen)
      simp [walk, end_, heh, hnd, hinc, hstep, hk, hv]

/-- The positions met from `begin()` to `end()` are the in-order sequence of the tree. -/
theorem contents_eq {s : treap} {t : Tree} (h : Inv s t) (fuel : Nat) (hf : t.size + 2 ≤ fuel) :
    contents fuel s = some (t.toList.map fun e => (e.a, e.k, e.v)) := by
  have hht := Tree.height_le_size t
  have hb : begin_ s = some (((t.toList.head?).map Entry.a).getD hdr) := by
    simp only [begin_, h.hd, HdrOf, Tree.minA_eq_minE, Tree.minE_eq_head]
  simp only [contents, hb]
  exact walk_eq h.hd h.rep h.nodup (hdr_not_mem h) fuel (by omega) t.toList [] rfl fuel
    (by rw [Tree.length_toList]; omega)

theorem keys_in_order_eq {s : treap} {t : Tree} (h : Inv s t) (fuel : Nat)
    (hf : t.size + 2 ≤ fuel) : keys_in_order fuel s = some t.keys := by
  simp [keys_in_order, contents_eq h fuel hf, Tree.keys]

/-! ### Sequences of operations -/

theorem keys_insT {x : Entry} {t : Tree} {k : Int} :
    k ∈ (t.insT x).keys ↔ k = x.k ∨ k ∈ t.keys := by
  have : (t.insT x).keys = (t.attach x).keys := by simp [Tree.keys, Tree.toList_insT]
  rw [this, Tree.keys_attach]

theorem keys_delT {t : Tree} (hs : t.keys.Pairwise (· < ·)) (hn : t.addrs.Nodup) {e : Entry}
    (he : e ∈ t.toList) {k : Int} : k ∈ (t.delT e.a).keys ↔ k ∈ t.keys ∧ k ≠ e.k := by
  simp only [Tree.keys, Tree.toList_delT e.a hn, List.mem_map, List.mem_filter, ne_eq,
    decide_eq_true_eq]
  constructor
  · rintro ⟨y, ⟨hy, hya⟩, rfl⟩
    refine ⟨⟨y, hy, rfl⟩, fun hk => hya ?_⟩
    rw [eq_of_key_eq hs hy he hk]
  · rintro ⟨⟨y, hy, rfl⟩, hk⟩
    refine ⟨y, ⟨hy, fun h => hk ?_⟩, rfl⟩
    rw [List.inj_on_of_nodup_map hn hy he h]

/-- One mutation keeps the invariant and acts on the key set as on the reference set. -/
theorem apply_inv {s : treap} {t : Tree} (h : Inv s t) (op : Op) (fuel : Nat)
    (hf : t.size + 2 ≤ fuel) (S : Finset Int) (hS : ∀ k, k ∈ t.keys ↔ k ∈ S) :
    ∃ s' t', apply fuel s op = some s' ∧ Inv s' t' ∧ t'.size ≤ t.size + 1 ∧
      ∀ k, k ∈ t'.keys ↔ k ∈ refStep S op := by
  have hht := Tree.height_le_size t
  cases op with
  | ins key val pri =>
    by_cases hk : key ∈ t.keys
    · obtain ⟨e, he, rfl⟩ := mem_keys.1 hk
      refine ⟨s, t, ?_, h, by omega, fun k => ?_⟩
      · simp [apply, insert_of_mem h he val pri fuel (by omega)]
      · simp only [refStep, Finset.mem_insert, ← hS]
        constructor
        · exact fun h' => Or.inr h'
        · rintro (rfl | h')
          · exact hk
          · exact h'
    · obtain ⟨s', hs', hinv, _⟩ := insert_of_not_mem h key val pri hk fuel (by omega)
      refine ⟨s', _, ?_, hinv, by rw [Tree.size_insT], fun k => ?_⟩
      · simp [apply, hs']
      · simp only [refStep, Finset.mem_insert, ← hS, keys_insT]
  | del key =>
    by_cases hk : key ∈ t.keys
    · obtain ⟨e, he, rfl⟩ := mem_keys.1 hk
      obtain ⟨s', hs', hinv, _, _⟩ := erase_of_mem h he fuel hf
      have hea : e.a ∈ t.addrs := List.mem_map_of_mem Entry.a he
      refine ⟨s', _, ?_, hinv, by have := Tree.size_delT h.nodup hea; omega, fun k => ?_⟩
      · simp [apply, hs']
      · simp only [refStep, Finset.mem_erase, ← hS, keys_delT h.sorted h.nodup he]
        exact and_comm
    · refine ⟨s, t, ?_, h, by omega, fun k => ?_⟩
      · simp [apply, erase_of_not_mem h hk fuel (by omega)]
      · simp only [refStep, Finset.mem_erase, ← hS]
        constructor
        · intro h'
          exact ⟨fun e => hk (e ▸ h'), h'⟩
        · exact fun h' => h'.2

/-- A sequence of mutations keeps the invariant and follows the reference set. -/
theorem run_inv (ops : List Op) (fuel : Nat) :
    ∀ (s : treap) (t : Tree) (S : Finset Int), Inv s t → t.size + ops.length + 2 ≤ fuel →
      (∀ k, k ∈ t.keys ↔ k ∈ S) →
      ∃ s' t', run fuel s ops = some s' ∧ Inv s' t' ∧ t'.size ≤ t.size + ops.length ∧
        ∀ k, k ∈ t'.keys ↔ k ∈ refRun S ops := by
  induction ops with
  | nil =>
    intro s t S h _ hS
    exact ⟨s, t, rfl, h, by simp, hS⟩
  | cons op rest ih =>
    intro s t S h hf hS
    simp only [List.length_cons] at hf
    obtain ⟨s1, t1, h1, hinv1, hsz1, hS1⟩ := apply_inv h op fuel (by omega) S hS
    obtain ⟨s2, t2, h2, hinv2, hsz2, hS2⟩ := ih s1 t1 _ hinv1 (by omega) hS1
    refine ⟨s2, t2, ?_, hinv2, by simp only [List.length_cons]; omega, hS2⟩
    simp [run, h1, h2]

/-- A sequence of insertions keeps the invariant and adds the inserted keys. -/
theorem insert_all_inv (vals : List (Int × Int × Nat)) (fuel : Nat) :
    ∀ (s : treap) (t : Tree), Inv s t → t.size + vals.length + 2 ≤ fuel →
      ∃ s' t', insert_all fuel s vals = some s' ∧ Inv s' t' ∧ t'.size ≤ t.size + vals.length ∧
        ∀ k, k ∈ t'.keys ↔ k ∈ t.keys ∨ k ∈ vals.map fun v => v.1 := by
  induction vals with
  | nil =>
    intro s t h _
    exact ⟨s, t, rfl, h, by simp, by simp⟩
  | cons v rest ih =>
    intro s t h hf
    obtain ⟨key, val, pri⟩ := v
    simp only [List.length_cons] at hf
    have hht := Tree.height_le_size t
    by_cases hk : key ∈ t.keys
    · obtain ⟨e, he, rfl⟩ := mem_keys.1 hk
      obtain ⟨s2, t2, h2, hinv2, hsz2, hS2⟩ := ih s t h (by omega)
      refine ⟨s2, t2, ?_, hinv2, by simp only [List.length_cons]; omega, fun k => ?_⟩
      · simp [insert_all, insert_of_mem h he val pri fuel (by omega), h2]
      · rw [hS2]
        simp only [List.map_cons, List.mem_cons]
        constructor
        · rintro (h' | h')
          · exact Or.inl h'
          · exact Or.inr (Or.inr h')
        · rintro (h' | rfl | h')
          · exact Or.inl h'
          · exact Or.inl hk
          · exact Or.inr h'
    · obtain ⟨s1, hs1, hinv1, _⟩ := insert_of_not_mem h key val pri hk fuel (by omega)
      obtain ⟨s2, t2, h2, hinv2, hsz2, hS2⟩ :=
        ih s1 _ hinv1 (by rw [Tree.size_insT]; omega)
      rw [Tree.size_insT] at hsz2
      refine ⟨s2, t2, ?_, hinv2, by simp only [List.length_cons]; omega, fun k => ?_⟩
      · simp [insert_all, hs1, h2]
      · rw [hS2, keys_insT]
        simp only [List.map_cons, List.mem_cons]
        constructor
        · rintro ((h' | h') | h')
          · exact Or.inr (Or.inl h')
          · exact Or.inl h'
          · exact Or.inr (Or.inr h')
        · rintro (h' | h' | h')
          · exact Or.inl (Or.inr h')
          · exact Or.inl (Or.inl h')
          · exact Or.inr h'

/-- The example container is well formed. -/
theorem ex_inv : Inv ex_state ex_tree := by
  refine ⟨rfl, ?_, by decide, by decide, by decide, by decide, rfl, by decide⟩
  exact ⟨rfl, ⟨rfl, ⟨rfl, trivial, trivial⟩, trivial⟩, ⟨rfl, trivial, ⟨rfl, trivial, trivial⟩⟩⟩

/-- The in-order successor of an element of a key-sorted tree: nothing when it holds
the largest key, else the element with the least greater key. -/
theorem succ_char {t : Tree} (hs : t.keys.Pairwise (· < ·)) (hn : t.addrs.Nodup) {e : Entry}
    (he : e ∈ t.toList) (d : Nat) :
    (succL t.addrs e.a d = d ∧ ∀ e' ∈ t.toList, e'.k ≤ e.k) ∨
      ∃ e' ∈ t.toList, succL t.addrs e.a d = e'.a ∧ e.k < e'.k ∧
        ∀ e'' ∈ t.toList, e.k < e''.k → e'.k ≤ e''.k := by
  obtain ⟨pre, rest, hsplit⟩ := List.append_of_mem he
  have hn' : ((pre ++ e :: rest).map Entry.a).Nodup := by rw [← hsplit]; exact hn
  have hsucc : succL t.addrs e.a d = ((rest.head?).map Entry.a).getD d := by
    have := succL_mid hn' d
    rw [← hsplit] at this
    exact this
  have hs' : ((pre ++ e :: rest).map Entry.k).Pairwise (· < ·) := by rw [← hsplit]; exact hs
  rw [List.map_append, List.map_cons, List.pairwise_append, List.pairwise_cons] at hs'
  obtain ⟨_, ⟨hgt, hrest⟩, hlt⟩ := hs'
  have hpre : ∀ y ∈ pre, y.k < e.k :=
    fun y hy => hlt y.k (List.mem_map_of_mem _ hy) e.k (List.mem_cons_self _ _)
  cases rest with
  | nil =>
    left
    refine ⟨by simp [hsucc], fun e' he' => ?_⟩
    rw [hsplit] at he'
    simp only [List.mem_append, List.mem_cons, List.not_mem_nil, or_false] at he'
    rcases he' with h | h
    · exact le_of_lt (hpre e' h)
    · rw [h]
  | cons y ys =>
    right
    have hy : e.k < y.k := hgt y.k (by simp)
    refine ⟨y, by rw [hsplit]; simp, by simp [hsucc], hy, fun e'' he'' hk => ?_⟩
    rw [hsplit] at he''
    simp only [List.mem_append, List.mem_cons] at he''
    simp only [List.map_cons, List.pairwise_cons] at hrest
    rcases he'' with h | h | h | h
    · exact absurd (hpre e'' h) (by omega)
    · rw [h] at hk; exact absurd hk (lt_irrefl _)
    · rw [h]
    · exact le_of_lt (hrest.1 e''.k (List.mem_map_of_mem _ h))

/-- In a key-sorted tree, filtering by the key of an element is filtering by its address. -/
theorem filter_key_eq_filter_addr {t : Tree} (hs : t.keys.Pairwise (· < ·)) (hn : t.addrs.Nodup)
    {e : Entry} (he : e ∈ t.toList) :
    t.toList.filter (fun y => decide (y.a ≠ e.a)) = t.toList.filter (fun y => decide (y.k ≠ e.k)) := by
  apply List.filter_congr
  intro y hy
  by_cases h : y = e
  · simp [h]
  · have h1 : y.a ≠ e.a := fun h' => h (List.inj_on_of_nodup_map hn hy he h')
    have h2 : y.k ≠ e.k := fun h' => h (eq_of_key_eq hs hy he h')
    simp [h1, h2]

/-- In a key-sorted tree exactly one element has a given stored key. -/
theorem filter_key_eq_singleton {t : Tree} (hs : t.keys.Pairwise (· < ·)) {e : Entry}
    (he : e ∈ t.toList) : t.toList.filter (fun y => decide (y.k = e.k)) = [e] := by
  obtain ⟨pre, rest, hsplit⟩ := List.append_of_mem he
  have hs' : ((pre ++ e :: rest).map Entry.k).Pairwise (· < ·) := by rw [← hsplit]; exact hs
  rw [List.map_append, List.map_cons, List.pairwise_append, List.pairwise_cons] at hs'
  obtain ⟨_, ⟨hgt, _⟩, hlt⟩ := hs'
  have h1 : pre.filter (fun y => decide (y.k = e.k)) = [] := by
    rw [List.filter_eq_nil_iff]
    intro y hy
    have := hlt y.k (List.mem_map_of_mem _ hy) e.k (List.mem_cons_self _ _)
    simp; omega
  have h2 : rest.filter (fun y => decide (y.k = e.k)) = [] := by
    rw [List.filter_eq_nil_iff]
    intro y hy
    have := hgt y.k (List.mem_map_of_mem _ hy)
    simp; omega
  rw [hsplit, List.filter_append, List.filter_cons, h1, h2]
  simp

/-- C1: for every finite sequence of `insert(value)` calls on a freshly constructed
container, whatever priorities are drawn, walking from `begin()` with `++` until `end()`
visits a strictly increasing sequence of keys that contains exactly the keys that were
inserted, each once. -/
theorem insert_sequence_iterates_sorted (vals : List (Int × Int × Nat)) (fuel : Nat)
    (hf : vals.length + 2 ≤ fuel) :
    ∃ s ks, insert_all fuel treap.new vals = some s ∧ keys_in_order fuel s = some ks ∧
      ks.Pairwise (· < ·) ∧ ∀ k, k ∈ ks ↔ k ∈ vals.map fun v => v.1 := by
  obtain ⟨s, t, hrun, hinv, hsz, hkeys⟩ :=
    insert_all_inv vals fuel treap.new .nil inv_new (by simp only [Tree.size]; omega)
  simp only [Tree.size] at hsz
  refine ⟨s, t.keys, hrun, keys_in_order_eq hinv fuel (by omega), hinv.sorted, fun k => ?_⟩
  rw [hkeys]
  simp [Tree.keys, Tree.toList]

/-- Witness of C1: three insertions, one of them of a key already present. -/
theorem insert_sequence_iterates_sorted_witness :
    [((3 : Int), (0 : Int), 7), (1, 0, 9), (3, 5, 2)].length + 2 ≤ 5 ∧
    ∃ s ks, insert_all 5 treap.new [(3, 0, 7), (1, 0, 9), (3, 5, 2)] = some s ∧
      keys_in_order 5 s = some ks ∧ ks.Pairwise (· < ·) ∧
      ∀ k, k ∈ ks ↔ k ∈ [((3 : Int), (0 : Int), 7), (1, 0, 9), (3, 5, 2)].map fun v => v.1 :=
  ⟨by decide, insert_sequence_iterates_sorted [(3, 0, 7), (1, 0, 9), (3, 5, 2)] 5 (by decide)⟩

/-- C2: for every finite sequence of mixed `insert(value)` and `erase(key)` operations
applied from the empty container, with any priorities, the final in-order key sequence
is the sorted element list of the reference set obtained from the same sequence
(insert adds the key if absent, erase removes it if present), and `size()` is the
cardinality of that set. -/
theorem mixed_sequence_matches_reference_set (ops : List Op) (fuel : Nat)
    (hf : ops.length + 2 ≤ fuel) :
    ∃ s, run fuel treap.new ops = some s ∧
      keys_in_order fuel s = some ((refRun ∅ ops).sort (· ≤ ·)) ∧
      size s = (refRun ∅ ops).card := by
  obtain ⟨s, t, hrun, hinv, hsz, hkeys⟩ :=
    run_inv ops fuel treap.new .nil ∅ inv_new (by simp only [Tree.size]; omega)
      (by simp [Tree.keys, Tree.toList])
  simp only [Tree.size] at hsz
  have hnd : t.keys.Nodup := hinv.sorted.imp (fun h => ne_of_lt h)
  have hperm : t.keys.Perm ((refRun ∅ ops).sort (· ≤ ·)) := by
    rw [List.perm_ext_iff_of_nodup hnd (Finset.sort_nodup _ _)]
    intro k
    rw [hkeys, Finset.mem_sort]
  have heq : t.keys = (refRun ∅ ops).sort (· ≤ ·) :=
    List.eq_of_perm_of_sorted hperm (hinv.sorted.imp (fun h => le_of_lt h))
      (Finset.sort_sorted _ _)
  refine ⟨s, hrun, ?_, ?_⟩
  · rw [keys_in_order_eq hinv fuel (by omega), heq]
  · have h1 : size s = t.keys.length := by
      simp [size, hinv.sz, ← Tree.length_toList, Tree.keys]
    rw [h1, heq, Finset.length_sort]

/-- Witness of C2: insertions and erasures, of present and of absent keys. -/
theorem mixed_sequence_matches_reference_set_witness :
    [Op.ins 2 0 5, Op.ins 1 0 9, Op.del 2, Op.del 7, Op.ins 1 3 4].length + 2 ≤ 7 ∧
    ∃ s, run 7 treap.new [Op.ins 2 0 5, Op.ins 1 0 9, Op.del 2, Op.del 7, Op.ins 1 3 4]
        = some s ∧
      keys_in_order 7 s = some ((refRun ∅
        [Op.ins 2 0 5, Op.ins 1 0 9, Op.del 2, Op.del 7, Op.ins 1 3 4]).sort (· ≤ ·)) ∧
      size s = (refRun ∅
        [Op.ins 2 0 5, Op.ins 1 0 9, Op.del 2, Op.del 7, Op.ins 1 3 4]).card :=
  ⟨by decide, mixed_sequence_matches_reference_set
    [Op.ins 2 0 5, Op.ins 1 0 9, Op.del 2, Op.del 7, Op.ins 1 3 4] 7 (by decide)⟩

/-- C3: in a well-formed container, `insert(value)` of a value whose key is not present
returns `(it, true)` where `it` is not `end()` and denotes a node holding exactly that
key and mapped value (it is what `find` of the key returns afterwards), `size()` has
grown by one, and the container is well formed again. -/
theorem insert_absent_key (s : treap) (t : Tree) (key val : Int) (pri fuel : Nat)
    (h : Inv s t) (hk : key ∉ t.keys) (hf : t.size + 2 ≤ fuel) :
    ∃ s' it n, insert lt fuel s key val pri = some (s', it, true) ∧ it ≠ end_ ∧
      s'.mem it = some n ∧ n.key = key ∧ n.val = val ∧ size s' = size s + 1 ∧ WF s' ∧
      find lt fuel s' key = some it := by
  have hht := Tree.height_le_size t
  obtain ⟨s', hs', hinv, hsz⟩ := insert_of_not_mem h key val pri hk fuel (by omega)
  have hx : (⟨s.brk, key, val, pri % 4294967296⟩ : Entry) ∈
      (t.insT ⟨s.brk, key, val, pri % 4294967296⟩).toList := by
    rw [Tree.toList_insT, Tree.mem_attach]; exact Or.inl rfl
  obtain ⟨n, hn, hnk, hnv, _⟩ := hinv.rep.get hx
  have hfind := find_of_mem hinv hx fuel (by
    have := Tree.height_le_size (t.insT ⟨s.brk, key, val, pri % 4294967296⟩)
    rw [Tree.size_insT] at this
    omega)
  refine ⟨s', s.brk, n, hs', ?_, hn, hnk, hnv, hsz, ⟨_, hinv⟩, hfind⟩
  intro e
  have := h.brk_pos
  rw [e] at this
  exact absurd this (by decide)

/-- Witness of C3: inserting the absent key 4 into the container {1, 3, 5, 7, 9}. -/
theorem insert_absent_key_witness :
    Inv ex_state ex_tree ∧ (4 : Int) ∉ ex_tree.keys ∧ ex_tree.size + 2 ≤ 7 ∧
    ∃ s' it n, insert lt 7 ex_state 4 11 25 = some (s', it, true) ∧ it ≠ end_ ∧
      s'.mem it = some n ∧ n.key = 4 ∧ n.val = 11 ∧ size s' = size ex_state + 1 ∧ WF s' ∧
      find lt 7 s' 4 = some it :=
  ⟨ex_inv, by decide, by decide,
    insert_absent_key ex_state ex_tree 4 11 25 7 ex_inv (by decide) (by decide)⟩

/-- C4: in a well-formed container, `insert(value)` of a value whose key is already
present returns `(it, false)` with `it` the existing node of that key (the iterator
that `find` returns), and the state after the call is the state before it: same
`size()`, same tree, and the existing mapped value is not overwritten. -/
theorem insert_present_key (s : treap) (t : Tree) (key val : Int) (pri fuel : Nat)
    (h : Inv s t) (hk : key ∈ t.keys) (hf : t.size + 2 ≤ fuel) :
    ∃ e ∈ t.toList, e.k = key ∧ insert lt fuel s key val pri = some (s, e.a, false) ∧
      find lt fuel s key = some e.a ∧
      ∃ n, s.mem e.a = some n ∧ n.key = key ∧ n.val = e.v := by
  have hht := Tree.height_le_size t
  obtain ⟨e, he, rfl⟩ := mem_keys.1 hk
  obtain ⟨n, hn, hnk, hnv, _⟩ := h.rep.get he
  exact ⟨e, he, rfl, insert_of_mem h he val pri fuel (by omega),
    find_of_mem h he fuel (by omega), n, hn, hnk, hnv⟩

/-- Witness of C4: inserting the present key 5 into the container {1, 3, 5, 7, 9}. -/
theorem insert_present_key_witness :
    Inv ex_state ex_tree ∧ (5 : Int) ∈ ex_tree.keys ∧ ex_tree.size + 2 ≤ 7 ∧
    ∃ e ∈ ex_tree.toList, e.k = 5 ∧ insert lt 7 ex_state 5 11 25 = some (ex_state, e.a, false) ∧
      find lt 7 ex_state 5 = some e.a ∧
      ∃ n, ex_state.mem e.a = some n ∧ n.key = 5 ∧ n.val = e.v :=
  ⟨ex_inv, by decide, by decide,
    insert_present_key ex_state ex_tree 5 11 25 7 ex_inv (by decide) (by decide)⟩

/-- C5: in a well-formed container, `find(k)` returns the iterator of the node whose key
equals `k` when there is one, and `end()` otherwise.  (`find` only reads the memory: it
yields an iterator and no new state.) -/
theorem find_present_or_end (s : treap) (t : Tree) (key : Int) (fuel : Nat) (h : Inv s t)
    (hf : t.size + 2 ≤ fuel) :
    (∀ e ∈ t.toList, e.k = key →
        find lt fuel s key = some e.a ∧ e.a ≠ end_ ∧ ∃ n, s.mem e.a = some n ∧ n.key = key) ∧
      (key ∉ t.keys → find lt fuel s key = some end_) := by
  have hht := Tree.height_le_size t
  refine ⟨fun e he hk => ?_, fun hk => find_of_not_mem h hk fuel (by omega)⟩
  subst hk
  obtain ⟨n, hn, hnk, _, _⟩ := h.rep.get he
  refine ⟨find_of_mem h he fuel (by omega), ?_, n, hn, hnk⟩
  intro h'
  have hm : e.a ∈ t.addrs := List.mem_map_of_mem Entry.a he
  rw [h'] at hm
  exact hdr_not_mem h hm

/-- Witness of C5: `find(7)` in the container {1, 3, 5, 7, 9}. -/
theorem find_present_or_end_witness :
    Inv ex_state ex_tree ∧ ex_tree.size + 2 ≤ 7 ∧
    ((∀ e ∈ ex_tree.toList, e.k = 7 →
        find lt 7 ex_state 7 = some e.a ∧ e.a ≠ end_ ∧
          ∃ n, ex_state.mem e.a = some n ∧ n.key = 7) ∧
      ((7 : Int) ∉ ex_tree.keys → find lt 7 ex_state 7 = some end_)) :=
  ⟨ex_inv, by decide, find_present_or_end ex_state ex_tree 7 7 ex_inv (by decide)⟩

/-- C6: in a well-formed container, `erase(k)` of a present key returns 1 and removes
exactly the one node holding `k`: the sequence of (node, key, value) positions met from
`begin()` to `end()` afterwards is the previous sequence without the single position
of key `k`, so no node of the erased node's subtrees is lost, and `size()` has
decreased by exactly one. -/
theorem erase_present_key (s : treap) (t : Tree) (key : Int) (fuel : Nat) (h : Inv s t)
    (hk : key ∈ t.keys) (hf : t.size + 2 ≤ fuel) :
    ∃ s' rs, erase lt fuel s key = some (s', 1) ∧ contents fuel s = some rs ∧
      contents fuel s' = some (rs.filter fun r => decide (r.2.1 ≠ key)) ∧
      (rs.filter fun r => decide (r.2.1 = key)).length = 1 ∧
      size s' + 1 = size s ∧ WF s' := by
  obtain ⟨e, he, rfl⟩ := mem_keys.1 hk
  obtain ⟨s', hs', hinv, hsz, _⟩ := erase_of_mem h he fuel hf
  have hea : e.a ∈ t.addrs := List.mem_map_of_mem Entry.a he
  have hsd := Tree.size_delT h.nodup hea
  refine ⟨s', _, hs', contents_eq h fuel hf, ?_, ?_, hsz, ⟨_, hinv⟩⟩
  · rw [contents_eq hinv fuel (by omega), Tree.toList_delT e.a h.nodup,
      filter_key_eq_filter_addr h.sorted h.nodup he, List.filter_map]
    rfl
  · rw [List.filter_map, List.length_map]
    have := filter_key_eq_singleton h.sorted he
    have h2 : (List.filter ((fun r : Nat × Int × Int => decide (r.2.1 = e.k)) ∘
        fun e => (e.a, e.k, e.v)) t.toList) = t.toList.filter (fun y => decide (y.k = e.k)) := rfl
    rw [h2, this]
    rfl

/-- Witness of C6: erasing the root key 5 of the container {1, 3, 5, 7, 9}. -/
theorem erase_present_key_witness :
    Inv ex_state ex_tree ∧ (5 : Int) ∈ ex_tree.keys ∧ ex_tree.size + 2 ≤ 7 ∧
    ∃ s' rs, erase lt 7 ex_state 5 = some (s', 1) ∧ contents 7 ex_state = some rs ∧
      contents 7 s' = some (rs.filter fun r => decide (r.2.1 ≠ 5)) ∧
      (rs.filter fun r => decide (r.2.1 = 5)).length = 1 ∧
      size s' + 1 = size ex_state ∧ WF s' :=
  ⟨ex_inv, by decide, by decide,
    erase_present_key ex_state ex_tree 5 7 ex_inv (by decide) (by decide)⟩

/-- C7: in a well-formed container, `erase(k)` of a key that is not present returns 0
and performs no mutation: the state after the call (the memory with the tree and the
header's root, minimum and maximum slots, and `size_`) is the state before it. -/
theorem erase_absent_key (s : treap) (t : Tree) (key : Int) (fuel : Nat) (h : Inv s t)
    (hk : key ∉ t.keys) (hf : t.size + 2 ≤ fuel) :
    erase lt fuel s key = some (s, 0) := by
  have hht := Tree.height_le_size t
  exact erase_of_not_mem h hk fuel (by omega)

/-- Witness of C7: erasing the absent key 4 from the container {1, 3, 5, 7, 9}. -/
theorem erase_absent_key_witness :
    Inv ex_state ex_tree ∧ (4 : Int) ∉ ex_tree.keys ∧ ex_tree.size + 2 ≤ 7 ∧
    erase lt 7 ex_state 4 = some (ex_state, 0) :=
  ⟨ex_inv, by decide, by decide,
    erase_absent_key ex_state ex_tree 4 7 ex_inv (by decide) (by decide)⟩

/-- C8: in a well-formed container, `erase(it)` for an iterator `it` that denotes a
node returns the iterator of the node holding the smallest key greater than the key
of `it` among the keys present before the call, which is what `find` of that key
returns after the call, or `end()` when there is no greater key; `size()` decreases
by exactly one. -/
theorem erase_iterator_returns_successor (s : treap) (t : Tree) (e : Entry) (fuel : Nat)
    (h : Inv s t) (he : e ∈ t.toList) (hf : t.size + 2 ≤ fuel) :
    ∃ s' nx, erase_it fuel s e.a = some (s', nx) ∧ size s' + 1 = size s ∧ WF s' ∧
      ((nx = end_ ∧ ∀ e' ∈ t.toList, e'.k ≤ e.k) ∨
        ∃ e' ∈ t.toList, nx = e'.a ∧ e.k < e'.k ∧
          (∀ e'' ∈ t.toList, e.k < e''.k → e'.k ≤ e''.k) ∧
          find lt fuel s' e'.k = some nx) := by
  have hea : e.a ∈ t.addrs := List.mem_map_of_mem Entry.a he
  obtain ⟨s', hs', hinv, hsz, _⟩ := erase__spec h hea fuel hf
  have hsd := Tree.size_delT h.nodup hea
  refine ⟨s', _, hs', hsz, ⟨_, hinv⟩, ?_⟩
  rcases succ_char h.sorted h.nodup he hdr with ⟨h1, h2⟩ | ⟨e', he', h1, h2, h3⟩
  · exact Or.inl ⟨h1, h2⟩
  · right
    refine ⟨e', he', h1, h2, h3, ?_⟩
    have hne : e'.a ≠ e.a := by
      intro h'
      have := List.inj_on_of_nodup_map h.nodup he' he h'
      rw [this] at h2
      exact absurd h2 (lt_irrefl _)
    have he'' : e' ∈ (t.delT e.a).toList := by
      rw [Tree.toList_delT e.a h.nodup, List.mem_filter]
      exact ⟨he', by simpa using hne⟩
    rw [h1]
    refine find_of_mem hinv he'' fuel ?_
    have := Tree.height_le_size (t.delT e.a)
    omega

/-- Witness of C8: erasing through the iterator of key 3 in the container {1, 3, 5, 7, 9}. -/
theorem erase_iterator_returns_successor_witness :
    Inv ex_state ex_tree ∧ (⟨2, 3, 0, 30⟩ : Entry) ∈ ex_tree.toList ∧ ex_tree.size + 2 ≤ 7 ∧
    ∃ s' nx, erase_it 7 ex_state 2 = some (s', nx) ∧ size s' + 1 = size ex_state ∧ WF s' ∧
      ((nx = end_ ∧ ∀ e' ∈ ex_tree.toList, e'.k ≤ 3) ∨
        ∃ e' ∈ ex_tree.toList, nx = e'.a ∧ 3 < e'.k ∧
          (∀ e'' ∈ ex_tree.toList, 3 < e''.k → e'.k ≤ e''.k) ∧
          find lt 7 s' e'.k = some nx) :=
  ⟨ex_inv, by decide, by decide,
    erase_iterator_returns_successor ex_state ex_tree ⟨2, 3, 0, 30⟩ 7 ex_inv (by decide)
      (by decide)⟩

/-- C9: in a well-formed container, `lower_bound(k)` returns the iterator of the node
with the smallest key that is not less than `k`, and `end()` exactly when every stored
key is less than `k`; with the keys {1, 3, 5, 7, 9}, `lower_bound(4)` denotes 5 and
`lower_bound(10)` is `end()`. -/
theorem lower_bound_first_not_less (s : treap) (t : Tree) (key : Int) (fuel : Nat)
    (h : Inv s t) (hf : t.size + 2 ≤ fuel) :
    ∃ it, lower_bound lt fuel s key = some it ∧
      (it = end_ ↔ ∀ k ∈ t.keys, k < key) ∧
      (it ≠ end_ → ∃ e ∈ t.toList, e.a = it ∧ key ≤ e.k ∧
        (∃ n, s.mem it = some n ∧ n.key = e.k) ∧
        ∀ e' ∈ t.toList, key ≤ e'.k → e.k ≤ e'.k) ∧
      (t.keys = [1, 3, 5, 7, 9] →
        (key = 4 → ∃ e ∈ t.toList, e.a = it ∧ e.k = 5) ∧ (key = 10 → it = end_)) := by
  have hht := Tree.height_le_size t
  have hhd := hdr_not_mem h
  refine ⟨_, lower_bound_eq h key fuel (by omega), ?_⟩
  rcases lbT_char key t hdr h.sorted with ⟨h1, h2⟩ | ⟨e, he, h1, h2, h3⟩
  · have hall : ∀ k ∈ t.keys, k < key := by
      intro k hk
      obtain ⟨e, he, rfl⟩ := mem_keys.1 hk
      exact h2 e he
    refine ⟨⟨fun _ => hall, fun _ => h1⟩, fun hne => absurd h1 hne, fun hkeys => ⟨?_, fun _ => h1⟩⟩
    intro hk4
    have := hall 5 (by rw [hkeys]; decide)
    omega
  · have hne : t.lbT key hdr ≠ end_ := by
      rw [h1]
      intro h'
      have hm : e.a ∈ t.addrs := List.mem_map_of_mem Entry.a he
      rw [h'] at hm
      exact hhd hm
    obtain ⟨n, hn, hnk, _, _⟩ := h.rep.get he
    refine ⟨⟨fun h' => absurd h' hne, fun hall => ?_⟩, fun _ => ⟨e, he, h1.symm, h2,
      ⟨n, h1 ▸ hn, hnk⟩, h3⟩, fun hkeys => ⟨fun hk4 => ⟨e, he, h1.symm, ?_⟩, fun hk10 => ?_⟩⟩
    · have := hall e.k (mem_keys.2 ⟨e, he, rfl⟩)
      omega
    · have hmem : e.k ∈ ([1, 3, 5, 7, 9] : List Int) := hkeys ▸ mem_keys.2 ⟨e, he, rfl⟩
      have h5 : (5 : Int) ∈ t.keys := by rw [hkeys]; decide
      obtain ⟨e5, he5, hk5⟩ := mem_keys.1 h5
      have hle := h3 e5 he5 (by omega)
      simp only [List.mem_cons, List.mem_singleton, List.not_mem_nil, or_false] at hmem
      omega
    · have hmem : e.k ∈ ([1, 3, 5, 7, 9] : List Int) := hkeys ▸ mem_keys.2 ⟨e, he, rfl⟩
      simp only [List.mem_cons, List.mem_singleton, List.not_mem_nil, or_false] at hmem
      omega

/-- Witness of C9: `lower_bound(4)` in the container {1, 3, 5, 7, 9}. -/
theorem lower_bound_first_not_less_witness :
    Inv ex_state ex_tree ∧ ex_tree.size + 2 ≤ 7 ∧
    ∃ it, lower_bound lt 7 ex_state 4 = some it ∧
      (it = end_ ↔ ∀ k ∈ ex_tree.keys, k < 4) ∧
      (it ≠ end_ → ∃ e ∈ ex_tree.toList, e.a = it ∧ 4 ≤ e.k ∧
        (∃ n, ex_state.mem it = some n ∧ n.key = e.k) ∧
        ∀ e' ∈ ex_tree.toList, 4 ≤ e'.k → e.k ≤ e'.k) ∧
      (ex_tree.keys = [1, 3, 5, 7, 9] →
        ((4 : Int) = 4 → ∃ e ∈ ex_tree.toList, e.a = it ∧ e.k = 5) ∧
          ((4 : Int) = 10 → it = end_)) :=
  ⟨ex_inv, by decide, lower_bound_first_not_less ex_state ex_tree 4 7 ex_inv (by decide)⟩

/-- C10: in a well-formed container, `upper_bound(k)` returns the iterator of the node
with the smallest key strictly greater than `k`, and `end()` exactly when no stored
key is greater than `k`; with the keys {1, 3, 5, 7, 9}, `upper_bound(5)` denotes 7 and
`upper_bound(9)` is `end()`. -/
theorem upper_bound_first_greater (s : treap) (t : Tree) (key : Int) (fuel : Nat)
    (h : Inv s t) (hf : t.size + 2 ≤ fuel) :
    ∃ it, upper_bound lt fuel s key = some it ∧
      (it = end_ ↔ ∀ k ∈ t.keys, k ≤ key) ∧
      (it ≠ end_ → ∃ e ∈ t.toList, e.a = it ∧ key < e.k ∧
        (∃ n, s.mem it = some n ∧ n.key = e.k) ∧
        ∀ e' ∈ t.toList, key < e'.k → e.k ≤ e'.k) ∧
      (t.keys = [1, 3, 5, 7, 9] →
        (key = 5 → ∃ e ∈ t.toList, e.a = it ∧ e.k = 7) ∧ (key = 9 → it = end_)) := by
  have hht := Tree.height_le_size t
  have hhd := hdr_not_mem h
  refine ⟨_, upper_bound_eq h key fuel (by omega), ?_⟩
  rcases ubT_char key t hdr h.sorted with ⟨h1, h2⟩ | ⟨e, he, h1, h2, h3⟩
  · have hall : ∀ k ∈ t.keys, k ≤ key := by
      intro k hk
      obtain ⟨e, he, rfl⟩ := mem_keys.1 hk
      exact h2 e he
    refine ⟨⟨fun _ => hall, fun _ => h1⟩, fun hne => absurd h1 hne, fun hkeys => ⟨?_, fun _ => h1⟩⟩
    intro hk5
    have := hall 7 (by rw [hkeys]; decide)
    omega
  · have hne : t.ubT key hdr ≠ end_ := by
      rw [h1]
      intro h'
      have hm : e.a ∈ t.addrs := List.mem_map_of_mem Entry.a he
      rw [h'] at hm
      exact hhd hm
    obtain ⟨n, hn, hnk, _, _⟩ := h.rep.get he
    refine ⟨⟨fun h' => absurd h' hne, fun hall => ?_⟩, fun _ => ⟨e, he, h1.symm, h2,
      ⟨n, h1 ▸ hn, hnk⟩, h3⟩, fun hkeys => ⟨fun hk5 => ⟨e, he, h1.symm, ?_⟩, fun hk9 => ?_⟩⟩
    · have := hall e.k (mem_keys.2 ⟨e, he, rfl⟩)
      omega
    · have hmem : e.k ∈ ([1, 3, 5, 7, 9] : List Int) := hkeys ▸ mem_keys.2 ⟨e, he, rfl⟩
      have h7 : (7 : Int) ∈ t.keys := by rw [hkeys]; decide
      obtain ⟨e7, he7, hk7⟩ := mem_keys.1 h7
      have hle := h3 e7 he7 (by omega)
      simp only [List.mem_cons, List.mem_singleton, List.not_mem_nil, or_false] at hmem
      omega
    · have hmem : e.k ∈ ([1, 3, 5, 7, 9] : List Int) := hkeys ▸ mem_keys.2 ⟨e, he, rfl⟩
      simp only [List.mem_cons, List.mem_singleton, List.not_mem_nil, or_false] at hmem
      omega

/-- Witness of C10: `upper_bound(5)` in the container {1, 3, 5, 7, 9}. -/
theorem upper_bound_first_greater_witness :
    Inv ex_state ex_tree ∧ ex_tree.size + 2 ≤ 7 ∧
    ∃ it, upper_bound lt 7 ex_state 5 = some it ∧
      (it = end_ ↔ ∀ k ∈ ex_tree.keys, k ≤ 5) ∧
      (it ≠ end_ → ∃ e ∈ ex_tree.toList, e.a = it ∧ 5 < e.k ∧
        (∃ n, ex_state.mem it = some n ∧ n.key = e.k) ∧
        ∀ e' ∈ ex_tree.toList, 5 < e'.k → e.k ≤ e'.k) ∧
      (ex_tree.keys = [1, 3, 5, 7, 9] →
        ((5 : Int) = 5 → ∃ e ∈ ex_tree.toList, e.a = it ∧ e.k = 7) ∧
          ((5 : Int) = 9 → it = end_)) :=
  ⟨ex_inv, by decide, upper_bound_first_greater ex_state ex_tree 5 7 ex_inv (by decide)⟩

/-! ### Writing a mapped value -/

namespace Tree

theorem ptr_setV (x : Nat) (v : Int) (t : Tree) : (t.setV x v).ptr = t.ptr := by
  cases t with
  | nil => rfl
  | node l e r =>
    simp only [setV, ptr]
    split <;> rfl

theorem toList_setV (x : Nat) (v : Int) (t : Tree) :
    (t.setV x v).toList = t.toList.map fun e => if e.a = x then { e with v := v } else e := by
  induction t with
  | nil => rfl
  | node l e r ihl ihr => simp only [setV, toList, ihl, ihr, List.map_append, List.map_cons]

theorem addrs_setV (x : Nat) (v : Int) (t : Tree) : (t.setV x v).addrs = t.addrs := by
  simp only [addrs, toList_setV, List.map_map]
  apply List.map_congr_left
  intro e _
  simp only [Function.comp]
  split <;> rfl

theorem keys_setV (x : Nat) (v : Int) (t : Tree) : (t.setV x v).keys = t.keys := by
  simp only [keys, toList_setV, List.map_map]
  apply List.map_congr_left
  intro e _
  simp only [Function.comp]
  split <;> rfl

theorem size_setV (x : Nat) (v : Int) (t : Tree) : (t.setV x v).size = t.size := by
  rw [← length_toList, ← length_toList, toList_setV, List.length_map]

theorem minA_setV (x : Nat) (v : Int) (t : Tree) (d : Nat) : (t.setV x v).minA d = t.minA d := by
  rw [minA_eq_head, minA_eq_head, addrs_setV]

theorem maxA_setV (x : Nat) (v : Int) (t : Tree) (d : Nat) : (t.setV x v).maxA d = t.maxA d := by
  rw [maxA_eq_last, maxA_eq_last, addrs_setV]

theorem height_setV (x : Nat) (v : Int) (t : Tree) : (t.setV x v).height = t.height := by
  induction t with
  | nil => rfl
  | node l e r ihl ihr => simp only [setV, height, ihl, ihr]

end Tree

/-- Assigning the mapped value of one node turns the memory of `t` into the memory of
`t.setV`. -/
theorem Rep.setV {m : Mem} {t : Tree} {q : Option Nat} (hr : Rep m t q) {x : Nat} {n : node}
    (hx : m x = some n) (v : Int) : Rep (m.set x { n with val := v }) (t.setV x v) q := by
  induction t generalizing q with
  | nil => trivial
  | node l e r ihl ihr =>
    obtain ⟨h1, h2, h3⟩ := hr
    refine ⟨?_, ?_, ?_⟩
    · by_cases hex : e.a = x
      · simp only [hex, if_true, Tree.ptr_setV]
        rw [Mem.set_same]
        rw [hex, hx] at h1
        simp only [Option.some.injEq] at h1
        rw [h1]
      · simp only [hex, if_false, Tree.ptr_setV]
        rw [Mem.set_other _ _ hex]
        exact h1
    · have := ihl h2
      by_cases hex : e.a = x
      · simpa only [hex, if_true] using this
      · simpa only [hex, if_false] using this
    · have := ihr h3
      by_cases hex : e.a = x
      · simpa only [hex, if_true] using this
      · simpa only [hex, if_false] using this

/-- The write `it->second = v` at an element keeps the container well formed: it now
holds `t.setV`; every other node, the size and the allocator are untouched and the node
written differs from what it was in its mapped value only. -/
theorem set_second_inv {s : treap} {t : Tree} (h : Inv s t) {x : Nat} (hx : x ∈ t.addrs)
    (v : Int) :
    ∃ s' n, set_second s x v = some s' ∧ Inv s' (t.setV x v) ∧ s'.size_ = s.size_ ∧
      s'.brk = s.brk ∧ (∀ a, a ≠ x → s'.mem a = s.mem a) ∧ s.mem x = some n ∧
      s'.mem x = some { n with val := v } := by
  obtain ⟨n, hn⟩ := h.rep.live hx
  have hxh : hdr ≠ x := fun h' => hdr_not_mem h (h' ▸ hx)
  refine ⟨{ s with mem := s.mem.set x { n with val := v } }, n, ?_, ?_, rfl, rfl, ?_, hn, ?_⟩
  · simp only [set_second, hn]
  · refine ⟨?_, h.rep.setV hn v, ?_, ?_, h.brk_pos, ?_, ?_, ?_⟩
    · show s.mem.set x _ hdr = _
      rw [Mem.set_other _ _ hxh, h.hd]
      simp only [HdrOf, Tree.minA_setV, Tree.maxA_setV, Tree.ptr_setV]
    · rw [Tree.addrs_setV]; exact h.nodup
    · rw [Tree.addrs_setV]; exact h.fresh
    · rw [Tree.keys_setV]; exact h.sorted
    · rw [Tree.size_setV]; exact h.sz
    · intro e he
      rw [Tree.toList_setV, List.mem_map] at he
      obtain ⟨e0, he0, rfl⟩ := he
      have := h.pri e0 he0
      split <;> exact this
  · intro a ha
    exact Mem.set_other _ _ ha
  · exact Mem.set_same _ _ _

/-! ### Order facts about positions -/

/-- The in-order sequence around an element: the elements before it have smaller keys,
the elements after it greater keys, its neighbours are the last of the former and the
first of the latter, and it is the leftmost node exactly when nothing precedes it. -/
theorem split_at {t : Tree} (hs : t.keys.Pairwise (· < ·)) (hn : t.addrs.Nodup) {e : Entry}
    (he : e ∈ t.toList) :
    ∃ pre rest, t.toList = pre ++ e :: rest ∧ (∀ y ∈ pre, y.k < e.k) ∧
      (∀ y ∈ rest, e.k < y.k) ∧ (pre.map Entry.k).Pairwise (· < ·) ∧
      (∀ d, succL t.addrs e.a d = ((rest.head?).map Entry.a).getD d) ∧
      (∀ d, predL t.addrs e.a d = ((pre.getLast?).map Entry.a).getD d) ∧
      (∀ d, t.minA d = e.a ↔ pre = []) := by
  obtain ⟨pre, rest, hsplit⟩ := List.append_of_mem he
  have hn' : ((pre ++ e :: rest).map Entry.a).Nodup := by rw [← hsplit]; exact hn
  have hs' : ((pre ++ e :: rest).map Entry.k).Pairwise (· < ·) := by rw [← hsplit]; exact hs
  rw [List.map_append, List.map_cons, List.pairwise_append, List.pairwise_cons] at hs'
  obtain ⟨hpre, ⟨hgt, _⟩, hlt⟩ := hs'
  refine ⟨pre, rest, hsplit, ?_, ?_, hpre, ?_, ?_, ?_⟩
  · exact fun y hy => hlt y.k (List.mem_map_of_mem _ hy) e.k (List.mem_cons_self _ _)
  · exact fun y hy => hgt y.k (List.mem_map_of_mem _ hy)
  · intro d
    have := succL_mid hn' d
    rw [← hsplit] at this
    exact this
  · intro d
    have := predL_mid hn' d
    rw [← hsplit] at this
    exact this
  · intro d
    rw [Tree.minA_eq_head]
    simp only [Tree.addrs, hsplit]
    cases pre with
    | nil => simp
    | cons y ys =>
      simp only [List.cons_append, List.map_cons, List.head?_cons, Option.getD_some,
        reduceCtorEq, iff_false]
      intro hy
      simp only [List.cons_append, List.map_cons, List.nodup_cons, List.map_append,
        List.mem_append, List.mem_cons] at hn'
      exact hn'.1 (Or.inr (Or.inl hy))

/-- The in-order predecessor of an element of a key-sorted tree: nothing when it is the
leftmost node, which holds the smallest key, else the element with the greatest smaller
key. -/
theorem pred_char {t : Tree} (hs : t.keys.Pairwise (· < ·)) (hn : t.addrs.Nodup) {e : Entry}
    (he : e ∈ t.toList) (d : Nat) :
    (predL t.addrs e.a d = d ∧ t.minA d = e.a ∧ ∀ e' ∈ t.toList, e.k ≤ e'.k) ∨
      ∃ e' ∈ t.toList, predL t.addrs e.a d = e'.a ∧ t.minA d ≠ e.a ∧ e'.k < e.k ∧
        ∀ e'' ∈ t.toList, e''.k < e.k → e''.k ≤ e'.k := by
  obtain ⟨pre, rest, hsplit, hlt, hgt, hpre, _, hpred, hmin⟩ := split_at hs hn he
  rcases List.eq_nil_or_concat pre with hp | ⟨ys, y, hp⟩
  · left
    subst hp
    refine ⟨by simp [hpred], (hmin d).2 rfl, fun e' he' => ?_⟩
    rw [hsplit] at he'
    simp only [List.nil_append, List.mem_cons] at he'
    rcases he' with h | h
    · rw [h]
    · exact le_of_lt (hgt e' h)
  · right
    rw [List.concat_eq_append] at hp
    subst hp
    have hy : y ∈ ys ++ [y] := by simp
    refine ⟨y, by rw [hsplit]; simp, by simp [hpred], ?_, hlt y hy, fun e'' he'' hk => ?_⟩
    · intro h
      have := (hmin d).1 h
      simp at this
    · rw [hsplit] at he''
      simp only [List.mem_append, List.mem_cons, List.mem_singleton, List.not_mem_nil,
        or_false] at he''
      rw [List.map_append, List.pairwise_append] at hpre
      rcases he'' with (h | h) | h | h
      · exact le_of_lt (hpre.2.2 e''.k (List.mem_map_of_mem _ h) y.k (by simp))
      · rw [h]
      · rw [h] at hk; exact absurd hk (lt_irrefl _)
      · exact absurd (hgt e'' h) (by omega)

/-- The rightmost node of a key-sorted tree holds the greatest key. -/
theorem max_char (t : Tree) (hs : t.keys.Pairwise (· < ·)) (d : Nat) :
    (t = .nil ∧ t.maxA d = d) ∨
      ∃ e ∈ t.toList, t.maxA d = e.a ∧ ∀ e' ∈ t.toList, e'.k ≤ e.k := by
  rw [Tree.maxA_eq_maxE]
  cases hm : t.maxE with
  | none => left; exact ⟨Tree.maxE_eq_none.1 hm, rfl⟩
  | some e0 =>
    right
    exact ⟨e0, Tree.maxE_mem hm, rfl, fun e' he' => Tree.le_maxE hs hm he'⟩

/-- The leftmost node of a key-sorted tree holds the smallest key. -/
theorem min_char (t : Tree) (hs : t.keys.Pairwise (· < ·)) (d : Nat) :
    (t = .nil ∧ t.minA d = d) ∨
      ∃ e ∈ t.toList, t.minA d = e.a ∧ ∀ e' ∈ t.toList, e.k ≤ e'.k := by
  rw [Tree.minA_eq_minE]
  cases hm : t.minE with
  | none => left; exact ⟨Tree.minE_eq_none.1 hm, rfl⟩
  | some e0 =>
    right
    exact ⟨e0, Tree.minE_mem hm, rfl, fun e' he' => Tree.minE_le hs hm he'⟩

/-- The header caches `end()` as its minimum exactly on the empty tree. -/
theorem minA_eq_hdr_iff {t : Tree} (hh : hdr ∉ t.addrs) : t.minA hdr = hdr ↔ t = .nil := by
  constructor
  · intro h
    rcases Tree.minA_mem t hdr with h' | ⟨h', _⟩
    · rw [h] at h'; exact absurd h' hh
    · exact h'
  · rintro rfl; rfl

theorem size_eq_zero_iff {t : Tree} : t.size = 0 ↔ t = .nil := by
  cases t with
  | nil => simp [Tree.size]
  | node l e r => simp [Tree.size]

/-- The elements of the container are the nodes of its tree. -/
theorem is_element_iff {s : treap} {t : Tree} (h : Inv s t) (fuel : Nat)
    (hf : t.size + 2 ≤ fuel) (pos : Nat) : is_element fuel s pos = true ↔ pos ∈ t.addrs := by
  simp only [is_element, contents_eq h fuel hf, List.map_map, decide_eq_true_eq, Tree.addrs]
  rfl

/-- The iterators of the container are the nodes of its tree and the header. -/
theorem is_iterator_iff {s : treap} {t : Tree} (h : Inv s t) (fuel : Nat)
    (hf : t.size + 2 ≤ fuel) (pos : Nat) :
    is_iterator fuel s pos = true ↔ pos = hdr ∨ pos ∈ t.addrs := by
  simp only [is_iterator, Bool.or_eq_true, decide_eq_true_eq, is_element_iff h fuel hf, end_]

/-! ### Counting -/

/-- Counting the nodes below a slot gives the size of the tree. -/
theorem count_nodes_eq {m : Mem} {t : Tree} {q : Option Nat} (hr : Rep m t q) (fuel : Nat)
    (hf : t.height < fuel) : count_nodes m fuel t.ptr = some t.size := by
  induction t generalizing q fuel with
  | nil =>
    cases fuel with
    | zero => simp at hf
    | succ fuel => rfl
  | node l e r ihl ihr =>
    cases fuel with
    | zero => simp at hf
    | succ fuel =>
      obtain ⟨h1, h2, h3⟩ := hr
      simp only [Tree.height] at hf
      have hl := ihl h2 fuel (by omega)
      have hr := ihr h3 fuel (by omega)
      show count_nodes m (fuel + 1) (some e.a) = _
      simp only [count_nodes, h1, hl, hr, Tree.size]

/-- The number of `++` steps from an element to `end()` is the number of elements from
it on. -/
theorem distance_eq {m : Mem} {t : Tree} (hd : m hdr = some (HdrOf t))
    (hr : Rep m t (some hdr)) (hn : t.addrs.Nodup) (hh : hdr ∉ t.addrs) (fuel : Nat)
    (hf : t.height + 2 ≤ fuel) :
    ∀ (rest pre : List Entry), t.toList = pre ++ rest → ∀ n, rest.length < n →
      distance m fuel n (((rest.head?).map Entry.a).getD hdr) end_ = some rest.length := by
  intro rest
  induction rest with
  | nil =>
    intro pre _ n hlen
    cases n with
    | zero => simp at hlen
    | succ n => simp [distance, end_]
  | cons e rest ih =>
    intro pre hpre n hlen
    cases n with
    | zero => simp at hlen
    | succ n =>
      have he : e ∈ t.toList := by rw [hpre]; simp
      have hea : e.a ∈ t.addrs := List.mem_map_of_mem Entry.a he
      have heh : e.a ≠ hdr := fun h => hh (h ▸ hea)
      have hinc := inc_eq hd hr hn hh hea fuel hf
      have hn' : ((pre ++ e :: rest).map Entry.a).Nodup := by
        rw [← hpre]; exact hn
      have hs : succL t.addrs e.a hdr = ((rest.head?).map Entry.a).getD hdr := by
        have := succL_mid hn' hdr
        rw [← hpre] at this
        exact this
      rw [hs] at hinc
      have hstep := ih (pre ++ [e]) (by rw [hpre]; simp) n (by simpa using hlen)
      simp only [end_] at hstep
      simp [distance, end_, heh, hinc, hstep]

/-- The distance from `begin()` to `end()` is the size of the tree. -/
theorem distance_begin_end {s : treap} {t : Tree} (h : Inv s t) (fuel : Nat)
    (hf : t.size + 2 ≤ fuel) : distance s.mem fuel fuel (t.minA hdr) end_ = some t.size := by
  have hht := Tree.height_le_size t
  have := distance_eq h.hd h.rep h.nodup (hdr_not_mem h) fuel (by omega) t.toList [] rfl fuel
    (by rw [Tree.length_toList]; omega)
  rw [Tree.length_toList] at this
  rw [← this, Tree.minA_eq_minE, Tree.minE_eq_head]

/-! ### Walking backwards -/

/-- Walking with `--` from a position visits the in-order sequence before it, last
element first. -/
theorem walk_back_eq {m : Mem} {t : Tree} (hd : m hdr = some (HdrOf t))
    (hr : Rep m t (some hdr)) (hn : t.addrs.Nodup) (hh : hdr ∉ t.addrs) (fuel : Nat)
    (hf : t.height + 2 ≤ fuel) :
    ∀ (pre rest : List Entry), t.toList = pre ++ rest → ∀ n, pre.length < n →
      walk_back m fuel (t.minA hdr) n (((rest.head?).map Entry.a).getD hdr) =
        some (pre.reverse.map fun e => (e.a, e.k, e.v)) := by
  intro pre
  induction pre using List.reverseRecOn with
  | nil =>
    intro rest hpre n hlen
    cases n with
    | zero => simp at hlen
    | succ n =>
      have : ((rest.head?).map Entry.a).getD hdr = t.minA hdr := by
        rw [Tree.minA_eq_minE, Tree.minE_eq_head, hpre, List.nil_append]
      simp [walk_back, this]
  | append_singleton ys y ih =>
    intro rest hpre n hlen
    cases n with
    | zero => simp at hlen
    | succ n =>
      have hy : y ∈ t.toList := by rw [hpre]; simp
      have hya : y.a ∈ t.addrs := List.mem_map_of_mem Entry.a hy
      obtain ⟨nd, hnd, hk, hv, _⟩ := hr.get hy
      have hnda : (t.addrs) = (ys.map Entry.a) ++ y.a :: rest.map Entry.a := by
        simp [Tree.addrs, hpre]
      have hne : ¬ ((rest.head?).map Entry.a).getD hdr = t.minA hdr := by
        rw [Tree.minA_eq_head, hnda]
        have hnd2 := hn
        rw [hnda] at hnd2
        cases rest with
        | nil =>
          cases ys with
          | nil =>
            simp only [List.head?_nil, Option.map_none', Option.getD_none, List.map_nil,
              List.nil_append, List.head?_cons, Option.getD_some]
            intro h'
            exact hh (h' ▸ hya)
          | cons z zs =>
            simp only [List.head?_nil, Option.map_none', Option.getD_none, List.map_cons,
              List.cons_append, List.head?_cons, Option.getD_some]
            intro h'
            exact hh (h' ▸ (List.mem_map_of_mem Entry.a (by rw [hpre]; simp : z ∈ t.toList)))
        | cons e es =>
          cases ys with
          | nil =>
            simp only [List.head?_cons, Option.map_some', Option.getD_some, List.map_nil,
              List.nil_append]
            intro h'
            simp only [List.map_nil, List.nil_append, List.map_cons, List.nodup_cons,
              List.mem_cons] at hnd2
            exact hnd2.1 (Or.inl h'.symm)
          | cons z zs =>
            simp only [List.head?_cons, Option.map_some', Option.getD_some, List.map_cons,
              List.cons_append]
            intro h'
            simp only [List.map_cons, List.cons_append, List.nodup_cons, List.mem_append,
              List.mem_cons] at hnd2
            exact hnd2.1 (Or.inr (Or.inr (Or.inl h'.symm)))
      have hdec : dec m fuel (((rest.head?).map Entry.a).getD hdr) = some y.a := by
        cases rest with
        | nil =>
          simp only [List.head?_nil, Option.map_none', Option.getD_none]
          rw [dec_hdr hd hr hh fuel (by omega), Tree.maxA_eq_last, hnda]
          simp
        | cons e es =>
          simp only [List.head?_cons, Option.map_some', Option.getD_some] at hne ⊢
          have he : e ∈ t.toList := by rw [hpre]; simp
          have hea : e.a ∈ t.addrs := List.mem_map_of_mem Entry.a he
          rw [dec_eq hr hn hea hne fuel (by omega)]
          have hn' : (((ys ++ [y]) ++ e :: es).map Entry.a).Nodup := by
            rw [← hpre]; exact hn
          have := predL_mid hn' hdr
          rw [← hpre] at this
          simp only [Tree.addrs, this]
          simp
      have hstep := ih (y :: rest) (by rw [hpre]; simp) n (by simpa using hlen)
      simp only [List.head?_cons, Option.map_some', Option.getD_some] at hstep
      simp [walk_back, hne, hdec, hnd, hstep, hk, hv]

/-- The positions met from `end()` back to `begin()` are the in-order sequence of the
tree, reversed. -/
theorem contents_back_eq {s : treap} {t : Tree} (h : Inv s t) (fuel : Nat)
    (hf : t.size + 2 ≤ fuel) :
    contents_back fuel s = some (t.toList.reverse.map fun e => (e.a, e.k, e.v)) := by
  have hht := Tree.height_le_size t
  have hb : begin_ s = some (t.minA hdr) := by simp only [begin_, h.hd, HdrOf]
  simp only [contents_back, hb, end_]
  have := walk_back_eq h.hd h.rep h.nodup (hdr_not_mem h) fuel (by omega) t.toList [] (by simp)
    fuel (by rw [Tree.length_toList]; omega)
  simpa using this

/-! ### The hinted insertion -/

/-- The `lower_bound` of a key lying in the gap just below an element is that element. -/
theorem lbT_of_gap {t : Tree} (hs : t.keys.Pairwise (· < ·)) {e : Entry} (he : e ∈ t.toList)
    {key : Int} (hk : key ≤ e.k) (hgap : ∀ e' ∈ t.toList, e'.k < e.k → e'.k < key)
    (res : Nat) : t.lbT key res = e.a := by
  rcases lbT_char key t res hs with ⟨_, h2⟩ | ⟨e0, he0, h1, h2, h3⟩
  · exact absurd (h2 e he) (by omega)
  · have hle := h3 e he hk
    have : e0.k = e.k := by
      by_contra hne
      have := hgap e0 he0 (lt_of_le_of_ne hle hne)
      omega
    rw [h1, eq_of_key_eq hs he0 he this]

/-- The `lower_bound` of a key above all stored keys is `end()`. -/
theorem lbT_of_all_lt {t : Tree} (hs : t.keys.Pairwise (· < ·)) {key : Int}
    (hall : ∀ e ∈ t.toList, e.k < key) (res : Nat) : t.lbT key res = res := by
  rcases lbT_char key t res hs with ⟨h1, _⟩ | ⟨e0, he0, _, h2, _⟩
  · exact h1
  · exact absurd (hall e0 he0) (by omega)

/-- The test on the hint returns, and a hint that it accepts is `lower_bound(key)`. -/
theorem hint_bad_spec {s : treap} {t : Tree} (h : Inv s t) {pos : Nat}
    (hpos : pos = hdr ∨ pos ∈ t.addrs) (key : Int) (fuel : Nat) (hf : t.height + 2 ≤ fuel) :
    ∃ bad, hint_bad lt fuel s pos key = some bad ∧ (bad = false → pos = t.lbT key hdr) := by
  have hhd := hdr_not_mem h
  have hb : begin_ s = some (t.minA hdr) := by simp only [begin_, h.hd, HdrOf]
  rcases hpos with rfl | hpos
  · -- the hint is `end()`: the record read is the header's
    by_cases hk : key < 0
    · by_cases hm : hdr = t.minA hdr
      · refine ⟨false, ?_, fun _ => ?_⟩
        · simp only [hint_bad, h.hd, HdrOf, hb]
          simp [lt, hk, ← hm]
        · rw [(minA_eq_hdr_iff hhd).1 hm.symm]; rfl
      · rcases max_char t h.sorted hdr with ⟨hnil, _⟩ | ⟨e, he, hmax, hall⟩
        · exact absurd ((minA_eq_hdr_iff hhd).2 hnil).symm hm
        · obtain ⟨n, hn, hnk, _, _⟩ := h.rep.get he
          refine ⟨!lt e.k key, ?_, fun hgood => ?_⟩
          · simp only [hint_bad, h.hd, HdrOf, hb]
            simp [lt, hk, hm, dec_hdr h.hd h.rep hhd fuel (by omega), hmax, hn, hnk]
          · have hlt : e.k < key := by simpa [lt] using hgood
            exact (lbT_of_all_lt h.sorted (fun e' he' => lt_of_le_of_lt (hall e' he') hlt) hdr).symm
    · refine ⟨true, ?_, fun h' => absurd h' (by simp)⟩
      simp only [hint_bad, h.hd, HdrOf]
      simp [lt, hk]
  · obtain ⟨e, he, rfl⟩ := mem_addrs.1 hpos
    obtain ⟨n, hn, hnk, _, _⟩ := h.rep.get he
    by_cases hk : key < e.k
    · rcases pred_char h.sorted h.nodup he hdr with ⟨_, hmin, hall⟩ | ⟨e', he', hpred, hmin, hlt, hall⟩
      · refine ⟨false, ?_, fun _ => ?_⟩
        · simp only [hint_bad, hn, hnk, hb]
          simp [lt, hk, hmin]
        · exact (lbT_of_gap h.sorted he (le_of_lt hk)
            (fun e'' he'' hlt => absurd (hall e'' he'') (by omega)) hdr).symm
      · obtain ⟨n', hn', hnk', _, _⟩ := h.rep.get he'
        have hne : e.a ≠ t.minA hdr := fun h' => hmin h'.symm
        refine ⟨!lt e'.k key, ?_, fun hgood => ?_⟩
        · simp only [hint_bad, hn, hnk, hb]
          simp [lt, hk, hne, dec_eq h.rep h.nodup hpos hne fuel (by omega), hpred, hn', hnk']
        · have hlt' : e'.k < key := by simpa [lt] using hgood
          exact (lbT_of_gap h.sorted he (le_of_lt hk)
            (fun e'' he'' hlt'' => lt_of_le_of_lt (hall e'' he'' hlt'') hlt') hdr).symm
    · refine ⟨true, ?_, fun h' => absurd h' (by simp)⟩
      simp only [hint_bad, hn, hnk]
      simp [lt, hk]

/-- The hinted `insert` does what the plain `insert` does, for every iterator of the
container given as the hint. -/
theorem insert_hint_eq {s : treap} {t : Tree} (h : Inv s t) {pos : Nat}
    (hpos : pos = hdr ∨ pos ∈ t.addrs) (key val : Int) (pri fuel : Nat)
    (hf : t.height + 2 ≤ fuel) :
    insert_hint lt fuel s pos key val pri =
      (insert lt fuel s key val pri).map fun r => (r.1, r.2.1) := by
  obtain ⟨bad, hb, hgood⟩ := hint_bad_spec h hpos key fuel hf
  have hlb := lower_bound_eq h key fuel (by omega)
  have hpos1 : (if bad = true then lower_bound lt fuel s key else some pos) =
      some (t.lbT key hdr) := by
    cases bad with
    | true => simp [hlb]
    | false =>
      have := hgood rfl
      simp [← this]
  simp only [insert_hint, hb, hpos1]
  simp only [insert, hlb]
  generalize (if t.lbT key hdr ≠ end_ then
    Option.map (fun n => decide (n.key = key)) (s.mem (t.lbT key hdr)) else some false) = c
  cases c with
  | none => rfl
  | some b =>
    cases b with
    | true => rfl
    | false =>
      simp only
      cases insert_ lt fuel s (t.lbT key hdr) key val pri <;> rfl

/-! ### The subscript operator -/

/-- The operator `operator[]` at a stored key returns its node and leaves the state as it is. -/
theorem subscript_of_mem {s : treap} {t : Tree} (h : Inv s t) {e : Entry} (he : e ∈ t.toList)
    (pri fuel : Nat) (hf : t.height < fuel) : subscript lt fuel s e.k pri = some (s, e.a) := by
  have hh : e.a ≠ hdr := fun h' => hdr_not_mem h (h' ▸ List.mem_map_of_mem Entry.a he)
  simp [subscript, find_of_mem h he fuel hf, end_, hh]

/-- The operator `operator[]` at an absent key makes the insertion of the key with the
mapped value 0, which succeeds, and returns the new node. -/
theorem subscript_of_not_mem {s : treap} {t : Tree} (h : Inv s t) (key : Int) (pri : Nat)
    (hk : key ∉ t.keys) (fuel : Nat) (hf : t.height + 2 ≤ fuel) :
    ∃ s', subscript lt fuel s key pri = some (s', s.brk) ∧
      insert lt fuel s key 0 pri = some (s', s.brk, true) ∧
      Inv s' (t.insT ⟨s.brk, key, 0, pri % 4294967296⟩) ∧ s'.size_ = s.size_ + 1 := by
  obtain ⟨s', hs', hinv, hsz⟩ := insert_of_not_mem h key 0 pri hk fuel hf
  refine ⟨s', ?_, hs', hinv, hsz⟩
  simp [subscript, find_of_not_mem h hk fuel (by omega), hs']

/-! ### Reachable states -/

/-- The operation `insert` keeps the container well formed. -/
theorem insert_wf {s : treap} {t : Tree} (h : Inv s t) (key val : Int) (pri fuel : Nat)
    (hf : t.size + 2 ≤ fuel) {r : treap × Nat × Bool}
    (hr : insert lt fuel s key val pri = some r) : WF r.1 := by
  have hht := Tree.height_le_size t
  by_cases hk : key ∈ t.keys
  · obtain ⟨e, he, rfl⟩ := mem_keys.1 hk
    rw [insert_of_mem h he val pri fuel (by omega)] at hr
    simp only [Option.some.injEq] at hr
    rw [← hr]
    exact ⟨t, h⟩
  · obtain ⟨s', hs', hinv, _⟩ := insert_of_not_mem h key val pri hk fuel (by omega)
    rw [hs'] at hr
    simp only [Option.some.injEq] at hr
    rw [← hr]
    exact ⟨_, hinv⟩

/-- The operation `erase(key)` keeps the container well formed. -/
theorem erase_wf {s : treap} {t : Tree} (h : Inv s t) (key : Int) (fuel : Nat)
    (hf : t.size + 2 ≤ fuel) {r : treap × Nat}
    (hr : erase lt fuel s key = some r) : WF r.1 := by
  have hht := Tree.height_le_size t
  by_cases hk : key ∈ t.keys
  · obtain ⟨e, he, rfl⟩ := mem_keys.1 hk
    obtain ⟨s', hs', hinv, _⟩ := erase_of_mem h he fuel hf
    rw [hs'] at hr
    simp only [Option.some.injEq] at hr
    rw [← hr]
    exact ⟨_, hinv⟩
  · rw [erase_of_not_mem h hk fuel (by omega)] at hr
    simp only [Option.some.injEq] at hr
    rw [← hr]
    exact ⟨t, h⟩

/-- Every reachable state is well formed. -/
theorem reachable_wf {s : treap} (hs : Reachable s) : WF s := by
  induction hs with
  | new => exact ⟨_, inv_new⟩
  | insert s key val pri fuel r _ hf hr ih =>
    obtain ⟨t, h⟩ := ih
    exact insert_wf h key val pri fuel (by rw [← h.sz]; exact hf) hr
  | insert_hint s pos key val pri fuel r _ hf hpos hr ih =>
    obtain ⟨t, h⟩ := ih
    have hf' : t.size + 2 ≤ fuel := by rw [← h.sz]; exact hf
    have hht := Tree.height_le_size t
    rw [insert_hint_eq h ((is_iterator_iff h fuel hf' pos).1 hpos) key val pri fuel (by omega)]
      at hr
    cases hi : insert lt fuel s key val pri with
    | none => rw [hi] at hr; simp at hr
    | some r' =>
      rw [hi] at hr
      simp only [Option.map_some', Option.some.injEq] at hr
      rw [← hr]
      exact insert_wf h key val pri fuel hf' hi
  | erase_it s pos fuel r _ hf hpos hr ih =>
    obtain ⟨t, h⟩ := ih
    have hf' : t.size + 2 ≤ fuel := by rw [← h.sz]; exact hf
    obtain ⟨s', hs', hinv, _⟩ := erase__spec h ((is_element_iff h fuel hf' pos).1 hpos) fuel hf'
    simp only [erase_it, hs', Option.some.injEq] at hr
    rw [← hr]
    exact ⟨_, hinv⟩
  | erase s key fuel r _ hf hr ih =>
    obtain ⟨t, h⟩ := ih
    exact erase_wf h key fuel (by rw [← h.sz]; exact hf) hr
  | subscript s key pri fuel r _ hf hr ih =>
    obtain ⟨t, h⟩ := ih
    have hf' : t.size + 2 ≤ fuel := by rw [← h.sz]; exact hf
    have hht := Tree.height_le_size t
    by_cases hk : key ∈ t.keys
    · obtain ⟨e, he, rfl⟩ := mem_keys.1 hk
      rw [subscript_of_mem h he pri fuel (by omega)] at hr
      simp only [Option.some.injEq] at hr
      rw [← hr]
      exact ⟨t, h⟩
    · obtain ⟨s', hs', _, hinv, _⟩ := subscript_of_not_mem h key pri hk fuel (by omega)
      rw [hs'] at hr
      simp only [Option.some.injEq] at hr
      rw [← hr]
      exact ⟨_, hinv⟩
  | set_second s pos v fuel s1 _ hf hpos hr ih =>
    obtain ⟨t, h⟩ := ih
    have hf' : t.size + 2 ≤ fuel := by rw [← h.sz]; exact hf
    obtain ⟨s', _, hs', hinv, _⟩ := set_second_inv h ((is_element_iff h fuel hf' pos).1 hpos) v
    rw [hs'] at hr
    simp only [Option.some.injEq] at hr
    rw [← hr]
    exact ⟨_, hinv⟩

/-- A sequence of `insert` calls on a reachable state ends in a reachable state. -/
theorem reachable_insert_all (vals : List (Int × Int × Nat)) (fuel : Nat) :
    ∀ (s : treap) (t : Tree), Reachable s → Inv s t → t.size + vals.length + 2 ≤ fuel →
      ∀ s', insert_all fuel s vals = some s' → Reachable s' := by
  induction vals with
  | nil =>
    intro s t hs _ _ s' h'
    simp only [insert_all, Option.some.injEq] at h'
    rw [← h']; exact hs
  | cons v rest ih =>
    intro s t hs h hf s' h'
    obtain ⟨key, val, pri⟩ := v
    simp only [List.length_cons] at hf
    obtain ⟨s1, t1, h1, hinv1, hsz1, _⟩ :=
      insert_all_inv [(key, val, pri)] fuel s t h (by simp only [List.length_singleton]; omega)
    simp only [List.length_singleton] at hsz1
    simp only [insert_all] at h1 h'
    cases hi : insert lt fuel s key val pri with
    | none => rw [hi] at h'; simp at h'
    | some r =>
      rw [hi] at h' h1
      simp only [Option.some.injEq] at h1
      have hr1 : Reachable r.1 :=
        Reachable.insert s key val pri fuel r hs (by rw [size, h.sz]; omega) hi
      simp only [h1] at hr1 h'
      exact ih s1 t1 hr1 hinv1 (by omega) s' h'

/-- A sequence of `erase(key)` calls keeps the invariant and removes the erased keys. -/
theorem erase_all_inv (ks : List Int) (fuel : Nat) :
    ∀ (s : treap) (t : Tree), Inv s t → t.size + 2 ≤ fuel →
      ∃ s' t', erase_all fuel s ks = some s' ∧ Inv s' t' ∧ t'.size ≤ t.size ∧
        ∀ k, k ∈ t'.keys ↔ k ∈ t.keys ∧ k ∉ ks := by
  induction ks with
  | nil =>
    intro s t h _
    exact ⟨s, t, rfl, h, le_refl _, by simp⟩
  | cons key rest ih =>
    intro s t h hf
    have hht := Tree.height_le_size t
    by_cases hk : key ∈ t.keys
    · obtain ⟨e, he, rfl⟩ := mem_keys.1 hk
      obtain ⟨s1, hs1, hinv1, _, _⟩ := erase_of_mem h he fuel hf
      have hea : e.a ∈ t.addrs := List.mem_map_of_mem Entry.a he
      have hsz := Tree.size_delT h.nodup hea
      obtain ⟨s2, t2, h2, hinv2, hsz2, hS2⟩ := ih s1 _ hinv1 (by omega)
      refine ⟨s2, t2, ?_, hinv2, by omega, fun k => ?_⟩
      · simp [erase_all, hs1, h2]
      · rw [hS2, keys_delT h.sorted h.nodup he]
        simp only [List.mem_cons, not_or]
        tauto
    · obtain ⟨s2, t2, h2, hinv2, hsz2, hS2⟩ := ih s t h hf
      refine ⟨s2, t2, ?_, hinv2, hsz2, fun k => ?_⟩
      · simp [erase_all, erase_of_not_mem h hk fuel (by omega), h2]
      · rw [hS2]
        simp only [List.mem_cons, not_or]
        constructor
        · rintro ⟨h1, h3⟩
          exact ⟨h1, fun e => hk (e ▸ h1), h3⟩
        · rintro ⟨h1, _, h3⟩
          exact ⟨h1, h3⟩

/-- The example container is what five `insert` calls build from the empty container. -/
theorem ex_state_built :
    insert_all 7 treap.new [(1, 0, 10), (3, 0, 30), (5, 0, 50), (7, 0, 40), (9, 0, 20)] =
      some ex_state := by
  have hsome : (insert_all 7 treap.new
      [(1, 0, 10), (3, 0, 30), (5, 0, 50), (7, 0, 40), (9, 0, 20)]).isSome = true := by decide
  obtain ⟨s, hs⟩ := Option.isSome_iff_exists.1 hsome
  have hsz : ((insert_all 7 treap.new
      [(1, 0, 10), (3, 0, 30), (5, 0, 50), (7, 0, 40), (9, 0, 20)]).map fun s => (s.size_, s.brk))
      = some (5, 6) := by decide
  have hmem : ∀ a, ((insert_all 7 treap.new
      [(1, 0, 10), (3, 0, 30), (5, 0, 50), (7, 0, 40), (9, 0, 20)]).map fun s => s.mem a)
      = some (ex_mem a) := by
    intro a
    match a with
    | 0 => decide
    | 1 => decide
    | 2 => decide
    | 3 => decide
    | 4 => decide
    | 5 => decide
    | a + 6 => rfl
  rw [hs] at hsz hmem ⊢
  simp only [Option.map_some', Option.some.injEq, Prod.mk.injEq] at hsz hmem
  obtain ⟨m, sz, b⟩ := s
  simp only at hsz hmem
  obtain ⟨rfl, rfl⟩ := hsz
  have : m = ex_mem := funext hmem
  rw [this]
  rfl

/-- The example container is reachable. -/
theorem ex_reachable : Reachable ex_state :=
  reachable_insert_all _ 7 treap.new .nil Reachable.new inv_new (by decide) ex_state
    ex_state_built

/-! ### Increment and decrement are mutually inverse -/

/-- In a well-formed container `--` undoes `++` and `++` undoes `--`. -/
theorem round_trip_of_inv {s : treap} {t : Tree} (h : Inv s t) (fuel : Nat)
    (hf : t.size + 2 ≤ fuel) : round_trip fuel s := by
  have hht := Tree.height_le_size t
  have hhd := hdr_not_mem h
  have hb : begin_ s = some (t.minA hdr) := by simp only [begin_, h.hd, HdrOf]
  refine ⟨fun x hx => ?_, fun x hx hne => ?_⟩
  · rw [is_element_iff h fuel hf] at hx
    obtain ⟨e, he, rfl⟩ := mem_addrs.1 hx
    obtain ⟨pre, rest, hsplit, _, _, _, hsucc, _, _⟩ := split_at h.sorted h.nodup he
    refine ⟨_, inc_eq h.hd h.rep h.nodup hhd hx fuel (by omega), ?_⟩
    rw [hsucc]
    cases rest with
    | nil =>
      simp only [List.head?_nil, Option.map_none', Option.getD_none]
      rw [dec_hdr h.hd h.rep hhd fuel (by omega), Tree.maxA_eq_last]
      simp [Tree.addrs, hsplit]
    | cons y ys =>
      simp only [List.head?_cons, Option.map_some', Option.getD_some]
      have hy : y ∈ t.toList := by rw [hsplit]; simp
      have hya : y.a ∈ t.addrs := List.mem_map_of_mem Entry.a hy
      have hn' : (((pre ++ [e]) ++ y :: ys).map Entry.a).Nodup := by
        have := h.nodup
        simp only [Tree.addrs, hsplit] at this
        simpa using this
      have hfirst : y.a ≠ t.minA hdr := by
        rw [Tree.minA_eq_head]
        simp only [Tree.addrs, hsplit]
        intro h'
        have hd2 := h.nodup
        simp only [Tree.addrs, hsplit, List.map_append, List.map_cons] at hd2
        rw [List.nodup_append] at hd2
        obtain ⟨_, h2, h3⟩ := hd2
        cases pre with
        | nil =>
          simp only [List.nil_append, List.map_cons, List.head?_cons, Option.getD_some] at h'
          simp only [List.nodup_cons, List.mem_cons] at h2
          exact h2.1 (Or.inl h'.symm)
        | cons z zs =>
          simp only [List.cons_append, List.map_cons, List.head?_cons, Option.getD_some] at h'
          exact h3 (a := z.a) (by simp) (by rw [← h']; simp)
      rw [dec_eq h.rep h.nodup hya hfirst fuel (by omega)]
      have := predL_mid hn' hdr
      simp only [Tree.addrs, hsplit]
      simp only [List.append_assoc, List.singleton_append] at this
      rw [this]
      simp
  · rw [is_iterator_iff h fuel hf] at hx
    rw [hb] at hne
    have hne' : x ≠ t.minA hdr := fun h' => hne (by rw [h'])
    rcases hx with rfl | hx
    · have htne : t ≠ .nil := fun h' => hne' ((minA_eq_hdr_iff hhd).2 h').symm
      refine ⟨_, dec_hdr h.hd h.rep hhd fuel (by omega), ?_⟩
      rw [inc_eq h.hd h.rep h.nodup hhd (Tree.maxA_mem_of_ne_nil htne hdr) fuel (by omega),
        Tree.succL_maxA h.nodup]
    · obtain ⟨e, he, rfl⟩ := mem_addrs.1 hx
      obtain ⟨pre, rest, hsplit, _, _, _, _, hpred, hmin⟩ := split_at h.sorted h.nodup he
      refine ⟨_, dec_eq h.rep h.nodup hx hne' fuel (by omega), ?_⟩
      rw [hpred]
      rcases List.eq_nil_or_concat pre with hp | ⟨ys, y, hp⟩
      · exact absurd ((hmin hdr).2 hp).symm hne'
      · rw [List.concat_eq_append] at hp
        subst hp
        have hl : (ys ++ [y]).getLast? = some y := by simp
        rw [hl]
        simp only [Option.map_some', Option.getD_some]
        have hy : y ∈ t.toList := by rw [hsplit]; simp
        have hya : y.a ∈ t.addrs := List.mem_map_of_mem Entry.a hy
        rw [inc_eq h.hd h.rep h.nodup hhd hya fuel (by omega)]
        have hn' : ((ys ++ y :: (e :: rest)).map Entry.a).Nodup := by
          have := h.nodup
          simp only [Tree.addrs, hsplit] at this
          simpa using this
        have := succL_mid hn' hdr
        simp only [Tree.addrs, hsplit, List.append_assoc, List.singleton_append]
        rw [this]
        simp

/-! ### The records kept by an insertion -/

namespace Tree

/-- Hanging a leaf with a new key leaves the other elements where they were in order. -/
theorem filter_attach {x : Entry} {t : Tree} (hk : x.k ∉ t.keys) :
    (t.attach x).toList.filter (fun e => decide (e.k ≠ x.k)) = t.toList := by
  induction t with
  | nil => simp [attach, toList]
  | node l e r ihl ihr =>
    simp only [keys_node, List.mem_append, List.mem_cons, not_or] at hk
    obtain ⟨hl, he, hr⟩ := hk
    have hself : ∀ u : Tree, x.k ∉ u.keys →
        u.toList.filter (fun e => decide (e.k ≠ x.k)) = u.toList := by
      intro u hu
      rw [List.filter_eq_self]
      intro y hy
      simp only [ne_eq, decide_not, Bool.not_eq_true', decide_eq_false_iff_not]
      intro h'
      exact hu (by rw [← h']; exact List.mem_map_of_mem Entry.k hy)
    have he' : decide (e.k ≠ x.k) = true := by
      simp only [ne_eq, decide_not, Bool.not_eq_true', decide_eq_false_iff_not]
      exact fun h' => he h'.symm
    simp only [attach]
    split
    · simp only [toList, List.filter_append, List.filter_cons, he', if_true, ihl hl, hself r hr]
    · simp only [toList, List.filter_append, List.filter_cons, he', if_true, ihr hr, hself l hl]

end Tree

/-! ### Size, emptiness and iteration (C11 to C16) -/

/-- C11: in every state reachable from construction through the public operations
(`insert`, hinted `insert`, `erase` of an iterator, `erase` of a key, `operator[]`, writes
of mapped values), the counter returned by `size()` is the number of nodes reachable from
the root through `left` and `right` links, and it is the number of `++` steps that lead
from `begin()` to `end()`. -/
theorem size_counts_nodes_and_steps (s : treap) (fuel : Nat) (hs : Reachable s)
    (hf : size s + 2 ≤ fuel) :
    ∃ rt b, root s = some rt ∧ count_nodes s.mem fuel rt = some (size s) ∧
      begin_ s = some b ∧ distance s.mem fuel fuel b end_ = some (size s) := by
  obtain ⟨t, h⟩ := reachable_wf hs
  have hsz : size s = t.size := h.sz
  have hht := Tree.height_le_size t
  rw [hsz] at hf ⊢
  exact ⟨t.ptr, t.minA hdr, root_eq h, count_nodes_eq h.rep fuel (by omega),
    by simp only [begin_, h.hd, HdrOf], distance_begin_end h fuel hf⟩

/-- Witness of C11: the container {1, 3, 5, 7, 9} built by five insertions. -/
theorem size_counts_nodes_and_steps_witness :
    Reachable ex_state ∧ size ex_state + 2 ≤ 7 ∧
    ∃ rt b, root ex_state = some rt ∧ count_nodes ex_state.mem 7 rt = some (size ex_state) ∧
      begin_ ex_state = some b ∧ distance ex_state.mem 7 7 b end_ = some (size ex_state) :=
  ⟨ex_reachable, by decide, size_counts_nodes_and_steps ex_state 7 ex_reachable (by decide)⟩

/-- C12: a newly constructed container has `empty() == true`, `size() == 0` and
`begin() == end()`; and in every state reachable through the public operations, `empty()`,
which is the test `begin() == end()`, holds if and only if `size() == 0`. -/
theorem empty_iff_size_zero (s : treap) (hs : Reachable s) :
    (empty treap.new = some true ∧ size treap.new = 0 ∧ begin_ treap.new = some end_) ∧
    ∃ b, begin_ s = some b ∧ empty s = some (decide (b = end_)) ∧
      (b = end_ ↔ size s = 0) := by
  refine ⟨⟨rfl, rfl, rfl⟩, ?_⟩
  obtain ⟨t, h⟩ := reachable_wf hs
  refine ⟨t.minA hdr, by simp only [begin_, h.hd, HdrOf], ?_, ?_⟩
  · simp only [empty, h.hd, HdrOf, end_, Option.some.injEq]
  · rw [end_, minA_eq_hdr_iff (hdr_not_mem h), size, h.sz, size_eq_zero_iff]

/-- Witness of C12: the container {1, 3, 5, 7, 9} built by five insertions. -/
theorem empty_iff_size_zero_witness :
    Reachable ex_state ∧
    ((empty treap.new = some true ∧ size treap.new = 0 ∧ begin_ treap.new = some end_) ∧
    ∃ b, begin_ ex_state = some b ∧ empty ex_state = some (decide (b = end_)) ∧
      (b = end_ ↔ size ex_state = 0)) :=
  ⟨ex_reachable, empty_iff_size_zero ex_state ex_reachable⟩

/-- C13: for every finite list of values with distinct keys, whatever priorities are
drawn, and every permutation of the keys, inserting all the values into an empty
container (which then holds as many elements as there are values) and erasing every key
in the order of the permutation returns the container to the empty state:
`empty() == true`, `begin() == end()`, `size() == 0`, and the header is as constructed,
with a null root slot and minimum and maximum slots that point at the header. -/
theorem insert_all_then_erase_all_is_empty (vals : List (Int × Int × Nat)) (ks : List Int)
    (fuel : Nat) (hd : (vals.map fun v => v.1).Nodup) (hp : ks.Perm (vals.map fun v => v.1))
    (hf : vals.length + 2 ≤ fuel) :
    ∃ s1 s2, insert_all fuel treap.new vals = some s1 ∧ size s1 = vals.length ∧
      erase_all fuel s1 ks = some s2 ∧ empty s2 = some true ∧ begin_ s2 = some end_ ∧
      size s2 = 0 ∧ s2.mem hdr = some ⟨0, 0, some hdr, some hdr, none, UINT32_MAX⟩ := by
  obtain ⟨s1, t1, h1, hinv1, hsz1, hkeys1⟩ :=
    insert_all_inv vals fuel treap.new .nil inv_new (by simp only [Tree.size]; omega)
  simp only [Tree.size, zero_add] at hsz1
  obtain ⟨s2, t2, h2, hinv2, hsz2, hkeys2⟩ := erase_all_inv ks fuel s1 t1 hinv1 (by omega)
  have hk1 : ∀ k, k ∈ t1.keys ↔ k ∈ vals.map fun v => v.1 := by
    intro k
    rw [hkeys1]
    simp [Tree.keys, Tree.toList]
  have hnil : t2 = .nil := by
    rw [← size_eq_zero_iff, ← Tree.length_toList, List.length_eq_zero,
      List.eq_nil_iff_forall_not_mem]
    intro e he
    have hk : e.k ∈ t2.keys := List.mem_map_of_mem Entry.k he
    rw [hkeys2, hk1] at hk
    exact hk.2 (hp.mem_iff.2 hk.1)
  subst hnil
  have hlen : size s1 = vals.length := by
    have hperm : t1.keys.Perm (vals.map fun v => v.1) :=
      (List.perm_ext_iff_of_nodup (hinv1.sorted.imp (fun h => ne_of_lt h)) hd).2 hk1
    have := hperm.length_eq
    simp only [Tree.keys, List.length_map, Tree.length_toList] at this
    rw [size, hinv1.sz, this]
  refine ⟨s1, s2, h1, hlen, h2, ?_, ?_, ?_, ?_⟩
  · simp only [empty, hinv2.hd, HdrOf, Tree.minA]
    rfl
  · simp only [begin_, hinv2.hd, HdrOf, Tree.minA, end_]
  · rw [size, hinv2.sz]; rfl
  · rw [hinv2.hd]; rfl

/-- Witness of C13: the keys 3, 1, 2 are inserted and then erased in the order 2, 3, 1. -/
theorem insert_all_then_erase_all_is_empty_witness :
    ([((3 : Int), (0 : Int), 7), (1, 0, 9), (2, 0, 4)].map fun v => v.1).Nodup ∧
    [(2 : Int), 3, 1].Perm ([((3 : Int), (0 : Int), 7), (1, 0, 9), (2, 0, 4)].map fun v => v.1) ∧
    [((3 : Int), (0 : Int), 7), (1, 0, 9), (2, 0, 4)].length + 2 ≤ 5 ∧
    ∃ s1 s2, insert_all 5 treap.new [(3, 0, 7), (1, 0, 9), (2, 0, 4)] = some s1 ∧
      size s1 = [((3 : Int), (0 : Int), 7), (1, 0, 9), (2, 0, 4)].length ∧
      erase_all 5 s1 [2, 3, 1] = some s2 ∧ empty s2 = some true ∧ begin_ s2 = some end_ ∧
      size s2 = 0 ∧ s2.mem hdr = some ⟨0, 0, some hdr, some hdr, none, UINT32_MAX⟩ :=
  ⟨by decide, by decide, by decide,
    insert_all_then_erase_all_is_empty [(3, 0, 7), (1, 0, 9), (2, 0, 4)] [2, 3, 1] 5
      (by decide) (by decide) (by decide)⟩

/-- C14: in a well-formed container, for every iterator `it` at an element, `++it` is
`end()` exactly when `it` holds the largest key, and otherwise it is the node with the
smallest key greater than the key of `it` (the in-order successor); this covers the
largest node being the root as well as lying deeper. -/
theorem increment_is_successor (s : treap) (t : Tree) (e : Entry) (fuel : Nat) (h : Inv s t)
    (he : e ∈ t.toList) (hf : t.size + 2 ≤ fuel) :
    ∃ nx, inc s.mem fuel e.a = some nx ∧
      (nx = end_ ↔ ∀ e' ∈ t.toList, e'.k ≤ e.k) ∧
      (nx ≠ end_ → ∃ e' ∈ t.toList, e'.a = nx ∧ e.k < e'.k ∧
        ∀ e'' ∈ t.toList, e.k < e''.k → e'.k ≤ e''.k) := by
  have hht := Tree.height_le_size t
  have hhd := hdr_not_mem h
  have hea : e.a ∈ t.addrs := List.mem_map_of_mem Entry.a he
  refine ⟨_, inc_eq h.hd h.rep h.nodup hhd hea fuel (by omega), ?_⟩
  rcases succ_char h.sorted h.nodup he hdr with ⟨h1, h2⟩ | ⟨e', he', h1, h2, h3⟩
  · rw [h1]
    exact ⟨⟨fun _ => h2, fun _ => rfl⟩, fun h' => absurd rfl h'⟩
  · have hne : e'.a ≠ hdr := fun h' => hhd (h' ▸ List.mem_map_of_mem Entry.a he')
    rw [h1]
    refine ⟨⟨fun h' => absurd h' hne, fun h' => ?_⟩, fun _ => ⟨e', he', rfl, h2, h3⟩⟩
    have := h' e' he'
    omega

/-- Witness of C14: the element 9 of the container {1, 3, 5, 7, 9}, the largest key, in a
node that is not the root. -/
theorem increment_is_successor_witness :
    Inv ex_state ex_tree ∧ (⟨5, 9, 0, 20⟩ : Entry) ∈ ex_tree.toList ∧ ex_tree.size + 2 ≤ 7 ∧
    ∃ nx, inc ex_state.mem 7 (⟨5, 9, 0, 20⟩ : Entry).a = some nx ∧
      (nx = end_ ↔ ∀ e' ∈ ex_tree.toList, e'.k ≤ (⟨5, 9, 0, 20⟩ : Entry).k) ∧
      (nx ≠ end_ → ∃ e' ∈ ex_tree.toList, e'.a = nx ∧ (⟨5, 9, 0, 20⟩ : Entry).k < e'.k ∧
        ∀ e'' ∈ ex_tree.toList, (⟨5, 9, 0, 20⟩ : Entry).k < e''.k → e'.k ≤ e''.k) :=
  ⟨ex_inv, by decide, by decide,
    increment_is_successor ex_state ex_tree ⟨5, 9, 0, 20⟩ 7 ex_inv (by decide) (by decide)⟩

/-- C15: in a well-formed non-empty container, for every iterator `it` at an element
other than `begin()`, `--it` is the node with the largest key smaller than the key of
`it` (the in-order predecessor); `--end()` is the node with the largest key; and walking
backwards from `end()` to `begin()` visits the positions of the forward walk in reverse,
so the keys come in strictly decreasing order. -/
theorem decrement_is_predecessor (s : treap) (t : Tree) (fuel : Nat) (h : Inv s t)
    (hne : t ≠ .nil) (hf : t.size + 2 ≤ fuel) :
    (∀ e ∈ t.toList, begin_ s ≠ some e.a →
      ∃ e' ∈ t.toList, dec s.mem fuel e.a = some e'.a ∧ e'.k < e.k ∧
        ∀ e'' ∈ t.toList, e''.k < e.k → e''.k ≤ e'.k) ∧
    (∃ e' ∈ t.toList, dec s.mem fuel end_ = some e'.a ∧ ∀ e'' ∈ t.toList, e''.k ≤ e'.k) ∧
    ∃ l, contents_back fuel s = some l ∧ contents fuel s = some l.reverse ∧
      (l.map fun r => r.2.1) = t.keys.reverse ∧
      (l.map fun r => r.2.1).Pairwise (fun a b => b < a) := by
  have hht := Tree.height_le_size t
  have hhd := hdr_not_mem h
  have hb : begin_ s = some (t.minA hdr) := by simp only [begin_, h.hd, HdrOf]
  refine ⟨fun e he hbe => ?_, ?_, ?_⟩
  · have hea : e.a ∈ t.addrs := List.mem_map_of_mem Entry.a he
    rw [hb] at hbe
    have hfirst : e.a ≠ t.minA hdr := fun h' => hbe (by rw [h'])
    rw [dec_eq h.rep h.nodup hea hfirst fuel (by omega)]
    rcases pred_char h.sorted h.nodup he hdr with ⟨_, hmin, _⟩ | ⟨e', he', hpred, _, hlt, hall⟩
    · exact absurd hmin.symm hfirst
    · exact ⟨e', he', by rw [hpred], hlt, hall⟩
  · rw [end_, dec_hdr h.hd h.rep hhd fuel (by omega)]
    rcases max_char t h.sorted hdr with ⟨hnil, _⟩ | ⟨e, he, hmax, hall⟩
    · exact absurd hnil hne
    · exact ⟨e, he, by rw [hmax], hall⟩
  · refine ⟨_, contents_back_eq h fuel hf, ?_, ?_, ?_⟩
    · rw [contents_eq h fuel hf, ← List.map_reverse, List.reverse_reverse]
    · simp only [List.map_map, Tree.keys, List.map_reverse]
      rfl
    · have : (List.map (fun r : Nat × Int × Int => r.2.1)
          (List.map (fun e : Entry => (e.a, e.k, e.v)) t.toList.reverse)) = t.keys.reverse := by
        simp only [List.map_map, Tree.keys, List.map_reverse]
        rfl
      rw [this, List.pairwise_reverse]
      exact h.sorted

/-- Witness of C15: the container {1, 3, 5, 7, 9}, whose minimum node is not the root. -/
theorem decrement_is_predecessor_witness :
    Inv ex_state ex_tree ∧ ex_tree ≠ .nil ∧ ex_tree.size + 2 ≤ 7 ∧
    ((∀ e ∈ ex_tree.toList, begin_ ex_state ≠ some e.a →
      ∃ e' ∈ ex_tree.toList, dec ex_state.mem 7 e.a = some e'.a ∧ e'.k < e.k ∧
        ∀ e'' ∈ ex_tree.toList, e''.k < e.k → e''.k ≤ e'.k) ∧
    (∃ e' ∈ ex_tree.toList, dec ex_state.mem 7 end_ = some e'.a ∧
      ∀ e'' ∈ ex_tree.toList, e''.k ≤ e'.k) ∧
    ∃ l, contents_back 7 ex_state = some l ∧ contents 7 ex_state = some l.reverse ∧
      (l.map fun r => r.2.1) = ex_tree.keys.reverse ∧
      (l.map fun r => r.2.1).Pairwise (fun a b => b < a)) :=
  ⟨ex_inv, by decide, by decide,
    decrement_is_predecessor ex_state ex_tree 7 ex_inv (by decide) (by decide)⟩

/-- C16: in a well-formed container increment and decrement are mutually inverse on
valid positions: `prev(next(it)) == it` for every iterator `it != end()`, also when
`next(it)` is `end()`, and `next(prev(it)) == it` for every iterator `it != begin()`.
The same holds in the state after any `insert(value)` or `erase(key)`, and in the state
after `erase` of any iterator at an element. -/
theorem increment_decrement_inverse (s : treap) (t : Tree) (fuel : Nat) (h : Inv s t)
    (hf : t.size + 3 ≤ fuel) :
    round_trip fuel s ∧
    (∀ op, ∃ s', apply fuel s op = some s' ∧ round_trip fuel s') ∧
    (∀ pos, is_element fuel s pos = true →
      ∃ r, erase_it fuel s pos = some r ∧ round_trip fuel r.1) := by
  refine ⟨round_trip_of_inv h fuel (by omega), fun op => ?_, fun pos hpos => ?_⟩
  · obtain ⟨s', t', hs', hinv', hsz', _⟩ :=
      apply_inv h op fuel (by omega) t.keys.toFinset (by simp)
    exact ⟨s', hs', round_trip_of_inv hinv' fuel (by omega)⟩
  · have hx := (is_element_iff h fuel (by omega) pos).1 hpos
    obtain ⟨s', hs', hinv', _, _⟩ := erase__spec h hx fuel (by omega)
    have hsz := Tree.size_delT h.nodup hx
    exact ⟨_, hs', round_trip_of_inv hinv' fuel (by omega)⟩

/-- Witness of C16: the container {1, 3, 5, 7, 9}. -/
theorem increment_decrement_inverse_witness :
    Inv ex_state ex_tree ∧ ex_tree.size + 3 ≤ 8 ∧
    (round_trip 8 ex_state ∧
    (∀ op, ∃ s', apply 8 ex_state op = some s' ∧ round_trip 8 s') ∧
    (∀ pos, is_element 8 ex_state pos = true →
      ∃ r, erase_it 8 ex_state pos = some r ∧ round_trip 8 r.1)) :=
  ⟨ex_inv, by decide, increment_decrement_inverse ex_state ex_tree 8 ex_inv (by decide)⟩

/-! ### Hinted insertion and the map operations (C17 to C20) -/

/-- C17: in every reachable state, for every iterator `pos` of the container (`begin()`,
`end()` or any element, a correct hint or not), every value and the same drawn priority,
the hinted `insert(pos, value)` returns, leaves the container in exactly the state that
`insert(value)` leaves, and returns the iterator `insert(value).first`. -/
theorem hinted_insert_equals_insert (s : treap) (pos : Nat) (key val : Int) (pri fuel : Nat)
    (hs : Reachable s) (hpos : is_iterator fuel s pos = true) (hf : size s + 2 ≤ fuel) :
    ∃ s' it ok, insert lt fuel s key val pri = some (s', it, ok) ∧
      insert_hint lt fuel s pos key val pri = some (s', it) := by
  obtain ⟨t, h⟩ := reachable_wf hs
  have hf' : t.size + 2 ≤ fuel := by rw [← h.sz]; exact hf
  have hht := Tree.height_le_size t
  have heq := insert_hint_eq h ((is_iterator_iff h fuel hf' pos).1 hpos) key val pri fuel
    (by omega)
  by_cases hk : key ∈ t.keys
  · obtain ⟨e, he, rfl⟩ := mem_keys.1 hk
    have hi := insert_of_mem h he val pri fuel (by omega)
    exact ⟨s, e.a, false, hi, by rw [heq, hi]; rfl⟩
  · obtain ⟨s', hs', _, _⟩ := insert_of_not_mem h key val pri hk fuel (by omega)
    exact ⟨s', s.brk, true, hs', by rw [heq, hs']; rfl⟩

/-- Witness of C17: the key 4 inserted into {1, 3, 5, 7, 9} with the wrong hint 9. -/
theorem hinted_insert_equals_insert_witness :
    Reachable ex_state ∧ is_iterator 7 ex_state 5 = true ∧ size ex_state + 2 ≤ 7 ∧
    ∃ s' it ok, insert lt 7 ex_state 4 11 25 = some (s', it, ok) ∧
      insert_hint lt 7 ex_state 5 4 11 25 = some (s', it) :=
  ⟨ex_reachable, by decide, by decide,
    hinted_insert_equals_insert ex_state 5 4 11 25 7 ex_reachable (by decide) (by decide)⟩

/-- C18: in a well-formed map, for every key that is present, `operator[]` returns the
reference `it->second` of the node `it` that `find` returns for the key, which reads the
mapped value stored with the key, and the state after the call is the state before it:
no node is created, `size()` and the tree are unchanged. -/
theorem subscript_present_key (s : treap) (t : Tree) (key : Int) (pri fuel : Nat)
    (h : Inv s t) (hk : key ∈ t.keys) (hf : t.size + 2 ≤ fuel) :
    ∃ e ∈ t.toList, e.k = key ∧ subscript lt fuel s key pri = some (s, e.a) ∧
      find lt fuel s key = some e.a ∧ e.a ≠ end_ ∧ get_second s e.a = some e.v := by
  have hht := Tree.height_le_size t
  obtain ⟨e, he, rfl⟩ := mem_keys.1 hk
  obtain ⟨n, hn, _, hnv, _⟩ := h.rep.get he
  refine ⟨e, he, rfl, subscript_of_mem h he pri fuel (by omega),
    find_of_mem h he fuel (by omega), ?_, by simp [get_second, hn, hnv]⟩
  intro h'
  have hm : e.a ∈ t.addrs := List.mem_map_of_mem Entry.a he
  rw [h'] at hm
  exact hdr_not_mem h hm

/-- Witness of C18: the present key 5 of the container {1, 3, 5, 7, 9}. -/
theorem subscript_present_key_witness :
    Inv ex_state ex_tree ∧ (5 : Int) ∈ ex_tree.keys ∧ ex_tree.size + 2 ≤ 7 ∧
    ∃ e ∈ ex_tree.toList, e.k = 5 ∧ subscript lt 7 ex_state 5 33 = some (ex_state, e.a) ∧
      find lt 7 ex_state 5 = some e.a ∧ e.a ≠ end_ ∧ get_second ex_state e.a = some e.v :=
  ⟨ex_inv, by decide, by decide,
    subscript_present_key ex_state ex_tree 5 33 7 ex_inv (by decide) (by decide)⟩

/-- C19: in a well-formed map, for every key that is absent, `operator[]` makes one
insertion, that of the key with the value-initialised mapped value 0, whose flag `ok` is
`true`; afterwards `find` of the key returns the new node, which is the node of the
returned reference and reads 0, `size()` has grown by one, and the positions met from
`begin()` to `end()` other than the new one are those met before, with the same keys and
mapped values; and `m[k] = v` makes `find(k)->second` read `v`. -/
theorem subscript_absent_key (s : treap) (t : Tree) (key v : Int) (pri fuel : Nat)
    (h : Inv s t) (hk : key ∉ t.keys) (hf : t.size + 3 ≤ fuel) :
    ∃ s' it, subscript lt fuel s key pri = some (s', it) ∧
      insert lt fuel s key 0 pri = some (s', it, true) ∧
      find lt fuel s' key = some it ∧ it ≠ end_ ∧ get_second s' it = some 0 ∧
      size s' = size s + 1 ∧
      (∃ l l', contents fuel s = some l ∧ contents fuel s' = some l' ∧
        l'.filter (fun r => decide (r.2.1 ≠ key)) = l ∧ (it, key, 0) ∈ l') ∧
      ∃ s'', assign_subscript lt fuel s key v pri = some s'' ∧
        find lt fuel s'' key = some it ∧ get_second s'' it = some v ∧ size s'' = size s + 1 := by
  have hht := Tree.height_le_size t
  obtain ⟨s', hsub, hins, hinv, hsz⟩ := subscript_of_not_mem h key pri hk fuel (by omega)
  obtain ⟨x, hx⟩ : ∃ x : Entry, x = ⟨s.brk, key, 0, pri % 4294967296⟩ := ⟨_, rfl⟩
  rw [← hx] at hinv
  have hxa : x.a = s.brk := by rw [hx]
  have hxk : x.k = key := by rw [hx]
  have hxv : x.v = 0 := by rw [hx]
  have hsize : (t.insT x).size = t.size + 1 := Tree.size_insT x t
  have hht' := Tree.height_le_size (t.insT x)
  have hxm : x ∈ (t.insT x).toList := by
    rw [Tree.toList_insT, Tree.mem_attach]; exact Or.inl rfl
  have hxaddr : x.a ∈ (t.insT x).addrs := List.mem_map_of_mem Entry.a hxm
  obtain ⟨n, hn, _, hnv, _⟩ := hinv.rep.get hxm
  have hbrk : s.brk ≠ end_ := by
    intro e
    have := h.brk_pos
    rw [e] at this
    exact absurd this (by decide)
  refine ⟨s', s.brk, hsub, hins, ?_, hbrk, ?_, hsz, ?_, ?_⟩
  · have := find_of_mem hinv hxm fuel (by omega)
    rwa [hxk, hxa] at this
  · rw [← hxa]
    simp [get_second, hn, hnv, hxv]
  · refine ⟨_, _, contents_eq h fuel (by omega), contents_eq hinv fuel (by omega), ?_, ?_⟩
    · rw [List.filter_map, Tree.toList_insT]
      have := Tree.filter_attach (x := x) (t := t) (by rw [hxk]; exact hk)
      rw [← hxk]
      exact congrArg _ this
    · rw [List.mem_map]
      exact ⟨x, hxm, by rw [hxa, hxk, hxv]⟩
  · obtain ⟨s'', n', hs'', hinv'', hsz'', _, _, _, hmem''⟩ := set_second_inv hinv hxaddr v
    rw [hxa] at hs'' hmem''
    have hxm' : ({ x with v := v } : Entry) ∈ ((t.insT x).setV x.a v).toList := by
      rw [Tree.toList_setV, List.mem_map]
      exact ⟨x, hxm, by simp⟩
    have hfind := find_of_mem hinv'' hxm' fuel (by
      rw [Tree.height_setV]; omega)
    simp only [hxk, hxa] at hfind
    refine ⟨s'', ?_, hfind, ?_, ?_⟩
    · simp only [assign_subscript, hsub, hs'']
    · simp [get_second, hmem'']
    · rw [size, hsz'', hsz]; rfl

/-- Witness of C19: the absent key 4 of the container {1, 3, 5, 7, 9}, and `m[4] = 123`. -/
theorem subscript_absent_key_witness :
    Inv ex_state ex_tree ∧ (4 : Int) ∉ ex_tree.keys ∧ ex_tree.size + 3 ≤ 8 ∧
    ∃ s' it, subscript lt 8 ex_state 4 33 = some (s', it) ∧
      insert lt 8 ex_state 4 0 33 = some (s', it, true) ∧
      find lt 8 s' 4 = some it ∧ it ≠ end_ ∧ get_second s' it = some 0 ∧
      size s' = size ex_state + 1 ∧
      (∃ l l', contents 8 ex_state = some l ∧ contents 8 s' = some l' ∧
        l'.filter (fun r => decide (r.2.1 ≠ 4)) = l ∧ (it, 4, 0) ∈ l') ∧
      ∃ s'', assign_subscript lt 8 ex_state 4 123 33 = some s'' ∧
        find lt 8 s'' 4 = some it ∧ get_second s'' it = some 123 ∧
        size s'' = size ex_state + 1 :=
  ⟨ex_inv, by decide, by decide,
    subscript_absent_key ex_state ex_tree 4 123 33 8 ex_inv (by decide) (by decide)⟩

/-- C20: in a well-formed map, for every present key and every new mapped value `v`, the
write `it->second = v` through the iterator that `find` returns for the key and the
statement `m[k] = v` lead to the same state, in which the node of the key differs from
what it was in its mapped value only and every other node, the header included, is what
it was: keys, links, priorities and `size()` are unchanged, the container is well
formed, `find` of the key returns the same iterator and `find(k)->second` reads `v`. -/
theorem write_changes_only_mapped_value (s : treap) (t : Tree) (e : Entry) (v : Int)
    (pri fuel : Nat) (h : Inv s t) (he : e ∈ t.toList) (hf : t.size + 2 ≤ fuel) :
    ∃ s' n, assign_find lt fuel s e.k v = some s' ∧
      assign_subscript lt fuel s e.k v pri = some s' ∧
      find lt fuel s e.k = some e.a ∧ s.mem e.a = some n ∧
      s'.mem e.a = some { n with val := v } ∧ (∀ a, a ≠ e.a → s'.mem a = s.mem a) ∧
      size s' = size s ∧ WF s' ∧ keys_in_order fuel s' = keys_in_order fuel s ∧
      find lt fuel s' e.k = some e.a ∧ get_second s' e.a = some v := by
  have hht := Tree.height_le_size t
  have hea : e.a ∈ t.addrs := List.mem_map_of_mem Entry.a he
  obtain ⟨s', n, hs', hinv', hsz', _, hothers, hn, hmem'⟩ := set_second_inv h hea v
  have hfind := find_of_mem h he fuel (by omega)
  have hem' : ({ e with v := v } : Entry) ∈ (t.setV e.a v).toList := by
    rw [Tree.toList_setV, List.mem_map]
    exact ⟨e, he, by simp⟩
  have hfind' := find_of_mem hinv' hem' fuel (by rw [Tree.height_setV]; omega)
  refine ⟨s', n, ?_, ?_, hfind, hn, hmem', hothers, hsz', ⟨_, hinv'⟩, ?_, hfind', ?_⟩
  · simp only [assign_find, hfind, hs']
  · simp only [assign_subscript, subscript_of_mem h he pri fuel (by omega), hs']
  · rw [keys_in_order_eq hinv' fuel (by rw [Tree.size_setV]; omega),
      keys_in_order_eq h fuel hf, Tree.keys_setV]
  · simp [get_second, hmem']

/-- Witness of C20: the mapped value of the key 7 of {1, 3, 5, 7, 9} is set to 42. -/
theorem write_changes_only_mapped_value_witness :
    Inv ex_state ex_tree ∧ (⟨4, 7, 0, 40⟩ : Entry) ∈ ex_tree.toList ∧ ex_tree.size + 2 ≤ 7 ∧
    ∃ s' n, assign_find lt 7 ex_state (⟨4, 7, 0, 40⟩ : Entry).k 42 = some s' ∧
      assign_subscript lt 7 ex_state (⟨4, 7, 0, 40⟩ : Entry).k 42 33 = some s' ∧
      find lt 7 ex_state (⟨4, 7, 0, 40⟩ : Entry).k = some (⟨4, 7, 0, 40⟩ : Entry).a ∧
      ex_state.mem (⟨4, 7, 0, 40⟩ : Entry).a = some n ∧
      s'.mem (⟨4, 7, 0, 40⟩ : Entry).a = some { n with val := 42 } ∧
      (∀ a, a ≠ (⟨4, 7, 0, 40⟩ : Entry).a → s'.mem a = ex_state.mem a) ∧
      size s' = size ex_state ∧ WF s' ∧ keys_in_order 7 s' = keys_in_order 7 ex_state ∧
      find lt 7 s' (⟨4, 7, 0, 40⟩ : Entry).k = some (⟨4, 7, 0, 40⟩ : Entry).a ∧
      get_second s' (⟨4, 7, 0, 40⟩ : Entry).a = some 42 :=
  ⟨ex_inv, by decide, by decide,
    write_changes_only_mapped_value ex_state ex_tree ⟨4, 7, 0, 40⟩ 42 33 7 ex_inv (by decide)
      (by decide)⟩

/-! ### BST order and heap order of the tree -/

namespace Tree

/-- BST order of the tree is the strict increase of its in-order key sequence. -/
theorem bst_order_iff (t : Tree) : t.bst_order ↔ t.keys.Pairwise (· < ·) := by
  induction t with
  | nil => simp [bst_order, keys, toList]
  | node l e r ihl ihr =>
    constructor
    · rintro ⟨h1, h2, h3, h4⟩
      rw [keys_node, List.pairwise_append, List.pairwise_cons]
      refine ⟨ihl.1 h3, ⟨fun b hb => ?_, ihr.1 h4⟩, fun a ha b hb => ?_⟩
      · obtain ⟨y, hy, rfl⟩ := List.mem_map.1 hb
        exact h2 y hy
      · obtain ⟨y, hy, rfl⟩ := List.mem_map.1 ha
        rcases List.mem_cons.1 hb with rfl | hb
        · exact h1 y hy
        · obtain ⟨z, hz, rfl⟩ := List.mem_map.1 hb
          exact lt_trans (h1 y hy) (h2 z hz)
    · intro h
      obtain ⟨hl, hr, h1, h2⟩ := sorted_node h
      exact ⟨h1, h2, ihl.2 hl, ihr.2 hr⟩

/-- In heap order no priority of the subtree exceeds the priority at its root. -/
theorem heap_le_root {t : Tree} (h : t.heap_order) : ∀ y ∈ t.toList, y.p ≤ t.rootP := by
  induction t with
  | nil => intro y hy; simp [toList] at hy
  | node l e r ihl ihr =>
    obtain ⟨h1, h2, h3, h4⟩ := h
    intro y hy
    simp only [toList, List.mem_append, List.mem_cons] at hy
    simp only [rootP]
    rcases hy with hy | rfl | hy
    · exact le_trans (ihl h3 y hy) h1
    · exact le_refl _
    · exact le_trans (ihr h4 y hy) h2

theorem rootP_le {t : Tree} {b : Nat} (h : ∀ y ∈ t.toList, y.p ≤ b) : t.rootP ≤ b := by
  cases t with
  | nil => exact Nat.zero_le _
  | node l e r => exact h e (by simp [toList])

/-- Heap order at a node, stated for all the elements below it. -/
theorem heap_node {l r : Tree} {e : Entry} :
    (node l e r).heap_order ↔
      (∀ y ∈ l.toList, y.p ≤ e.p) ∧ (∀ y ∈ r.toList, y.p ≤ e.p) ∧
        l.heap_order ∧ r.heap_order := by
  constructor
  · rintro ⟨h1, h2, h3, h4⟩
    exact ⟨fun y hy => le_trans (heap_le_root h3 y hy) h1,
      fun y hy => le_trans (heap_le_root h4 y hy) h2, h3, h4⟩
  · rintro ⟨h1, h2, h3, h4⟩
    exact ⟨rootP_le h1, rootP_le h2, h3, h4⟩

/-- When the new element is at the root of `insT`, its two subtrees hold the old
elements. -/
theorem insT_root_parts {x : Entry} {t a b : Tree} (h : t.insT x = node a x b) :
    (a.toList ++ b.toList).Perm t.toList := by
  have h1 : (t.insT x).toList.Perm (x :: t.toList) := by
    rw [toList_insT]; exact toList_attach_perm x t
  rw [h] at h1
  simp only [toList] at h1
  exact (List.perm_middle.symm.trans h1).cons_inv

/-- Treap insertion keeps heap order. -/
theorem heap_insT {x : Entry} {t : Tree} (h : t.heap_order) (hx : x.a ∉ t.addrs) :
    (t.insT x).heap_order := by
  induction t with
  | nil => exact ⟨Nat.zero_le _, Nat.zero_le _, trivial, trivial⟩
  | node l e r ihl ihr =>
    have hxe : e.a ≠ x.a := fun h => hx (by simp [addrs_node, h])
    have hxl : x.a ∉ l.addrs := fun h => hx (by simp [addrs_node, h])
    have hxr : x.a ∉ r.addrs := fun h => hx (by simp [addrs_node, h])
    obtain ⟨h1, h2, h3, h4⟩ := heap_node.1 h
    have hl := ihl h3 hxl
    have hr := ihr h4 hxr
    have hxin : ∀ u : Tree, x ∈ (u.insT x).toList := by
      intro u; rw [toList_insT, mem_attach]; exact Or.inl rfl
    have hsub : ∀ u : Tree, ∀ y ∈ (u.insT x).toList, y = x ∨ y ∈ u.toList := by
      intro u y hy; rw [toList_insT, mem_attach] at hy; exact hy
    -- the new element is below a root that stays: its priority is bounded by the root's
    have hbelow : ∀ u : Tree, (u.insT x).heap_order → (u.insT x).ptr ≠ some x.a →
        (∀ y ∈ u.toList, y.p ≤ e.p) → x.p ≤ e.p := by
      intro u hu hp hb
      cases hu' : u.insT x with
      | nil =>
        have := hxin u
        rw [hu'] at this
        simp [toList] at this
      | node a z b =>
        rw [hu'] at hu hp
        have hz : z ∈ (u.insT x).toList := by rw [hu']; simp [toList]
        rcases hsub u z hz with rfl | hz'
        · exact absurd rfl hp
        · have hxz : x ∈ (node a z b).toList := by rw [← hu']; exact hxin u
          exact le_trans (heap_le_root hu x hxz) (hb z hz')
    simp only [insT]
    split
    · split
      · rename_i hc
        obtain ⟨a, b, hab⟩ := insT_root hxl hc.1
        have hperm := insT_root_parts hab
        rw [hab] at hl ⊢
        obtain ⟨g1, g2, g3, g4⟩ := heap_node.1 hl
        simp only [rotR]
        refine heap_node.2 ⟨g1, ?_, g3, heap_node.2 ⟨?_, h2, g4, h4⟩⟩
        · intro y hy
          simp only [toList, List.mem_append, List.mem_cons] at hy
          rcases hy with hy | rfl | hy
          · exact g2 y hy
          · exact le_of_lt hc.2
          · exact le_trans (h2 y hy) (le_of_lt hc.2)
        · intro y hy
          exact h1 y (hperm.mem_iff.1 (List.mem_append_right _ hy))
      · rename_i hc
        refine heap_node.2 ⟨?_, h2, hl, h4⟩
        intro y hy
        rcases hsub l y hy with rfl | hy
        · by_cases hp : (l.insT y).ptr = some y.a
          · have : ¬ e.p < y.p := fun h' => hc ⟨hp, h'⟩
            omega
          · exact hbelow l hl hp h1
        · exact h1 y hy
    · split
      · rename_i hc
        obtain ⟨a, b, hab⟩ := insT_root hxr hc.1
        have hperm := insT_root_parts hab
        rw [hab] at hr ⊢
        obtain ⟨g1, g2, g3, g4⟩ := heap_node.1 hr
        simp only [rotL]
        refine heap_node.2 ⟨?_, g2, heap_node.2 ⟨h1, ?_, h3, g3⟩, g4⟩
        · intro y hy
          simp only [toList, List.mem_append, List.mem_cons] at hy
          rcases hy with hy | rfl | hy
          · exact le_trans (h1 y hy) (le_of_lt hc.2)
          · exact le_of_lt hc.2
          · exact g1 y hy
        · intro y hy
          exact h2 y (hperm.mem_iff.1 (List.mem_append_left _ hy))
      · rename_i hc
        refine heap_node.2 ⟨h1, ?_, h3, hr⟩
        intro y hy
        rcases hsub r y hy with rfl | hy
        · by_cases hp : (r.insT y).ptr = some y.a
          · have : ¬ e.p < y.p := fun h' => hc ⟨hp, h'⟩
            omega
          · exact hbelow r hr hp h2
        · exact h2 y hy

theorem heap_mergeT_aux (n : Nat) :
    ∀ l r : Tree, l.size + r.size ≤ n → l.heap_order → r.heap_order →
      (mergeT l r).heap_order := by
  induction n with
  | zero =>
    intro l r h _ hr
    cases l with
    | nil => rw [mergeT_nil_left]; exact hr
    | node ll a lr => simp [size] at h
  | succ n ih =>
    intro l r h hl hr
    cases l with
    | nil => rw [mergeT_nil_left]; exact hr
    | node ll a lr =>
      cases r with
      | nil => rw [mergeT_nil_right]; exact hl
      | node rl b rr =>
        rw [mergeT_node]
        simp only [size] at h
        obtain ⟨l1, l2, l3, l4⟩ := heap_node.1 hl
        obtain ⟨r1, r2, r3, r4⟩ := heap_node.1 hr
        split
        · rename_i hlt
          refine heap_node.2 ⟨?_, r2, ih _ _ (by simp only [size]; omega) hl r3, r4⟩
          intro y hy
          rw [toList_mergeT, List.mem_append] at hy
          rcases hy with hy | hy
          · exact le_trans (heap_le_root hl y hy) (le_of_lt hlt)
          · exact r1 y hy
        · rename_i hlt
          refine heap_node.2 ⟨l1, ?_, l3, ih _ _ (by simp only [size]; omega) l4 hr⟩
          intro y hy
          rw [toList_mergeT, List.mem_append] at hy
          rcases hy with hy | hy
          · exact l2 y hy
          · exact le_trans (heap_le_root hr y hy) (by simp only [rootP]; omega)

/-- Treap merge keeps heap order. -/
theorem heap_mergeT {l r : Tree} (hl : l.heap_order) (hr : r.heap_order) :
    (mergeT l r).heap_order :=
  heap_mergeT_aux _ l r (le_refl _) hl hr

theorem mem_delT {t : Tree} {x : Nat} (hn : t.addrs.Nodup) {y : Entry}
    (hy : y ∈ (t.delT x).toList) : y ∈ t.toList := by
  rw [toList_delT x hn] at hy
  exact (List.mem_filter.1 hy).1

/-- Removal of a node keeps heap order. -/
theorem heap_delT {t : Tree} (x : Nat) (h : t.heap_order) (hn : t.addrs.Nodup) :
    (t.delT x).heap_order := by
  induction t with
  | nil => trivial
  | node l e r ihl ihr =>
    obtain ⟨hln, hrn, _, _, _⟩ := nodup_node hn
    obtain ⟨h1, h2, h3, h4⟩ := heap_node.1 h
    simp only [delT]
    split
    · exact heap_mergeT h3 h4
    · split
      · exact heap_node.2 ⟨fun y hy => h1 y (mem_delT hln hy), h2, ihl h3 hln, h4⟩
      · exact heap_node.2 ⟨h1, fun y hy => h2 y (mem_delT hrn hy), h3, ihr h4 hrn⟩

end Tree

/-! ### One call of a public operation -/

/-- Every call of a public mutating operation returns and keeps the container well
formed; its tree is the old one, the old one with a new element inserted, or the old one
with a node removed. -/
theorem call_inv {s : treap} {t : Tree} (h : Inv s t) (fuel : Nat) (hf : t.size + 2 ≤ fuel)
    (c : Call) (hc : call_ok fuel s c = true) :
    ∃ s' t', call fuel s c = some s' ∧ Inv s' t' ∧
      (t' = t ∨ (∃ x : Entry, x.a ∉ t.addrs ∧ x.k ∉ t.keys ∧ t' = t.insT x) ∨
        ∃ a ∈ t.addrs, t' = t.delT a) := by
  have hht := Tree.height_le_size t
  have hfresh : s.brk ∉ t.addrs := fun h' => absurd (h.fresh _ h').2 (lt_irrefl _)
  have hins : ∀ key val pri, ∃ s' t', (insert lt fuel s key val pri).map (fun r => r.1) = some s' ∧
      Inv s' t' ∧ (t' = t ∨ (∃ x : Entry, x.a ∉ t.addrs ∧ x.k ∉ t.keys ∧ t' = t.insT x) ∨
        ∃ a ∈ t.addrs, t' = t.delT a) := by
    intro key val pri
    by_cases hk : key ∈ t.keys
    · obtain ⟨e, he, rfl⟩ := mem_keys.1 hk
      exact ⟨s, t, by rw [insert_of_mem h he val pri fuel (by omega)]; rfl, h, Or.inl rfl⟩
    · obtain ⟨s', hs', hinv, _⟩ := insert_of_not_mem h key val pri hk fuel (by omega)
      exact ⟨s', _, by rw [hs']; rfl, hinv, Or.inr (Or.inl ⟨_, hfresh, hk, rfl⟩)⟩
  cases c with
  | insert key val pri => exact hins key val pri
  | insert_hint pos key val pri =>
    obtain ⟨s', t', hs', hr⟩ := hins key val pri
    refine ⟨s', t', ?_, hr⟩
    simp only [call, insert_hint_eq h ((is_iterator_iff h fuel hf pos).1 hc) key val pri fuel
      (by omega), Option.map_map]
    exact hs'
  | erase_it pos =>
    have hx := (is_element_iff h fuel hf pos).1 hc
    obtain ⟨s', hs', hinv, _⟩ := erase__spec h hx fuel hf
    exact ⟨s', _, by simp only [call, erase_it, hs']; rfl, hinv, Or.inr (Or.inr ⟨pos, hx, rfl⟩)⟩
  | erase key =>
    by_cases hk : key ∈ t.keys
    · obtain ⟨e, he, rfl⟩ := mem_keys.1 hk
      obtain ⟨s', hs', hinv, _⟩ := erase_of_mem h he fuel hf
      exact ⟨s', _, by simp only [call, hs']; rfl, hinv,
        Or.inr (Or.inr ⟨e.a, List.mem_map_of_mem Entry.a he, rfl⟩)⟩
    · exact ⟨s, t, by simp only [call, erase_of_not_mem h hk fuel (by omega)]; rfl, h,
        Or.inl rfl⟩
  | subscript key pri =>
    by_cases hk : key ∈ t.keys
    · obtain ⟨e, he, rfl⟩ := mem_keys.1 hk
      exact ⟨s, t, by simp only [call, subscript_of_mem h he pri fuel (by omega)]; rfl, h,
        Or.inl rfl⟩
    · obtain ⟨s', hs', _, hinv, _⟩ := subscript_of_not_mem h key pri hk fuel (by omega)
      exact ⟨s', _, by simp only [call, hs']; rfl, hinv, Or.inr (Or.inl ⟨_, hfresh, hk, rfl⟩)⟩

/-! ### What an erasure destroys -/

/-- The call `destroy_node(n)` deallocates `n`. -/
theorem destroy_node_frees {s s' : treap} {fuel n : Nat}
    (h : destroy_node s fuel n = some s') : s'.mem n = none := by
  cases fuel with
  | zero => simp [destroy_node] at h
  | succ f =>
    simp only [destroy_node] at h
    split at h
    · simp at h
    · split at h
      · simp at h
      · split at h
        · simp at h
        · split at h
          · simp at h
          · simp only [Option.some.injEq] at h
            rw [← h]
            simp [Mem.free]

/-- The worker `erase_` deallocates the node it is given. -/
theorem erase__frees {s s' : treap} {fuel pos nx : Nat} (hp : pos ≠ hdr)
    (h : erase_ fuel s pos = some (s', nx)) : s'.mem pos = none := by
  simp only [erase_] at h
  split at h
  · split at h
    · simp at h
    · split at h
      · simp at h
      · split at h
        · simp at h
        · split at h
          · simp at h
          · split at h
            · simp at h
            · simp only [Option.map_eq_some', Prod.mk.injEq] at h
              obtain ⟨s3, h3, rfl, _⟩ := h
              simp only [assign_and_destroy] at h3
              split at h3
              · simp at h3
              · split at h3
                · simp at h3
                · split at h3
                  · simp at h3
                  · rename_i s4 hd
                    have hfree := destroy_node_frees hd
                    split at h3
                    · simp only [setLeft, setRight, setPar, Option.bind_eq_some,
                        Option.map_eq_some'] at h3
                      obtain ⟨m5, h5, m6, h6, m7, h7, rfl⟩ := h3
                      split at h5
                      · simp at h5
                      · simp only [Option.some.injEq] at h5
                        subst h5
                        split at h6
                        · simp at h6
                        · simp only [Option.some.injEq] at h6
                          subst h6
                          split at h7
                          · simp at h7
                          · simp only [Option.some.injEq] at h7
                            subst h7
                            simp [Mem.set, hp, hfree]
                    · simp only [Option.some.injEq] at h3
                      rw [← h3]; exact hfree
  · simp at h

/-- The example tree is in heap order. -/
theorem ex_heap : ex_tree.heap_order := by
  simp [ex_tree, Tree.heap_order, Tree.rootP]

/-! ### Frame and order invariants (C21, C24, C25, C27) -/

/-- C21: in a well-formed container, for every present key `a` (held by the element `e`)
and every other key `b`: after `insert` of `b`, new or duplicate, and after `erase` of
`b`, `find(a)` returns the same node as before and the key, mapped value and priority
stored in that node are what they were. Moreover `erase` of any element deallocates that
node and no other: every other element keeps its node, key, mapped value and
priority. -/
theorem node_identity_stable (s : treap) (t : Tree) (e : Entry) (b val : Int) (pri fuel : Nat)
    (h : Inv s t) (he : e ∈ t.toList) (hb : b ≠ e.k) (hf : t.size + 3 ≤ fuel) :
    ∃ n0, find lt fuel s e.k = some e.a ∧ s.mem e.a = some n0 ∧
      (∃ s' it ok, insert lt fuel s b val pri = some (s', it, ok) ∧
        find lt fuel s' e.k = some e.a ∧
        ∃ n, s'.mem e.a = some n ∧ n.key = n0.key ∧ n.val = n0.val ∧ n.pri = n0.pri) ∧
      (∃ s' cnt, erase lt fuel s b = some (s', cnt) ∧ find lt fuel s' e.k = some e.a ∧
        ∃ n, s'.mem e.a = some n ∧ n.key = n0.key ∧ n.val = n0.val ∧ n.pri = n0.pri) ∧
      ∀ x, is_element fuel s x = true →
        ∃ s' nx, erase_it fuel s x = some (s', nx) ∧ s'.mem x = none ∧
          ∀ y, is_element fuel s y = true → y ≠ x →
            ∃ n1 n, s.mem y = some n1 ∧ s'.mem y = some n ∧
              n.key = n1.key ∧ n.val = n1.val ∧ n.pri = n1.pri := by
  have hht := Tree.height_le_size t
  have hhd := hdr_not_mem h
  obtain ⟨n0, hn0, hk0, hv0, hp0⟩ := h.rep.get he
  -- what is known of `e` in any later well-formed state that still holds it
  have hlater : ∀ (s' : treap) (t' : Tree), Inv s' t' → e ∈ t'.toList → t'.size ≤ t.size + 1 →
      find lt fuel s' e.k = some e.a ∧
        ∃ n, s'.mem e.a = some n ∧ n.key = n0.key ∧ n.val = n0.val ∧ n.pri = n0.pri := by
    intro s' t' hinv he' hsz
    have hht' := Tree.height_le_size t'
    obtain ⟨n, hn, hk, hv, hp⟩ := hinv.rep.get he'
    exact ⟨find_of_mem hinv he' fuel (by omega), n, hn, by rw [hk, hk0], by rw [hv, hv0],
      by rw [hp, hp0]⟩
  refine ⟨n0, find_of_mem h he fuel (by omega), hn0, ?_, ?_, ?_⟩
  · by_cases hk : b ∈ t.keys
    · obtain ⟨e', he', rfl⟩ := mem_keys.1 hk
      exact ⟨s, e'.a, false, insert_of_mem h he' val pri fuel (by omega),
        hlater s t h he (by omega)⟩
    · obtain ⟨s', hs', hinv, _⟩ := insert_of_not_mem h b val pri hk fuel (by omega)
      refine ⟨s', s.brk, true, hs', hlater s' _ hinv ?_ (by rw [Tree.size_insT])⟩
      rw [Tree.toList_insT, Tree.mem_attach]
      exact Or.inr he
  · by_cases hk : b ∈ t.keys
    · obtain ⟨e', he', rfl⟩ := mem_keys.1 hk
      obtain ⟨s', hs', hinv, _⟩ := erase_of_mem h he' fuel (by omega)
      have hea' : e'.a ∈ t.addrs := List.mem_map_of_mem Entry.a he'
      have hsz := Tree.size_delT h.nodup hea'
      refine ⟨s', 1, hs', hlater s' _ hinv ?_ (by omega)⟩
      rw [Tree.toList_delT _ h.nodup, List.mem_filter]
      refine ⟨he, ?_⟩
      simp only [ne_eq, decide_not, Bool.not_eq_true', decide_eq_false_iff_not]
      intro ha
      exact hb (congrArg Entry.k (List.inj_on_of_nodup_map h.nodup he he' ha)).symm
    · exact ⟨s, 0, erase_of_not_mem h hk fuel (by omega), hlater s t h he (by omega)⟩
  · intro x hx
    rw [is_element_iff h fuel (by omega)] at hx
    obtain ⟨s', hs', hinv, _⟩ := erase__spec h hx fuel (by omega)
    have hxh : x ≠ hdr := fun h' => hhd (h' ▸ hx)
    refine ⟨s', _, hs', erase__frees hxh hs', fun y hy hyx => ?_⟩
    rw [is_element_iff h fuel (by omega)] at hy
    obtain ⟨e1, he1, rfl⟩ := mem_addrs.1 hy
    obtain ⟨n1, hn1, hk1, hv1, hp1⟩ := h.rep.get he1
    have he1' : e1 ∈ (t.delT x).toList := by
      rw [Tree.toList_delT _ h.nodup, List.mem_filter]
      exact ⟨he1, by simpa using hyx⟩
    obtain ⟨n, hn, hk, hv, hp⟩ := hinv.rep.get he1'
    exact ⟨n1, n, hn1, hn, by rw [hk, hk1], by rw [hv, hv1], by rw [hp, hp1]⟩

/-- Witness of C21: the key 5 of the container {1, 3, 5, 7, 9} and the other key 4. -/
theorem node_identity_stable_witness :
    Inv ex_state ex_tree ∧ (⟨3, 5, 0, 50⟩ : Entry) ∈ ex_tree.toList ∧
    (4 : Int) ≠ (⟨3, 5, 0, 50⟩ : Entry).k ∧ ex_tree.size + 3 ≤ 8 ∧
    ∃ n0, find lt 8 ex_state (⟨3, 5, 0, 50⟩ : Entry).k = some (⟨3, 5, 0, 50⟩ : Entry).a ∧
      ex_state.mem (⟨3, 5, 0, 50⟩ : Entry).a = some n0 ∧
      (∃ s' it ok, insert lt 8 ex_state 4 11 25 = some (s', it, ok) ∧
        find lt 8 s' (⟨3, 5, 0, 50⟩ : Entry).k = some (⟨3, 5, 0, 50⟩ : Entry).a ∧
        ∃ n, s'.mem (⟨3, 5, 0, 50⟩ : Entry).a = some n ∧ n.key = n0.key ∧ n.val = n0.val ∧
          n.pri = n0.pri) ∧
      (∃ s' cnt, erase lt 8 ex_state 4 = some (s', cnt) ∧
        find lt 8 s' (⟨3, 5, 0, 50⟩ : Entry).k = some (⟨3, 5, 0, 50⟩ : Entry).a ∧
        ∃ n, s'.mem (⟨3, 5, 0, 50⟩ : Entry).a = some n ∧ n.key = n0.key ∧ n.val = n0.val ∧
          n.pri = n0.pri) ∧
      ∀ x, is_element 8 ex_state x = true →
        ∃ s' nx, erase_it 8 ex_state x = some (s', nx) ∧ s'.mem x = none ∧
          ∀ y, is_element 8 ex_state y = true → y ≠ x →
            ∃ n1 n, ex_state.mem y = some n1 ∧ s'.mem y = some n ∧
              n.key = n1.key ∧ n.val = n1.val ∧ n.pri = n1.pri :=
  ⟨ex_inv, by decide, by decide, by decide,
    node_identity_stable ex_state ex_tree ⟨3, 5, 0, 50⟩ 4 11 25 8 ex_inv (by decide)
      (by decide) (by decide)⟩

/-- C24: BST order is kept by every public mutating operation. A well-formed container
is in BST order (at every node the keys of the left subtree are less than the key of the
node and those of the right subtree greater); after `insert(value)`,
`insert(hint, value)`, `erase(iterator)`, `erase(key)` and `operator[]`, whatever the
priorities, the call has returned and the container is well formed and in BST order
again. -/
theorem bst_order_preserved (s : treap) (t : Tree) (c : Call) (fuel : Nat) (h : Inv s t)
    (hc : call_ok fuel s c = true) (hf : t.size + 2 ≤ fuel) :
    t.bst_order ∧ ∃ s' t', call fuel s c = some s' ∧ Inv s' t' ∧ t'.bst_order := by
  obtain ⟨s', t', hs', hinv, _⟩ := call_inv h fuel hf c hc
  exact ⟨(Tree.bst_order_iff t).2 h.sorted, s', t', hs', hinv,
    (Tree.bst_order_iff t').2 hinv.sorted⟩

/-- Witness of C24: the key 4 inserted into {1, 3, 5, 7, 9} with the hint at 9. -/
theorem bst_order_preserved_witness :
    Inv ex_state ex_tree ∧ call_ok 7 ex_state (.insert_hint 5 4 11 25) = true ∧
    ex_tree.size + 2 ≤ 7 ∧
    (ex_tree.bst_order ∧ ∃ s' t', call 7 ex_state (.insert_hint 5 4 11 25) = some s' ∧
      Inv s' t' ∧ t'.bst_order) :=
  ⟨ex_inv, by decide, by decide,
    bst_order_preserved ex_state ex_tree (.insert_hint 5 4 11 25) 7 ex_inv (by decide)
      (by decide)⟩

/-- C25: heap order is kept by every public mutating operation. If the container is well
formed and the priority of every node is greater than or equal to the priorities of both
its children, then the same holds after `insert`, for any priority drawn for the new
node (one equal to a stored priority included), after `erase` of an iterator or of a
key, and after the hinted `insert` and `operator[]`. -/
theorem heap_order_preserved (s : treap) (t : Tree) (c : Call) (fuel : Nat) (h : Inv s t)
    (hh : t.heap_order) (hc : call_ok fuel s c = true) (hf : t.size + 2 ≤ fuel) :
    ∃ s' t', call fuel s c = some s' ∧ Inv s' t' ∧ t'.heap_order := by
  obtain ⟨s', t', hs', hinv, ht'⟩ := call_inv h fuel hf c hc
  refine ⟨s', t', hs', hinv, ?_⟩
  rcases ht' with rfl | ⟨x, hx, _, rfl⟩ | ⟨a, _, rfl⟩
  · exact hh
  · exact Tree.heap_insT hh hx
  · exact Tree.heap_delT a hh h.nodup

/-- Witness of C25: the key 4 inserted into {1, 3, 5, 7, 9} with the priority 50 that the
root already has. -/
theorem heap_order_preserved_witness :
    Inv ex_state ex_tree ∧ ex_tree.heap_order ∧ call_ok 7 ex_state (.insert 4 11 50) = true ∧
    ex_tree.size + 2 ≤ 7 ∧
    ∃ s' t', call 7 ex_state (.insert 4 11 50) = some s' ∧ Inv s' t' ∧ t'.heap_order :=
  ⟨ex_inv, ex_heap, by decide, by decide,
    heap_order_preserved ex_state ex_tree (.insert 4 11 50) 7 ex_inv ex_heap (by decide)
      (by decide)⟩

/-- C27: the cached extremes of the header are kept by every public mutating operation.
After each call on a well-formed container, either the container is empty and
`header.left` and `header.right` are the header itself, or `header.left` (`begin()`) is a
node with the minimum key and `header.right` a node with the maximum key, neither being
the header; so both are the header exactly when `size()` is 0. -/
theorem cached_extremes_preserved (s : treap) (t : Tree) (c : Call) (fuel : Nat)
    (h : Inv s t) (hc : call_ok fuel s c = true) (hf : t.size + 2 ≤ fuel) :
    ∃ s' t' hd, call fuel s c = some s' ∧ Inv s' t' ∧ s'.mem hdr = some hd ∧
      (hd.left = some hdr ↔ size s' = 0) ∧ (hd.right = some hdr ↔ size s' = 0) ∧
      ((size s' = 0 ∧ t' = .nil ∧ hd.left = some hdr ∧ hd.right = some hdr) ∨
        ∃ lo ∈ t'.toList, ∃ hi ∈ t'.toList, hd.left = some lo.a ∧ hd.right = some hi.a ∧
          lo.a ≠ hdr ∧ hi.a ≠ hdr ∧ ∀ e ∈ t'.toList, lo.k ≤ e.k ∧ e.k ≤ hi.k) := by
  obtain ⟨s', t', hs', hinv, _⟩ := call_inv h fuel hf c hc
  have hhd := hdr_not_mem hinv
  refine ⟨s', t', HdrOf t', hs', hinv, hinv.hd, ?_, ?_, ?_⟩
  · simp only [HdrOf, Option.some.injEq, size, hinv.sz, size_eq_zero_iff]
    exact minA_eq_hdr_iff hhd
  · simp only [HdrOf, Option.some.injEq, size, hinv.sz, size_eq_zero_iff]
    constructor
    · intro h'
      rcases Tree.maxA_mem t' hdr with hm | ⟨hm, _⟩
      · rw [h'] at hm; exact absurd hm hhd
      · exact hm
    · rintro rfl; rfl
  · rcases min_char t' hinv.sorted hdr with ⟨hnil, _⟩ | ⟨lo, hlo, hmin, hlo'⟩
    · left
      subst hnil
      exact ⟨by rw [size, hinv.sz]; rfl, rfl, rfl, rfl⟩
    · right
      rcases max_char t' hinv.sorted hdr with ⟨hnil, _⟩ | ⟨hi, hhi, hmax, hhi'⟩
      · subst hnil; simp [Tree.toList] at hlo
      · refine ⟨lo, hlo, hi, hhi, by simp only [HdrOf, hmin], by simp only [HdrOf, hmax], ?_, ?_,
          fun e he => ⟨hlo' e he, hhi' e he⟩⟩
        · exact fun h' => hhd (h' ▸ List.mem_map_of_mem Entry.a hlo)
        · exact fun h' => hhd (h' ▸ List.mem_map_of_mem Entry.a hhi)

/-- Witness of C27: the minimum 1 of the container {1, 3, 5, 7, 9} is erased through its
iterator. -/
theorem cached_extremes_preserved_witness :
    Inv ex_state ex_tree ∧ call_ok 7 ex_state (.erase_it 1) = true ∧ ex_tree.size + 2 ≤ 7 ∧
    ∃ s' t' hd, call 7 ex_state (.erase_it 1) = some s' ∧ Inv s' t' ∧ s'.mem hdr = some hd ∧
      (hd.left = some hdr ↔ size s' = 0) ∧ (hd.right = some hdr ↔ size s' = 0) ∧
      ((size s' = 0 ∧ t' = .nil ∧ hd.left = some hdr ∧ hd.right = some hdr) ∨
        ∃ lo ∈ t'.toList, ∃ hi ∈ t'.toList, hd.left = some lo.a ∧ hd.right = some hi.a ∧
          lo.a ≠ hdr ∧ hi.a ≠ hdr ∧ ∀ e ∈ t'.toList, lo.k ≤ e.k ∧ e.k ≤ hi.k) :=
  ⟨ex_inv, by decide, by decide,
    cached_extremes_preserved ex_state ex_tree (.erase_it 1) 7 ex_inv (by decide) (by decide)⟩

/-! ### What a rotation rewrites -/

theorem Slot.put_records (sl : Slot) (n : node) (p : Option Nat) :
    (sl.put n p).key = n.key ∧ (sl.put n p).val = n.val ∧ (sl.put n p).pri = n.pri := by
  cases sl <;> exact ⟨rfl, rfl, rfl⟩

theorem IsSlot.put_par {sl : Slot} {g : Nat} {gn : node} {a : Nat} (h : IsSlot sl g gn a)
    (hg : g ≠ hdr) (p : Option Nat) : (sl.put gn p).par = gn.par := by
  cases sl
  · exact absurd h.1 hg
  · rfl
  · rfl

/-- The rotation `rotate_right` keeps every record and rewrites the `par` field of the
two nodes and of the root of the subtree that changes sides only; the slot of the
grandparent that held the parent is the only other field written. -/
theorem rotate_right_frame {m : Mem} {a b c : Tree} {x e : Entry} {g : Nat} {gn : node}
    {sl : Slot} (hr : Rep m (.node (.node a x b) e c) (some g))
    (hn : (Tree.node (.node a x b) e c).addrs.Nodup)
    (hgn : g ∉ (Tree.node (.node a x b) e c).addrs)
    (hg : m g = some gn) (hs : IsSlot sl g gn e.a) :
    ∃ m', rotate_right m e.a x.a = some m' ∧ same_records m m' ∧
      same_par_except m m' [some hdr, some e.a, some x.a, b.ptr] := by
  obtain ⟨h1, h2, h3⟩ := hr
  obtain ⟨h21, h22, h23⟩ := h2
  obtain ⟨hln, hcn, hel, hec, hlc⟩ := nodup_node hn
  obtain ⟨han, hbn, hxa, hxb, hab⟩ := nodup_node hln
  simp only [Tree.addrs_node, List.mem_append, List.mem_cons, not_or] at hgn hel hlc
  have hgp : g ≠ e.a := fun h => hgn.2.1 h
  have hgc : g ≠ x.a := fun h => hgn.1.2.1 h
  have hpc : e.a ≠ x.a := fun h => hel.2.1 h
  have hcr : ∀ y, b.ptr = some y → y ≠ g ∧ y ≠ e.a ∧ y ≠ x.a ∧ ∃ yn, m y = some yn := by
    intro y hy
    have hyb := Tree.ptr_mem hy
    exact ⟨fun h => hgn.1.2.2 (h ▸ hyb), fun h => hel.2.2 (h ▸ hyb), fun h => hxb (h ▸ hyb),
      h23.live hyb⟩
  obtain ⟨m', hrot, hmg, hmc, hmp, hmy, hfr⟩ :=
    rotate_right_mem h1 h21 hg hs hgp hgc hpc hcr
  refine ⟨m', hrot, ?_, ?_⟩
  · intro y n hy
    by_cases hyg : y = g
    · subst hyg
      rw [hg] at hy
      simp only [Option.some.injEq] at hy
      subst hy
      exact ⟨_, hmg, Slot.put_records sl _ _⟩
    · by_cases hyp : y = e.a
      · subst hyp
        rw [h1] at hy
        simp only [Option.some.injEq] at hy
        subst hy
        exact ⟨_, hmp, rfl, rfl, rfl⟩
      · by_cases hyc : y = x.a
        · subst hyc
          rw [h21] at hy
          simp only [Option.some.injEq] at hy
          subst hy
          exact ⟨_, hmc, rfl, rfl, rfl⟩
        · by_cases hyb : b.ptr = some y
          · rw [hmy y hyb, hy]
            exact ⟨_, rfl, rfl, rfl, rfl⟩
          · rw [hfr y hyg hyp hyc hyb]
            exact ⟨n, hy, rfl, rfl, rfl⟩
  · intro y hy
    simp only [List.mem_cons, Option.some.injEq, List.mem_singleton, not_or, List.not_mem_nil,
      or_false] at hy
    obtain ⟨hyh, hyp, hyc, hyb⟩ := hy
    by_cases hyg : y = g
    · subst hyg
      rw [hmg, hg]
      simp only [Option.map_some', Option.some.injEq]
      exact hs.put_par hyh _
    · rw [hfr y hyg hyp hyc (fun h => hyb h.symm)]

/-- The rotation `rotate_left` keeps every record and rewrites the `par` field of the two
nodes and of the root of the subtree that changes sides only. -/
theorem rotate_left_frame {m : Mem} {a b c : Tree} {x e : Entry} {g : Nat} {gn : node}
    {sl : Slot} (hr : Rep m (.node a e (.node b x c)) (some g))
    (hn : (Tree.node a e (.node b x c)).addrs.Nodup)
    (hgn : g ∉ (Tree.node a e (.node b x c)).addrs)
    (hg : m g = some gn) (hs : IsSlot sl g gn e.a) :
    ∃ m', rotate_left m e.a x.a = some m' ∧ same_records m m' ∧
      same_par_except m m' [some hdr, some e.a, some x.a, b.ptr] := by
  obtain ⟨h1, h2, h3⟩ := hr
  obtain ⟨h31, h32, h33⟩ := h3
  obtain ⟨han, hrn, hea, her, har⟩ := nodup_node hn
  obtain ⟨hbn, hcn, hxb, hxc, hbc⟩ := nodup_node hrn
  simp only [Tree.addrs_node, List.mem_append, List.mem_cons, not_or] at hgn her har
  have hgp : g ≠ e.a := fun h => hgn.2.1 h
  have hgc : g ≠ x.a := fun h => hgn.2.2.2.1 h
  have hpc : e.a ≠ x.a := fun h => her.2.1 h
  have hcl : ∀ y, b.ptr = some y → y ≠ g ∧ y ≠ e.a ∧ y ≠ x.a ∧ ∃ yn, m y = some yn := by
    intro y hy
    have hyb := Tree.ptr_mem hy
    exact ⟨fun h => hgn.2.2.1 (h ▸ hyb), fun h => her.1 (h ▸ hyb), fun h => hxb (h ▸ hyb),
      h32.live hyb⟩
  obtain ⟨m', hrot, hmg, hmc, hmp, hmy, hfr⟩ :=
    rotate_left_mem h1 h31 hg hs hgp hgc hpc hcl
  refine ⟨m', hrot, ?_, ?_⟩
  · intro y n hy
    by_cases hyg : y = g
    · subst hyg
      rw [hg] at hy
      simp only [Option.some.injEq] at hy
      subst hy
      exact ⟨_, hmg, Slot.put_records sl _ _⟩
    · by_cases hyp : y = e.a
      · subst hyp
        rw [h1] at hy
        simp only [Option.some.injEq] at hy
        subst hy
        exact ⟨_, hmp, rfl, rfl, rfl⟩
      · by_cases hyc : y = x.a
        · subst hyc
          rw [h31] at hy
          simp only [Option.some.injEq] at hy
          subst hy
          exact ⟨_, hmc, rfl, rfl, rfl⟩
        · by_cases hyb : b.ptr = some y
          · rw [hmy y hyb, hy]
            exact ⟨_, rfl, rfl, rfl, rfl⟩
          · rw [hfr y hyg hyp hyc hyb]
            exact ⟨n, hy, rfl, rfl, rfl⟩
  · intro y hy
    simp only [List.mem_cons, Option.some.injEq, List.mem_singleton, not_or, List.not_mem_nil,
      or_false] at hy
    obtain ⟨hyh, hyp, hyc, hyb⟩ := hy
    by_cases hyg : y = g
    · subst hyg
      rw [hmg, hg]
      simp only [Option.map_some', Option.some.injEq]
      exact hs.put_par hyh _
    · rw [hfr y hyg hyp hyc (fun h => hyb h.symm)]

/-! ### Merge and rotations (C28, C29) -/

/-- C28: for all subtrees `lhs` and `rhs` held by the memory (disjoint, without the
header), each in BST order and heap order, every key of `lhs` being less than every key of
`rhs`, `merge(lhs, rhs)` returns one subtree in BST order and heap order whose in-order
node sequence is that of `lhs` followed by that of `rhs`, whose root is `rhs` when
`lhs` is null, `lhs` when `rhs` is null, and otherwise the root of strictly higher
priority, the root of `lhs` on a tie; `merge(null, t)` and `merge(t, null)` return `t`
and write nothing; no node outside the two subtrees is written. -/
theorem merge_is_ordered_union (m : Mem) (l r : Tree) (ql qr : Option Nat) (fuel : Nat)
    (hl : Rep m l ql) (hr : Rep m r qr) (hn : (l.addrs ++ r.addrs).Nodup)
    (hh : hdr ∉ l.addrs ++ r.addrs) (hbl : l.bst_order) (hbr : r.bst_order)
    (hhl : l.heap_order) (hhr : r.heap_order)
    (hlt : ∀ x ∈ l.toList, ∀ y ∈ r.toList, x.k < y.k) (hf : l.size + r.size < fuel) :
    ∃ m' t' q, merge m fuel l.ptr r.ptr = some (m', t'.ptr) ∧ Rep m' t' q ∧
      t'.bst_order ∧ t'.heap_order ∧ t'.toList = l.toList ++ r.toList ∧
      (l = .nil → t'.ptr = r.ptr) ∧ (r = .nil → t'.ptr = l.ptr) ∧
      (∀ ll a lr rl b rr, l = .node ll a lr → r = .node rl b rr →
        t'.ptr = if a.p < b.p then some b.a else some a.a) ∧
      merge m fuel none r.ptr = some (m, r.ptr) ∧ merge m fuel l.ptr none = some (m, l.ptr) ∧
      ∀ y, y ∉ l.addrs → y ∉ r.addrs → m' y = m y := by
  obtain ⟨m', q, hm, hrep, hfr⟩ := merge_spec fuel l r m ql qr hf hl hr hn hh
  obtain ⟨f, rfl⟩ : ∃ f, fuel = f + 1 := ⟨fuel - 1, by omega⟩
  refine ⟨m', Tree.mergeT l r, q, hm, hrep, ?_, Tree.heap_mergeT hhl hhr, Tree.toList_mergeT l r,
    ?_, ?_, ?_, ?_, ?_, hfr⟩
  · rw [Tree.bst_order_iff, Tree.keys, Tree.toList_mergeT, List.map_append,
      List.pairwise_append]
    refine ⟨(Tree.bst_order_iff l).1 hbl, (Tree.bst_order_iff r).1 hbr, fun a ha b hb => ?_⟩
    obtain ⟨x, hx, rfl⟩ := List.mem_map.1 ha
    obtain ⟨y, hy, rfl⟩ := List.mem_map.1 hb
    exact hlt x hx y hy
  · rintro rfl; rw [Tree.mergeT_nil_left]
  · rintro rfl; rw [Tree.mergeT_nil_right]
  · rintro ll a lr rl b rr rfl rfl
    rw [Tree.mergeT_node]
    split <;> rfl
  · simp only [merge]
  · cases l with
    | nil => simp only [Tree.ptr, merge]
    | node ll a lr => simp only [Tree.ptr, merge]

/-- Witness of C28: the two subtrees of the root of the container {1, 3, 5, 7, 9}. -/
theorem merge_is_ordered_union_witness :
    Rep ex_mem ex_left (some 3) ∧ Rep ex_mem ex_right (some 3) ∧
    (ex_left.addrs ++ ex_right.addrs).Nodup ∧ hdr ∉ ex_left.addrs ++ ex_right.addrs ∧
    ex_left.bst_order ∧ ex_right.bst_order ∧ ex_left.heap_order ∧ ex_right.heap_order ∧
    (∀ x ∈ ex_left.toList, ∀ y ∈ ex_right.toList, x.k < y.k) ∧
    ex_left.size + ex_right.size < 6 ∧
    ∃ m' t' q, merge ex_mem 6 ex_left.ptr ex_right.ptr = some (m', t'.ptr) ∧ Rep m' t' q ∧
      t'.bst_order ∧ t'.heap_order ∧ t'.toList = ex_left.toList ++ ex_right.toList ∧
      (ex_left = .nil → t'.ptr = ex_right.ptr) ∧ (ex_right = .nil → t'.ptr = ex_left.ptr) ∧
      (∀ ll a lr rl b rr, ex_left = .node ll a lr → ex_right = .node rl b rr →
        t'.ptr = if a.p < b.p then some b.a else some a.a) ∧
      merge ex_mem 6 none ex_right.ptr = some (ex_mem, ex_right.ptr) ∧
      merge ex_mem 6 ex_left.ptr none = some (ex_mem, ex_left.ptr) ∧
      ∀ y, y ∉ ex_left.addrs → y ∉ ex_right.addrs → m' y = ex_mem y :=
  ⟨ex_inv.rep.2.1, ex_inv.rep.2.2, by decide, by decide,
    by simp [ex_left, Tree.bst_order, Tree.toList],
    by simp [ex_right, Tree.bst_order, Tree.toList],
    by simp [ex_left, Tree.heap_order, Tree.rootP],
    by simp [ex_right, Tree.heap_order, Tree.rootP], by decide, by decide,
    merge_is_ordered_union ex_mem ex_left ex_right (some 3) (some 3) 6
      ex_inv.rep.2.1 ex_inv.rep.2.2 (by decide) (by decide)
      (by simp [ex_left, Tree.bst_order, Tree.toList])
      (by simp [ex_right, Tree.bst_order, Tree.toList])
      (by simp [ex_left, Tree.heap_order, Tree.rootP])
      (by simp [ex_right, Tree.heap_order, Tree.rootP]) (by decide) (by decide)⟩

/-- C29: for a node `par` (here `e`) with left child `child` (here `x`), held in a slot
of `g`, `rotate_right(par, child)` makes `child` the parent of `par` in the slot of `g`
that held `par` (the root slot of the header when `par` was the root), moves the former
right subtree `b` of `child` to the left slot of `par`, and leaves the in-order sequence
unchanged; it keeps every key, mapped value and priority, writes no node outside the
subtree other than that slot of `g`, and rewrites the `par` field of `par`, of `child`
and of the root of `b` only (the `par` field of the header being its root slot).
The call `rotate_left(par, child)` on a node with right child `child` is the mirror
image. -/
theorem rotations_effect (m : Mem) (a b c : Tree) (x e : Entry) (g : Nat) (gn : node)
    (sl : Slot) (m2 : Mem) (a2 b2 c2 : Tree) (x2 e2 : Entry) (g2 : Nat) (gn2 : node)
    (sl2 : Slot)
    (hr : Rep m (.node (.node a x b) e c) (some g))
    (hn : (Tree.node (.node a x b) e c).addrs.Nodup)
    (hgn : g ∉ (Tree.node (.node a x b) e c).addrs)
    (hg : m g = some gn) (hs : IsSlot sl g gn e.a)
    (hr2 : Rep m2 (.node a2 e2 (.node b2 x2 c2)) (some g2))
    (hn2 : (Tree.node a2 e2 (.node b2 x2 c2)).addrs.Nodup)
    (hgn2 : g2 ∉ (Tree.node a2 e2 (.node b2 x2 c2)).addrs)
    (hg2 : m2 g2 = some gn2) (hs2 : IsSlot sl2 g2 gn2 e2.a) :
    (∃ m', rotate_right m e.a x.a = some m' ∧
      Rep m' (.node a x (.node b e c)) (some g) ∧ m' g = some (sl.put gn (some x.a)) ∧
      (Tree.node a x (.node b e c)).toList = (Tree.node (.node a x b) e c).toList ∧
      (∀ y, y ∉ (Tree.node (.node a x b) e c).addrs → y ≠ g → m' y = m y) ∧
      same_records m m' ∧ same_par_except m m' [some hdr, some e.a, some x.a, b.ptr]) ∧
    (∃ m', rotate_left m2 e2.a x2.a = some m' ∧
      Rep m' (.node (.node a2 e2 b2) x2 c2) (some g2) ∧
      m' g2 = some (sl2.put gn2 (some x2.a)) ∧
      (Tree.node (.node a2 e2 b2) x2 c2).toList = (Tree.node a2 e2 (.node b2 x2 c2)).toList ∧
      (∀ y, y ∉ (Tree.node a2 e2 (.node b2 x2 c2)).addrs → y ≠ g2 → m' y = m2 y) ∧
      same_records m2 m' ∧
      same_par_except m2 m' [some hdr, some e2.a, some x2.a, b2.ptr]) := by
  constructor
  · obtain ⟨m', hrot, hrep, hmg, hfr⟩ := rotate_right_rep hr hn hgn hg hs
    obtain ⟨m'', hrot', hrec, hpar⟩ := rotate_right_frame hr hn hgn hg hs
    rw [hrot] at hrot'
    simp only [Option.some.injEq] at hrot'
    subst hrot'
    exact ⟨m', hrot, hrep, hmg, by simp [Tree.toList], hfr, hrec, hpar⟩
  · obtain ⟨m', hrot, hrep, hmg, hfr⟩ := rotate_left_rep hr2 hn2 hgn2 hg2 hs2
    obtain ⟨m'', hrot', hrec, hpar⟩ := rotate_left_frame hr2 hn2 hgn2 hg2 hs2
    rw [hrot] at hrot'
    simp only [Option.some.injEq] at hrot'
    subst hrot'
    exact ⟨m', hrot, hrep, hmg, by simp [Tree.toList], hfr, hrec, hpar⟩

/-- Witness of C29: in the container {1, 3, 5, 7, 9}, a right rotation at the root 5 with
its left child 3, and a left rotation at the node 7 with its right child 9. -/
theorem rotations_effect_witness :
    Rep ex_mem (.node (.node (.node .nil ⟨1, 1, 0, 10⟩ .nil) ⟨2, 3, 0, 30⟩ .nil) ⟨3, 5, 0, 50⟩
      ex_right) (some 0) ∧
    (Tree.node (.node (.node .nil ⟨1, 1, 0, 10⟩ .nil) ⟨2, 3, 0, 30⟩ .nil) ⟨3, 5, 0, 50⟩
      ex_right).addrs.Nodup ∧
    0 ∉ (Tree.node (.node (.node .nil ⟨1, 1, 0, 10⟩ .nil) ⟨2, 3, 0, 30⟩ .nil) ⟨3, 5, 0, 50⟩
      ex_right).addrs ∧
    ex_mem 0 = some ⟨0, 0, some 1, some 5, some 3, UINT32_MAX⟩ ∧
    IsSlot .root 0 ⟨0, 0, some 1, some 5, some 3, UINT32_MAX⟩ (⟨3, 5, 0, 50⟩ : Entry).a ∧
    Rep ex_mem (.node .nil ⟨4, 7, 0, 40⟩ (.node .nil ⟨5, 9, 0, 20⟩ .nil)) (some 3) ∧
    (Tree.node .nil ⟨4, 7, 0, 40⟩ (.node .nil ⟨5, 9, 0, 20⟩ .nil)).addrs.Nodup ∧
    3 ∉ (Tree.node .nil ⟨4, 7, 0, 40⟩ (.node .nil ⟨5, 9, 0, 20⟩ .nil)).addrs ∧
    ex_mem 3 = some ⟨5, 0, some 2, some 4, some 0, 50⟩ ∧
    IsSlot .right 3 ⟨5, 0, some 2, some 4, some 0, 50⟩ (⟨4, 7, 0, 40⟩ : Entry).a ∧
    ((∃ m', rotate_right ex_mem (⟨3, 5, 0, 50⟩ : Entry).a (⟨2, 3, 0, 30⟩ : Entry).a = some m' ∧
      Rep m' (.node (.node .nil ⟨1, 1, 0, 10⟩ .nil) ⟨2, 3, 0, 30⟩
        (.node .nil ⟨3, 5, 0, 50⟩ ex_right)) (some 0) ∧
      m' 0 = some (Slot.root.put ⟨0, 0, some 1, some 5, some 3, UINT32_MAX⟩
        (some (⟨2, 3, 0, 30⟩ : Entry).a)) ∧
      (Tree.node (.node .nil ⟨1, 1, 0, 10⟩ .nil) ⟨2, 3, 0, 30⟩
        (.node .nil ⟨3, 5, 0, 50⟩ ex_right)).toList =
        (Tree.node (.node (.node .nil ⟨1, 1, 0, 10⟩ .nil) ⟨2, 3, 0, 30⟩ .nil) ⟨3, 5, 0, 50⟩
          ex_right).toList ∧
      (∀ y, y ∉ (Tree.node (.node (.node .nil ⟨1, 1, 0, 10⟩ .nil) ⟨2, 3, 0, 30⟩ .nil)
        ⟨3, 5, 0, 50⟩ ex_right).addrs → y ≠ 0 → m' y = ex_mem y) ∧
      same_records ex_mem m' ∧
      same_par_except ex_mem m' [some hdr, some (⟨3, 5, 0, 50⟩ : Entry).a,
        some (⟨2, 3, 0, 30⟩ : Entry).a, Tree.nil.ptr]) ∧
    (∃ m', rotate_left ex_mem (⟨4, 7, 0, 40⟩ : Entry).a (⟨5, 9, 0, 20⟩ : Entry).a = some m' ∧
      Rep m' (.node (.node .nil ⟨4, 7, 0, 40⟩ .nil) ⟨5, 9, 0, 20⟩ .nil) (some 3) ∧
      m' 3 = some (Slot.right.put ⟨5, 0, some 2, some 4, some 0, 50⟩
        (some (⟨5, 9, 0, 20⟩ : Entry).a)) ∧
      (Tree.node (.node .nil ⟨4, 7, 0, 40⟩ .nil) ⟨5, 9, 0, 20⟩ .nil).toList =
        (Tree.node .nil ⟨4, 7, 0, 40⟩ (.node .nil ⟨5, 9, 0, 20⟩ .nil)).toList ∧
      (∀ y, y ∉ (Tree.node .nil ⟨4, 7, 0, 40⟩ (.node .nil ⟨5, 9, 0, 20⟩ .nil)).addrs →
        y ≠ 3 → m' y = ex_mem y) ∧
      same_records ex_mem m' ∧
      same_par_except ex_mem m' [some hdr, some (⟨4, 7, 0, 40⟩ : Entry).a,
        some (⟨5, 9, 0, 20⟩ : Entry).a, Tree.nil.ptr])) :=
  ⟨ex_inv.rep, by decide, by decide, rfl, ⟨rfl, rfl⟩, ex_inv.rep.2.2, by decide, by decide, rfl,
    ⟨by decide, by decide, by decide, rfl⟩,
    rotations_effect ex_mem (.node .nil ⟨1, 1, 0, 10⟩ .nil) .nil ex_right ⟨2, 3, 0, 30⟩
      ⟨3, 5, 0, 50⟩ 0 ⟨0, 0, some 1, some 5, some 3, UINT32_MAX⟩ .root
      ex_mem .nil .nil .nil ⟨5, 9, 0, 20⟩ ⟨4, 7, 0, 40⟩ 3 ⟨5, 0, some 2, some 4, some 0, 50⟩
      .right ex_inv.rep (by decide) (by decide) rfl ⟨rfl, rfl⟩
      ex_inv.rep.2.2 (by decide) (by decide) rfl ⟨by decide, by decide, by decide, rfl⟩⟩

/-! ### The debug build computes what the release build computes -/

theorem root_chk_eq {s : treap} {p : Option Nat} (h : root_chk s = some p) :
    root s = some p := by
  simp only [root_chk] at h
  simp only [root]
  cases hh : s.mem hdr with
  | none => rw [hh] at h; simp at h
  | some hd =>
    rw [hh] at h
    simp only at h ⊢
    cases hp : hd.par with
    | none => rw [hp] at h; exact h
    | some r =>
      rw [hp] at h
      simp only at h
      split at h
      · simp at h
      · split at h
        · exact h
        · simp at h

theorem empty_chk_eq {s : treap} {b : Bool} (h : empty_chk s = some b) : empty s = some b := by
  simp only [empty_chk] at h
  simp only [empty]
  cases hh : s.mem hdr with
  | none => rw [hh] at h; simp at h
  | some hd =>
    rw [hh] at h
    simp only at h ⊢
    split at h
    · simp at h
    · exact h

theorem lower_bound_loop_chk_eq (cmp : Int → Int → Bool) (m : Mem) (key : Int) (fuel : Nat) :
    ∀ (rt : Option Nat) (res r : Nat), lower_bound_loop_chk cmp m key fuel rt res = some r →
      lower_bound_loop cmp m key fuel rt res = some r := by
  induction fuel with
  | zero => intro rt res r h; simp [lower_bound_loop_chk] at h
  | succ f ih =>
    intro rt res r h
    cases rt with
    | none => simpa [lower_bound_loop_chk, lower_bound_loop] using h
    | some n =>
      simp only [lower_bound_loop_chk] at h
      simp only [lower_bound_loop]
      cases hn : m n with
      | none => rw [hn] at h; simp at h
      | some nd =>
        rw [hn] at h
        simp only at h ⊢
        split at h
        · simp at h
        · split at h
          · rename_i hc
            rw [if_pos hc]
            exact ih _ _ _ h
          · rename_i hc
            rw [if_neg hc]
            exact ih _ _ _ h

theorem lower_bound_chk_eq {cmp : Int → Int → Bool} {fuel : Nat} {s : treap} {key : Int}
    {r : Nat} (h : lower_bound_chk cmp fuel s key = some r) :
    lower_bound cmp fuel s key = some r := by
  simp only [lower_bound_chk] at h
  simp only [lower_bound]
  cases hrt : root_chk s with
  | none => rw [hrt] at h; simp at h
  | some rt =>
    rw [hrt] at h
    rw [root_chk_eq hrt]
    exact lower_bound_loop_chk_eq _ _ _ _ _ _ _ h

theorem find_chk_eq {cmp : Int → Int → Bool} {fuel : Nat} {s : treap} {key : Int}
    {r : Nat} (h : find_chk cmp fuel s key = some r) : find cmp fuel s key = some r := by
  simp only [find_chk] at h
  simp only [find]
  cases hlb : lower_bound_chk cmp fuel s key with
  | none => rw [hlb] at h; simp at h
  | some lb =>
    rw [hlb] at h
    rw [lower_bound_chk_eq hlb]
    exact h

theorem rotate_right_chk_eq {m m' : Mem} {par child : Nat}
    (h : rotate_right_chk m par child = some m') : rotate_right m par child = some m' := by
  simp only [rotate_right_chk] at h
  cases hr : rotate_right m par child with
  | none =>
    rw [hr] at h
    exfalso
    split at h
    · split at h
      · split at h
        · simp at h
        · split at h
          · simp at h
          · split at h <;> simp at h
      · simp at h
    · simp at h
  | some m1 =>
    rw [hr] at h
    split at h
    · split at h
      · split at h
        · simp at h
        · split at h
          · simp at h
          · split at h
            · simp only at h
              split at h
              · exact h
              · split at h
                · simp at h
                · split at h
                  · exact h
                  · simp at h
            · simp at h
      · simp at h
    · simp at h

theorem rotate_left_chk_eq {m m' : Mem} {par child : Nat}
    (h : rotate_left_chk m par child = some m') : rotate_left m par child = some m' := by
  simp only [rotate_left_chk] at h
  split at h
  · split at h
    · split at h
      · simp at h
      · split at h
        · simp at h
        · split at h
          · exact h
          · simp at h
    · simp at h
  · simp at h

theorem rotate_loop_chk_eq (fuel : Nat) :
    ∀ (m : Mem) (par it : Nat) (r : Mem × List Nat),
      rotate_loop_chk m fuel par it = some r → rotate_loop m fuel par it = some r.1 := by
  induction fuel with
  | zero => intro m par it r h; simp [rotate_loop_chk] at h
  | succ f ih =>
    intro m par it r h
    simp only [rotate_loop_chk] at h
    simp only [rotate_loop]
    cases hp : m par with
    | none => rw [hp] at h; simp at h
    | some pn =>
      cases hi : m it with
      | none => rw [hp, hi] at h; simp at h
      | some itn =>
        rw [hp, hi] at h
        simp only at h ⊢
        by_cases hlt : pn.pri < itn.pri
        · rw [if_pos hlt] at h ⊢
          by_cases hph : par = hdr
          · rw [if_pos hph] at h; simp at h
          · rw [if_neg hph] at h
            cases hrc : (if pn.left = some it then rotate_right_chk m par it
                else if pn.right = some it then rotate_left_chk m par it else none) with
            | none => rw [hrc] at h; simp at h
            | some m1 =>
              rw [hrc] at h
              have hrot : (if pn.left = some it then rotate_right m par it
                  else rotate_left m par it) = some m1 := by
                split at hrc
                · rename_i hl
                  rw [if_pos hl]
                  exact rotate_right_chk_eq hrc
                · rename_i hl
                  rw [if_neg hl]
                  split at hrc
                  · exact rotate_left_chk_eq hrc
                  · simp at hrc
              rw [hrot]
              simp only at h ⊢
              cases hi1 : m1 it with
              | none => rw [hi1] at h; simp at h
              | some itn1 =>
                rw [hi1] at h
                simp only at h ⊢
                cases hp1 : itn1.par with
                | none => rw [hp1] at h; simp at h
                | some par1 =>
                  rw [hp1] at h
                  simp only [Option.map_eq_some'] at h ⊢
                  obtain ⟨r1, hr1, rfl⟩ := h
                  exact ih _ _ _ r1 hr1
        · rw [if_neg hlt] at h ⊢
          simp only [Option.some.injEq] at h
          rw [← h]

/-- The rebalancing loop never rotates with the header as the parent. -/
theorem rotate_loop_chk_no_hdr (fuel : Nat) :
    ∀ (m : Mem) (par it : Nat) (r : Mem × List Nat),
      rotate_loop_chk m fuel par it = some r → hdr ∉ r.2 := by
  induction fuel with
  | zero => intro m par it r h; simp [rotate_loop_chk] at h
  | succ f ih =>
    intro m par it r h
    simp only [rotate_loop_chk] at h
    split at h
    · split at h
      · split at h
        · simp at h
        · rename_i hph
          split at h
          · simp at h
          · split at h
            · simp at h
            · split at h
              · simp at h
              · simp only [Option.map_eq_some'] at h
                obtain ⟨r1, hr1, rfl⟩ := h
                simp only [List.mem_cons, not_or]
                exact ⟨fun h' => hph h'.symm, ih _ _ _ r1 hr1⟩
      · simp only [Option.some.injEq] at h
        rw [← h]
        simp
    · simp at h

/-- When the rebalancing loop stops, the priority of the parent of the new node is not
less than the priority of the new node. -/
theorem rotate_loop_chk_exit (fuel : Nat) :
    ∀ (m : Mem) (par it : Nat) (r : Mem × List Nat),
      rotate_loop_chk m fuel par it = some r → (∃ n, m it = some n ∧ n.par = some par) →
      ∃ n p pn, r.1 it = some n ∧ n.par = some p ∧ r.1 p = some pn ∧ n.pri ≤ pn.pri := by
  induction fuel with
  | zero => intro m par it r h; simp [rotate_loop_chk] at h
  | succ f ih =>
    intro m par it r h hpar
    simp only [rotate_loop_chk] at h
    split at h
    · rename_i pn itn hp hi
      split at h
      · split at h
        · simp at h
        · split at h
          · simp at h
          · split at h
            · simp at h
            · rename_i itn1 hi1
              split at h
              · simp at h
              · rename_i par1 hp1
                simp only [Option.map_eq_some'] at h
                obtain ⟨r1, hr1, rfl⟩ := h
                exact ih _ _ _ r1 hr1 ⟨itn1, hi1, hp1⟩
      · rename_i hlt
        simp only [Option.some.injEq] at h
        rw [← h]
        obtain ⟨n, hn, hnp⟩ := hpar
        rw [hi] at hn
        simp only [Option.some.injEq] at hn
        subst hn
        exact ⟨itn, par, pn, hi, hnp, hp, by omega⟩
    · simp at h

theorem graft_chk_eq {cmp : Int → Int → Bool} {m : Mem} {fuel pos it : Nat} {key : Int}
    {r : Mem × Nat} (h : graft_chk cmp m fuel pos it key = some r) :
    graft m fuel pos it = some r := by
  simp only [graft_chk] at h
  simp only [graft]
  cases hp : m pos with
  | none => rw [hp] at h; simp at h
  | some pn =>
    rw [hp] at h
    simp only at h ⊢
    cases hl : pn.left with
    | none =>
      rw [hl] at h
      simp only at h ⊢
      by_cases hc : pos ≠ end_ ∧ cmp key pn.key = true
      · rw [if_pos hc] at h
        cases hs : setLeft m pos (some it) with
        | none => rw [hs] at h; simp at h
        | some m1 =>
          rw [hs] at h
          simp only [Option.map_some'] at h ⊢
          rw [if_pos hc.1] at h
          exact h
      · rw [if_neg hc] at h; simp at h
    | some c =>
      rw [hl] at h
      simp only at h ⊢
      cases hh : m hdr with
      | none => rw [hh] at h; simp at h
      | some hd =>
        rw [hh] at h
        simp only at h
        cases hb : hd.left with
        | none => rw [hb] at h; simp at h
        | some b =>
          rw [hb] at h
          simp only at h
          by_cases hpb : pos = b
          · rw [if_pos hpb] at h; simp at h
          · rw [if_neg hpb] at h
            cases hd' : dec m fuel pos with
            | none => rw [hd'] at h; simp at h
            | some par =>
              rw [hd'] at h
              simp only at h ⊢
              cases hpa : m par with
              | none => rw [hpa] at h; simp at h
              | some parn =>
                rw [hpa] at h
                simp only at h
                by_cases hc : parn.right = none ∧ cmp parn.key key = true
                · rw [if_pos hc] at h
                  cases hs : setRight m par (some it) with
                  | none => rw [hs] at h; simp at h
                  | some m1 =>
                    rw [hs] at h
                    simp only [Option.map_some'] at h ⊢
                    split at h
                    · exact h
                    · simp at h
                · rw [if_neg hc] at h; simp at h

theorem assign_and_keep_chk_eq {m : Mem} {lv : Option Nat} {dst : Ref} {src : Option Nat}
    {par : Nat} {r : Mem × Option Nat}
    (h : assign_and_keep_chk m lv dst src par = some r) :
    assign_and_keep m lv dst src par = some r := by
  simp only [assign_and_keep_chk] at h
  cases hr : assign_and_keep m lv dst src par with
  | none =>
    rw [hr] at h
    exfalso
    repeat' split at h
    all_goals first | (simp at h; done) | contradiction
  | some r1 =>
    rw [hr] at h
    repeat' split at h
    all_goals first | exact h | (simp at h; done) | simp_all

theorem merge_chk_eq (fuel : Nat) :
    ∀ (m : Mem) (l r : Option Nat) (res : Mem × Option Nat),
      merge_chk m fuel l r = some res → merge m fuel l r = some res := by
  induction fuel with
  | zero => intro m l r res h; simp [merge_chk] at h
  | succ f ih =>
    intro m l r res h
    cases l with
    | none => simpa [merge_chk, merge] using h
    | some l =>
      cases r with
      | none => simpa [merge_chk, merge] using h
      | some r =>
        simp only [merge_chk] at h
        simp only [merge]
        cases hl : m l with
        | none => rw [hl] at h; simp at h
        | some ln =>
          cases hr : m r with
          | none => rw [hl, hr] at h; simp at h
          | some rn =>
            rw [hl, hr] at h
            simp only at h ⊢
            split at h
            · by_cases hlt : ln.pri < rn.pri
              · rw [if_pos hlt] at h ⊢
                cases hm : merge_chk m f (some l) rn.left with
                | none => rw [hm] at h; simp at h
                | some q1 =>
                  obtain ⟨m1, src⟩ := q1
                  rw [hm] at h
                  rw [ih _ _ _ _ hm]
                  simp only [Option.map_eq_some'] at h ⊢
                  obtain ⟨q, hq, rfl⟩ := h
                  exact ⟨q, assign_and_keep_chk_eq hq, rfl⟩
              · rw [if_neg hlt] at h ⊢
                cases hm : merge_chk m f ln.right (some r) with
                | none => rw [hm] at h; simp at h
                | some q1 =>
                  obtain ⟨m1, src⟩ := q1
                  rw [hm] at h
                  rw [ih _ _ _ _ hm]
                  simp only [Option.map_eq_some'] at h ⊢
                  obtain ⟨q, hq, rfl⟩ := h
                  exact ⟨q, assign_and_keep_chk_eq hq, rfl⟩
            · simp at h

/-! ### The assertions of the rotations and of the rebalancing loop -/

theorem IsSlot.holds {sl : Slot} {g : Nat} {gn : node} {a : Nat} (h : IsSlot sl g gn a) :
    gn.par = some a ∨ gn.left = some a ∨ gn.right = some a := by
  cases sl
  · exact Or.inl h.2
  · exact Or.inr (Or.inl h.2.2)
  · exact Or.inr (Or.inr h.2.2.2)

/-- No assertion of `rotate_right` fails at a node `e` whose left child is `x`. -/
theorem rotate_right_chk_rep {m : Mem} {a b c : Tree} {x e : Entry} {g : Nat} {gn : node}
    {sl : Slot} (hr : Rep m (.node (.node a x b) e c) (some g))
    (hn : (Tree.node (.node a x b) e c).addrs.Nodup)
    (hgn : g ∉ (Tree.node (.node a x b) e c).addrs)
    (hh : hdr ∉ (Tree.node (.node a x b) e c).addrs)
    (hg : m g = some gn) (hs : IsSlot sl g gn e.a) :
    rotate_right_chk m e.a x.a = rotate_right m e.a x.a := by
  obtain ⟨h1, h2, h3⟩ := hr
  obtain ⟨h21, h22, h23⟩ := h2
  obtain ⟨hln, hcn, hel, hec, hlc⟩ := nodup_node hn
  obtain ⟨han, hbn, hxa, hxb, hab⟩ := nodup_node hln
  simp only [Tree.addrs_node, List.mem_append, List.mem_cons, not_or] at hgn hel hlc hh
  have hgp : g ≠ e.a := fun h => hgn.2.1 h
  have hgc : g ≠ x.a := fun h => hgn.1.2.1 h
  have hpc : e.a ≠ x.a := fun h => hel.2.1 h
  have hcr : ∀ y, b.ptr = some y → y ≠ g ∧ y ≠ e.a ∧ y ≠ x.a ∧ ∃ yn, m y = some yn := by
    intro y hy
    have hyb := Tree.ptr_mem hy
    exact ⟨fun h => hgn.1.2.2 (h ▸ hyb), fun h => hel.2.2 (h ▸ hyb), fun h => hxb (h ▸ hyb),
      h23.live hyb⟩
  obtain ⟨m', hrot, _, _, hmp, _, _⟩ := rotate_right_mem h1 h21 hg hs hgp hgc hpc hcr
  have heh : e.a ≠ hdr := fun h => hh.2.1 h.symm
  have hxh : x.a ≠ hdr := fun h => hh.1.2.1 h.symm
  simp only [rotate_right_chk, h1, h21, hg, if_pos hs.holds, hrot, hmp]
  cases b.ptr <;> simp [heh, hxh, Tree.ptr]

/-- No assertion of `rotate_left` fails at a node `e` whose right child is `x`. -/
theorem rotate_left_chk_rep {m : Mem} {a b c : Tree} {x e : Entry} {g : Nat} {gn : node}
    {sl : Slot} (hr : Rep m (.node a e (.node b x c)) (some g))
    (hh : hdr ∉ (Tree.node a e (.node b x c)).addrs)
    (hg : m g = some gn) (hs : IsSlot sl g gn e.a) :
    rotate_left_chk m e.a x.a = rotate_left m e.a x.a := by
  obtain ⟨h1, h2, h3⟩ := hr
  obtain ⟨h31, h32, h33⟩ := h3
  simp only [Tree.addrs_node, List.mem_append, List.mem_cons, not_or] at hh
  have heh : e.a ≠ hdr := fun h => hh.2.1 h.symm
  have hxh : x.a ≠ hdr := fun h => hh.2.2.2.1 h.symm
  simp only [rotate_left_chk, h1, h31, hg, if_pos hs.holds]
  simp [heh, hxh, Tree.ptr]

/-- The rebalancing loop of the debug build, on the subtree in which the leaf was hung:
no assertion fails, it produces the memory of `insT` after at most as many rotations as
the depth of the leaf in the subtree, and either stops inside the subtree or goes on
above it with the new node at the root of the subtree. -/
theorem rotate_loop_chk_spec {t : Tree} (x : Entry) {m : Mem} {g : Nat} {gn : node} {sl : Slot}
    (hr : Rep m (t.attach x) (some g)) (hn : (t.attach x).addrs.Nodup)
    (hgn : g ∉ (t.attach x).addrs) (hh : hdr ∉ (t.attach x).addrs)
    (hg : m g = some gn) (hs : ∀ a, (t.attach x).ptr = some a → IsSlot sl g gn a) :
    ∃ m' ps, ps.length ≤ t.depthOf x ∧ Rep m' (t.insT x) (some g) ∧
      m' g = some (sl.put gn (t.insT x).ptr) ∧
      (∀ y, y ∉ (t.attach x).addrs → y ≠ g → m' y = m y) ∧
      (((t.insT x).ptr = some x.a ∧
          ∀ f, rotate_loop_chk m (f + ps.length) (t.attachPar x g) x.a =
            (rotate_loop_chk m' f g x.a).map fun r => (r.1, ps ++ r.2)) ∨
        ((t.insT x).ptr ≠ some x.a ∧
          ∀ f, rotate_loop_chk m (f + ps.length + 1) (t.attachPar x g) x.a = some (m', ps))) := by
  induction t generalizing m g gn sl with
  | nil =>
    refine ⟨m, [], le_refl _, hr, ?_, fun _ _ _ => rfl, Or.inl ⟨rfl, fun f => ?_⟩⟩
    · rw [hg]
      exact congrArg some (hs x.a rfl).put_self.symm
    · simp only [List.length_nil, Nat.add_zero, Tree.attachPar, List.nil_append]
      cases rotate_loop_chk m f g x.a <;> rfl
  | node l e r ihl ihr =>
    have hxt := not_mem_of_attach_nodup hn
    have hxe : x.a ≠ e.a := fun h => hxt (by simp [Tree.addrs_node, h])
    have hxl : x.a ∉ l.addrs := fun h => hxt (by simp [Tree.addrs_node, h])
    have hxr : x.a ∉ r.addrs := fun h => hxt (by simp [Tree.addrs_node, h])
    by_cases hlt : x.k < e.k
    · -- the leaf was hung in the left subtree
      simp only [Tree.attach, hlt, if_true] at hr hn hgn hh hs
      simp only [Tree.attach, Tree.attachPar, Tree.insT, Tree.depthOf, hlt, if_true]
      obtain ⟨h1, h2, h3⟩ := hr
      obtain ⟨hln, hrn, hel, her, hlr⟩ := nodup_node hn
      have hge : g ≠ e.a := fun h => hgn (by simp [Tree.addrs_node, h])
      have hgl : g ∉ (l.attach x).addrs := fun h => hgn (by simp [Tree.addrs_node, h])
      have hhe : e.a ≠ hdr := fun h => hh (by simp [Tree.addrs_node, h])
      have hhl : hdr ∉ (l.attach x).addrs := fun h => hh (by simp [Tree.addrs_node, h])
      have hsl : ∀ a, (l.attach x).ptr = some a →
          IsSlot .left e.a ⟨e.k, e.v, (l.attach x).ptr, r.ptr, some g, e.p⟩ a := by
        intro a ha
        refine ⟨hhe, ?_, ha⟩
        simp only [ne_eq, Option.some.injEq]
        intro h
        exact hgl (h ▸ Tree.ptr_mem ha)
      obtain ⟨m1, ps1, hd1, hrep1, hm1e, hfr1, hloop⟩ := ihl h2 hln hel hhl h1 hsl
      have hm1e' : m1 e.a = some ⟨e.k, e.v, (l.insT x).ptr, r.ptr, some g, e.p⟩ := hm1e
      have hm1g : m1 g = some gn := by rw [hfr1 g hgl hge, hg]
      have hrep1r : Rep m1 r (some e.a) := by
        refine h3.congr fun y hy => ?_
        exact hfr1 y (fun h => hlr y h hy) (fun h => her (h ▸ hy))
      have hfr1' : ∀ y, y ∉ ((l.attach x).node e r).addrs → y ≠ g → m1 y = m y := by
        intro y hy _
        exact hfr1 y (fun h => hy (by simp [Tree.addrs_node, h]))
          (fun h => hy (by simp [Tree.addrs_node, h]))
      have hsame : ((l.insT x).node e r).addrs = ((l.attach x).node e r).addrs := by
        simp [Tree.addrs_node, Tree.addrs_insT]
      rcases hloop with ⟨hp, hloop⟩ | ⟨hp, hloop⟩
      · obtain ⟨a, b, hab⟩ := Tree.insT_root hxl hp
        by_cases hpri : e.p < x.p
        · -- one more rotation
          have hcond : (l.insT x).ptr = some x.a ∧ e.p < x.p := ⟨hp, hpri⟩
          rw [if_pos hcond]
          rw [hab] at hrep1 hm1e' hsame ⊢
          have hrepn : Rep m1 (.node (.node a x b) e r) (some g) := ⟨hm1e', hrep1, hrep1r⟩
          obtain ⟨m2, hrot, hrep2, hm2g, hfr2⟩ :=
            rotate_right_rep hrepn (hsame ▸ hn) (hsame ▸ hgn) hm1g (hs e.a rfl)
          have hchk := rotate_right_chk_rep hrepn (hsame ▸ hn) (hsame ▸ hgn) (hsame ▸ hh) hm1g
            (hs e.a rfl)
          refine ⟨m2, ps1 ++ [e.a], by simp only [List.length_append, List.length_singleton]; omega,
            hrep2, hm2g, ?_, Or.inl ⟨rfl, fun f => ?_⟩⟩
          · intro y hy hyg
            rw [hfr2 y (hsame ▸ hy) hyg]
            exact hfr1' y hy hyg
          · rw [List.length_append, List.length_singleton, ← Nat.add_assoc, Nat.add_right_comm,
              hloop (f + 1)]
            simp only [rotate_loop_chk, hm1e', hrep1.1, hpri, if_true, hhe, if_false, Tree.ptr,
              hchk, hrot, hrep2.1, Option.map_map]
            cases rotate_loop_chk m2 f g x.a <;> simp [Function.comp]
        · have hcond : ¬ ((l.insT x).ptr = some x.a ∧ e.p < x.p) := fun h => hpri h.2
          rw [if_neg hcond]
          refine ⟨m1, ps1, by omega, ⟨hm1e', hrep1, hrep1r⟩, ?_, hfr1',
            Or.inr ⟨?_, fun f => ?_⟩⟩
          · rw [hm1g]
            exact congrArg some (hs e.a rfl).put_self.symm
          · simp only [Tree.ptr, ne_eq, Option.some.injEq]
            exact fun h => hxe h.symm
          · rw [Nat.add_right_comm, hloop (f + 1)]
            rw [hab] at hrep1
            simp only [rotate_loop_chk, hm1e', hrep1.1, hpri, if_false, Option.map_some',
              List.append_nil]
      · have hcond : ¬ ((l.insT x).ptr = some x.a ∧ e.p < x.p) := fun h => hp h.1
        rw [if_neg hcond]
        refine ⟨m1, ps1, by omega, ⟨hm1e', hrep1, hrep1r⟩, ?_, hfr1',
          Or.inr ⟨?_, hloop⟩⟩
        · rw [hm1g]
          exact congrArg some (hs e.a rfl).put_self.symm
        · simp only [Tree.ptr, ne_eq, Option.some.injEq]
          exact fun h => hxe h.symm
    · -- the leaf was hung in the right subtree
      simp only [Tree.attach, hlt, if_false] at hr hn hgn hh hs
      simp only [Tree.attach, Tree.attachPar, Tree.insT, Tree.depthOf, hlt, if_false]
      obtain ⟨h1, h2, h3⟩ := hr
      obtain ⟨hln, hrn, hel, her, hlr⟩ := nodup_node hn
      have hge : g ≠ e.a := fun h => hgn (by simp [Tree.addrs_node, h])
      have hgr : g ∉ (r.attach x).addrs := fun h => hgn (by simp [Tree.addrs_node, h])
      have hhe : e.a ≠ hdr := fun h => hh (by simp [Tree.addrs_node, h])
      have hhr : hdr ∉ (r.attach x).addrs := fun h => hh (by simp [Tree.addrs_node, h])
      have hsr : ∀ a, (r.attach x).ptr = some a →
          IsSlot .right e.a ⟨e.k, e.v, l.ptr, (r.attach x).ptr, some g, e.p⟩ a := by
        intro a ha
        refine ⟨hhe, ?_, ?_, ha⟩
        · simp only [ne_eq, Option.some.injEq]
          intro h
          exact hgr (h ▸ Tree.ptr_mem ha)
        · intro h
          exact hlr a (Tree.ptr_mem h) (Tree.ptr_mem ha)
      obtain ⟨m1, ps1, hd1, hrep1, hm1e, hfr1, hloop⟩ := ihr h3 hrn her hhr h1 hsr
      have hm1e' : m1 e.a = some ⟨e.k, e.v, l.ptr, (r.insT x).ptr, some g, e.p⟩ := hm1e
      have hm1g : m1 g = some gn := by rw [hfr1 g hgr hge, hg]
      have hrep1l : Rep m1 l (some e.a) := by
        refine h2.congr fun y hy => ?_
        exact hfr1 y (fun h => hlr y hy h) (fun h => hel (h ▸ hy))
      have hfr1' : ∀ y, y ∉ (l.node e (r.attach x)).addrs → y ≠ g → m1 y = m y := by
        intro y hy _
        exact hfr1 y (fun h => hy (by simp [Tree.addrs_node, h]))
          (fun h => hy (by simp [Tree.addrs_node, h]))
      have hsame : (l.node e (r.insT x)).addrs = (l.node e (r.attach x)).addrs := by
        simp [Tree.addrs_node, Tree.addrs_insT]
      have hnl : l.ptr ≠ some x.a := fun h => hxl (Tree.ptr_mem h)
      rcases hloop with ⟨hp, hloop⟩ | ⟨hp, hloop⟩
      · obtain ⟨a, b, hab⟩ := Tree.insT_root hxr hp
        by_cases hpri : e.p < x.p
        · have hcond : (r.insT x).ptr = some x.a ∧ e.p < x.p := ⟨hp, hpri⟩
          rw [if_pos hcond]
          rw [hab] at hrep1 hm1e' hsame ⊢
          have hrepn : Rep m1 (.node l e (.node a x b)) (some g) := ⟨hm1e', hrep1l, hrep1⟩
          obtain ⟨m2, hrot, hrep2, hm2g, hfr2⟩ :=
            rotate_left_rep hrepn (hsame ▸ hn) (hsame ▸ hgn) hm1g (hs e.a rfl)
          have hchk := rotate_left_chk_rep hrepn (hsame ▸ hh) hm1g (hs e.a rfl)
          refine ⟨m2, ps1 ++ [e.a], by simp only [List.length_append, List.length_singleton]; omega,
            hrep2, hm2g, ?_, Or.inl ⟨rfl, fun f => ?_⟩⟩
          · intro y hy hyg
            rw [hfr2 y (hsame ▸ hy) hyg]
            exact hfr1' y hy hyg
          · rw [List.length_append, List.length_singleton, ← Nat.add_assoc, Nat.add_right_comm,
              hloop (f + 1)]
            have hp2 : (Tree.node a x b).ptr = some x.a := rfl
            simp only [rotate_loop_chk, hm1e', hrep1.1, hpri, if_true, hhe, if_false, hnl,
              hp2, hchk, hrot, hrep2.1, Option.map_map]
            cases rotate_loop_chk m2 f g x.a <;> simp [Function.comp]
        · have hcond : ¬ ((r.insT x).ptr = some x.a ∧ e.p < x.p) := fun h => hpri h.2
          rw [if_neg hcond]
          refine ⟨m1, ps1, by omega, ⟨hm1e', hrep1l, hrep1⟩, ?_, hfr1',
            Or.inr ⟨?_, fun f => ?_⟩⟩
          · rw [hm1g]
            exact congrArg some (hs e.a rfl).put_self.symm
          · simp only [Tree.ptr, ne_eq, Option.some.injEq]
            exact fun h => hxe h.symm
          · rw [Nat.add_right_comm, hloop (f + 1)]
            rw [hab] at hrep1
            simp only [rotate_loop_chk, hm1e', hrep1.1, hpri, if_false, Option.map_some',
              List.append_nil]
      · have hcond : ¬ ((r.insT x).ptr = some x.a ∧ e.p < x.p) := fun h => hp h.1
        rw [if_neg hcond]
        refine ⟨m1, ps1, by omega, ⟨hm1e', hrep1l, hrep1⟩, ?_, hfr1',
          Or.inr ⟨?_, hloop⟩⟩
        · rw [hm1g]
          exact congrArg some (hs e.a rfl).put_self.symm
        · simp only [Tree.ptr, ne_eq, Option.some.injEq]
          exact fun h => hxe h.symm

/-- The depth of the grafted leaf, counted in the memory, is its depth in the tree. -/
theorem depth_attach {t : Tree} (x : Entry) {m : Mem} {g : Nat}
    (hr : Rep m (t.attach x) (some g)) (hh : hdr ∉ (t.attach x).addrs) :
    ∀ f, depth m (f + t.depthOf x + 1) x.a =
      if g = hdr then some (t.depthOf x)
      else (depth m f g).map fun d => d + (t.depthOf x + 1) := by
  induction t generalizing g with
  | nil =>
    intro f
    obtain ⟨h1, _, _⟩ := hr
    simp only [Tree.depthOf, Nat.add_zero, depth, h1]
  | node l e r ihl ihr =>
    intro f
    by_cases hlt : x.k < e.k
    · simp only [Tree.attach, hlt, if_true] at hr hh
      obtain ⟨h1, h2, _⟩ := hr
      have hhe : e.a ≠ hdr := fun h => hh (by simp [Tree.addrs_node, h])
      have hhl : hdr ∉ (l.attach x).addrs := fun h => hh (by simp [Tree.addrs_node, h])
      have := ihl h2 hhl (f + 1)
      simp only [Tree.depthOf, hlt, if_true]
      rw [show f + (Tree.depthOf x l + 1) + 1 = f + 1 + Tree.depthOf x l + 1 by omega, this,
        if_neg hhe]
      simp only [depth, h1]
      split
      · simp
      · cases depth m f g <;> simp [Nat.add_assoc, Nat.add_comm]
    · simp only [Tree.attach, hlt, if_false] at hr hh
      obtain ⟨h1, _, h3⟩ := hr
      have hhe : e.a ≠ hdr := fun h => hh (by simp [Tree.addrs_node, h])
      have hhr : hdr ∉ (r.attach x).addrs := fun h => hh (by simp [Tree.addrs_node, h])
      have := ihr h3 hhr (f + 1)
      simp only [Tree.depthOf, hlt, if_false]
      rw [show f + (Tree.depthOf x r + 1) + 1 = f + 1 + Tree.depthOf x r + 1 by omega, this,
        if_neg hhe]
      simp only [depth, h1]
      split
      · simp
      · cases depth m f g <;> simp [Nat.add_assoc, Nat.add_comm]

theorem Tree.depthOf_le_height (x : Entry) (t : Tree) : t.depthOf x ≤ t.height := by
  induction t with
  | nil => exact le_refl _
  | node l e r ihl ihr =>
    simp only [Tree.depthOf, Tree.height]
    split <;> omega

/-! ### The assertions of the queries -/

/-- The assertion of `root()` holds in a well-formed container. -/
theorem root_chk_inv {s : treap} {t : Tree} (h : Inv s t) : root_chk s = some t.ptr := by
  cases t with
  | nil => simp [root_chk, h.hd, HdrOf, Tree.ptr]
  | node l e r => simp [root_chk, h.hd, HdrOf, Tree.ptr, h.rep.1]

/-- The assertion of `n_begin()` holds in a well-formed container. -/
theorem empty_chk_inv {s : treap} {t : Tree} (h : Inv s t) : empty_chk s = empty s := by
  simp [empty_chk, empty, h.hd, HdrOf]

/-- No assertion of the descent of `lower_bound` fails on a represented tree. -/
theorem lower_bound_loop_chk_rep {m : Mem} {t : Tree} {q : Option Nat} (hr : Rep m t q)
    (hn : t.addrs.Nodup) (key : Int) (res fuel : Nat) (hf : t.height < fuel) :
    lower_bound_loop_chk lt m key fuel t.ptr res = some (t.lbT key res) := by
  induction t generalizing q res fuel with
  | nil =>
    cases fuel with
    | zero => omega
    | succ f => simp [Tree.ptr, lower_bound_loop_chk, Tree.lbT]
  | node l e r ihl ihr =>
    obtain ⟨h1, h2, h3⟩ := hr
    obtain ⟨hln, hrn, hel, her, _⟩ := nodup_node hn
    have hl : l.ptr ≠ some e.a := fun h => hel (Tree.ptr_mem h)
    have hr' : r.ptr ≠ some e.a := fun h => her (Tree.ptr_mem h)
    cases fuel with
    | zero => omega
    | succ f =>
      simp only [Tree.height] at hf
      have hp : (Tree.node l e r).ptr = some e.a := rfl
      simp only [hp, lower_bound_loop_chk, h1, Tree.lbT, hl, hr', or_self, if_false]
      by_cases hk : key ≤ e.k
      · have : lt e.k key = false := by simp [lt, hk]
        simp only [this, hk, if_true, Bool.not_false]
        exact ihl h2 hln e.a f (by omega)
      · have : lt e.k key = true := by simp [lt]; omega
        simp only [this, hk, if_false, Bool.not_true]
        exact ihr h3 hrn res f (by omega)

theorem lower_bound_chk_inv {s : treap} {t : Tree} (h : Inv s t) (key : Int) (fuel : Nat)
    (hf : t.height < fuel) : lower_bound_chk lt fuel s key = some (t.lbT key hdr) := by
  simp only [lower_bound_chk, root_chk_inv h, end_]
  exact lower_bound_loop_chk_rep h.rep h.nodup key hdr fuel hf

theorem find_chk_inv {s : treap} {t : Tree} (h : Inv s t) (key : Int) (fuel : Nat)
    (hf : t.height < fuel) : find_chk lt fuel s key = find lt fuel s key := by
  simp only [find_chk, find, lower_bound_chk_inv h key fuel hf, lower_bound_eq h key fuel hf]

/-! ### The assertions of the graft -/

/-- The node under which the leaf is hung: its key is above the new key and it has no
left child, or its key is below and it has no right child. -/
theorem attachPar_mem {m : Mem} {t : Tree} {q : Option Nat} (hr : Rep m t q) (x : Entry)
    (hne : t ≠ .nil) (hk : x.k ∉ t.keys) (pa : Nat) :
    ∃ e ∈ t.toList, t.attachPar x pa = e.a ∧ ∃ n, m e.a = some n ∧ n.key = e.k ∧
      ((x.k < e.k ∧ n.left = none) ∨ (e.k < x.k ∧ n.right = none)) := by
  induction t generalizing q pa with
  | nil => exact absurd rfl hne
  | node l e r ihl ihr =>
    obtain ⟨h1, h2, h3⟩ := hr
    have hke : x.k ≠ e.k := fun h => hk (by simp [Tree.keys_node, h])
    have hkl : x.k ∉ l.keys := fun h => hk (by simp [Tree.keys_node, h])
    have hkr : x.k ∉ r.keys := fun h => hk (by simp [Tree.keys_node, h])
    by_cases hlt : x.k < e.k
    · simp only [Tree.attachPar, hlt, if_true]
      by_cases hl : l = .nil
      · subst hl
        exact ⟨e, by simp [Tree.toList], rfl, _, h1, rfl, Or.inl ⟨hlt, rfl⟩⟩
      · obtain ⟨e', he', h⟩ := ihl h2 hl hkl e.a
        exact ⟨e', by simp [Tree.toList, he'], h⟩
    · simp only [Tree.attachPar, hlt, if_false]
      by_cases hrn : r = .nil
      · subst hrn
        refine ⟨e, by simp [Tree.toList], rfl, _, h1, rfl, Or.inr ⟨?_, rfl⟩⟩
        omega
      · obtain ⟨e', he', h⟩ := ihr h3 hrn hkr e.a
        exact ⟨e', by simp [Tree.toList, he'], h⟩

/-- Two elements of a container with the same address are the same element. -/
theorem eq_of_addr_eq {t : Tree} (hn : t.addrs.Nodup) {e e' : Entry} (he : e ∈ t.toList)
    (he' : e' ∈ t.toList) (ha : e.a = e'.a) : e = e' :=
  List.inj_on_of_nodup_map hn he he' ha

/-- The parent chosen by the graft: `pos` itself when it has no left child, `std::prev(pos)`
otherwise. -/
theorem graft_snd {m : Mem} {fuel pos it : Nat} {r : Mem × Nat} {pn : node}
    (hg : graft m fuel pos it = some r) (hp : m pos = some pn) :
    (pn.left = none → r.2 = pos) ∧
      (∀ c, pn.left = some c → dec m fuel pos = some r.2) := by
  constructor
  · intro hl
    rw [graft_left hp hl] at hg
    cases h1 : setLeft m pos (some it) with
    | none => rw [h1] at hg; simp at hg
    | some m1 =>
      rw [h1] at hg
      cases h2 : setPar m1 it (some pos) with
      | none => simp [h2] at hg
      | some m2 =>
        simp [h2] at hg
        rw [← hg]
  · intro c hl
    cases hd : dec m fuel pos with
    | none => simp [graft, hp, hl, hd] at hg
    | some par =>
      rw [graft_dec hp hl fuel it hd] at hg
      cases h1 : setRight m par (some it) with
      | none => rw [h1] at hg; simp at hg
      | some m1 =>
        rw [h1] at hg
        cases h2 : setPar m1 it (some par) with
        | none => simp [h2] at hg
        | some m2 =>
          simp [h2] at hg
          rw [← hg]

/-- The graft of the debug build does what the graft does when its assertions hold. -/
theorem graft_chk_of_graft {cmp : Int → Int → Bool} {m : Mem} {fuel pos it : Nat} {key : Int}
    {r : Mem × Nat} {pn : node} (hg : graft m fuel pos it = some r) (hp : m pos = some pn)
    (h1 : pn.left = none → pos ≠ end_ ∧ cmp key pn.key = true)
    (h2 : ∀ c, pn.left = some c → ∃ h b parn, m hdr = some h ∧ h.left = some b ∧ pos ≠ b ∧
      m r.2 = some parn ∧ parn.right = none ∧ cmp parn.key key = true)
    (h3 : r.2 ≠ end_) : graft_chk cmp m fuel pos it key = some r := by
  obtain ⟨hs1, hs2⟩ := graft_snd hg hp
  cases hl : pn.left with
  | none =>
    obtain ⟨ha, hb⟩ := h1 hl
    have hr2 := hs1 hl
    rw [graft_left hp hl] at hg
    cases h4 : setLeft m pos (some it) with
    | none => rw [h4] at hg; simp at hg
    | some m1 =>
      rw [h4] at hg
      simp only [Option.some_bind] at hg
      simp only [graft_chk, hp, hl, ha, hb, h4, ne_eq, not_false_eq_true, and_self, if_true,
        Option.map_some', hg]
  | some c =>
    obtain ⟨h, b, parn, hh, hb, hpb, hpar, hr, hc⟩ := h2 c hl
    have hd := hs2 c hl
    rw [graft_dec hp hl fuel it hd] at hg
    cases h4 : setRight m r.2 (some it) with
    | none => rw [h4] at hg; simp at hg
    | some m1 =>
      rw [h4] at hg
      simp only [Option.some_bind] at hg
      simp only [graft_chk, hp, hl, hh, hb, hpb, if_false, hd, hpar, hr, hc, and_self, if_true,
        h4, Option.map_some', h3, ne_eq, not_false_eq_true, hg]

/-- No assertion of the graft fails when `insert_` is reached with `pos` being the
`lower_bound` of an absent key in a non-empty container. -/
theorem graft_chk_spec {m : Mem} {t : Tree} (hd : m hdr = some (HdrOf t))
    (hr : Rep m t (some hdr)) (hn : t.addrs.Nodup) (hh : hdr ∉ t.addrs)
    (hs : t.keys.Pairwise (· < ·)) (hne : t ≠ .nil) (x : Entry) (hk : x.k ∉ t.keys)
    (fuel : Nat) (hf : t.height + 2 ≤ fuel) {m2 : Mem}
    (hg : graft m fuel (t.lbT x.k hdr) x.a = some (m2, t.attachPar x hdr)) :
    graft_chk lt m fuel (t.lbT x.k hdr) x.a x.k = some (m2, t.attachPar x hdr) := by
  obtain ⟨ea, hea, hap, an, han, hank, hcase⟩ := attachPar_mem hr x hne hk hdr
  have heah : ea.a ≠ hdr := fun h => hh (h ▸ List.mem_map_of_mem Entry.a hea)
  rcases lbT_char x.k t hdr hs with ⟨hlb, hall⟩ | ⟨e, he, hlb, hle, hmin⟩
  · -- the position is `end()`
    rw [hlb] at hg ⊢
    refine graft_chk_of_graft hg hd ?_ ?_ ?_
    · intro hl
      simp [HdrOf] at hl
    · intro c _
      refine ⟨HdrOf t, t.minA hdr, an, hd, rfl, (minA_ne_hdr hh hne).symm, ?_, ?_, ?_⟩
      · show m (t.attachPar x hdr) = some an
        rw [hap]
        exact han
      · rcases hcase with ⟨h1, _⟩ | ⟨_, h2⟩
        · exact absurd (hall ea hea) (by omega)
        · exact h2
      · rw [hank]
        simp only [lt, decide_eq_true_eq]
        exact hall ea hea
    · show t.attachPar x hdr ≠ end_
      rw [hap]
      exact heah
  · -- the position is the first element above the key
    have hlt : x.k < e.k := lt_of_le_of_ne hle (fun h => hk (mem_keys.2 ⟨e, he, h.symm⟩))
    obtain ⟨pn, hpn, hpk, _, _⟩ := hr.get he
    have heh : e.a ≠ hdr := fun h => hh (h ▸ List.mem_map_of_mem Entry.a he)
    rw [hlb] at hg ⊢
    refine graft_chk_of_graft hg hpn ?_ ?_ ?_
    · intro _
      refine ⟨heh, ?_⟩
      rw [hpk]
      simp only [lt, decide_eq_true_eq]
      exact hlt
    · intro c hl
      have hnb : e.a ≠ t.minA hdr := by
        intro h
        obtain ⟨n', hn', hnl⟩ := hr.min_left hne hdr
        rw [← h, hpn] at hn'
        cases hn'
        rw [hl] at hnl
        cases hnl
      have hdec : dec m fuel e.a = some (t.attachPar x hdr) := (graft_snd hg hpn).2 c hl
      rw [dec_eq hr hn (mem_addrs.2 ⟨e, he, rfl⟩) hnb fuel (by omega)] at hdec
      have hpa : predL t.addrs e.a hdr = ea.a := by
        rw [← hap]
        exact Option.some.inj hdec
      have hkey : ea.k < x.k ∧ an.right = none := by
        rcases pred_char hs hn he hdr with ⟨_, hmin', _⟩ | ⟨e', he', hpe, _, hlt', _⟩
        · exact absurd hmin'.symm hnb
        · have hee : e' = ea := eq_of_addr_eq hn he' hea (by rw [← hpe, hpa])
          subst hee
          rcases hcase with ⟨h1, _⟩ | ⟨h1, h2⟩
          · have := hmin e' hea (le_of_lt h1)
            omega
          · exact ⟨h1, h2⟩
      refine ⟨HdrOf t, t.minA hdr, an, hd, rfl, hnb, ?_, hkey.2, ?_⟩
      · show m (t.attachPar x hdr) = some an
        rw [hap]
        exact han
      · rw [hank]
        simp only [lt, decide_eq_true_eq]
        exact hkey.1
    · show t.attachPar x hdr ≠ end_
      rw [hap]
      exact heah

/-! ### The assertions of `insert_` -/

/-- What the debug build of `insert_` returns, `insert_` returns. -/
theorem insert__chk_eq {cmp : Int → Int → Bool} {fuel : Nat} {s : treap} {pos : Nat}
    {key val : Int} {pri : Nat} {r : treap × Nat}
    (h : insert__chk cmp fuel s pos key val pri = some r) :
    insert_ cmp fuel s pos key val pri = some r := by
  unfold insert__chk at h
  unfold insert_
  simp only at h ⊢
  cases he : empty_chk (create_node s key val pri).1 with
  | none => rw [he] at h; simp at h
  | some b =>
    rw [he] at h
    rw [empty_chk_eq he]
    cases b with
    | true =>
      simp only at h ⊢
      cases h1 : setPar (create_node s key val pri).1.mem (create_node s key val pri).2
        (some hdr) with
      | none => rw [h1] at h; simp at h
      | some m1 =>
        rw [h1] at h
        simp only [Option.some_bind] at h ⊢
        cases h2 : setLeft m1 hdr (some (create_node s key val pri).2) with
        | none => rw [h2] at h; simp at h
        | some m2 =>
          rw [h2] at h
          simp only [Option.some_bind] at h ⊢
          cases h3 : setRight m2 hdr (some (create_node s key val pri).2) with
          | none => rw [h3] at h; simp at h
          | some m3 =>
            rw [h3] at h
            simp only [Option.some_bind] at h ⊢
            cases h4 : root_chk { (create_node s key val pri).1 with mem := m3 } with
            | none => rw [h4] at h; simp at h
            | some rt =>
              rw [h4] at h
              exact h
    | false =>
      simp only at h ⊢
      cases hg : graft_chk cmp (create_node s key val pri).1.mem fuel pos
        (create_node s key val pri).2 key with
      | none => rw [hg] at h; simp at h
      | some g =>
        rw [hg] at h
        rw [graft_chk_eq hg]
        simp only at h ⊢
        cases hl : rotate_loop_chk g.1 fuel g.2 (create_node s key val pri).2 with
        | none => rw [hl] at h; simp at h
        | some q =>
          rw [hl] at h
          rw [rotate_loop_chk_eq fuel _ _ _ _ hl]
          simp only at h ⊢
          cases he2 : empty_chk { (create_node s key val pri).1 with mem := q.1 } with
          | none => rw [he2] at h; simp at h
          | some b2 =>
            rw [he2] at h
            cases b2 with
            | true => simp at h
            | false => exact h

/-- The steps of `insert_` on a non-empty container, for an absent key and `pos` its
`lower_bound`: the graft passes its assertions and hangs the new leaf below the parent
that an ordinary binary-search-tree insertion chooses; the rebalancing loop passes its
assertions, makes at most as many rotations as the depth of the leaf, and leaves the
memory holding `insT`. -/
theorem insert_steps {s : treap} {t : Tree} (h : Inv s t) (hne : t ≠ .nil) (key val : Int)
    (pri : Nat) (hk : key ∉ t.keys) (fuel : Nat) (hf : t.height + 2 ≤ fuel) (x : Entry)
    (hx : x = ⟨s.brk, key, val, pri % 4294967296⟩) :
    ∃ m2 m3 ps,
      graft (create_node s key val pri).1.mem fuel (t.lbT key hdr) s.brk =
        some (m2, t.attachPar x hdr) ∧
      graft_chk lt (create_node s key val pri).1.mem fuel (t.lbT key hdr) s.brk key =
        some (m2, t.attachPar x hdr) ∧
      Rep m2 (t.attach x) (some hdr) ∧ m2 hdr = some (HdrOf t) ∧
      rotate_loop_chk m2 fuel (t.attachPar x hdr) s.brk = some (m3, ps) ∧
      ps.length ≤ t.depthOf x ∧ depth m2 fuel s.brk = some (t.depthOf x) ∧
      Rep m3 (t.insT x) (some hdr) ∧
      m3 hdr = some (Slot.root.put (HdrOf t) (t.insT x).ptr) := by
  have hxa : x.a = s.brk := by rw [hx]
  have hxk : x.k = key := by rw [hx]
  have hxp : x.p < 4294967296 := by rw [hx]; exact Nat.mod_lt _ (by decide)
  have hbrk : s.brk ≠ hdr := fun e => absurd h.brk_pos (by rw [e]; decide)
  have hxt : s.brk ∉ t.addrs := fun hm => absurd (h.fresh _ hm).2 (lt_irrefl _)
  have hhd := hdr_not_mem h
  have hdh := Tree.depthOf_le_height x t
  obtain ⟨m1, hm1⟩ : ∃ m1 : Mem, m1 = s.mem.set s.brk ⟨key, val, none, none, none,
    pri % 4294967296⟩ := ⟨_, rfl⟩
  have hd1 : m1 hdr = some (HdrOf t) := by
    rw [hm1, Mem.set_other _ _ hbrk.symm]; exact h.hd
  have rep1 : Rep m1 t (some hdr) := by
    refine h.rep.congr fun a ha => ?_
    rw [hm1]
    exact Mem.set_other _ _ (fun e => hxt (e ▸ ha))
  have hm1x : m1 s.brk = some ⟨x.k, x.v, none, none, none, x.p⟩ := by
    rw [hm1, hx]; exact Mem.set_same _ _ _
  simp only [create_node, ← hm1]
  have hgraft : ∃ m2, graft m1 fuel (t.lbT key hdr) s.brk = some (m2, t.attachPar x hdr) ∧
      Rep m2 (t.attach x) (some hdr) ∧ (∀ a, a ∉ t.addrs → a ≠ x.a → m2 a = m1 a) := by
    rw [← hxk, ← hxa]
    rw [← hxa] at hm1x hxt
    rw [← hxk] at hk
    rcases Tree.lbT_mem x.k t hdr with hin | heq
    · exact graft_inner rep1 h.nodup x hxt hk hdr hhd hin hm1x fuel (by omega) hdr
    · obtain ⟨m1', m2, hs1, hs2, hrep, hfr, hap⟩ :=
        graft_right rep1 hne h.nodup x hxt hdr hhd heq hm1x hdr hdr
      have hdec := dec_hdr hd1 rep1 hhd fuel (by omega)
      have hl : (HdrOf t).left = some (t.minA hdr) := rfl
      rw [heq, graft_dec hd1 hl fuel x.a hdec, hs1]
      simp only [Option.some_bind, hs2, Option.map_some', hap]
      exact ⟨m2, rfl, hrep, hfr⟩
  obtain ⟨m2, hg, hrep2, hfr2⟩ := hgraft
  have hgc : graft_chk lt m1 fuel (t.lbT key hdr) s.brk key =
      some (m2, t.attachPar x hdr) := by
    rw [← hxk, ← hxa]
    rw [← hxk, ← hxa] at hg
    exact graft_chk_spec hd1 rep1 h.nodup hhd h.sorted hne x (hxk ▸ hk) fuel hf hg
  have hn2 : (t.attach x).addrs.Nodup := by
    rw [(Tree.addrs_attach_perm x t).nodup_iff]
    exact List.nodup_cons.2 ⟨hxa ▸ hxt, h.nodup⟩
  have hh2 : hdr ∉ (t.attach x).addrs := by
    rw [mem_attach_addrs]
    rintro (h' | h')
    · exact hbrk (by rw [← hxa, ← h'])
    · exact hhd h'
  have hm2h : m2 hdr = some (HdrOf t) := by
    rw [hfr2 hdr hhd (fun e => hbrk (by rw [← hxa, ← e])), hd1]
  have hsl : ∀ a, (t.attach x).ptr = some a → IsSlot .root hdr (HdrOf t) a := by
    intro a ha
    rw [Tree.attach_ptr x hne] at ha
    exact ⟨rfl, ha⟩
  obtain ⟨m3, ps, hps, hrep3, hm3h, hfr3, hloop⟩ :=
    rotate_loop_chk_spec x hrep2 hn2 hh2 hh2 hm2h hsl
  have hxmem : x ∈ (t.insT x).toList := by
    rw [Tree.toList_insT, Tree.mem_attach]; exact Or.inl rfl
  obtain ⟨xn, hxn, _, _, hxnp⟩ := hrep3.get hxmem
  have hstop : ∀ f, rotate_loop_chk m3 (f + 1) hdr x.a = some (m3, []) := by
    intro f
    have : ¬ UINT32_MAX < x.p := by
      simp only [UINT32_MAX]; omega
    simp [rotate_loop_chk, hm3h, hxn, hxnp, Slot.put, HdrOf, this]
  have hloop' : rotate_loop_chk m2 fuel (t.attachPar x hdr) x.a = some (m3, ps) := by
    obtain ⟨f, rfl⟩ : ∃ f, fuel = f + 1 + ps.length := ⟨fuel - 1 - ps.length, by omega⟩
    rcases hloop with ⟨_, hl⟩ | ⟨_, hl⟩
    · rw [hl, hstop]
      simp
    · rw [Nat.add_right_comm, hl]
  have hdepth : depth m2 fuel x.a = some (t.depthOf x) := by
    obtain ⟨f, rfl⟩ : ∃ f, fuel = f + t.depthOf x + 1 := ⟨fuel - 1 - t.depthOf x, by omega⟩
    rw [depth_attach x hrep2 hh2 f, if_pos rfl]
  rw [hxa] at hloop' hdepth
  exact ⟨m2, m3, ps, hg, hgc, hrep2, hm2h, hloop', hps, hdepth, hrep3, hm3h⟩

/-- No assertion of `insert_` fails when it is reached with `pos` being the `lower_bound`
of an absent key. -/
theorem insert__chk_inv {s : treap} {t : Tree} (h : Inv s t) (key val : Int) (pri : Nat)
    (hk : key ∉ t.keys) (fuel : Nat) (hf : t.height + 2 ≤ fuel) :
    insert__chk lt fuel s (t.lbT key hdr) key val pri =
      insert_ lt fuel s (t.lbT key hdr) key val pri := by
  obtain ⟨s', hs', _, _⟩ := insert__spec h key val pri hk fuel hf
  suffices hsome : (insert__chk lt fuel s (t.lbT key hdr) key val pri).isSome = true by
    obtain ⟨r, hr⟩ := Option.isSome_iff_exists.1 hsome
    rw [hr, insert__chk_eq hr]
  obtain ⟨x, hx⟩ : ∃ x : Entry, x = ⟨s.brk, key, val, pri % 4294967296⟩ := ⟨_, rfl⟩
  have hxa : x.a = s.brk := by rw [hx]
  have hxk : x.k = key := by rw [hx]
  have hbrk : s.brk ≠ hdr := fun e => absurd h.brk_pos (by rw [e]; decide)
  have hxt : s.brk ∉ t.addrs := fun hm => absurd (h.fresh _ hm).2 (lt_irrefl _)
  have hhd := hdr_not_mem h
  by_cases hne : t = .nil
  · subst hne
    have hd1 : (s.mem.set s.brk ⟨key, val, none, none, none, pri % 4294967296⟩) hdr =
        some (HdrOf .nil) := by
      rw [Mem.set_other _ _ hbrk.symm]; exact h.hd
    simp only [HdrOf, Tree.minA, Tree.maxA, Tree.ptr] at hd1
    simp [insert__chk, create_node, empty_chk, hd1, setPar, setLeft, setRight,
      Mem.set_apply, hbrk.symm, hbrk, root_chk]
  · obtain ⟨m2, m3, ps, _, hgc, _, _, hloop, _, _, hrep3, hm3h⟩ :=
      insert_steps h hne key val pri hk fuel hf x hx
    have hh3 : hdr ∉ (t.insT x).addrs := by
      rw [Tree.addrs_insT, mem_attach_addrs]
      rintro (h' | h')
      · exact hbrk (by rw [← hxa, ← h'])
      · exact hhd h'
    have hm3h' : m3 hdr = some ⟨0, 0, some (t.minA hdr), some (t.maxA hdr), (t.insT x).ptr,
        UINT32_MAX⟩ := hm3h
    obtain ⟨m4, hu, _, _⟩ :=
      update_ends_spec x hne hm3h' hrep3 h.sorted (hxk ▸ hk) hh3
    have hd1 : (s.mem.set s.brk ⟨key, val, none, none, none, pri % 4294967296⟩) hdr =
        some (HdrOf t) := by
      rw [Mem.set_other _ _ hbrk.symm]; exact h.hd
    have hl1 : (HdrOf t).left ≠ some hdr := by
      simp only [HdrOf, ne_eq, Option.some.injEq]
      exact minA_ne_hdr hhd hne
    have he1 : empty_chk (create_node s key val pri).1 = some false := by
      have := minA_ne_hdr hhd hne
      simp [empty_chk, create_node, hd1, HdrOf, this]
    have he3 : empty_chk { (create_node s key val pri).1 with mem := m3 } = some false := by
      have := minA_ne_hdr hhd hne
      simp [empty_chk, hm3h', this]
    rw [hxa] at hu
    simp only [create_node] at he1 hgc he3
    simp only [insert__chk, create_node, he1, hgc, hloop, he3, hu, Option.map_some',
      Option.isSome_some]

/-! ### The assertions of `assign_and_keep` and `merge` -/

theorem Rep.child_points_back {m : Mem} {t : Tree} {a : Nat} (hr : Rep m t (some a)) :
    child_points_back m a t.ptr = true := by
  cases t with
  | nil => rfl
  | node l e r => simp [bst.child_points_back, Tree.ptr, hr.1]

/-- No assertion fails in `assign_and_keep(par->left, src, par)` with a non-null `src`. -/
theorem assign_and_keep_chk_left {m : Mem} {par d : Nat} {pn dn : node} (lv : Option Nat)
    (hp : m par = some pn) (hd : m d = some dn) (hdp : d ≠ par) (hph : par ≠ hdr)
    (h1 : pn.left ≠ some hdr) (h2 : pn.left ≠ some par) :
    assign_and_keep_chk m lv (.leftOf par) (some d) par =
      assign_and_keep m lv (.leftOf par) (some d) par := by
  obtain ⟨m', hak, hm'p, hm'd, _⟩ := assign_and_keep_left lv hp hd hdp hph
  have hsp : (some d : Option Nat) ≠ some par := fun h => hdp (Option.some.inj h)
  simp only [assign_and_keep_chk, Ref.get, hp, Option.map_some', hak, h1, h2, hsp, hph,
    ne_eq, not_false_eq_true, if_false, true_or, and_self, if_true, hm'p, child_points_back,
    hm'd, decide_True, and_true, ite_self]

/-- No assertion fails in `assign_and_keep(par->right, src, par)` with a non-null `src`. -/
theorem assign_and_keep_chk_right {m : Mem} {par d : Nat} {pn dn : node} (lv : Option Nat)
    (hp : m par = some pn) (hd : m d = some dn) (hdp : d ≠ par) (hph : par ≠ hdr)
    (hlr : ∀ y, pn.right = some y → pn.left ≠ some y)
    (h1 : pn.right ≠ some hdr) (h2 : pn.right ≠ some par) :
    assign_and_keep_chk m lv (.rightOf par) (some d) par =
      assign_and_keep m lv (.rightOf par) (some d) par := by
  obtain ⟨m', hak, hm'p, hm'd, _⟩ := assign_and_keep_right lv hp hd hdp hph hlr
  have hsp : (some d : Option Nat) ≠ some par := fun h => hdp (Option.some.inj h)
  simp only [assign_and_keep_chk, Ref.get, hp, Option.map_some', hak, h1, h2, hsp, hph,
    ne_eq, not_false_eq_true, if_false, or_true, and_self, if_true, hm'p, child_points_back,
    hm'd, decide_True, and_true, ite_self]

/-- No assertion fails in `assign_and_keep(pos.node, src, par)` when `par` owns `pos`. -/
theorem assign_and_keep_chk_loc {m : Mem} {par x : Nat} {pn : node} {sl : Slot}
    (hp : m par = some pn) (hs : IsSlot sl par pn x) (src : Option Nat)
    (hsrc : ∀ d, src = some d → d ≠ par ∧ ∃ dn, m d = some dn) (hxh : x ≠ hdr)
    (hxp : x ≠ par) :
    assign_and_keep_chk m (some x) .loc src par = assign_and_keep m (some x) .loc src par := by
  obtain ⟨m', hak, hm'p, hm'd, _⟩ := assign_and_keep_loc hp hs src hsrc
  have hsp : src ≠ some par := fun h => (hsrc par h).1 rfl
  have hx1 : (some x : Option Nat) ≠ some hdr := fun h => hxh (Option.some.inj h)
  have hx2 : (some x : Option Nat) ≠ some par := fun h => hxp (Option.some.inj h)
  have hcb : child_points_back m' par src = true := by
    cases src with
    | none => rfl
    | some d =>
      obtain ⟨_, dn, hdn⟩ := hsrc d rfl
      simp [child_points_back, hm'd d rfl, hdn]
  cases sl with
  | root =>
    obtain ⟨h1, h2⟩ := hs
    subst h1
    simp only [assign_and_keep_chk, Ref.get, hp, hak, hx1, hsp, h2, ne_eq,
      not_false_eq_true, if_true, and_self, not_true_eq_false, and_false, if_false]
  | left =>
    obtain ⟨h1, _, h3⟩ := hs
    have hl : (Slot.left.put pn src).left = src := rfl
    simp only [assign_and_keep_chk, Ref.get, hp, hak, hx1, hx2, hsp, h1, h3, ne_eq,
      not_false_eq_true, if_false, true_or, and_self, if_true, hm'p, hcb, hl]
    simp
  | right =>
    obtain ⟨h1, _, _, h4⟩ := hs
    have hl : (Slot.right.put pn src).right = src := rfl
    simp only [assign_and_keep_chk, Ref.get, hp, hak, hx1, hx2, hsp, h1, h4, ne_eq,
      not_false_eq_true, if_false, or_true, and_self, if_true, hm'p, hcb, hl]
    simp

/-- No assertion of `merge` fails on two represented subtrees. -/
theorem merge_chk_rep (fuel : Nat) :
    ∀ (l r : Tree) (m : Mem) (a b : Nat), l.size + r.size < fuel →
      Rep m l (some a) → Rep m r (some b) → (l.addrs ++ r.addrs).Nodup →
      hdr ∉ l.addrs ++ r.addrs →
      merge_chk m fuel l.ptr r.ptr = merge m fuel l.ptr r.ptr := by
  induction fuel with
  | zero => intro l r m ql qr h; omega
  | succ f ih =>
    intro l r m pa pb hsz hl hr hn hh
    cases l with
    | nil => simp [merge, merge_chk, Tree.ptr]
    | node ll a lr =>
      cases r with
      | nil => simp [merge, merge_chk, Tree.ptr]
      | node rl b rr =>
        have hl1 := hl.1
        have hr1 := hr.1
        have hnd := List.nodup_append.1 hn
        obtain ⟨hlln, hlrn, hal, har, hllr⟩ := nodup_node hnd.1
        obtain ⟨hrln, hrrn, hbl, hbr, hrlr⟩ := nodup_node hnd.2.1
        have hdis : ∀ y, y ∈ (Tree.node ll a lr).addrs → y ∉ (Tree.node rl b rr).addrs :=
          fun y h1 h2 => hnd.2.2 h1 h2
        simp only [List.mem_append, not_or] at hh
        simp only [Tree.size] at hsz
        have hc1 := hl.2.1.child_points_back
        have hc2 := hl.2.2.child_points_back
        have hc3 := hr.2.1.child_points_back
        have hc4 := hr.2.2.child_points_back
        have hpl : (Tree.node ll a lr).ptr = some a.a := rfl
        have hpr : (Tree.node rl b rr).ptr = some b.a := rfl
        simp only [hpl, hpr, merge, merge_chk, hl1, hr1, hc1, hc2, hc3, hc4, and_self, if_true]
        by_cases hp : a.p < b.p
        · simp only [hp, if_true]
          have hn1 : ((Tree.node ll a lr).addrs ++ rl.addrs).Nodup := by
            refine List.nodup_append.2 ⟨hnd.1, hrln, fun y h1 h2 => ?_⟩
            exact hdis y h1 (by simp [Tree.addrs_node, h2])
          have hh1 : hdr ∉ (Tree.node ll a lr).addrs ++ rl.addrs := by
            simp only [List.mem_append, not_or]
            exact ⟨hh.1, fun h => hh.2 (by simp [Tree.addrs_node, h])⟩
          have hih := ih (Tree.node ll a lr) rl m pa b.a (by simp only [Tree.size]; omega) hl
            hr.2.1 hn1 hh1
          obtain ⟨m1, q1, hm, hrep1, hfr1⟩ :=
            merge_spec f (Tree.node ll a lr) rl m (some pa) (some b.a)
              (by simp only [Tree.size]; omega) hl hr.2.1 hn1 hh1
          have hne : Tree.mergeT (Tree.node ll a lr) rl ≠ .nil := by
            intro h
            have := Tree.addrs_mergeT (Tree.node ll a lr) rl
            rw [h] at this
            simp [Tree.addrs, Tree.toList] at this
          obtain ⟨sl, se, sr, hs⟩ := Tree.ptr_some_of_ne_nil hne
          have hsa : (Tree.node sl se sr).addrs = (Tree.node ll a lr).addrs ++ rl.addrs := by
            rw [← hs, Tree.addrs_mergeT]
          have hbnot : b.a ∉ (Tree.node sl se sr).addrs := by
            rw [hsa]
            simp only [List.mem_append, not_or]
            exact ⟨fun h => hdis _ h (by simp [Tree.addrs_node]), hbl⟩
          have hm1b : m1 b.a = some ⟨b.k, b.v, rl.ptr, rr.ptr, some pb, b.p⟩ := by
            rw [hfr1 b.a (fun h => hdis _ h (by simp [Tree.addrs_node])) hbl, hr1]
          rw [hpl] at hih hm
          rw [hih, hm, hs]
          rw [hs] at hrep1
          have hseb : se.a ≠ b.a := fun h => hbnot (by simp [Tree.addrs_node, ← h])
          have hbh : b.a ≠ hdr := fun h => hh.2 (by simp [Tree.addrs_node, ← h])
          have h1 : rl.ptr ≠ some hdr :=
            fun h => hh.2 (by simp [Tree.addrs_node, Tree.ptr_mem h])
          have h2 : rl.ptr ≠ some b.a := fun h => hbl (Tree.ptr_mem h)
          simp only [Tree.ptr]
          rw [assign_and_keep_chk_left none hm1b hrep1.1 hseb hbh h1 h2]
        · simp only [hp, if_false]
          have hn1 : (lr.addrs ++ (Tree.node rl b rr).addrs).Nodup := by
            refine List.nodup_append.2 ⟨hlrn, hnd.2.1, fun y h1 h2 => ?_⟩
            exact hdis y (by simp [Tree.addrs_node, h1]) h2
          have hh1 : hdr ∉ lr.addrs ++ (Tree.node rl b rr).addrs := by
            simp only [List.mem_append, not_or]
            exact ⟨fun h => hh.1 (by simp [Tree.addrs_node, h]), hh.2⟩
          have hih := ih lr (Tree.node rl b rr) m a.a pb (by simp only [Tree.size]; omega)
            hl.2.2 hr hn1 hh1
          obtain ⟨m1, q1, hm, hrep1, hfr1⟩ :=
            merge_spec f lr (Tree.node rl b rr) m (some a.a) (some pb)
              (by simp only [Tree.size]; omega) hl.2.2 hr hn1 hh1
          have hne : Tree.mergeT lr (Tree.node rl b rr) ≠ .nil := by
            intro h
            have := Tree.addrs_mergeT lr (Tree.node rl b rr)
            rw [h] at this
            simp [Tree.addrs, Tree.toList] at this
          obtain ⟨sl, se, sr, hs⟩ := Tree.ptr_some_of_ne_nil hne
          have hsa : (Tree.node sl se sr).addrs = lr.addrs ++ (Tree.node rl b rr).addrs := by
            rw [← hs, Tree.addrs_mergeT]
          have hanot : a.a ∉ (Tree.node sl se sr).addrs := by
            rw [hsa]
            simp only [List.mem_append, not_or]
            exact ⟨har, hdis _ (by simp [Tree.addrs_node])⟩
          have hm1a : m1 a.a = some ⟨a.k, a.v, ll.ptr, lr.ptr, some pa, a.p⟩ := by
            rw [hfr1 a.a har (hdis _ (by simp [Tree.addrs_node])), hl1]
          rw [hpr] at hih hm
          rw [hih, hm, hs]
          rw [hs] at hrep1
          have hsea : se.a ≠ a.a := fun h => hanot (by simp [Tree.addrs_node, ← h])
          have hah : a.a ≠ hdr := fun h => hh.1 (by simp [Tree.addrs_node, ← h])
          have hlrne : ∀ y, lr.ptr = some y → ll.ptr ≠ some y := by
            intro y h1 h2
            exact hllr y (Tree.ptr_mem h2) (Tree.ptr_mem h1)
          have h1 : lr.ptr ≠ some hdr :=
            fun h => hh.1 (by simp [Tree.addrs_node, Tree.ptr_mem h])
          have h2 : lr.ptr ≠ some a.a := fun h => har (Tree.ptr_mem h)
          simp only [Tree.ptr]
          rw [assign_and_keep_chk_right none hm1a hrep1.1 hsea hah hlrne h1 h2]

/-! ### The assertions of `erase_` -/

/-- No assertion of `merge` and of `assign_and_keep` fails in the core of `erase_`. -/
theorem unlink_chk {t : Tree} {m : Mem} {g : Nat} {gn : node} {sl : Slot} {x : Nat}
    (hr : Rep m t (some g)) (hn : t.addrs.Nodup) (hgn : g ∉ t.addrs) (hh : hdr ∉ t.addrs)
    (hg : m g = some gn) (hs : ∀ a, t.ptr = some a → IsSlot sl g gn a) (hx : x ∈ t.addrs)
    (fuel : Nat) (hf : t.size < fuel) :
    ∀ xn m2 src par, m x = some xn → merge m fuel xn.left xn.right = some (m2, src) →
      (∃ xn2, m2 x = some xn2 ∧ xn2.par = some par) →
      merge_chk m fuel xn.left xn.right = some (m2, src) ∧
        assign_and_keep_chk m2 (some x) .loc src par =
          assign_and_keep m2 (some x) .loc src par := by
  induction t generalizing m g gn sl with
  | nil => simp [Tree.addrs, Tree.toList] at hx
  | node l e r ihl ihr =>
    obtain ⟨h1, h2, h3⟩ := hr
    obtain ⟨hln, hrn, hel, her, hlr⟩ := nodup_node hn
    have hge : g ≠ e.a := fun h => hgn (by simp [Tree.addrs_node, h])
    have hgl : g ∉ l.addrs := fun h => hgn (by simp [Tree.addrs_node, h])
    have hgr : g ∉ r.addrs := fun h => hgn (by simp [Tree.addrs_node, h])
    have hhe : e.a ≠ hdr := fun h => hh (by simp [Tree.addrs_node, h])
    have hhl : hdr ∉ l.addrs := fun h => hh (by simp [Tree.addrs_node, h])
    have hhr : hdr ∉ r.addrs := fun h => hh (by simp [Tree.addrs_node, h])
    simp only [Tree.size] at hf
    by_cases hex : e.a = x
    · subst hex
      intro xn m2 src par hxn hm hpar
      rw [h1] at hxn
      cases hxn
      simp only at hm ⊢
      have hnlr : (l.addrs ++ r.addrs).Nodup :=
        List.nodup_append.2 ⟨hln, hrn, fun y h1 h2 => hlr y h1 h2⟩
      have hhlr : hdr ∉ l.addrs ++ r.addrs := by
        simp only [List.mem_append, not_or]; exact ⟨hhl, hhr⟩
      have hchk := merge_chk_rep fuel l r m e.a e.a (by omega) h2 h3 hnlr hhlr
      obtain ⟨m2', q, hm', hrep2, hfr2⟩ :=
        merge_spec fuel l r m (some e.a) (some e.a) (by omega) h2 h3 hnlr hhlr
      rw [hm'] at hm
      cases hm
      have hm2x : m2 e.a = m e.a := hfr2 e.a hel her
      have hm2g : m2 g = some gn := by rw [hfr2 g hgl hgr, hg]
      have haddr := Tree.addrs_mergeT l r
      have hsrc : ∀ d, (Tree.mergeT l r).ptr = some d → d ≠ g ∧ ∃ dn, m2 d = some dn := by
        intro d hd
        have hdm := Tree.ptr_mem hd
        refine ⟨fun h => ?_, hrep2.live hdm⟩
        rw [haddr, List.mem_append] at hdm
        rcases hdm with h' | h'
        · exact hgl (h ▸ h')
        · exact hgr (h ▸ h')
      obtain ⟨xn2, hxn2, hp2⟩ := hpar
      rw [hm2x, h1] at hxn2
      cases hxn2
      simp only [Option.some.injEq] at hp2
      subst hp2
      exact ⟨hchk.trans hm', assign_and_keep_chk_loc hm2g (hs e.a rfl) _ hsrc hhe hge.symm⟩
    · have hxe : x ≠ e.a := fun h => hex h.symm
      by_cases hxl : x ∈ l.addrs
      · have hsl : ∀ a, l.ptr = some a →
            IsSlot .left e.a ⟨e.k, e.v, l.ptr, r.ptr, some g, e.p⟩ a := by
          intro a ha
          refine ⟨hhe, ?_, ha⟩
          simp only [ne_eq, Option.some.injEq]
          intro h
          exact hgl (h ▸ Tree.ptr_mem ha)
        exact ihl h2 hln hel hhl h1 hsl hxl (by omega)
      · have hxr : x ∈ r.addrs := by
          simp only [Tree.addrs_node, List.mem_append, List.mem_cons] at hx
          rcases hx with h | h | h
          · exact absurd h hxl
          · exact absurd h hxe
          · exact h
        have hsr : ∀ a, r.ptr = some a →
            IsSlot .right e.a ⟨e.k, e.v, l.ptr, r.ptr, some g, e.p⟩ a := by
          intro a ha
          refine ⟨hhe, ?_, ?_, ha⟩
          · simp only [ne_eq, Option.some.injEq]
            intro h
            exact hgr (h ▸ Tree.ptr_mem ha)
          · intro h
            exact hlr a (Tree.ptr_mem h) (Tree.ptr_mem ha)
        exact ihr h3 hrn her hhr h1 hsr hxr (by omega)

/-- The assertions of `n_begin()` and `n_rightmost()` hold in the update of the cached
ends. -/
theorem erase_ends_chk_hdr {m : Mem} {h : node} (hd : m hdr = some h) (hl : h.left ≠ none)
    (hr : h.right ≠ none) (fuel pos next_it b : Nat) :
    erase_ends_chk m fuel pos next_it b = erase_ends m fuel pos next_it b := by
  simp only [erase_ends_chk, erase_ends, hd, hl, hr, if_false]

/-- No assertion of `erase_` fails on a node of the container. -/
theorem erase__chk_inv {s : treap} {t : Tree} (h : Inv s t) {x : Nat} (hx : x ∈ t.addrs)
    (fuel : Nat) (hf : t.size + 2 ≤ fuel) : erase__chk fuel s x = erase_ fuel s x := by
  have hhd := hdr_not_mem h
  have hxh : x ≠ hdr := fun e => hhd (e ▸ hx)
  have hends : ∀ nx b, erase_ends_chk s.mem fuel x nx b = erase_ends s.mem fuel x nx b :=
    fun nx b => erase_ends_chk_hdr h.hd (by simp [HdrOf]) (by simp [HdrOf]) fuel x nx b
  simp only [erase__chk, erase_, end_, if_neg hxh, hends]
  cases hinc : inc s.mem fuel x with
  | none => rfl
  | some nx =>
    cases hb : begin_ s with
    | none => rfl
    | some b =>
      simp only
      cases hm1 : erase_ends s.mem fuel x nx b with
      | none => rfl
      | some m1 =>
        simp only
        -- the header after the update of the cached ends
        have hm1f : ∀ y, y ≠ hdr → m1 y = s.mem y := by
          intro y hy
          unfold erase_ends at hm1
          split at hm1
          · simp only [setLeft, h.hd, Option.some.injEq] at hm1
            rw [← hm1, Mem.set_other _ _ hy]
          · split at hm1
            · cases hd : dec s.mem fuel x with
              | none => rw [hd] at hm1; simp at hm1
              | some p =>
                rw [hd] at hm1
                simp only [setRight, h.hd, Option.some.injEq] at hm1
                rw [← hm1, Mem.set_other _ _ hy]
            · simp only [Option.some.injEq] at hm1
              rw [← hm1]
        obtain ⟨hn1, hm1h, hpar1⟩ : ∃ hn1, m1 hdr = some hn1 ∧ hn1.par = t.ptr := by
          unfold erase_ends at hm1
          split at hm1
          · simp only [setLeft, h.hd, Option.some.injEq] at hm1
            exact ⟨_, by rw [← hm1, Mem.set_same], rfl⟩
          · split at hm1
            · cases hd : dec s.mem fuel x with
              | none => rw [hd] at hm1; simp at hm1
              | some p =>
                rw [hd] at hm1
                simp only [setRight, h.hd, Option.some.injEq] at hm1
                exact ⟨_, by rw [← hm1, Mem.set_same], rfl⟩
            · simp only [Option.some.injEq] at hm1
              exact ⟨_, by rw [← hm1]; exact h.hd, rfl⟩
        have hrep1 : Rep m1 t (some hdr) :=
          h.rep.congr fun a ha => hm1f a (fun e => hhd (e ▸ ha))
        have hsl : ∀ a, t.ptr = some a → IsSlot .root hdr hn1 a :=
          fun a ha => ⟨rfl, hpar1.trans ha⟩
        have hu := unlink_chk hrep1 h.nodup hhd hhd hm1h hsl hx fuel (by omega)
        cases hxn : m1 x with
        | none => rfl
        | some xn =>
          simp only
          cases hm : merge m1 fuel xn.left xn.right with
          | none =>
            cases hmc : merge_chk m1 fuel xn.left xn.right with
            | none => rfl
            | some r => rw [merge_chk_eq fuel _ _ _ _ hmc] at hm; cases hm
          | some r =>
            obtain ⟨m2, src⟩ := r
            cases hxn2 : m2 x with
            | none =>
              cases hmc : merge_chk m1 fuel xn.left xn.right with
              | none => simp only [hxn2]
              | some r =>
                have := merge_chk_eq fuel _ _ _ _ hmc
                rw [hm] at this
                cases this
                simp only [hxn2]
            | some xn2 =>
              cases hp : xn2.par with
              | none =>
                cases hmc : merge_chk m1 fuel xn.left xn.right with
                | none => simp only [hxn2, hp]
                | some r =>
                  have := merge_chk_eq fuel _ _ _ _ hmc
                  rw [hm] at this
                  cases this
                  simp only [hxn2, hp]
              | some par =>
                obtain ⟨hmc, hak⟩ := hu xn m2 src par hxn hm ⟨xn2, hxn2, hp⟩
                simp only [hmc, hxn2, hp, assign_and_destroy_chk, assign_and_destroy, if_neg hxh,
                  hak]

/-! ### The assertions of the public operations -/

/-- The test `it != end() && it.node->key() == key` on the `lower_bound` of a key tells
whether the key is stored. -/
theorem lb_test {s : treap} {t : Tree} (h : Inv s t) (key : Int) :
    (if t.lbT key hdr ≠ end_ then (s.mem (t.lbT key hdr)).map fun n => decide (n.key = key)
      else some false) = some (decide (key ∈ t.keys)) := by
  have hhd := hdr_not_mem h
  by_cases hk : key ∈ t.keys
  · obtain ⟨e, he, rfl⟩ := mem_keys.1 hk
    obtain ⟨n, hn, hnk, _, _⟩ := h.rep.get he
    have heh : e.a ≠ hdr := fun h' => hhd (h' ▸ List.mem_map_of_mem Entry.a he)
    simp [lbT_of_mem h.sorted he hdr, end_, heh, hn, hnk, hk]
  · rcases lbT_char key t hdr h.sorted with ⟨hlb, _⟩ | ⟨e, he, hlb, _, _⟩
    · simp [hlb, end_, hk]
    · obtain ⟨n, hn, hnk, _, _⟩ := h.rep.get he
      have heh : e.a ≠ hdr := fun h' => hhd (h' ▸ List.mem_map_of_mem Entry.a he)
      have hne : e.k ≠ key := fun h' => hk (mem_keys.2 ⟨e, he, h'⟩)
      simp [hlb, end_, heh, hn, hnk, hk, hne]

/-- No assertion fails in `insert(value)`. -/
theorem insert_chk_inv {s : treap} {t : Tree} (h : Inv s t) (key val : Int) (pri fuel : Nat)
    (hf : t.height + 2 ≤ fuel) :
    insert_chk lt fuel s key val pri = insert lt fuel s key val pri := by
  simp only [insert_chk, insert, lower_bound_chk_inv h key fuel (by omega),
    lower_bound_eq h key fuel (by omega), lb_test h key]
  by_cases hk : key ∈ t.keys
  · simp [hk]
  · simp only [hk, decide_False, insert__chk_inv h key val pri hk fuel hf]

/-- No assertion fails in `insert(pos, value)`. -/
theorem insert_hint_chk_inv {s : treap} {t : Tree} (h : Inv s t) {pos : Nat}
    (hpos : pos = hdr ∨ pos ∈ t.addrs) (key val : Int) (pri fuel : Nat)
    (hf : t.height + 2 ≤ fuel) :
    insert_hint_chk lt fuel s pos key val pri = insert_hint lt fuel s pos key val pri := by
  obtain ⟨bad, hb, hbad⟩ := hint_bad_spec h hpos key fuel hf
  have hpos1 : (if bad then lower_bound_chk lt fuel s key else some pos) =
      some (t.lbT key hdr) := by
    cases bad with
    | true => simp [lower_bound_chk_inv h key fuel (by omega)]
    | false => simp [hbad rfl]
  have hpos2 : (if bad then lower_bound lt fuel s key else some pos) =
      some (t.lbT key hdr) := by
    cases bad with
    | true => simp [lower_bound_eq h key fuel (by omega)]
    | false => simp [hbad rfl]
  simp only [insert_hint_chk, insert_hint, hb, hpos1, hpos2, lb_test h key]
  by_cases hk : key ∈ t.keys
  · simp [hk]
  · simp only [hk, decide_False, insert__chk_inv h key val pri hk fuel hf]

/-- No assertion fails in `erase(key)`. -/
theorem erase_chk_inv {s : treap} {t : Tree} (h : Inv s t) (key : Int) (fuel : Nat)
    (hf : t.size + 2 ≤ fuel) : erase_chk lt fuel s key = erase lt fuel s key := by
  have hht := Tree.height_le_size t
  simp only [erase_chk, erase, find_chk_inv h key fuel (by omega)]
  by_cases hk : key ∈ t.keys
  · obtain ⟨e, he, rfl⟩ := mem_keys.1 hk
    simp only [find_of_mem h he fuel (by omega),
      erase__chk_inv h (List.mem_map_of_mem Entry.a he) fuel hf]
  · simp only [find_of_not_mem h hk fuel (by omega), if_true]

/-- No assertion fails in `operator[]`. -/
theorem subscript_chk_inv {s : treap} {t : Tree} (h : Inv s t) (key : Int) (pri fuel : Nat)
    (hf : t.height + 2 ≤ fuel) :
    subscript_chk lt fuel s key pri = subscript lt fuel s key pri := by
  simp only [subscript_chk, subscript, find_chk_inv h key fuel (by omega),
    insert_chk_inv h key 0 pri fuel hf]
  by_cases hk : key ∈ t.keys
  · obtain ⟨e, he, rfl⟩ := mem_keys.1 hk
    have heh : e.a ≠ end_ := by
      intro h'
      have hm : e.a ∈ t.addrs := List.mem_map_of_mem Entry.a he
      rw [h'] at hm
      exact hdr_not_mem h hm
    simp only [find_of_mem h he fuel (by omega), ne_eq, heh, not_false_eq_true, if_true]
  · obtain ⟨s', hs', _, _⟩ := insert_of_not_mem h key 0 pri hk fuel hf
    simp only [find_of_not_mem h hk fuel (by omega), ne_eq, not_true_eq_false, if_false, hs',
      if_true, Option.map_some']

/-- No assertion fails in a call of a public mutating operation on a well-formed
container. -/
theorem call_chk_inv {s : treap} {t : Tree} (h : Inv s t) (fuel : Nat) (hf : t.size + 2 ≤ fuel)
    (c : Call) (hc : call_ok fuel s c = true) : call_chk fuel s c = call fuel s c := by
  have hht := Tree.height_le_size t
  cases c with
  | insert key val pri =>
    simp only [call_chk, call, insert_chk_inv h key val pri fuel (by omega)]
  | insert_hint pos key val pri =>
    simp only [call_chk, call,
      insert_hint_chk_inv h ((is_iterator_iff h fuel hf pos).1 hc) key val pri fuel (by omega)]
  | erase_it pos =>
    simp only [call_chk, call, erase_it_chk, erase_it,
      erase__chk_inv h ((is_element_iff h fuel hf pos).1 hc) fuel hf]
  | erase key => simp only [call_chk, call, erase_chk_inv h key fuel hf]
  | subscript key pri =>
    simp only [call_chk, call, subscript_chk_inv h key pri fuel (by omega)]

/-! ### Parent consistency -/

/-- A represented tree is parent consistent. -/
theorem par_ok_rep {m : Mem} {t : Tree} {q : Option Nat} (hr : Rep m t q)
    (hn : t.addrs.Nodup) (hq : ∀ a ∈ t.addrs, q ≠ some a) (fuel : Nat) (hf : t.height < fuel) :
    par_ok m fuel t.ptr q = some true := by
  induction t generalizing q fuel with
  | nil =>
    cases fuel with
    | zero => omega
    | succ f => rfl
  | node l e r ihl ihr =>
    obtain ⟨h1, h2, h3⟩ := hr
    obtain ⟨hln, hrn, hel, her, _⟩ := nodup_node hn
    cases fuel with
    | zero => omega
    | succ f =>
      simp only [Tree.height] at hf
      have hl := ihl h2 hln (fun a ha h' => hel (Option.some.inj h' ▸ ha)) f (by omega)
      have hr' := ihr h3 hrn (fun a ha h' => her (Option.some.inj h' ▸ ha)) f (by omega)
      have hqe : q ≠ some e.a := hq e.a (by simp [Tree.addrs_node])
      have hle : l.ptr ≠ some e.a := fun h => hel (Tree.ptr_mem h)
      have hre : r.ptr ≠ some e.a := fun h => her (Tree.ptr_mem h)
      have hp : (Tree.node l e r).ptr = some e.a := rfl
      simp only [hp, par_ok, h1, hl, hr']
      simp [hqe, hle, hre]

/-- A well-formed container is parent consistent. -/
theorem parent_consistent_inv {s : treap} {t : Tree} (h : Inv s t) (fuel : Nat)
    (hf : t.height < fuel) : parent_consistent fuel s = some true := by
  simp only [parent_consistent, h.hd]
  refine par_ok_rep h.rep h.nodup (fun a ha h' => ?_) fuel hf
  exact hdr_not_mem h (Option.some.inj h' ▸ ha)

/-! ### Uniqueness under the ordering rule, parent consistency, the rebalancing loop
(C22, C26, C30) -/

/-- The ordering rule `by_halves` is a strict weak ordering: it is irreflexive and
transitive, and so is the equivalence "neither is less than the other". -/
theorem by_halves_strict_weak :
    (∀ a, by_halves a a = false) ∧
      (∀ a b c, by_halves a b = true → by_halves b c = true → by_halves a c = true) ∧
      ∀ a b c, by_halves a b = false → by_halves b a = false → by_halves b c = false →
        by_halves c b = false → by_halves a c = false ∧ by_halves c a = false := by
  simp only [by_halves, decide_eq_true_eq, decide_eq_false_iff_not]
  refine ⟨fun a => lt_irrefl _, fun a b c h1 h2 => lt_trans h1 h2, fun a b c h1 h2 h3 h4 => ?_⟩
  constructor <;> omega

/-- C22, evaluated at the failing input: with the ordering rule `by_halves`, under which
2 and 3 are equivalent, `insert(3)` into the container that holds 2 returns `true` and
stores a second node, so that `size()` is 2; afterwards `find(2)` returns `end()`
although 2 is stored, and the iteration from `begin()` meets the key 2 only. The debug
build stops in that `insert` at the assertion `Compare()(key, key_of(*par))` of
`insert_`. -/
theorem equivalent_key_is_stored :
    by_halves 2 3 = false ∧ by_halves 3 2 = false ∧
    ((insert by_halves 5 treap.new 2 0 20).map fun r => r.2) = some (1, true) ∧
    ((insert by_halves 5 treap.new 2 0 20).bind fun r =>
      (insert by_halves 5 r.1 3 0 10).map fun q => q.2) = some (2, true) ∧
    halves_state.map size = some 2 ∧
    (halves_state.bind fun s => find by_halves 5 s 2) = some end_ ∧
    (halves_state.bind fun s => find by_halves 5 s 3) = some 2 ∧
    (halves_state.bind fun s => keys_in_order 5 s) = some [2] ∧
    ((insert_chk by_halves 5 treap.new 2 0 20).map fun r => r.2) = some (1, true) ∧
    ((insert by_halves 5 treap.new 2 0 20).bind fun r =>
      (insert_chk by_halves 5 r.1 3 0 10).map fun q => q.2) = none := by
  decide

/-- C26: parent consistency is kept by every public mutating operation, and no assertion
fails. A well-formed container is parent consistent; a call of `insert`, of the hinted
`insert`, of `erase` of an iterator or of a key, or of `operator[]` returns in the debug
build, where the assertions of `root()`, `merge`, the rotations, `assign_and_keep` and
all others are evaluated, with the state that the release build returns; in that state
every node reached from the root has its `par` field equal to the node whose `left` or
`right` slot holds it, the `par` of the root is the header, no node is its own parent or
child, and the `par` slot of the header is the root, null exactly when the container is
empty. -/
theorem parent_consistency_preserved (s : treap) (t : Tree) (c : Call) (fuel : Nat)
    (h : Inv s t) (hc : call_ok fuel s c = true) (hf : t.size + 2 ≤ fuel) :
    parent_consistent fuel s = some true ∧
      ∃ s' hd, call fuel s c = some s' ∧ call_chk fuel s c = some s' ∧
        parent_consistent fuel s' = some true ∧ s'.mem hdr = some hd ∧
        root_chk s' = some hd.par ∧ (hd.par = none ↔ size s' = 0) := by
  have hht := Tree.height_le_size t
  obtain ⟨s', t', hs', hinv, hcase⟩ := call_inv h fuel hf c hc
  have hsz : t'.size ≤ t.size + 1 := by
    rcases hcase with rfl | ⟨x, _, _, rfl⟩ | ⟨a, ha, rfl⟩
    · omega
    · rw [Tree.size_insT]
    · have := Tree.size_delT h.nodup ha
      omega
  have hht' := Tree.height_le_size t'
  refine ⟨parent_consistent_inv h fuel (by omega), s', HdrOf t', hs', ?_,
    parent_consistent_inv hinv fuel (by omega), hinv.hd, root_chk_inv hinv, ?_⟩
  · rw [call_chk_inv h fuel hf c hc, hs']
  · show t'.ptr = none ↔ s'.size_ = 0
    rw [hinv.sz, Tree.ptr_eq_none, size_eq_zero_iff]

/-- Witness of C26: the root key 5 of the container {1, 3, 5, 7, 9} is erased, which
merges the two subtrees of the root. -/
theorem parent_consistency_preserved_witness :
    Inv ex_state ex_tree ∧ call_ok 7 ex_state (.erase 5) = true ∧ ex_tree.size + 2 ≤ 7 ∧
    (parent_consistent 7 ex_state = some true ∧
      ∃ s' hd, call 7 ex_state (.erase 5) = some s' ∧ call_chk 7 ex_state (.erase 5) = some s' ∧
        parent_consistent 7 s' = some true ∧ s'.mem hdr = some hd ∧
        root_chk s' = some hd.par ∧ (hd.par = none ↔ size s' = 0)) :=
  ⟨ex_inv, by decide, by decide,
    parent_consistency_preserved ex_state ex_tree (.erase 5) 7 ex_inv (by decide) (by decide)⟩

/-- The grafted leaf points to the parent under which it was hung. -/
theorem attach_par {t : Tree} (x : Entry) {m : Mem} {g : Nat}
    (hr : Rep m (t.attach x) (some g)) :
    ∃ n, m x.a = some n ∧ n.par = some (t.attachPar x g) ∧ n.pri = x.p := by
  induction t generalizing g with
  | nil => exact ⟨_, hr.1, rfl, rfl⟩
  | node l e r ihl ihr =>
    by_cases hlt : x.k < e.k
    · simp only [Tree.attach, hlt, if_true] at hr
      simp only [Tree.attachPar, hlt, if_true]
      exact ihl hr.2.1
    · simp only [Tree.attach, hlt, if_false] at hr
      simp only [Tree.attachPar, hlt, if_false]
      exact ihr hr.2.2

/-- C30: the rebalancing loop of `insert_`. When `insert_` is reached on a non-empty
well-formed container with an absent key and `pos` its `lower_bound`, for any priority
drawn for the new node (stored as a 32-bit value, `UINT32_MAX` included): the graft hangs
the new node below some parent, and from there the loop of the debug build returns, so
that `assert(par.node != &header)` and the other assertions of the loop and of the
rotations hold; the header is not among the nodes at which a rotation was made; the number
of rotations is at most the depth of the grafted leaf; the loop of the release build
returns the same memory, which is the one `insert_` goes on with; and in that memory the
`par` field of the new node is a node, or the header, whose priority is greater than or
equal to the priority of the new node. -/
theorem rebalancing_loop_spares_header (s : treap) (t : Tree) (key val : Int) (pri fuel : Nat)
    (h : Inv s t) (hne : t ≠ .nil) (hk : key ∉ t.keys) (hf : t.height + 2 ≤ fuel) :
    ∃ m2 par m3 ps d,
      graft (create_node s key val pri).1.mem fuel (t.lbT key hdr) s.brk = some (m2, par) ∧
      rotate_loop_chk m2 fuel par s.brk = some (m3, ps) ∧
      rotate_loop m2 fuel par s.brk = some m3 ∧
      insert_ lt fuel s (t.lbT key hdr) key val pri =
        (update_ends lt m3 s.brk).map
          (fun m4 => ({ (create_node s key val pri).1 with mem := m4 }, s.brk)) ∧
      hdr ∉ ps ∧ depth m2 fuel s.brk = some d ∧ ps.length ≤ d ∧
      ∃ n p pn, m3 s.brk = some n ∧ n.pri = pri % 4294967296 ∧ n.par = some p ∧
        m3 p = some pn ∧ n.pri ≤ pn.pri := by
  obtain ⟨x, hx⟩ : ∃ x : Entry, x = ⟨s.brk, key, val, pri % 4294967296⟩ := ⟨_, rfl⟩
  have hxa : x.a = s.brk := by rw [hx]
  have hxp : x.p = pri % 4294967296 := by rw [hx]
  have hbrk : s.brk ≠ hdr := fun e => absurd h.brk_pos (by rw [e]; decide)
  obtain ⟨m2, m3, ps, hg, _, hrep2, _, hloop, hps, hdepth, hrep3, _⟩ :=
    insert_steps h hne key val pri hk fuel hf x hx
  have hplain := rotate_loop_chk_eq fuel _ _ _ _ hloop
  obtain ⟨n0, hn0, hn0p, _⟩ := attach_par x hrep2
  rw [hxa] at hn0
  obtain ⟨n, p, pn, hn, hnp, hpn, hle⟩ :=
    rotate_loop_chk_exit fuel _ _ _ _ hloop ⟨n0, hn0, hn0p⟩
  have hxmem : x ∈ (t.insT x).toList := by
    rw [Tree.toList_insT, Tree.mem_attach]; exact Or.inl rfl
  obtain ⟨xn, hxn, _, _, hxnp⟩ := hrep3.get hxmem
  rw [hxa] at hxn
  have hnx : n = xn := Option.some.inj (hn.symm.trans hxn)
  refine ⟨m2, _, m3, ps, _, hg, hloop, hplain, ?_, rotate_loop_chk_no_hdr fuel _ _ _ _ hloop,
    hdepth, hps, n, p, pn, hn, ?_, hnp, hpn, hle⟩
  · have hd1 : (s.mem.set s.brk ⟨key, val, none, none, none, pri % 4294967296⟩) hdr =
        some (HdrOf t) := by
      rw [Mem.set_other _ _ hbrk.symm]; exact h.hd
    have hm := minA_ne_hdr (hdr_not_mem h) hne
    have he1 : empty (create_node s key val pri).1 = some false := by
      simp [empty, create_node, hd1, HdrOf, hm]
    simp only [create_node] at he1 hg hplain
    simp only [insert_, create_node, he1, hg, hplain]
  · rw [hnx, hxnp, hxp]

/-- Witness of C30: the key 4 inserted into {1, 3, 5, 7, 9} with the priority
`UINT32_MAX`; the new node is hung below 3 at depth 2 and rotated up to the root. -/
theorem rebalancing_loop_spares_header_witness :
    Inv ex_state ex_tree ∧ ex_tree ≠ .nil ∧ (4 : Int) ∉ ex_tree.keys ∧ ex_tree.height + 2 ≤ 6 ∧
    ∃ m2 par m3 ps d,
      graft (create_node ex_state 4 11 UINT32_MAX).1.mem 6 (ex_tree.lbT 4 hdr) ex_state.brk =
        some (m2, par) ∧
      rotate_loop_chk m2 6 par ex_state.brk = some (m3, ps) ∧
      rotate_loop m2 6 par ex_state.brk = some m3 ∧
      insert_ lt 6 ex_state (ex_tree.lbT 4 hdr) 4 11 UINT32_MAX =
        (update_ends lt m3 ex_state.brk).map
          (fun m4 => ({ (create_node ex_state 4 11 UINT32_MAX).1 with mem := m4 },
            ex_state.brk)) ∧
      hdr ∉ ps ∧ depth m2 6 ex_state.brk = some d ∧ ps.length ≤ d ∧
      ∃ n p pn, m3 ex_state.brk = some n ∧ n.pri = UINT32_MAX % 4294967296 ∧ n.par = some p ∧
        m3 p = some pn ∧ n.pri ≤ pn.pri :=
  ⟨ex_inv, by decide, by decide, by decide,
    rebalancing_loop_spares_header ex_state ex_tree 4 11 UINT32_MAX 6 ex_inv (by decide)
      (by decide) (by decide)⟩

/-! ### Visit counts of the descents, height and shape -/

/-- The instrumented descent of `lower_bound` returns what the descent returns, after
visiting at most as many nodes as the height of the tree. -/
theorem lower_bound_loop_down_eq {m : Mem} {t : Tree} {q : Option Nat} (hr : Rep m t q)
    (key : Int) (res fuel : Nat) (hf : t.height < fuel) :
    ∃ d, lower_bound_loop_down lt m key fuel t.ptr res = some (t.lbT key res, d) ∧
      d ≤ t.height := by
  induction t generalizing q res fuel with
  | nil =>
    cases fuel with
    | zero => omega
    | succ f => exact ⟨0, by simp [Tree.ptr, lower_bound_loop_down, Tree.lbT], le_refl _⟩
  | node l e r ihl ihr =>
    obtain ⟨h1, h2, h3⟩ := hr
    cases fuel with
    | zero => omega
    | succ f =>
      simp only [Tree.height] at hf
      have hp : (Tree.node l e r).ptr = some e.a := rfl
      simp only [hp, lower_bound_loop_down, h1, Tree.lbT, Tree.height]
      by_cases hk : key ≤ e.k
      · have : lt e.k key = false := by simp [lt, hk]
        obtain ⟨d, hd, hle⟩ := ihl h2 e.a f (by omega)
        simp only [this, hk, if_true, Bool.not_false, hd, Option.map_some']
        exact ⟨d + 1, rfl, by omega⟩
      · have : lt e.k key = true := by simp [lt]; omega
        obtain ⟨d, hd, hle⟩ := ihr h3 res f (by omega)
        simp only [this, hk, if_false, Bool.not_true, hd, Option.map_some']
        exact ⟨d + 1, rfl, by omega⟩

/-- The counted descent of `upper_bound` returns what the descent returns, after visiting
at most as many nodes as the height of the tree. -/
theorem upper_bound_loop_visits_eq {m : Mem} {t : Tree} {q : Option Nat} (hr : Rep m t q)
    (key : Int) (res fuel : Nat) (hf : t.height < fuel) :
    ∃ d, upper_bound_loop_visits lt m key fuel t.ptr res = some (t.ubT key res, d) ∧
      d ≤ t.height := by
  induction t generalizing q res fuel with
  | nil =>
    cases fuel with
    | zero => omega
    | succ f => exact ⟨0, by simp [Tree.ptr, upper_bound_loop_visits, Tree.ubT], le_refl _⟩
  | node l e r ihl ihr =>
    obtain ⟨h1, h2, h3⟩ := hr
    cases fuel with
    | zero => omega
    | succ f =>
      simp only [Tree.height] at hf
      have hp : (Tree.node l e r).ptr = some e.a := rfl
      simp only [hp, upper_bound_loop_visits, h1, Tree.ubT, Tree.height]
      by_cases hk : key < e.k
      · have : lt key e.k = true := by simp [lt, hk]
        obtain ⟨d, hd, hle⟩ := ihl h2 e.a f (by omega)
        simp only [this, hk, if_true, hd, Option.map_some']
        exact ⟨d + 1, rfl, by omega⟩
      · have : lt key e.k = false := by simp [lt]; omega
        obtain ⟨d, hd, hle⟩ := ihr h3 res f (by omega)
        simp only [this, hk, if_false, hd, Option.map_some']
        exact ⟨d + 1, rfl, by omega⟩

/-- The height read from the memory is the height of the represented tree. -/
theorem height_below_eq {m : Mem} {t : Tree} {q : Option Nat} (hr : Rep m t q) (fuel : Nat)
    (hf : t.height < fuel) : height_below m fuel t.ptr = some t.height := by
  induction t generalizing q fuel with
  | nil =>
    cases fuel with
    | zero => omega
    | succ f => rfl
  | node l e r ihl ihr =>
    obtain ⟨h1, h2, h3⟩ := hr
    cases fuel with
    | zero => omega
    | succ f =>
      simp only [Tree.height] at hf
      have hp : (Tree.node l e r).ptr = some e.a := rfl
      simp only [hp, height_below, h1, ihl h2 f (by omega), ihr h3 f (by omega), Tree.height]

theorem tree_height_eq {s : treap} {t : Tree} (h : Inv s t) (fuel : Nat)
    (hf : t.height < fuel) : tree_height fuel s = some t.height := by
  simp only [tree_height, h.hd]
  exact height_below_eq h.rep fuel hf

/-- The shape read from the memory is the shape of the represented tree. -/
theorem shape_below_eq {m : Mem} {t : Tree} {q : Option Nat} (hr : Rep m t q) (fuel : Nat)
    (hf : t.height < fuel) : shape_below m fuel t.ptr = some t.shapeOf := by
  induction t generalizing q fuel with
  | nil =>
    cases fuel with
    | zero => omega
    | succ f => rfl
  | node l e r ihl ihr =>
    obtain ⟨h1, h2, h3⟩ := hr
    cases fuel with
    | zero => omega
    | succ f =>
      simp only [Tree.height] at hf
      have hp : (Tree.node l e r).ptr = some e.a := rfl
      simp only [hp, shape_below, h1, ihl h2 f (by omega), ihr h3 f (by omega), Tree.shapeOf]

theorem shape_eq {s : treap} {t : Tree} (h : Inv s t) (fuel : Nat) (hf : t.height < fuel) :
    shape fuel s = some t.shapeOf := by
  simp only [shape, h.hd]
  exact shape_below_eq h.rep fuel hf

theorem Tree.in_order_shapeOf (t : Tree) : t.shapeOf.in_order = t.kp := by
  induction t with
  | nil => rfl
  | node l e r ihl ihr => simp [Tree.shapeOf, Shape.in_order, Tree.kp, Tree.toList, ihl, ihr]

/-! ### The shape is determined by the keys and the priorities -/

theorem Tree.eq_nil_of_toList {t : Tree} (h : t.toList = []) : t = .nil := by
  cases t with
  | nil => rfl
  | node l e r => simp [Tree.toList] at h

theorem Tree.kp_node (l r : Tree) (e : Entry) :
    (Tree.node l e r).kp = l.kp ++ (e.k, e.p) :: r.kp := by
  simp [Tree.kp, Tree.toList]

theorem Tree.map_snd_kp (t : Tree) : t.kp.map Prod.snd = t.toList.map Entry.p := by
  simp [Tree.kp, Function.comp]

theorem Tree.length_kp (t : Tree) : t.kp.length = t.toList.length := by
  simp [Tree.kp]

/-- Two trees in heap order with the same pairs of key and priority in order have the
same shape when the priorities are pairwise distinct. -/
theorem Tree.shape_unique (t1 : Tree) :
    ∀ t2 : Tree, t1.heap_order → t2.heap_order → t1.kp = t2.kp →
      (t1.toList.map Entry.p).Nodup → t1.shapeOf = t2.shapeOf := by
  induction t1 with
  | nil =>
    intro t2 _ _ hkp _
    have : t2.toList = [] := by
      have h := congrArg List.length hkp
      rw [Tree.length_kp, Tree.length_kp] at h
      exact List.length_eq_zero.1 h.symm
    rw [Tree.eq_nil_of_toList this]
  | node l1 e1 r1 ihl ihr =>
    intro t2 h1 h2 hkp hnd
    cases t2 with
    | nil =>
      have h := congrArg List.length hkp
      simp [Tree.kp, Tree.toList] at h
    | node l2 e2 r2 =>
      obtain ⟨ha1, hb1, hl1, hr1⟩ := Tree.heap_node.1 h1
      obtain ⟨ha2, hb2, hl2, hr2⟩ := Tree.heap_node.1 h2
      rw [Tree.kp_node, Tree.kp_node] at hkp
      -- the two roots have the same priority
      have hmax1 : ∀ y ∈ (Tree.node l1 e1 r1).toList, y.p ≤ e1.p := by
        intro y hy
        simp only [Tree.toList, List.mem_append, List.mem_cons] at hy
        rcases hy with hy | rfl | hy
        · exact ha1 y hy
        · exact le_refl _
        · exact hb1 y hy
      have hmax2 : ∀ y ∈ (Tree.node l2 e2 r2).toList, y.p ≤ e2.p := by
        intro y hy
        simp only [Tree.toList, List.mem_append, List.mem_cons] at hy
        rcases hy with hy | rfl | hy
        · exact ha2 y hy
        · exact le_refl _
        · exact hb2 y hy
      have hkp' : (Tree.node l1 e1 r1).kp = (Tree.node l2 e2 r2).kp := by
        rw [Tree.kp_node, Tree.kp_node]; exact hkp
      have h21 : e2.p ≤ e1.p := by
        have hm : (e2.k, e2.p) ∈ (Tree.node l1 e1 r1).kp := by
          rw [hkp', Tree.kp_node]; simp
        obtain ⟨y, hy, hye⟩ := List.mem_map.1 hm
        have := hmax1 y hy
        have hp : y.p = e2.p := congrArg Prod.snd hye
        omega
      have h12 : e1.p ≤ e2.p := by
        have hm : (e1.k, e1.p) ∈ (Tree.node l2 e2 r2).kp := by
          rw [← hkp', Tree.kp_node]; simp
        obtain ⟨y, hy, hye⟩ := List.mem_map.1 hm
        have := hmax2 y hy
        have hp : y.p = e1.p := congrArg Prod.snd hye
        omega
      have hpe : e1.p = e2.p := le_antisymm h12 h21
      -- the priority of the root splits both sequences at the same place
      have hnd' : (l1.toList.map Entry.p ++ e1.p :: r1.toList.map Entry.p).Nodup := by
        simpa [Tree.toList] using hnd
      have hP := congrArg (List.map Prod.snd) hkp
      simp only [List.map_append, List.map_cons, Tree.map_snd_kp] at hP
      have hnl : e2.p ∉ l1.toList.map Entry.p := by
        rw [← hpe]
        intro hm
        exact (List.nodup_append.1 hnd').2.2 hm (List.mem_cons_self _ _)
      have hnr : e2.p ∉ r1.toList.map Entry.p := by
        rw [← hpe]
        exact (List.nodup_cons.1 (List.nodup_append.1 hnd').2.1).1
      obtain ⟨hPl, _, _⟩ := (List.append_cons_inj_of_not_mem hnl hnr).1 hP
      have hlen : l1.kp.length = l2.kp.length := by
        have := congrArg List.length hPl
        simpa [Tree.kp] using this
      obtain ⟨hkl, hkr⟩ := List.append_inj hkp hlen
      simp only [List.cons.injEq, Prod.mk.injEq] at hkr
      have hndl : (l1.toList.map Entry.p).Nodup := (List.nodup_append.1 hnd').1
      have hndr : (r1.toList.map Entry.p).Nodup :=
        (List.nodup_cons.1 (List.nodup_append.1 hnd').2.1).2
      simp only [Tree.shapeOf, ihl l2 hl1 hl2 hkl hndl, ihr r2 hr1 hr2 hkr.2 hndr, hkr.1.1,
        hkr.1.2]

/-- A tree is determined by its shape and its in-order sequence of elements. -/
theorem Tree.eq_of_shape_toList (t1 : Tree) :
    ∀ t2 : Tree, t1.shapeOf = t2.shapeOf → t1.toList = t2.toList → t1 = t2 := by
  induction t1 with
  | nil =>
    intro t2 _ h
    rw [Tree.eq_nil_of_toList h.symm]
  | node l1 e1 r1 ihl ihr =>
    intro t2 hs ht
    cases t2 with
    | nil => simp [Tree.toList] at ht
    | node l2 e2 r2 =>
      simp only [Tree.shapeOf, Shape.node.injEq] at hs
      obtain ⟨hsl, _, _, hsr⟩ := hs
      have hlen : l1.toList.length = l2.toList.length := by
        rw [← Tree.length_kp, ← Tree.length_kp, ← Tree.in_order_shapeOf,
          ← Tree.in_order_shapeOf, hsl]
      simp only [Tree.toList] at ht
      obtain ⟨h1, h2⟩ := List.append_inj ht hlen
      simp only [List.cons.injEq] at h2
      rw [ihl l2 hsl h1, ihr r2 hsr h2.2, h2.1]

/-- Two trees in heap order with the same elements in order are the same tree when the
priorities are pairwise distinct. -/
theorem Tree.eq_of_heap_toList {t1 t2 : Tree} (h1 : t1.heap_order) (h2 : t2.heap_order)
    (ht : t1.toList = t2.toList) (hnd : (t1.toList.map Entry.p).Nodup) : t1 = t2 :=
  Tree.eq_of_shape_toList t1 t2
    (Tree.shape_unique t1 t2 h1 h2 (by simp only [Tree.kp, ht]) hnd) ht

/-! ### Runs of insertions and erasures -/

/-- One mutation keeps the invariant and heap order. -/
theorem apply_heap {s : treap} {t : Tree} (h : Inv s t) (hh : t.heap_order) (op : Op)
    (fuel : Nat) (hf : t.size + 2 ≤ fuel) :
    ∃ s' t', apply fuel s op = some s' ∧ Inv s' t' ∧ t'.heap_order ∧
      t'.size ≤ t.size + 1 := by
  have key : ∀ c : Call, call_ok fuel s c = true → ∃ s' t', call fuel s c = some s' ∧
      Inv s' t' ∧ t'.heap_order ∧ t'.size ≤ t.size + 1 := by
    intro c hc
    obtain ⟨s', t', hs', hinv, hcase⟩ := call_inv h fuel hf c hc
    refine ⟨s', t', hs', hinv, ?_, ?_⟩
    · rcases hcase with rfl | ⟨x, hx, _, rfl⟩ | ⟨a, _, rfl⟩
      · exact hh
      · exact Tree.heap_insT hh hx
      · exact Tree.heap_delT a hh h.nodup
    · rcases hcase with rfl | ⟨x, _, _, rfl⟩ | ⟨a, ha, rfl⟩
      · omega
      · rw [Tree.size_insT]
      · have := Tree.size_delT h.nodup ha
        omega
  cases op with
  | ins k v p => exact key (.insert k v p) rfl
  | del k => exact key (.erase k) rfl

/-- A run of mutations keeps the invariant and heap order. -/
theorem run_heap (ops : List Op) (fuel : Nat) :
    ∀ (s : treap) (t : Tree), Inv s t → t.heap_order → t.size + ops.length + 2 ≤ fuel →
      ∃ s' t', run fuel s ops = some s' ∧ Inv s' t' ∧ t'.heap_order ∧
        t'.size ≤ t.size + ops.length := by
  induction ops with
  | nil =>
    intro s t h hh _
    exact ⟨s, t, rfl, h, hh, by simp⟩
  | cons op rest ih =>
    intro s t h hh hf
    simp only [List.length_cons] at hf
    obtain ⟨s1, t1, h1, hinv1, hh1, hsz1⟩ := apply_heap h hh op fuel (by omega)
    obtain ⟨s2, t2, h2, hinv2, hh2, hsz2⟩ := ih s1 t1 hinv1 hh1 (by omega)
    refine ⟨s2, t2, ?_, hinv2, hh2, by simp only [List.length_cons]; omega⟩
    simp [run, h1, h2]

/-- The records that a represented tree determines. -/
theorem Rep.agree {m m' : Mem} {t : Tree} {q : Option Nat} (hr : Rep m t q)
    (hr' : Rep m' t q) : ∀ a ∈ t.addrs, m' a = m a := by
  induction t generalizing q with
  | nil => intro a ha; simp [Tree.addrs, Tree.toList] at ha
  | node l e r ihl ihr =>
    intro a ha
    simp only [Tree.addrs_node, List.mem_append, List.mem_cons] at ha
    rcases ha with ha | rfl | ha
    · exact ihl hr.2.1 hr'.2.1 a ha
    · rw [hr.1, hr'.1]
    · exact ihr hr.2.2 hr'.2.2 a ha

/-- Inserting an absent key and erasing it again leaves the container holding the tree
it held, when the container is in heap order with pairwise distinct priorities. -/
theorem insert_erase_restores {s : treap} {t : Tree} (h : Inv s t) (hh : t.heap_order)
    (hnd : (t.toList.map Entry.p).Nodup) (key val : Int) (pri : Nat) (hk : key ∉ t.keys)
    (fuel : Nat) (hf : t.size + 3 ≤ fuel) :
    ∃ s1 s2, insert lt fuel s key val pri = some (s1, s.brk, true) ∧
      erase lt fuel s1 key = some (s2, 1) ∧ Inv s2 t := by
  have hht := Tree.height_le_size t
  obtain ⟨s1, hs1, hinv1, _⟩ := insert_of_not_mem h key val pri hk fuel (by omega)
  obtain ⟨x, hx⟩ : ∃ x : Entry, x = ⟨s.brk, key, val, pri % 4294967296⟩ := ⟨_, rfl⟩
  rw [← hx] at hinv1
  have hxk : x.k = key := by rw [hx]
  have hxa : x.a ∉ t.addrs := by
    rw [hx]
    exact fun hm => absurd (h.fresh _ hm).2 (lt_irrefl _)
  have hxm : x ∈ (t.insT x).toList := by
    rw [Tree.toList_insT, Tree.mem_attach]; exact Or.inl rfl
  have hsz : (t.insT x).size + 2 ≤ fuel := by rw [Tree.size_insT]; omega
  obtain ⟨s2, hs2, hinv2, _⟩ := erase_of_mem hinv1 hxm fuel hsz
  rw [hxk] at hs2
  refine ⟨s1, s2, hs1, hs2, ?_⟩
  have hlist : ((t.insT x).delT x.a).toList = t.toList := by
    rw [Tree.toList_delT _ hinv1.nodup, filter_key_eq_filter_addr hinv1.sorted hinv1.nodup hxm,
      Tree.toList_insT, Tree.filter_attach (hxk ▸ hk)]
  have hheap : ((t.insT x).delT x.a).heap_order :=
    Tree.heap_delT x.a (Tree.heap_insT hh hxa) hinv1.nodup
  have heq : (t.insT x).delT x.a = t :=
    Tree.eq_of_heap_toList hheap hh hlist (by rw [hlist]; exact hnd)
  rw [heq] at hinv2
  exact hinv2

/-! ### What the graft asserts and what it links -/

/-- When the graft of the debug build returns, its assertions held. -/
theorem graft_chk_asserts {cmp : Int → Int → Bool} {m : Mem} {fuel pos it : Nat} {key : Int}
    {r : Mem × Nat} {pn : node} (h : graft_chk cmp m fuel pos it key = some r)
    (hp : m pos = some pn) :
    r.2 ≠ end_ ∧
      (pn.left = none → pos ≠ end_ ∧ cmp key pn.key = true ∧ r.2 = pos) ∧
      (∀ c, pn.left = some c → ∃ hn b prn, m hdr = some hn ∧ hn.left = some b ∧ pos ≠ b ∧
        dec m fuel pos = some r.2 ∧ m r.2 = some prn ∧ prn.right = none ∧
        cmp prn.key key = true) := by
  unfold graft_chk at h
  rw [hp] at h
  simp only at h
  cases hl : pn.left with
  | none =>
    rw [hl] at h
    simp only at h
    by_cases hc : pos ≠ end_ ∧ cmp key pn.key = true
    · rw [if_pos hc] at h
      cases h1 : setLeft m pos (some it) with
      | none => rw [h1] at h; simp at h
      | some m1 =>
        rw [h1] at h
        simp only [Option.map_some'] at h
        by_cases hpe : pos ≠ end_
        · rw [if_pos hpe] at h
          cases h2 : setPar m1 it (some pos) with
          | none => rw [h2] at h; simp at h
          | some m2 =>
            rw [h2] at h
            simp only [Option.map_some', Option.some.injEq] at h
            subst h
            refine ⟨hpe, fun _ => ⟨hc.1, hc.2, rfl⟩, fun c hc' => ?_⟩
            cases hc'
        · rw [if_neg hpe] at h
          cases h
    · rw [if_neg hc] at h
      simp at h
  | some c0 =>
    rw [hl] at h
    simp only at h
    cases hh : m hdr with
    | none => rw [hh] at h; simp at h
    | some hn =>
      rw [hh] at h
      simp only at h
      cases hb : hn.left with
      | none => rw [hb] at h; simp at h
      | some b =>
        rw [hb] at h
        simp only at h
        by_cases hpb : pos = b
        · rw [if_pos hpb] at h
          simp at h
        · rw [if_neg hpb] at h
          cases hd : dec m fuel pos with
          | none => rw [hd] at h; simp at h
          | some par =>
            rw [hd] at h
            simp only at h
            cases hpr : m par with
            | none => rw [hpr] at h; simp at h
            | some prn =>
              rw [hpr] at h
              simp only at h
              by_cases hc : prn.right = none ∧ cmp prn.key key = true
              · rw [if_pos hc] at h
                cases h1 : setRight m par (some it) with
                | none => rw [h1] at h; simp at h
                | some m1 =>
                  rw [h1] at h
                  simp only [Option.map_some'] at h
                  by_cases hpe : par ≠ end_
                  · rw [if_pos hpe] at h
                    cases h2 : setPar m1 it (some par) with
                    | none => rw [h2] at h; simp at h
                    | some m2 =>
                      rw [h2] at h
                      simp only [Option.map_some', Option.some.injEq] at h
                      subst h
                      refine ⟨hpe, fun hn' => ?_, fun c _ =>
                        ⟨hn, b, prn, rfl, hb, hpb, rfl, hpr, hc.1, hc.2⟩⟩
                      cases hn'
                  · rw [if_neg hpe] at h
                    cases h
              · rw [if_neg hc] at h
                simp at h

/-- The links that the graft writes: the `par` field of the new node, and the `left` or
the `right` field of the chosen parent; nothing else changes. -/
theorem graft_links {m : Mem} {fuel pos it : Nat} {r : Mem × Nat} {pn prn itn : node}
    (hg : graft m fuel pos it = some r) (hp : m pos = some pn) (hpar : m r.2 = some prn)
    (hit : m it = some itn) (hne : it ≠ r.2) :
    r.1 it = some { itn with par := some r.2 } ∧
      (pn.left = none → r.1 r.2 = some { prn with left := some it }) ∧
      (∀ c, pn.left = some c → r.1 r.2 = some { prn with right := some it }) ∧
      ∀ y, y ≠ it → y ≠ r.2 → r.1 y = m y := by
  obtain ⟨hs1, hs2⟩ := graft_snd hg hp
  cases hl : pn.left with
  | none =>
    have hr2 := hs1 hl
    rw [hr2] at hpar hne
    rw [graft_left hp hl, setLeft_some hpar] at hg
    simp only [Option.some_bind] at hg
    have h1 : (m.set pos { prn with left := some it }) it = some itn := by
      rw [Mem.set_other _ _ hne]; exact hit
    rw [setPar_some h1] at hg
    simp only [Option.map_some', Option.some.injEq] at hg
    subst hg
    refine ⟨?_, fun _ => ?_, fun c hc => ?_, fun y hy1 hy2 => ?_⟩
    · simp [Mem.set]
    · simp [Mem.set, hne.symm]
    · cases hc
    · simp only [ne_eq] at hy1 hy2
      simp [Mem.set, hy1, hy2]
  | some c0 =>
    have hd := hs2 c0 hl
    rw [graft_dec hp hl fuel it hd, setRight_some hpar] at hg
    simp only [Option.some_bind] at hg
    have h1 : (m.set r.2 { prn with right := some it }) it = some itn := by
      rw [Mem.set_other _ _ hne]; exact hit
    rw [setPar_some h1] at hg
    simp only [Option.map_some'] at hg
    have hg1 : r.1 = (m.set r.2 { prn with right := some it }).set it
        { itn with par := some r.2 } := by
      have := congrArg Prod.fst (Option.some.inj hg)
      exact this.symm
    rw [hg1]
    refine ⟨?_, fun hc => ?_, fun c _ => ?_, fun y hy1 hy2 => ?_⟩
    · simp [Mem.set]
    · cases hc
    · simp [Mem.set, hne.symm]
    · simp [Mem.set, hy1, hy2]

/-! ### The graft position, hints, descents and the canonical shape (C31 - C34) -/

/-- C31: whenever `insert_` is reached from `insert(value)` or from the hinted `insert`
on a non-empty well-formed container (the key being absent), `pos` is the `lower_bound`
of the key, which is the position of the smallest element greater than the key, or
`end()` when there is none. No assertion of `insert_` fails, and the graft is BST-correct.
If `pos` has no left child then `pos != end()`, the key is less than the key of `pos`,
and the new leaf becomes the left child of `pos`. Otherwise `pos != begin()`, the
predecessor `std::prev(pos)` has no right child, its key is less than the key, and the new
leaf becomes the right child of that predecessor. -/
theorem graft_at_successor (s : treap) (t : Tree) (hint : Nat) (key val : Int) (pri fuel : Nat)
    (h : Inv s t) (hne : t ≠ .nil) (hk : key ∉ t.keys) (hh : is_iterator fuel s hint = true)
    (hf : t.size + 2 ≤ fuel) :
    ∃ pos pn m2 par s',
      lower_bound lt fuel s key = some pos ∧
      insert lt fuel s key val pri =
        (insert_ lt fuel s pos key val pri).map (fun r => (r.1, r.2, true)) ∧
      insert_hint lt fuel s hint key val pri = insert_ lt fuel s pos key val pri ∧
      ((pos = end_ ∧ ∀ e ∈ t.toList, e.k < key) ∨
        ∃ e ∈ t.toList, pos = e.a ∧ key < e.k ∧ ∀ e' ∈ t.toList, key < e'.k → e.k ≤ e'.k) ∧
      insert__chk lt fuel s pos key val pri = some (s', s.brk) ∧
      insert_ lt fuel s pos key val pri = some (s', s.brk) ∧
      (create_node s key val pri).1.mem pos = some pn ∧
      graft_chk lt (create_node s key val pri).1.mem fuel pos s.brk key = some (m2, par) ∧
      graft (create_node s key val pri).1.mem fuel pos s.brk = some (m2, par) ∧
      par ≠ end_ ∧
      (pn.left = none → pos ≠ end_ ∧ key < pn.key ∧ par = pos ∧
        ∃ n, m2 pos = some n ∧ n.left = some s.brk) ∧
      (pn.left ≠ none → begin_ (create_node s key val pri).1 ≠ some pos ∧
        dec (create_node s key val pri).1.mem fuel pos = some par ∧
        ∃ prn n, (create_node s key val pri).1.mem par = some prn ∧ prn.right = none ∧
          prn.key < key ∧ m2 par = some n ∧ n.right = some s.brk) ∧
      (∃ n, m2 s.brk = some n ∧ n.key = key ∧ n.par = some par ∧ n.left = none ∧
        n.right = none) ∧
      ∃ t2, Rep m2 t2 (some hdr) ∧ t2.bst_order ∧
        t2.toList.Perm (⟨s.brk, key, val, pri % 4294967296⟩ :: t.toList) := by
  have hht := Tree.height_le_size t
  have hhd := hdr_not_mem h
  have hbrk : s.brk ≠ hdr := fun e => absurd h.brk_pos (by rw [e]; decide)
  have hxt : s.brk ∉ t.addrs := fun hm => absurd (h.fresh _ hm).2 (lt_irrefl _)
  obtain ⟨x, hx⟩ : ∃ x : Entry, x = ⟨s.brk, key, val, pri % 4294967296⟩ := ⟨_, rfl⟩
  have hxk : x.k = key := by rw [hx]
  have hlb := lower_bound_eq h key fuel (by omega)
  obtain ⟨s', hs', _, _⟩ := insert__spec h key val pri hk fuel (by omega)
  have hchk := insert__chk_inv h key val pri hk fuel (by omega)
  obtain ⟨m2, m3, ps, hg, hgc, hrep2, _, _, _, _, _, _⟩ :=
    insert_steps h hne key val pri hk fuel (by omega) x hx
  -- the two callers
  have hins : insert lt fuel s key val pri =
      (insert_ lt fuel s (t.lbT key hdr) key val pri).map (fun r => (r.1, r.2, true)) := by
    simp only [insert, hlb, lb_test h key, hk, decide_False]
  have hhint : insert_hint lt fuel s hint key val pri =
      insert_ lt fuel s (t.lbT key hdr) key val pri := by
    obtain ⟨bad, hb, hbad⟩ :=
      hint_bad_spec h ((is_iterator_iff h fuel hf hint).1 hh) key fuel (by omega)
    have hpos2 : (if bad then lower_bound lt fuel s key else some hint) =
        some (t.lbT key hdr) := by
      cases bad with
      | true => simp [hlb]
      | false => simp [hbad rfl]
    simp only [insert_hint, hb, hpos2, lb_test h key, hk, decide_False]
  -- the position
  have hsucc : (t.lbT key hdr = end_ ∧ ∀ e ∈ t.toList, e.k < key) ∨
      ∃ e ∈ t.toList, t.lbT key hdr = e.a ∧ key < e.k ∧
        ∀ e' ∈ t.toList, key < e'.k → e.k ≤ e'.k := by
    rcases lbT_char key t hdr h.sorted with ⟨h1, h2⟩ | ⟨e, he, h1, h2, h3⟩
    · exact Or.inl ⟨h1, h2⟩
    · refine Or.inr ⟨e, he, h1, lt_of_le_of_ne h2 (fun h' => hk (mem_keys.2 ⟨e, he, h'.symm⟩)),
        fun e' he' hlt => h3 e' he' (le_of_lt hlt)⟩
  -- the memory after `create_node`
  obtain ⟨m1, hm1⟩ : ∃ m1 : Mem, m1 = (create_node s key val pri).1.mem := ⟨_, rfl⟩
  rw [← hm1] at hg hgc
  have hit : m1 s.brk = some ⟨key, val, none, none, none, pri % 4294967296⟩ := by
    rw [hm1]; simp [create_node, Mem.set]
  have hm1h : m1 hdr = some (HdrOf t) := by
    rw [hm1]
    simp only [create_node]
    rw [Mem.set_other _ _ hbrk.symm]
    exact h.hd
  obtain ⟨pn, hpn⟩ : ∃ pn, m1 (t.lbT key hdr) = some pn := by
    cases hc : m1 (t.lbT key hdr) with
    | none => simp [graft, hc] at hg
    | some pn => exact ⟨pn, rfl⟩
  obtain ⟨ea, hea, hap, _⟩ := attachPar_mem h.rep x hne (hxk ▸ hk) hdr
  have hpne : s.brk ≠ t.attachPar x hdr := by
    rw [hap]
    exact fun e => hxt (e ▸ List.mem_map_of_mem Entry.a hea)
  obtain ⟨hpe, has1, has2⟩ := graft_chk_asserts hgc hpn
  have hbeg : begin_ (create_node s key val pri).1 = some (t.minA hdr) := by
    simp only [begin_, ← hm1, hm1h, HdrOf]
  rw [← hm1]
  refine ⟨t.lbT key hdr, pn, m2, t.attachPar x hdr, s', hlb, hins, hhint, hsucc,
    hchk.trans hs', hs', hpn, hgc, hg, hpe, ?_, ?_, ?_, t.attach x, hrep2, ?_, ?_⟩
  · intro hl
    obtain ⟨h1, h2, h3⟩ := has1 hl
    have h3' : t.attachPar x hdr = t.lbT key hdr := h3
    have hpar : m1 (m2, t.attachPar x hdr).2 = some pn := by
      show m1 (t.attachPar x hdr) = some pn
      rw [h3']; exact hpn
    obtain ⟨_, hl1, _, _⟩ := graft_links hg hpn hpar hit hpne
    have hl2 : m2 (t.attachPar x hdr) = some { pn with left := some s.brk } := hl1 hl
    rw [h3'] at hl2
    exact ⟨h1, (lt_iff _ _).1 h2, h3', _, hl2, rfl⟩
  · intro hl
    obtain ⟨c, hc⟩ : ∃ c, pn.left = some c := by
      cases hpl : pn.left with
      | none => exact absurd hpl hl
      | some c => exact ⟨c, rfl⟩
    obtain ⟨hn, b, prn, hhn, hb, hpb, hd, hpr, hr, hcmp⟩ := has2 c hc
    have hd' : dec m1 fuel (t.lbT key hdr) = some (t.attachPar x hdr) := hd
    have hpr' : m1 (t.attachPar x hdr) = some prn := hpr
    obtain ⟨_, _, hr1, _⟩ := graft_links hg hpn hpr hit hpne
    have hr2 : m2 (t.attachPar x hdr) = some { prn with right := some s.brk } := hr1 c hc
    rw [hm1h] at hhn
    cases hhn
    have hbm : b = t.minA hdr := by
      simp only [HdrOf, Option.some.injEq] at hb
      exact hb.symm
    refine ⟨?_, hd', prn, _, hpr', hr, (lt_iff _ _).1 hcmp, hr2, rfl⟩
    rw [hbeg]
    intro he
    exact hpb (by rw [hbm]; exact (Option.some.inj he).symm)
  · obtain ⟨prn, hprn⟩ : ∃ prn, m1 (t.attachPar x hdr) = some prn := by
      rw [hap]
      have : ea.a ∈ t.addrs := List.mem_map_of_mem Entry.a hea
      have hrep1 : Rep m1 t (some hdr) := by
        refine h.rep.congr fun a ha => ?_
        rw [hm1]
        simp only [create_node]
        exact Mem.set_other _ _ (fun e => hxt (e ▸ ha))
      exact hrep1.live this
    obtain ⟨hn1, _, _, _⟩ := graft_links hg hpn hprn hit hpne
    exact ⟨_, hn1, rfl, rfl, rfl, rfl⟩
  · rw [Tree.bst_order_iff]
    exact Tree.attach_sorted h.sorted (hxk ▸ hk)
  · rw [← hx]
    exact Tree.toList_attach_perm x t

/-- Witness of C31: the key 4 inserted into {1, 3, 5, 7, 9}, the hint being the node
of 5. -/
theorem graft_at_successor_witness :
    Inv ex_state ex_tree ∧ ex_tree ≠ .nil ∧ (4 : Int) ∉ ex_tree.keys ∧
    is_iterator 7 ex_state 3 = true ∧ ex_tree.size + 2 ≤ 7 ∧
    ∃ pos pn m2 par s',
      lower_bound lt 7 ex_state 4 = some pos ∧
      insert lt 7 ex_state 4 11 25 =
        (insert_ lt 7 ex_state pos 4 11 25).map (fun r => (r.1, r.2, true)) ∧
      insert_hint lt 7 ex_state 3 4 11 25 = insert_ lt 7 ex_state pos 4 11 25 ∧
      ((pos = end_ ∧ ∀ e ∈ ex_tree.toList, e.k < 4) ∨
        ∃ e ∈ ex_tree.toList, pos = e.a ∧ 4 < e.k ∧
          ∀ e' ∈ ex_tree.toList, 4 < e'.k → e.k ≤ e'.k) ∧
      insert__chk lt 7 ex_state pos 4 11 25 = some (s', ex_state.brk) ∧
      insert_ lt 7 ex_state pos 4 11 25 = some (s', ex_state.brk) ∧
      (create_node ex_state 4 11 25).1.mem pos = some pn ∧
      graft_chk lt (create_node ex_state 4 11 25).1.mem 7 pos ex_state.brk 4 = some (m2, par) ∧
      graft (create_node ex_state 4 11 25).1.mem 7 pos ex_state.brk = some (m2, par) ∧
      par ≠ end_ ∧
      (pn.left = none → pos ≠ end_ ∧ 4 < pn.key ∧ par = pos ∧
        ∃ n, m2 pos = some n ∧ n.left = some ex_state.brk) ∧
      (pn.left ≠ none → begin_ (create_node ex_state 4 11 25).1 ≠ some pos ∧
        dec (create_node ex_state 4 11 25).1.mem 7 pos = some par ∧
        ∃ prn n, (create_node ex_state 4 11 25).1.mem par = some prn ∧ prn.right = none ∧
          prn.key < 4 ∧ m2 par = some n ∧ n.right = some ex_state.brk) ∧
      (∃ n, m2 ex_state.brk = some n ∧ n.key = 4 ∧ n.par = some par ∧ n.left = none ∧
        n.right = none) ∧
      ∃ t2, Rep m2 t2 (some hdr) ∧ t2.bst_order ∧
        t2.toList.Perm (⟨ex_state.brk, 4, 11, 25 % 4294967296⟩ :: ex_tree.toList) :=
  ⟨ex_inv, by decide, by decide, by decide, by decide,
    graft_at_successor ex_state ex_tree 3 4 11 25 7 ex_inv (by decide) (by decide) (by decide)
      (by decide)⟩

/-- The hint `end()` is taken for a bad hint whenever the key is not negative: the test
`Compare()(key, key_of(*pos))` reads the value-initialised record of the header. -/
theorem hint_end_rejected {s : treap} {t : Tree} (h : Inv s t) {key : Int} (hk : 0 ≤ key)
    (fuel : Nat) : hint_bad lt fuel s end_ key = some true := by
  have : lt key 0 = false := by simp [lt, hk]
  simp [hint_bad, end_, h.hd, HdrOf, this]

/-- C32, evaluated at the failing input: in the empty container the hint `end()` is the
`lower_bound` of the key 0, and in the container {1, 3, 5, 7, 9} it is the `lower_bound`
of the key 10, the position of the smallest element greater than the key; in both cases
the test that opens the hinted `insert` takes the hint for a bad one, so that `insert`
falls back to `lower_bound(key)`. A hint that is a node, as the node of 5 for the key 4,
is accepted. -/
theorem hint_end_falls_back :
    lower_bound lt 3 treap.new 0 = some end_ ∧ hint_bad lt 3 treap.new end_ 0 = some true ∧
    lower_bound lt 7 ex_state 10 = some end_ ∧ hint_bad lt 7 ex_state end_ 10 = some true ∧
    lower_bound lt 7 ex_state 4 = some 3 ∧ hint_bad lt 7 ex_state 3 4 = some false := by
  decide

/-- C33: on every well-formed container and for every key, the descents of `lower_bound`
and `upper_bound` return when the loop budget exceeds the height of the tree, with the
results of the two queries; the number of nodes each of them visits (for `lower_bound`
the increase of the counter `down` in the call) is at most the height of the tree; on the
empty container they visit no node and return `end()`. -/
theorem descent_visits_at_most_height (s : treap) (t : Tree) (key : Int) (fuel : Nat)
    (h : Inv s t) (hf : t.height < fuel) :
    ∃ lb dl ub du hgt,
      lower_bound_down lt fuel s key = some (lb, dl) ∧ lower_bound lt fuel s key = some lb ∧
      upper_bound_visits lt fuel s key = some (ub, du) ∧ upper_bound lt fuel s key = some ub ∧
      tree_height fuel s = some hgt ∧ dl ≤ hgt ∧ du ≤ hgt ∧
      (size s = 0 → lb = end_ ∧ dl = 0 ∧ ub = end_ ∧ du = 0) := by
  obtain ⟨dl, hdl, hle1⟩ := lower_bound_loop_down_eq h.rep key hdr fuel hf
  obtain ⟨du, hdu, hle2⟩ := upper_bound_loop_visits_eq h.rep key hdr fuel hf
  refine ⟨t.lbT key hdr, dl, t.ubT key hdr, du, t.height, ?_, lower_bound_eq h key fuel hf, ?_,
    upper_bound_eq h key fuel hf, tree_height_eq h fuel hf, hle1, hle2, ?_⟩
  · simp only [lower_bound_down, root_eq h, end_]
    exact hdl
  · simp only [upper_bound_visits, root_eq h, end_]
    exact hdu
  · intro hz
    have hnil : t = .nil := by
      apply Tree.eq_nil_of_size_eq_zero
      rw [← h.sz]
      exact hz
    subst hnil
    simp only [Tree.height] at hle1 hle2
    exact ⟨rfl, by omega, rfl, by omega⟩

/-- Witness of C33: the key 4 in the container {1, 3, 5, 7, 9}, of height 3. -/
theorem descent_visits_at_most_height_witness :
    Inv ex_state ex_tree ∧ ex_tree.height < 4 ∧
    ∃ lb dl ub du hgt,
      lower_bound_down lt 4 ex_state 4 = some (lb, dl) ∧ lower_bound lt 4 ex_state 4 = some lb ∧
      upper_bound_visits lt 4 ex_state 4 = some (ub, du) ∧
      upper_bound lt 4 ex_state 4 = some ub ∧
      tree_height 4 ex_state = some hgt ∧ dl ≤ hgt ∧ du ≤ hgt ∧
      (size ex_state = 0 → lb = end_ ∧ dl = 0 ∧ ub = end_ ∧ du = 0) :=
  ⟨ex_inv, by decide, descent_visits_at_most_height ex_state ex_tree 4 4 ex_inv (by decide)⟩

/-- The pairs of key and priority in order have strictly increasing keys. -/
theorem Tree.kp_sorted {t : Tree} (hs : t.keys.Pairwise (· < ·)) :
    t.kp.Pairwise (fun a b => a.1 < b.1) := by
  have : t.keys = t.kp.map Prod.fst := by simp [Tree.keys, Tree.kp, Function.comp]
  rw [this, List.pairwise_map] at hs
  exact hs

/-- Two sequences with strictly increasing keys and the same members are equal. -/
theorem eq_of_same_members {l1 l2 : List (Int × Nat)}
    (h1 : l1.Pairwise (fun a b => a.1 < b.1)) (h2 : l2.Pairwise (fun a b => a.1 < b.1))
    (hm : ∀ kp, kp ∈ l1 ↔ kp ∈ l2) : l1 = l2 := by
  have hne : ∀ {a b : Int × Nat}, a.1 < b.1 → a ≠ b := by
    intro a b hab heq
    rw [heq] at hab
    exact lt_irrefl _ hab
  have hn1 : l1.Nodup := h1.imp hne
  have hn2 : l2.Nodup := h2.imp hne
  have hp : l1.Perm l2 := (List.perm_ext_iff_of_nodup hn1 hn2).2 hm
  haveI : IsAntisymm (Int × Nat) (fun a b => a.1 < b.1) :=
    ⟨fun a b hab hba => absurd hab (not_lt.2 (le_of_lt hba))⟩
  exact List.eq_of_perm_of_sorted hp h1 h2

/-- C34: the shape is canonical when the priorities are pairwise distinct. Two runs of
`insert` and `erase` calls from the empty container return, and the shapes of the two
trees, read from the roots through `left` and `right` with the key and the priority of
every node, are equal whenever the priorities left in the first are pairwise distinct and
the two trees hold the same pairs of key and priority. As a special case, inserting an
absent key, with any priority, and erasing it again restores the tree: the shape, the
size, the header and the record of every node, child and parent links included, are what
they were. -/
theorem shape_is_canonical (ops1 ops2 : List Op) (key val : Int) (pri fuel : Nat)
    (hf1 : ops1.length + 3 ≤ fuel) (hf2 : ops2.length + 3 ≤ fuel) :
    ∃ s1 s2 sh1 sh2, run fuel treap.new ops1 = some s1 ∧ run fuel treap.new ops2 = some s2 ∧
      shape fuel s1 = some sh1 ∧ shape fuel s2 = some sh2 ∧
      ((sh1.in_order.map Prod.snd).Nodup → (∀ kp, kp ∈ sh1.in_order ↔ kp ∈ sh2.in_order) →
        sh1 = sh2) ∧
      ((sh1.in_order.map Prod.snd).Nodup → key ∉ sh1.in_order.map Prod.fst →
        ∃ s3 s4, insert lt fuel s1 key val pri = some (s3, s1.brk, true) ∧
          erase lt fuel s3 key = some (s4, 1) ∧ shape fuel s4 = some sh1 ∧
          size s4 = size s1 ∧ s4.mem hdr = s1.mem hdr ∧
          ∀ a, is_element fuel s1 a = true → s4.mem a = s1.mem a) := by
  have hnil : Tree.nil.heap_order := trivial
  obtain ⟨s1, t1, hr1, hinv1, hh1, hsz1⟩ :=
    run_heap ops1 fuel treap.new .nil inv_new hnil (by simp only [Tree.size]; omega)
  obtain ⟨s2, t2, hr2, hinv2, hh2, hsz2⟩ :=
    run_heap ops2 fuel treap.new .nil inv_new hnil (by simp only [Tree.size]; omega)
  simp only [Tree.size, Nat.zero_add] at hsz1 hsz2
  have hht1 := Tree.height_le_size t1
  have hht2 := Tree.height_le_size t2
  refine ⟨s1, s2, t1.shapeOf, t2.shapeOf, hr1, hr2, shape_eq hinv1 fuel (by omega),
    shape_eq hinv2 fuel (by omega), ?_, ?_⟩
  · intro hnd hsame
    rw [Tree.in_order_shapeOf, Tree.map_snd_kp] at hnd
    rw [Tree.in_order_shapeOf, Tree.in_order_shapeOf] at hsame
    have hkp : t1.kp = t2.kp :=
      eq_of_same_members (Tree.kp_sorted hinv1.sorted) (Tree.kp_sorted hinv2.sorted) hsame
    exact Tree.shape_unique t1 t2 hh1 hh2 hkp hnd
  · intro hnd hk
    rw [Tree.in_order_shapeOf, Tree.map_snd_kp] at hnd
    have hk' : key ∉ t1.keys := by
      rw [Tree.in_order_shapeOf] at hk
      simpa [Tree.keys, Tree.kp, Function.comp] using hk
    obtain ⟨s3, s4, hi, he, hinv4⟩ :=
      insert_erase_restores hinv1 hh1 hnd key val pri hk' fuel (by omega)
    refine ⟨s3, s4, hi, he, shape_eq hinv4 fuel (by omega), ?_, ?_, ?_⟩
    · show s4.size_ = s1.size_
      rw [hinv4.sz, hinv1.sz]
    · rw [hinv4.hd, hinv1.hd]
    · intro a ha
      exact hinv1.rep.agree hinv4.rep a ((is_element_iff hinv1 fuel (by omega) a).1 ha)

/-- Witness of C34: two runs that leave the keys 1, 3, 5, 7, 9 with the priorities 10, 30,
50, 40, 20, and the key 4 inserted with the priority 60 and erased again; the priorities
left by the first run are pairwise distinct and the second run leaves the same pairs. -/
theorem shape_is_canonical_witness :
    ex_run_a.length + 3 ≤ 10 ∧ ex_run_b.length + 3 ≤ 10 ∧
    ((run 10 treap.new ex_run_a).bind (shape 10)).map Shape.in_order =
      some [(1, 10), (3, 30), (5, 50), (7, 40), (9, 20)] ∧
    ((run 10 treap.new ex_run_b).bind (shape 10)).map Shape.in_order =
      some [(1, 10), (3, 30), (5, 50), (7, 40), (9, 20)] ∧
    ∃ s1 s2 sh1 sh2, run 10 treap.new ex_run_a = some s1 ∧
      run 10 treap.new ex_run_b = some s2 ∧
      shape 10 s1 = some sh1 ∧ shape 10 s2 = some sh2 ∧
      ((sh1.in_order.map Prod.snd).Nodup → (∀ kp, kp ∈ sh1.in_order ↔ kp ∈ sh2.in_order) →
        sh1 = sh2) ∧
      ((sh1.in_order.map Prod.snd).Nodup → (4 : Int) ∉ sh1.in_order.map Prod.fst →
        ∃ s3 s4, insert lt 10 s1 4 11 60 = some (s3, s1.brk, true) ∧
          erase lt 10 s3 4 = some (s4, 1) ∧ shape 10 s4 = some sh1 ∧
          size s4 = size s1 ∧ s4.mem hdr = s1.mem hdr ∧
          ∀ a, is_element 10 s1 a = true → s4.mem a = s1.mem a) :=
  ⟨by decide, by decide, by decide, by decide,
    shape_is_canonical ex_run_a ex_run_b 4 11 60 10 (by decide) (by decide)⟩

/-! ### The average height over the orders of the priorities -/

namespace PTree

theorem in_order_push (p : Nat) (t : PTree) : (push p t).in_order = p :: t.in_order := by
  induction t with
  | leaf => rfl
  | node l e r ihl _ =>
    simp only [push]
    split
    · simp [in_order]
    · simp [in_order, ihl]

theorem in_order_of_list (q : List Nat) : (of_list q).in_order = q := by
  induction q with
  | nil => rfl
  | cons p q ih => simp [of_list, in_order_push, ih]

theorem heap_push {p : Nat} {t : PTree} (h : t.heap) (hp : p ∉ t.in_order) :
    (push p t).heap := by
  induction t with
  | leaf => exact ⟨by simp [in_order], by simp [in_order], trivial, trivial⟩
  | node l e r ihl _ =>
    obtain ⟨h1, h2, h3, h4⟩ := h
    simp only [in_order, List.mem_append, List.mem_cons, not_or] at hp
    simp only [push]
    split
    · rename_i hlt
      refine ⟨by simp [in_order], ?_, trivial, h1, h2, h3, h4⟩
      intro y hy
      simp only [in_order, List.mem_append, List.mem_cons] at hy
      rcases hy with hy | rfl | hy
      · exact lt_trans (h1 y hy) hlt
      · exact hlt
      · exact lt_trans (h2 y hy) hlt
    · rename_i hlt
      refine ⟨?_, h2, ihl h3 hp.1, h4⟩
      intro y hy
      rw [in_order_push] at hy
      rcases List.mem_cons.1 hy with rfl | hy
      · have : y ≠ e := hp.2.1
        omega
      · exact h1 y hy

theorem heap_of_list {q : List Nat} (hq : q.Nodup) : (of_list q).heap := by
  induction q with
  | nil => trivial
  | cons p q ih =>
    obtain ⟨h1, h2⟩ := List.nodup_cons.1 hq
    exact heap_push (ih h2) (by rw [in_order_of_list]; exact h1)

theorem of_list_append (l1 l2 : List Nat) :
    of_list (l1 ++ l2) = l1.foldr push (of_list l2) := by
  induction l1 with
  | nil => rfl
  | cons p l1 ih => simp [of_list, ih]

theorem foldr_push_node (ql : List Nat) (x : PTree) (e : Nat) (r : PTree)
    (h : ∀ y ∈ ql, y < e) : ql.foldr push (node x e r) = node (ql.foldr push x) e r := by
  induction ql with
  | nil => rfl
  | cons p ql ih =>
    have hp : ¬ e < p := by
      have := h p (List.mem_cons_self _ _)
      omega
    simp only [List.foldr_cons, ih (fun y hy => h y (List.mem_cons_of_mem _ hy)), push, hp,
      if_false]

/-- A tree in strict heap order is the one built from its sequence in order. -/
theorem of_list_in_order {t : PTree} (h : t.heap) : of_list t.in_order = t := by
  induction t with
  | leaf => rfl
  | node l e r ihl ihr =>
    obtain ⟨h1, h2, h3, h4⟩ := h
    have hpe : push e r = node leaf e r := by
      cases r with
      | leaf => rfl
      | node rl re rr =>
        have : re < e := h2 re (by simp [in_order])
        simp [push, this]
    have hfold : l.in_order.foldr push leaf = of_list l.in_order := by
      have := of_list_append l.in_order []
      simp only [List.append_nil] at this
      exact this.symm
    simp only [in_order]
    rw [of_list_append]
    simp only [of_list, ihr h4, hpe]
    rw [foldr_push_node _ _ _ _ h1, hfold, ihl h3]

theorem pow_height_le_weight (t : PTree) : ∀ d, 2 ^ (d + t.height) ≤ t.weight d := by
  induction t with
  | leaf => intro d; simp [height, weight]
  | node l p r ihl ihr =>
    intro d
    simp only [height, weight]
    have h1 := ihl (d + 1)
    have h2 := ihr (d + 1)
    rcases Nat.le_total l.height r.height with h | h
    · rw [Nat.max_eq_right h]
      have : d + (r.height + 1) = d + 1 + r.height := by omega
      rw [this]
      omega
    · rw [Nat.max_eq_left h]
      have : d + (l.height + 1) = d + 1 + l.height := by omega
      rw [this]
      omega

/-- The ways to put `a` into a sequence split at an element. -/
theorem permutations'Aux_append (a p : Nat) (l1 l2 : List Nat) :
    List.permutations'Aux a (l1 ++ p :: l2) =
      (List.permutations'Aux a l1).map (fun x => x ++ p :: l2) ++
        (List.permutations'Aux a l2).map (fun x => l1 ++ p :: x) := by
  induction l1 with
  | nil => simp [List.permutations'Aux]
  | cons y l1 ih =>
    show List.permutations'Aux a (y :: (l1 ++ p :: l2)) = _
    simp [List.permutations'Aux, ih, Function.comp]
    rfl

/-- Hanging a leaf at the null links in order puts its priority at every place of the
sequence in order. -/
theorem in_order_hang (a : Nat) (t : PTree) :
    (hang a t).map in_order = List.permutations'Aux a t.in_order := by
  induction t with
  | leaf => rfl
  | node l p r ihl ihr =>
    simp only [hang, in_order, List.map_append, List.map_map, permutations'Aux_append,
      ← ihl, ← ihr]
    rfl

theorem mem_in_order_of_mem_hang {a : Nat} {t t' : PTree} (h : t' ∈ hang a t) :
    ∀ y ∈ t'.in_order, y = a ∨ y ∈ t.in_order := by
  induction t generalizing t' with
  | leaf =>
    simp only [hang, List.mem_singleton] at h
    subst h
    intro y hy
    simp [in_order] at hy
    exact Or.inl hy
  | node l p r ihl ihr =>
    simp only [hang, List.mem_append, List.mem_map] at h
    intro y hy
    rcases h with ⟨l', hl', rfl⟩ | ⟨r', hr', rfl⟩
    · simp only [in_order, List.mem_append, List.mem_cons] at hy ⊢
      rcases hy with hy | hy | hy
      · rcases ihl hl' y hy with h' | h'
        · exact Or.inl h'
        · exact Or.inr (Or.inl h')
      · exact Or.inr (Or.inr (Or.inl hy))
      · exact Or.inr (Or.inr (Or.inr hy))
    · simp only [in_order, List.mem_append, List.mem_cons] at hy ⊢
      rcases hy with hy | hy | hy
      · exact Or.inr (Or.inl hy)
      · exact Or.inr (Or.inr (Or.inl hy))
      · rcases ihr hr' y hy with h' | h'
        · exact Or.inl h'
        · exact Or.inr (Or.inr (Or.inr h'))

/-- Hanging a leaf of a priority below all others keeps strict heap order. -/
theorem heap_of_mem_hang {a : Nat} {t t' : PTree} (ht : t.heap)
    (ha : ∀ y ∈ t.in_order, a < y) (h : t' ∈ hang a t) : t'.heap := by
  induction t generalizing t' with
  | leaf =>
    simp only [hang, List.mem_singleton] at h
    subst h
    exact ⟨by simp [in_order], by simp [in_order], trivial, trivial⟩
  | node l p r ihl ihr =>
    obtain ⟨h1, h2, h3, h4⟩ := ht
    have hap : a < p := ha p (by simp [in_order])
    have hal : ∀ y ∈ l.in_order, a < y := fun y hy => ha y (by simp [in_order, hy])
    have har : ∀ y ∈ r.in_order, a < y := fun y hy => ha y (by simp [in_order, hy])
    simp only [hang, List.mem_append, List.mem_map] at h
    rcases h with ⟨l', hl', rfl⟩ | ⟨r', hr', rfl⟩
    · refine ⟨?_, h2, ihl h3 hal hl', h4⟩
      intro y hy
      rcases mem_in_order_of_mem_hang hl' y hy with rfl | hy
      · exact hap
      · exact h1 y hy
    · refine ⟨h1, ?_, h3, ihr h4 har hr'⟩
      intro y hy
      rcases mem_in_order_of_mem_hang hr' y hy with rfl | hy
      · exact hap
      · exact h2 y hy

/-- The weights of the trees obtained by hanging one leaf add up to the weight of the
tree times the number of its null links plus three. -/
theorem sum_weight_hang (a : Nat) (t : PTree) :
    ∀ d, ((hang a t).map fun t' => t'.weight d).sum = (t.in_order.length + 4) * t.weight d := by
  induction t with
  | leaf =>
    intro d
    simp only [hang, List.map_cons, List.map_nil, List.sum_cons, List.sum_nil, weight,
      in_order, List.length_nil]
    rw [pow_succ]
    omega
  | node l p r ihl ihr =>
    intro d
    have hl := ihl (d + 1)
    have hr := ihr (d + 1)
    simp only [hang, List.map_append, List.map_map, List.sum_append, in_order,
      List.length_append, List.length_cons]
    rw [show ((fun t' => weight t' d) ∘ fun l' => node l' p r) =
        (fun x => weight x (d + 1) + weight r (d + 1)) from rfl,
      show ((fun t' => weight t' d) ∘ fun r' => node l p r') =
        (fun x => weight l (d + 1) + weight x (d + 1)) from rfl]
    simp only [weight]
    have e1 : ((hang a l).map fun x => weight x (d + 1) + weight r (d + 1)).sum =
        ((hang a l).map fun x => weight x (d + 1)).sum +
          (hang a l).length * weight r (d + 1) := by
      rw [List.sum_map_add]
      simp
    have e2 : ((hang a r).map fun x => weight l (d + 1) + weight x (d + 1)).sum =
        (hang a r).length * weight l (d + 1) +
          ((hang a r).map fun x => weight x (d + 1)).sum := by
      rw [List.sum_map_add]
      simp
    have hlen : ∀ t : PTree, (hang a t).length = t.in_order.length + 1 := by
      intro t
      have := congrArg List.length (in_order_hang a t)
      rw [List.length_map, List.length_permutations'Aux] at this
      exact this
    rw [e1, e2, hl, hr, hlen l, hlen r]
    ring

end PTree

/-! ### Sums over the orders of the priorities -/

theorem sum_map_flatMap {α β : Type} (L : List α) (f : α → List β) (g : β → Nat) :
    ((L.flatMap f).map g).sum = (L.map fun x => ((f x).map g).sum).sum := by
  induction L with
  | nil => rfl
  | cons x L ih => simp [List.flatMap_cons, ih]

theorem sum_map_le {α : Type} (L : List α) (f g : α → Nat) (h : ∀ x ∈ L, f x ≤ g x) :
    (L.map f).sum ≤ (L.map g).sum := by
  induction L with
  | nil => exact le_refl _
  | cons x L ih =>
    simp only [List.map_cons, List.sum_cons]
    have h1 := h x (List.mem_cons_self _ _)
    have h2 := ih (fun y hy => h y (List.mem_cons_of_mem _ hy))
    omega

theorem sum_map_mul_const {α : Type} (L : List α) (f : α → Nat) (c : Nat) :
    (L.map fun x => c * f x).sum = c * (L.map f).sum := by
  induction L with
  | nil => rfl
  | cons x L ih => simp only [List.map_cons, List.sum_cons, ih, Nat.mul_add]

theorem sum_map_add_const {α : Type} (L : List α) (f : α → Nat) (c : Nat) :
    (L.map fun x => c + f x).sum = L.length * c + (L.map f).sum := by
  induction L with
  | nil => simp
  | cons x L ih =>
    simp only [List.map_cons, List.sum_cons, ih, List.length_cons, Nat.add_mul]
    omega

/-- The total weight of the trees of all orders of a sequence of priorities. -/
theorem sum_weight_cons (a : Nat) (l : List Nat) (hl : l.Nodup) (ha : ∀ y ∈ l, a < y) :
    ((List.permutations' (a :: l)).map fun q => (PTree.of_list q).weight 0).sum =
      (l.length + 4) * ((List.permutations' l).map fun q => (PTree.of_list q).weight 0).sum := by
  show (((List.permutations' l).flatMap (List.permutations'Aux a)).map _).sum = _
  rw [sum_map_flatMap, ← sum_map_mul_const]
  refine congrArg List.sum (List.map_congr_left fun q' hq' => ?_)
  have hp : q'.Perm l := List.mem_permutations'.1 hq'
  have hnd : q'.Nodup := hp.nodup_iff.2 hl
  have hlen : q'.length = l.length := hp.length_eq
  have hT := PTree.heap_of_list hnd
  have hin := PTree.in_order_of_list q'
  have haT : ∀ y ∈ (PTree.of_list q').in_order, a < y := by
    intro y hy
    rw [hin] at hy
    exact ha y (hp.mem_iff.1 hy)
  have h1 : List.permutations'Aux a q' = (PTree.hang a (PTree.of_list q')).map PTree.in_order := by
    rw [PTree.in_order_hang, hin]
  rw [h1, List.map_map]
  have h2 : (PTree.hang a (PTree.of_list q')).map
      ((fun q => (PTree.of_list q).weight 0) ∘ PTree.in_order) =
      (PTree.hang a (PTree.of_list q')).map fun t' => t'.weight 0 := by
    refine List.map_congr_left fun t' ht' => ?_
    show (PTree.of_list t'.in_order).weight 0 = t'.weight 0
    rw [PTree.of_list_in_order (PTree.heap_of_mem_hang hT haT ht')]
  rw [h2, PTree.sum_weight_hang, hin, hlen]

/-- Six times the total weight over the orders of `n` increasing priorities is the
factorial of `n + 3`. -/
theorem sum_weight_sorted (l : List Nat) (hs : l.Pairwise (· < ·)) :
    6 * ((List.permutations' l).map fun q => (PTree.of_list q).weight 0).sum =
      (l.length + 3).factorial := by
  induction l with
  | nil => rfl
  | cons a l ih =>
    obtain ⟨h1, h2⟩ := List.pairwise_cons.1 hs
    have hnd : l.Nodup := h2.imp (fun hab => Nat.ne_of_lt hab)
    rw [sum_weight_cons a l hnd h1, Nat.mul_left_comm, ih h2]
    show (l.length + 4) * (l.length + 3).factorial = (l.length + 1 + 3).factorial
    rw [show l.length + 1 + 3 = (l.length + 3) + 1 by omega, Nat.factorial_succ (l.length + 3)]

/-- The same for any sequence of pairwise distinct priorities. -/
theorem sum_weight_permutations (ps : List Nat) (hp : ps.Nodup) :
    6 * ((ps.permutations).map fun q => (PTree.of_list q).weight 0).sum =
      (ps.length + 3).factorial := by
  have hperm := List.perm_insertionSort (· ≤ ·) ps
  have hsorted := List.sorted_insertionSort (· ≤ ·) ps
  have hnd : (List.insertionSort (· ≤ ·) ps).Nodup := hperm.nodup_iff.2 hp
  have hlt : (List.insertionSort (· ≤ ·) ps).Pairwise (· < ·) := by
    have := List.Pairwise.and hsorted hnd
    exact this.imp (fun h => lt_of_le_of_ne h.1 h.2)
  have h1 : (ps.permutations).Perm (List.permutations' (List.insertionSort (· ≤ ·) ps)) :=
    (List.permutations_perm_permutations' ps).trans hperm.symm.permutations'
  rw [(h1.map _).sum_eq, sum_weight_sorted _ hlt, hperm.length_eq]

theorem le_two_pow_log (n : Nat) : n + 3 ≤ 2 ^ (Nat.log 2 n + 3) := by
  have h := Nat.lt_pow_succ_log_self (by decide : 1 < 2) n
  have : 2 ^ (Nat.log 2 n + 3) = 2 ^ (Nat.log 2 n).succ * 4 := by
    rw [show Nat.log 2 n + 3 = (Nat.log 2 n).succ + 2 by omega, pow_add]
    rfl
  omega

/-- The heights of the trees of all orders of `n` pairwise distinct priorities add up to
at most `3 * log2 n + 10` times the number of orders. -/
theorem sum_height_permutations (ps : List Nat) (hp : ps.Nodup) :
    ((ps.permutations).map fun q => (PTree.of_list q).height).sum ≤
      (3 * Nat.log 2 ps.length + 10) * ps.length.factorial := by
  obtain ⟨n, hn⟩ : ∃ n, n = ps.length := ⟨_, rfl⟩
  obtain ⟨L, hL⟩ : ∃ L, L = 3 * Nat.log 2 n + 9 := ⟨_, rfl⟩
  rw [← hn]
  have hW := sum_weight_permutations ps hp
  rw [← hn] at hW
  -- the bound on the total weight
  have hfact : (n + 3).factorial = (n + 3) * ((n + 2) * ((n + 1) * n.factorial)) := by
    rw [Nat.factorial_succ, Nat.factorial_succ, Nat.factorial_succ]
  have hpow : (n + 3) * ((n + 2) * (n + 1)) ≤ 2 ^ L := by
    have h3 := le_two_pow_log n
    have hL' : 2 ^ L = 2 ^ (Nat.log 2 n + 3) * (2 ^ (Nat.log 2 n + 3) * 2 ^ (Nat.log 2 n + 3)) := by
      rw [← pow_add, ← pow_add, hL]
      congr 1
      omega
    rw [hL']
    exact Nat.mul_le_mul h3 (Nat.mul_le_mul (by omega) (by omega))
  have hWle : ((ps.permutations).map fun q => (PTree.of_list q).weight 0).sum ≤
      2 ^ L * n.factorial := by
    have h6 : 6 * ((ps.permutations).map fun q => (PTree.of_list q).weight 0).sum ≤
        6 * (2 ^ L * n.factorial) := by
      rw [hW, hfact]
      calc (n + 3) * ((n + 2) * ((n + 1) * n.factorial))
          = ((n + 3) * ((n + 2) * (n + 1))) * n.factorial := by ring
        _ ≤ 2 ^ L * n.factorial := Nat.mul_le_mul_right _ hpow
        _ ≤ 6 * (2 ^ L * n.factorial) := by omega
    omega
  -- every height is at most `L` plus the weight over `2 ^ L`
  have hone : ∀ q ∈ ps.permutations,
      2 ^ L * (PTree.of_list q).height ≤ 2 ^ L * L + (PTree.of_list q).weight 0 := by
    intro q _
    have hw := PTree.pow_height_le_weight (PTree.of_list q) 0
    rw [Nat.zero_add] at hw
    rcases Nat.le_total (PTree.of_list q).height L with h | h
    · exact le_trans (Nat.mul_le_mul_left _ h) (Nat.le_add_right _ _)
    · obtain ⟨x, hx⟩ : ∃ x, (PTree.of_list q).height = L + x := ⟨_, (Nat.add_sub_cancel' h).symm⟩
      rw [hx] at hw ⊢
      have hx2 : x ≤ 2 ^ x := le_of_lt (Nat.lt_two_pow x)
      rw [pow_add] at hw
      calc 2 ^ L * (L + x) = 2 ^ L * L + 2 ^ L * x := Nat.mul_add _ _ _
        _ ≤ 2 ^ L * L + 2 ^ L * 2 ^ x := Nat.add_le_add_left (Nat.mul_le_mul_left _ hx2) _
        _ ≤ 2 ^ L * L + (PTree.of_list q).weight 0 := Nat.add_le_add_left hw _
  have hsum := sum_map_le ps.permutations _ _ hone
  rw [sum_map_mul_const, sum_map_add_const, List.length_permutations, ← hn] at hsum
  have hfin : 2 ^ L * ((ps.permutations).map fun q => (PTree.of_list q).height).sum ≤
      2 ^ L * ((L + 1) * n.factorial) := by
    calc 2 ^ L * ((ps.permutations).map fun q => (PTree.of_list q).height).sum
        ≤ n.factorial * (2 ^ L * L) +
          ((ps.permutations).map fun q => (PTree.of_list q).weight 0).sum := hsum
      _ ≤ n.factorial * (2 ^ L * L) + 2 ^ L * n.factorial := Nat.add_le_add_left hWle _
      _ = 2 ^ L * ((L + 1) * n.factorial) := by ring
  have := Nat.le_of_mul_le_mul_left hfin (Nat.two_pow_pos L)
  rw [hL] at this
  exact this

/-! ### The tree of the container and the tree of its priorities -/

theorem Tree.in_order_pri_tree (t : Tree) : t.pri_tree.in_order = t.toList.map Entry.p := by
  induction t with
  | nil => rfl
  | node l e r ihl ihr => simp [Tree.pri_tree, PTree.in_order, Tree.toList, ihl, ihr]

theorem Tree.height_pri_tree (t : Tree) : t.pri_tree.height = t.height := by
  induction t with
  | nil => rfl
  | node l e r ihl ihr => simp [Tree.pri_tree, PTree.height, Tree.height, ihl, ihr]

/-- Heap order with pairwise distinct priorities is strict heap order. -/
theorem Tree.heap_pri_tree {t : Tree} (h : t.heap_order) (hn : (t.toList.map Entry.p).Nodup) :
    t.pri_tree.heap := by
  induction t with
  | nil => trivial
  | node l e r ihl ihr =>
    obtain ⟨h1, h2, h3, h4⟩ := Tree.heap_node.1 h
    have hn' : (l.toList.map Entry.p ++ e.p :: r.toList.map Entry.p).Nodup := by
      simpa [Tree.toList] using hn
    obtain ⟨hnl, hnr, hdis⟩ := List.nodup_append.1 hn'
    obtain ⟨her, hnr'⟩ := List.nodup_cons.1 hnr
    refine ⟨?_, ?_, ihl h3 hnl, ihr h4 hnr'⟩
    · intro y hy
      rw [Tree.in_order_pri_tree] at hy
      obtain ⟨e', he', rfl⟩ := List.mem_map.1 hy
      have hle := h1 e' he'
      have hne : e'.p ≠ e.p := fun h' => hdis hy (by rw [h']; exact List.mem_cons_self _ _)
      omega
    · intro y hy
      rw [Tree.in_order_pri_tree] at hy
      obtain ⟨e', he', rfl⟩ := List.mem_map.1 hy
      have hle := h2 e' he'
      have hne : e'.p ≠ e.p := fun h' => her (by rw [← h']; exact hy)
      omega

theorem Tree.kp_insT (x : Entry) (t : Tree) : (t.insT x).kp.Perm ((x.k, x.p) :: t.kp) := by
  have h : (t.insT x).toList.Perm (x :: t.toList) := by
    rw [Tree.toList_insT]
    exact Tree.toList_attach_perm x t
  exact h.map _

/-- A sequence of insertions of new, pairwise distinct keys keeps the invariant and heap
order, and adds the pairs of key and stored priority. -/
theorem insert_all_heap (vals : List (Int × Int × Nat)) (fuel : Nat) :
    ∀ (s : treap) (t : Tree), Inv s t → t.heap_order → (vals.map fun v => v.1).Nodup →
      (∀ v ∈ vals, v.1 ∉ t.keys) → t.size + vals.length + 2 ≤ fuel →
      ∃ s' t', insert_all fuel s vals = some s' ∧ Inv s' t' ∧ t'.heap_order ∧
        t'.size = t.size + vals.length ∧
        t'.kp.Perm ((vals.map fun v => (v.1, v.2.2 % 4294967296)) ++ t.kp) := by
  induction vals with
  | nil =>
    intro s t h hh _ _ _
    exact ⟨s, t, rfl, h, hh, rfl, List.Perm.refl _⟩
  | cons v rest ih =>
    intro s t h hh hnd hnew hf
    obtain ⟨key, val, pri⟩ := v
    simp only [List.length_cons] at hf
    simp only [List.map_cons, List.nodup_cons] at hnd
    have hht := Tree.height_le_size t
    have hk : key ∉ t.keys := hnew (key, val, pri) (List.mem_cons_self _ _)
    obtain ⟨s1, hs1, hinv1, _⟩ := insert_of_not_mem h key val pri hk fuel (by omega)
    have hfresh : s.brk ∉ t.addrs := fun h' => absurd (h.fresh _ h').2 (lt_irrefl _)
    have hh1 : (t.insT ⟨s.brk, key, val, pri % 4294967296⟩).heap_order :=
      Tree.heap_insT hh hfresh
    have hnew1 : ∀ v ∈ rest, v.1 ∉ (t.insT ⟨s.brk, key, val, pri % 4294967296⟩).keys := by
      intro v hv hmem
      rcases keys_insT.1 hmem with h' | h'
      · exact hnd.1 (List.mem_map.2 ⟨v, hv, h'⟩)
      · exact hnew v (List.mem_cons_of_mem _ hv) h'
    obtain ⟨s2, t2, h2, hinv2, hh2, hsz2, hkp2⟩ :=
      ih s1 _ hinv1 hh1 hnd.2 hnew1 (by rw [Tree.size_insT]; omega)
    refine ⟨s2, t2, ?_, hinv2, hh2, ?_, ?_⟩
    · simp [insert_all, hs1, h2]
    · rw [hsz2, Tree.size_insT, List.length_cons]
      omega
    · refine hkp2.trans ?_
      refine ((Tree.kp_insT _ t).append_left _).trans ?_
      simp only [List.map_cons, List.cons_append]
      exact List.perm_middle

/-- The height after the insertions is the height of the tree in heap order of the
priorities taken in the order of the keys, whatever the order of the insertions. -/
theorem height_after_eq {K : List Int} {q : List Nat} {vals : List (Int × Int × Nat)}
    (hK : K.Pairwise (· < ·)) (hq : q.Nodup) (hlen : q.length = K.length)
    (h32 : ∀ p ∈ q, p < 4294967296)
    (hv : (vals.map fun v => (v.1, v.2.2)).Perm (K.zip q)) (fuel : Nat)
    (hf : K.length + 2 ≤ fuel) :
    ∃ s, insert_all fuel treap.new vals = some s ∧
      tree_height fuel s = some (PTree.of_list q).height ∧
      height_after fuel vals = (PTree.of_list q).height := by
  have hfst : (K.zip q).map Prod.fst = K := List.map_fst_zip _ _ (by omega)
  have hsnd : (K.zip q).map Prod.snd = q := List.map_snd_zip _ _ (by omega)
  have hvl : vals.length = K.length := by
    have := hv.length_eq
    simp only [List.length_map, List.length_zip] at this
    omega
  have hkeys : (vals.map fun v => v.1).Perm K := by
    have := hv.map Prod.fst
    rw [hfst, List.map_map] at this
    exact this
  have hnd : (vals.map fun v => v.1).Nodup :=
    hkeys.nodup_iff.2 (hK.imp (fun hab => ne_of_lt hab))
  have hmod : (vals.map fun v => (v.1, v.2.2 % 4294967296)) =
      vals.map fun v => (v.1, v.2.2) := by
    refine List.map_congr_left fun v hv' => ?_
    have hm : (v.1, v.2.2) ∈ K.zip q := hv.mem_iff.1 (List.mem_map.2 ⟨v, hv', rfl⟩)
    have hp : v.2.2 ∈ q := (List.of_mem_zip hm).2
    rw [Nat.mod_eq_of_lt (h32 _ hp)]
  obtain ⟨s, t, hs, hinv, hh, hsz, hkp⟩ :=
    insert_all_heap vals fuel treap.new .nil inv_new trivial hnd
      (fun v _ hm => by simp [Tree.keys, Tree.toList] at hm)
      (by simp only [Tree.size]; omega)
  simp only [Tree.size, Nat.zero_add] at hsz
  have hkp' : t.kp.Perm (K.zip q) := by
    have : t.kp.Perm (vals.map fun v => (v.1, v.2.2)) := by
      rw [← hmod]
      simpa [Tree.kp, Tree.toList] using hkp
    exact this.trans hv
  have hzs : (K.zip q).Pairwise (fun a b => a.1 < b.1) := by
    have : ((K.zip q).map Prod.fst).Pairwise (· < ·) := by rw [hfst]; exact hK
    exact List.pairwise_map.1 this
  have hkpe : t.kp = K.zip q :=
    eq_of_same_members (Tree.kp_sorted hinv.sorted) hzs (fun kp => hkp'.mem_iff)
  have hpri : t.toList.map Entry.p = q := by
    rw [← Tree.map_snd_kp, hkpe, hsnd]
  have hheap : t.pri_tree.heap := Tree.heap_pri_tree hh (by rw [hpri]; exact hq)
  have hof : PTree.of_list q = t.pri_tree := by
    rw [← hpri, ← Tree.in_order_pri_tree, PTree.of_list_in_order hheap]
  have hht := Tree.height_le_size t
  have hth : tree_height fuel s = some (PTree.of_list q).height := by
    rw [hof, Tree.height_pri_tree]
    exact tree_height_eq hinv fuel (by omega)
  refine ⟨s, hs, hth, ?_⟩
  simp only [height_after, hs, Option.some_bind, hth, Option.getD_some]

/-! ### The expected height (C23) -/

/-- C23: the expected height after `n` insertions with random priorities is within a
constant multiple of `log2 n`, independently of the order of the insertions. The random
priorities are `n` pairwise distinct 32-bit values `ps`, each of the `n!` ways to give
them to the `n` keys being equally likely: the keys `K` are listed in increasing order
and the key at place `j` is given the priority at place `j` of a permutation `q` of
`ps`. The values may be inserted in any order `ord q`, which may even depend on the
priorities. Then every sequence of insertions returns, and the sum of the heights of the
`n!` trees is at most `3 * log2 n + 10` times `n!`, that is, the mean height is at most
`3 * log2 n + 10`. -/
theorem expected_height_logarithmic (K : List Int) (ps : List Nat)
    (ord : List Nat → List (Int × Int × Nat)) (fuel : Nat)
    (hK : K.Pairwise (· < ·)) (hps : ps.Nodup) (hlen : ps.length = K.length)
    (h32 : ∀ p ∈ ps, p < 4294967296)
    (hord : ∀ q, q.Perm ps → ((ord q).map fun v => (v.1, v.2.2)).Perm (K.zip q))
    (hf : K.length + 2 ≤ fuel) :
    (∀ q ∈ ps.permutations, ∃ s h, insert_all fuel treap.new (ord q) = some s ∧
      tree_height fuel s = some h ∧ height_after fuel (ord q) = h) ∧
    ps.permutations.length = K.length.factorial ∧
    (ps.permutations.map fun q => height_after fuel (ord q)).sum ≤
      (3 * Nat.log 2 K.length + 10) * K.length.factorial := by
  have hone : ∀ q ∈ ps.permutations, ∃ s, insert_all fuel treap.new (ord q) = some s ∧
      tree_height fuel s = some (PTree.of_list q).height ∧
      height_after fuel (ord q) = (PTree.of_list q).height := by
    intro q hq
    have hp : q.Perm ps := List.mem_permutations.1 hq
    exact height_after_eq hK (hp.nodup_iff.2 hps) (by rw [hp.length_eq, hlen])
      (fun p hpm => h32 p (hp.mem_iff.1 hpm)) (hord q hp) fuel hf
  refine ⟨fun q hq => ?_, by rw [List.length_permutations, hlen], ?_⟩
  · obtain ⟨s, h1, h2, h3⟩ := hone q hq
    exact ⟨s, _, h1, h2, h3⟩
  · have heq : (ps.permutations.map fun q => height_after fuel (ord q)) =
        ps.permutations.map fun q => (PTree.of_list q).height :=
      List.map_congr_left fun q hq => (hone q hq).choose_spec.2.2
    rw [heq, ← hlen]
    exact sum_height_permutations ps hps

/-- The example order inserts the keys 1, 3, 5 with the priorities given in the order of the
keys. -/
theorem ex_order_perm (q : List Nat) :
    ((ex_order q).map fun v => (v.1, v.2.2)).Perm (([1, 3, 5] : List Int).zip q) := by
  have h : ((fun v : Int × Int × Nat => (v.1, v.2.2)) ∘ fun kp : Int × Nat => (kp.1, 0, kp.2)) =
      id := rfl
  simp only [ex_order, List.map_reverse, List.map_map, h, List.map_id]
  exact List.reverse_perm _

/-- Witness of C23: the keys 1, 3, 5 with the priorities 10, 20, 30, the largest key
being inserted first; when the priorities increase with the keys the tree is a path of
height 3. -/
theorem expected_height_logarithmic_witness :
    ([1, 3, 5] : List Int).Pairwise (· < ·) ∧ ([10, 20, 30] : List Nat).Nodup ∧
    ([10, 20, 30] : List Nat).length = ([1, 3, 5] : List Int).length ∧
    (∀ p ∈ ([10, 20, 30] : List Nat), p < 4294967296) ∧
    (∀ q : List Nat, q.Perm [10, 20, 30] →
      ((ex_order q).map fun v => (v.1, v.2.2)).Perm (([1, 3, 5] : List Int).zip q)) ∧
    ([1, 3, 5] : List Int).length + 2 ≤ 5 ∧
    height_after 5 (ex_order [10, 20, 30]) = 3 ∧ height_after 5 (ex_order [10, 30, 20]) = 2 ∧
    ((∀ q ∈ ([10, 20, 30] : List Nat).permutations, ∃ s h,
        insert_all 5 treap.new (ex_order q) = some s ∧ tree_height 5 s = some h ∧
        height_after 5 (ex_order q) = h) ∧
      ([10, 20, 30] : List Nat).permutations.length = ([1, 3, 5] : List Int).length.factorial ∧
      (([10, 20, 30] : List Nat).permutations.map fun q => height_after 5 (ex_order q)).sum ≤
        (3 * Nat.log 2 ([1, 3, 5] : List Int).length + 10) *
          ([1, 3, 5] : List Int).length.factorial) :=
  ⟨by decide, by decide, by decide, by decide,
    fun q _ => ex_order_perm q,
    by decide, by decide, by decide,
    expected_height_logarithmic [1, 3, 5] [10, 20, 30] ex_order 5 (by decide) (by decide)
      (by decide) (by decide)
      (fun q _ => ex_order_perm q)
      (by decide)⟩

end bst
